import Mathlib

/-!
# OpenMEEG: surface meshes, operator assembly and matrix text files

A shallow embedding of `src/src/mesh.cpp` (edge votes, adjacency, orientation repair,
self-intersection test, vertex insertion, merging, copying, smoothing, the readers and
writers of the text formats), of `src/src/assembleHeadMat.cpp` (`assemble_HM`,
`assemble_cortical`, `assemble_Surf2Vol`, `Surf2VolMat`) and of the symmetric-matrix part
of `src/libs/MatLib/MatLib/AsciiIO.H`, with the properties of the specification stated
over it.

Conventions of the embedding.
* A `Vertex *` is an address, a natural number; `Mesh.vertex` dereferences it.
* A `Triangle *` is the position of the triangle in the triangle vector of the mesh.
* Coordinates and matrix entries are `double` in the source. Coordinates are only ever
  compared for equality and are carried as integers; the arithmetic on coefficients is
  taken exact, over the rationals.
* A text file is the sequence of its fields (numbers and other words) and line ends.
  In a mesh file the coordinates are written and read back exactly; a count or a vertex
  number is read as an `unsigned` of 32 bits. In a matrix file an entry is written with
  the formatting of the stream: the number written need not have the value of the entry,
  and an infinity or a NaN is written as a word that is not read back as a number.
* Classes whose declaration is not among the sources (Vertex, Triangle, Geometry, Domain,
  SymMatrix, Matrix) are modelled from the specification; each such definition says so.

The file has four groups of definitions (the embedding of the source, the notions the
properties are stated with, auxiliary notions of the proofs, example inputs), followed
by the theorems.
-/

namespace OpenMEEG

/-! # Part 1: the embedding of the source -/

/-! ## Vertices and triangles -/

/-- Coordinates of a point (class `Vect3`); only equality of coordinates is used. -/
structure Vect3 where
  x : Int
  y : Int
  z : Int
deriving DecidableEq, Repr

/-- Modelled from the spec: the Vertex class (vertex.h) is not among the sources.
"Vertex: 3D position, optional normal, integer index"; two vertices compare equal
(`operator==`, the equality used for de-duplication) when their positions are equal. -/
structure Vertex where
  pos : Vect3
  index : Nat
deriving DecidableEq, Repr

/-- Modelled from the spec: the Triangle class (triangle.h) is not among the sources.
"Triangle: three Vertex back-references (ordered, defines winding/orientation)".
The three fields are the addresses stored in `vertices_[0..2]`. -/
structure Triangle where
  s1 : Nat
  s2 : Nat
  s3 : Nat
deriving DecidableEq, Repr

instance : Inhabited Triangle := ⟨⟨0, 0, 0⟩⟩

namespace Triangle

/-- Modelled from the spec: `Triangle::operator[]`, used by the source as `(*tit)[j+1]`
with `j+1 = 3`, hence cyclic: the vertex stored at slot `j mod 3`. -/
def get (t : Triangle) (j : Nat) : Nat :=
  match j % 3 with
  | 0 => t.s1
  | 1 => t.s2
  | _ => t.s3

/-- The range `begin() .. end()` over the three vertex slots. -/
def vertices (t : Triangle) : List Nat := [t.s1, t.s2, t.s3]

/-- Modelled from the spec: `Triangle::flip` ("flip its winding"): exchanges two of the
three vertex slots, which reverses the winding. -/
def flip (t : Triangle) : Triangle := ⟨t.s2, t.s1, t.s3⟩

/-- Modelled from the spec: `Triangle::contains`, membership of a vertex (by address)
among the three slots. -/
def contains (t : Triangle) (v : Nat) : Bool :=
  decide (t.s1 = v) || decide (t.s2 = v) || decide (t.s3 = v)

/-- Modelled from the spec: the slot of a vertex in the triangle (first match, by
address); a vertex that is not a vertex of the triangle has no slot. -/
def vertex_index (t : Triangle) (v : Nat) : Option Nat :=
  if t.s1 = v then some 0 else if t.s2 = v then some 1 else if t.s3 = v then some 2 else none

/-- Modelled from the spec: `Triangle::next`, the vertex following `v` in the winding
of the triangle (the shared-edge "traversal direction" of the spec); a vertex that is
not a vertex of the triangle has no successor. -/
def next (t : Triangle) (v : Nat) : Option Nat :=
  (t.vertex_index v).map (fun i => t.get (i + 1))

end Triangle

/-! ## The edge map -/

/-- The type `EdgeMap`: `std::map<std::pair<const Vertex *, const Vertex *>, int>`,
as an association list with pairwise distinct keys. -/
abbrev EdgeMap := List ((Nat × Nat) × Int)

namespace EdgeMap

/-- The call `mape.count(pairv)`: 1 when the key is present, 0 otherwise. -/
def count (mape : EdgeMap) (pairv : Nat × Nat) : Nat :=
  match mape with
  | [] => 0
  | (k, _) :: rest => if k = pairv then 1 else count rest pairv

/-- Reading `mape[pairv]` (0 for an absent key). -/
def value (mape : EdgeMap) (pairv : Nat × Nat) : Int :=
  match mape with
  | [] => 0
  | (k, v) :: rest => if k = pairv then v else value rest pairv

/-- The assignment `mape[pairv] = v`. -/
def assign (mape : EdgeMap) (pairv : Nat × Nat) (v : Int) : EdgeMap :=
  match mape with
  | [] => [(pairv, v)]
  | (k, w) :: rest => if k = pairv then (k, v) :: rest else (k, w) :: assign rest pairv v

end EdgeMap

/-! ## The mesh -/

/-- The state of a `Mesh` that the orientation code reads and writes: the vertex store
(address to vertex), the triangle vector and the vertex-to-triangles map `links_`. -/
structure Mesh where
  vertex : Nat → Vertex
  triangles : List Triangle
  links : Nat → List Nat

namespace Mesh

/-- The triangle behind a `Triangle *`. -/
def tri (m : Mesh) (p : Nat) : Triangle := m.triangles.getD p default

/-- The "make links" loop of `Mesh::update`: for every triangle, in order, and every one
of its three slots, the triangle is appended to the list of the slot's vertex. -/
def make_links (ts : List Triangle) : Nat → List Nat :=
  fun v => (List.range ts.length).flatMap
    (fun p => ((ts.getD p default).vertices.filter (fun s => decide (s = v))).map (fun _ => p))

/-- One iteration of the inner loop of `Mesh::compute_edge_map` (side `j` of `t`). -/
def edge_vote (m : Mesh) (t : Triangle) (mape : EdgeMap) (j : Nat) : EdgeMap :=
  if (m.vertex (t.get j)).index > (m.vertex (t.get (j + 1))).index then
    let pairv := (t.get j, t.get (j + 1))
    if mape.count pairv = 0 then mape.assign pairv 1
    else mape.assign pairv (mape.value pairv + 1)
  else
    let pairv := (t.get (j + 1), t.get j)
    if mape.count pairv = 0 then mape.assign pairv (-1)
    else mape.assign pairv (mape.value pairv - 1)

/-- The function `Mesh::compute_edge_map`. -/
def compute_edge_map (m : Mesh) : EdgeMap :=
  m.triangles.foldl (fun mape t => (List.range 3).foldl (m.edge_vote t) mape) []

/-- The function `Mesh::has_correct_orientation`: false as soon as an entry of the edge
map has absolute value 2. -/
def has_correct_orientation (m : Mesh) : Bool :=
  m.compute_edge_map.all (fun e => decide (e.2.natAbs ≠ 2))

/-- The counter `std::map<Triangle *, unsigned> mapt` of `adjacent_triangles`, kept in
increasing key order as `std::map` iterates it: `mapt[k] = 1` for a new key, `mapt[k]++`
otherwise. -/
def bump (mapt : List (Nat × Nat)) (k : Nat) : List (Nat × Nat) :=
  match mapt with
  | [] => [(k, 1)]
  | (k', c) :: rest =>
    if k = k' then (k', c + 1) :: rest
    else if k < k' then (k, 1) :: (k', c) :: rest
    else (k', c) :: bump rest k

/-- The function `Mesh::adjacent_triangles`: counts, over the three slots of `t`, the
triangles linked to the slot's vertex, and keeps those counted exactly twice. -/
def adjacent_triangles (m : Mesh) (t : Triangle) : List Nat :=
  let mapt := t.vertices.foldl (fun mapt sit => (m.links sit).foldl bump mapt) []
  (mapt.filter (fun e => decide (e.2 = 2))).map (fun e => e.1)

/-- The test `t->next(**vit) == (*tit)->next(**vit)`: the two successors are compared
as vertices, by value. -/
def same_next (m : Mesh) (t tit : Triangle) (vit : Nat) : Bool :=
  decide ((t.next vit).map (fun a => (m.vertex a).pos)
        = (tit.next vit).map (fun a => (m.vertex a).pos))

/-- The innermost loop of `orient_adjacent_triangles` over the vertices of `*tit`:
the triangle is flipped at the first vertex with the same successor in `t`, and the
loop is left. -/
def flip_if_same_next (m : Mesh) (t tit : Triangle) : List Nat → Triangle
  | [] => tit
  | vit :: rest => if m.same_next t tit vit then tit.flip else flip_if_same_next m t tit rest

/-- Writing through a `Triangle *`. -/
def set_tri (m : Mesh) (p : Nat) (t : Triangle) : Mesh :=
  { m with triangles := m.triangles.set p t }

/-- The loop state of `orient_adjacent_triangles`: the mesh, the stack `t_stack`
(top first) and the keys of `tri_reoriented`. -/
structure OrientState where
  mesh : Mesh
  t_stack : List Nat
  tri_reoriented : List Nat

/-- The body of the `for` loop over `t_adj` for one adjacent triangle `tit` of `t`. -/
def orient_step (t : Nat) (s : OrientState) (tit : Nat) : OrientState :=
  if s.tri_reoriented.contains tit then s
  else
    { mesh := s.mesh.set_tri tit
        (s.mesh.flip_if_same_next (s.mesh.tri t) (s.mesh.tri tit) (s.mesh.tri tit).vertices)
      t_stack := tit :: s.t_stack
      tri_reoriented := tit :: s.tri_reoriented }

/-- The function `Mesh::orient_adjacent_triangles`; `fuel` bounds the number of
iterations of the `while` loop, and the result is `none` when it does not suffice. -/
def orient_adjacent_triangles : Nat → OrientState → Option OrientState
  | 0, s => if s.t_stack.isEmpty then some s else none
  | fuel + 1, s =>
    match s.t_stack with
    | [] => some s
    | t :: rest =>
      let t_adj := s.mesh.adjacent_triangles (s.mesh.tri t)
      orient_adjacent_triangles fuel
        (t_adj.foldl (orient_step t) { s with t_stack := rest })

/-- The function `Mesh::correct_local_orientation`. Every triangle is pushed at most
once, so as many iterations as there are triangles are allowed. -/
def correct_local_orientation (m : Mesh) : Option Mesh :=
  if m.has_correct_orientation then some m
  else
    (orient_adjacent_triangles m.triangles.length
      { mesh := m, t_stack := [0], tri_reoriented := [0] }).map (fun s => s.mesh)

/-- The text `Mesh::correct_local_orientation` sends to `std::cerr` (its own message
and the one of `has_correct_orientation`); the function returns `void` and this is all
the caller can observe besides the mesh itself. -/
def correct_local_orientation_cerr (m : Mesh) : List String :=
  if m.has_correct_orientation then []
  else ["Local orientation problem...", "Reorienting..."]

/-- The function `Mesh::update`, as far as topology goes: the links are rebuilt, then
the orientation is corrected. -/
def update (m : Mesh) : Option Mesh :=
  correct_local_orientation { m with links := make_links m.triangles }

end Mesh

/-! ## Self-intersection -/

/-- The function `Mesh::triangle_intersection`: the overlap predicate
`tri_tri_overlap_test_3d` (an external routine, a parameter here) applied to the
coordinates of the six vertices. -/
def Mesh.triangle_intersection (m : Mesh)
    (tri_tri_overlap_test_3d : Vect3 → Vect3 → Vect3 → Vect3 → Vect3 → Vect3 → Bool)
    (T1 T2 : Triangle) : Bool :=
  tri_tri_overlap_test_3d (m.vertex T1.s1).pos (m.vertex T1.s2).pos (m.vertex T1.s3).pos
    (m.vertex T2.s1).pos (m.vertex T2.s2).pos (m.vertex T2.s3).pos

/-- The body of the two loops of `Mesh::has_self_intersection` for one pair. -/
def Mesh.self_intersection_step (m : Mesh)
    (overlap : Vect3 → Vect3 → Vect3 → Vect3 → Vect3 → Vect3 → Bool)
    (tit1 tit2 : Triangle) (selfIntersects : Bool) : Bool :=
  if !tit1.contains tit2.s1 && !tit1.contains tit2.s2 && !tit1.contains tit1.s3 then
    if m.triangle_intersection overlap tit1 tit2 then true else selfIntersects
  else selfIntersects

/-- The function `Mesh::has_self_intersection`: `tit1` runs over the triangles and
`tit2` from `tit1` to the end. -/
def Mesh.has_self_intersection (m : Mesh)
    (overlap : Vect3 → Vect3 → Vect3 → Vect3 → Vect3 → Vect3 → Bool) : Bool :=
  (List.range m.triangles.length).foldl
    (fun acc p1 =>
      ((List.range m.triangles.length).drop p1).foldl
        (fun acc p2 => m.self_intersection_step overlap (m.tri p1) (m.tri p2) acc) acc)
    false

/-! ## Head-matrix assembly -/

/-- Modelled from the spec: what the assembly reads of a Surface (the declaration of the
Mesh class, mesh.h, is not among the sources): its name, its "is outermost" flag, and
the indices of its vertices and of its triangles, in storage order. -/
structure Surface where
  name : String
  outermost : Bool
  vertex_indices : List Nat
  triangle_indices : List Nat
deriving DecidableEq, Repr

/-- The count `Mesh::nb_vertices()`. -/
def Surface.nb_vertices (s : Surface) : Nat := s.vertex_indices.length

/-- The count `Mesh::nb_triangles()`. -/
def Surface.nb_triangles (s : Surface) : Nat := s.triangle_indices.length

/-- Modelled from the spec: the Geometry class (geometry.h is not among the sources):
"an ordered sequence of Surfaces", the total number of vertices, the derived relation
`oriented(A,B)` in {-1,0,+1} and the conductivity coefficients `sigma`, `sigma_inv` and
`indicator` of a pair of Surfaces. Conductivities are `double` in the source; their
arithmetic is taken exact here. -/
structure Geometry where
  meshes : List Surface
  nb_vertices : Nat
  oriented : Surface → Surface → Int
  sigma : Surface → Surface → ℚ
  sigma_inv : Surface → Surface → ℚ
  indicator : Surface → Surface → ℚ

/-- Modelled from the spec: `Geometry::size()`, the number of vertices plus the number
of triangles of all Surfaces (removing the outermost triangles leaves the "total vertex
count + total triangle count across non-outermost Surfaces" of the System Matrix). -/
def Geometry.size (geo : Geometry) : Nat :=
  geo.nb_vertices + (geo.meshes.map Surface.nb_triangles).sum

/-- Modelled from the spec: `Geometry::outermost_interface()`, the Surfaces flagged
outermost, in Geometry order. -/
def Geometry.outermost_interface (geo : Geometry) : List Surface :=
  geo.meshes.filter (fun s => s.outermost)

/-- Modelled from the spec: `Interface::nb_triangles()`, over the Surfaces of the
Interface. -/
def Interface_nb_triangles (i : List Surface) : Nat := (i.map Surface.nb_triangles).sum

/-- Modelled from the spec: `Interface::nb_vertices()`, over the Surfaces of the
Interface. -/
def Interface_nb_vertices (i : List Surface) : Nat := (i.map Surface.nb_vertices).sum

/-- Modelled from the spec: the packed symmetric matrix (symmatrix.h is not among the
sources): its dimension and one storage cell per pair `i ≤ j`. -/
structure SymMatrix where
  nlin : Nat
  data : Nat → Nat → ℚ

namespace SymMatrix

/-- The read access `M(i, j)`: the pairs `(i, j)` and `(j, i)` share one cell. -/
def get (M : SymMatrix) (i j : Nat) : ℚ := if i ≤ j then M.data i j else M.data j i

/-- The call `M.set(x)`: every cell receives `x`. -/
def set (M : SymMatrix) (x : ℚ) : SymMatrix := { M with data := fun _ _ => x }

/-- The update `M(i, j) += c`. -/
def add (M : SymMatrix) (i j : Nat) (c : ℚ) : SymMatrix :=
  { M with data := fun a b =>
      if a = min i j ∧ b = max i j then M.data a b + c else M.data a b }

end SymMatrix

/-- The four operator evaluations of the assembly: `operatorS`, `operatorD`,
`operatorD` with the transposition flag (the block `D*`), `operatorN`. -/
inductive OpKind where
  | S
  | D
  | Dstar
  | N
deriving DecidableEq, Repr

/-- One call of an operator evaluator: the ordered pair of Surfaces, the coefficient
and the quadrature order handed to it. -/
structure OpCall where
  kind : OpKind
  m1 : Surface
  m2 : Surface
  coeff : ℚ
  gauss_order : Nat
deriving DecidableEq

/-- The body of the two loops of `assemble_HM` for the pair `(*mit1, *mit2)`: the
operator calls it issues, in order. `K` stands for the constant `1.0 / (4.0 * M_PI)`. -/
def pair_calls (geo : Geometry) (K : ℚ) (gauss_order : Nat) (mit1 mit2 : Surface) :
    List OpCall :=
  let orientation := geo.oriented mit1 mit2
  if orientation ≠ 0 then
    let Scoeff := orientation * geo.sigma_inv mit1 mit2 * K
    let Dcoeff := - orientation * geo.indicator mit1 mit2 * K
    let computeS := !(mit1.outermost || mit2.outermost)
    let Ncoeff :=
      if computeS then geo.sigma mit1 mit2 / geo.sigma_inv mit1 mit2
      else orientation * geo.sigma mit1 mit2 * K
    (if computeS then [⟨OpKind.S, mit1, mit2, Scoeff, gauss_order⟩] else [])
      ++ (if !mit1.outermost then [⟨OpKind.D, mit1, mit2, Dcoeff, gauss_order⟩] else [])
      ++ (if decide (mit1 ≠ mit2) && !mit2.outermost then
            [⟨OpKind.Dstar, mit1, mit2, Dcoeff, gauss_order⟩] else [])
      ++ [⟨OpKind.N, mit1, mit2, Ncoeff, gauss_order⟩]
  else []

/-- The two nested loops of `assemble_HM`: `mit1` over all Surfaces, `mit2` from the
first Surface up to and including `mit1`. -/
def assemble_HM_calls (geo : Geometry) (K : ℚ) (gauss_order : Nat) : List OpCall :=
  (List.range geo.meshes.length).flatMap (fun p1 =>
    (List.range (p1 + 1)).flatMap (fun p2 =>
      match geo.meshes[p1]?, geo.meshes[p2]? with
      | some mit1, some mit2 => pair_calls geo K gauss_order mit1 mit2
      | _, _ => []))

/-- The pairs `(*vit1, *vit2)` of the two inner loops of `deflat` on one Surface: `vit2`
runs from `vit1` to the last vertex. -/
def deflat_pairs : List Nat → List (Nat × Nat)
  | [] => []
  | v :: rest => ((v :: rest).map (fun w => (v, w))) ++ deflat_pairs rest

/-- The function `deflat`. -/
def deflat (M : SymMatrix) (i : List Surface) (coef : ℚ) : SymMatrix :=
  i.foldl (fun M omesh =>
    (deflat_pairs omesh.vertex_indices).foldl (fun M e => M.add e.1 e.2 coef) M) M

/-- The effect of one operator call on the matrix: the evaluators (operators.h is not
among the sources) accumulate into the cells of the matrix they are handed; `ops` is
their action on the cells. -/
def SymMatrix.apply (ops : OpCall → (Nat → Nat → ℚ) → (Nat → Nat → ℚ)) (M : SymMatrix)
    (c : OpCall) : SymMatrix :=
  { M with data := ops c M.data }

/-- The first two statements of `assemble_HM`: the matrix is re-created with the
dimension `geo.size() - geo.outermost_interface().nb_triangles()` (`fresh` is the
content of the new storage) and then set to 0. -/
def assemble_HM_init (geo : Geometry) (fresh : Nat → Nat → ℚ) : SymMatrix :=
  let mat : SymMatrix := ⟨geo.size - Interface_nb_triangles geo.outermost_interface, fresh⟩
  mat.set 0

/-- The function `assemble_HM`. -/
def assemble_HM (ops : OpCall → (Nat → Nat → ℚ) → (Nat → Nat → ℚ)) (geo : Geometry)
    (fresh : Nat → Nat → ℚ) (K : ℚ) (gauss_order : Nat) : SymMatrix :=
  let mat := assemble_HM_init geo fresh
  let mat := (assemble_HM_calls geo K gauss_order).foldl (SymMatrix.apply ops) mat
  let i := geo.outermost_interface
  let i_first := ((i.head?).bind (fun s => s.vertex_indices.head?)).getD 0
  deflat mat i (mat.get i_first i_first / (Interface_nb_vertices i : ℚ))

/-! ## Cortical mapping -/

/-- Modelled from the spec: the Domain class (domain.h is not among the sources): "a
conductivity value, a name, and the ordered sequence of (Interface, orientation) pairs
bounding it". An Interface is the sequence of its Surfaces. -/
structure Domain where
  name : String
  sigma : ℚ
  halfspaces : List (List Surface × Bool)
deriving DecidableEq

/-- The accesses to the source Domain made by the first statements of
`assemble_cortical`. -/
inductive CorticalRead where
  | first_interface
  | first_mesh
deriving DecidableEq, Repr

/-- How the first statements of `assemble_cortical` can end: with the cortex Surface,
with a failed `assert`, or with the dereference of `begin()` of an empty sequence, for
which the language defines no behaviour. -/
inductive CorticalEntry where
  | cortex (s : Surface)
  | assertion_failed (text : String)
  | undefined_dereference
deriving DecidableEq

/-- The statements of `assemble_cortical` up to its two `assert`s, in source order:
`Cortex = SourceDomain.begin()->interface()`, `cortex = Cortex.begin()->mesh()`,
`assert(SourceDomain.size() == 1)`, `assert(Cortex.size() == 1)`. The result is paired
with the accesses made before the function went on or ended. -/
def assemble_cortical_entry (SourceDomain : Domain) : List CorticalRead × CorticalEntry :=
  match SourceDomain.halfspaces with
  | [] => ([CorticalRead.first_interface], CorticalEntry.undefined_dereference)
  | (Cortex, _) :: _ =>
    match Cortex with
    | [] =>
      ([CorticalRead.first_interface, CorticalRead.first_mesh],
        CorticalEntry.undefined_dereference)
    | cortex :: _ =>
      if SourceDomain.halfspaces.length ≠ 1 then
        ([CorticalRead.first_interface, CorticalRead.first_mesh],
          CorticalEntry.assertion_failed "SourceDomain.size() == 1")
      else if Cortex.length ≠ 1 then
        ([CorticalRead.first_interface, CorticalRead.first_mesh],
          CorticalEntry.assertion_failed "Cortex.size() == 1")
      else
        ([CorticalRead.first_interface, CorticalRead.first_mesh], CorticalEntry.cortex cortex)

/-- The body of the two loops of `assemble_cortical` for the pair `(*mit1, *mit2)`: the
operator calls it issues, in order. -/
def cortical_pair_calls (geo : Geometry) (K : ℚ) (gauss_order : Nat) (cortex : Surface)
    (mit1 mit2 : Surface) : List OpCall :=
  let orientation := geo.oriented mit1 mit2
  if orientation ≠ 0 then
    let Scoeff := orientation * geo.sigma_inv mit1 mit2 * K
    let Dcoeff := - orientation * geo.indicator mit1 mit2 * K
    let notCortexSelf := decide (mit1 ≠ mit2) || decide (mit1 ≠ cortex)
    let computeS := !(mit1.outermost || mit2.outermost) && notCortexSelf
    let Ncoeff :=
      if computeS then geo.sigma mit1 mit2 / geo.sigma_inv mit1 mit2
      else orientation * geo.sigma mit1 mit2 * K
    (if computeS then [⟨OpKind.S, mit1, mit2, Scoeff, gauss_order⟩] else [])
      ++ (if !mit1.outermost && notCortexSelf then
            [⟨OpKind.D, mit1, mit2, Dcoeff, gauss_order⟩] else [])
      ++ (if decide (mit1 ≠ mit2) && !mit2.outermost then
            [⟨OpKind.Dstar, mit1, mit2, Dcoeff, gauss_order⟩] else [])
      ++ (if notCortexSelf then [⟨OpKind.N, mit1, mit2, Ncoeff, gauss_order⟩] else [])
  else []

/-- The two nested loops of `assemble_cortical` (branch without projector file). -/
def assemble_cortical_calls (geo : Geometry) (K : ℚ) (gauss_order : Nat) (cortex : Surface) :
    List OpCall :=
  (List.range geo.meshes.length).flatMap (fun p1 =>
    (List.range (p1 + 1)).flatMap (fun p2 =>
      match geo.meshes[p1]?, geo.meshes[p2]? with
      | some mit1, some mit2 => cortical_pair_calls geo K gauss_order cortex mit1 mit2
      | _, _ => []))

/-- The matrix `mat_temp` of `assemble_cortical` after its deflation: created with
dimension `Nc`, set to 0, filled by the operator calls, deflated. -/
def assemble_cortical_mat_temp (ops : OpCall → (Nat → Nat → ℚ) → (Nat → Nat → ℚ))
    (geo : Geometry) (fresh : Nat → Nat → ℚ) (K : ℚ) (gauss_order : Nat) (cortex : Surface) :
    SymMatrix :=
  let Nc := geo.size - Interface_nb_triangles geo.outermost_interface
  let mat_temp : SymMatrix := (⟨Nc, fresh⟩ : SymMatrix).set 0
  let mat_temp := (assemble_cortical_calls geo K gauss_order cortex).foldl
    (SymMatrix.apply ops) mat_temp
  let i := geo.outermost_interface
  let i_first := ((i.head?).bind (fun s => s.vertex_indices.head?)).getD 0
  deflat mat_temp i (mat_temp.get i_first i_first / (Interface_nb_vertices i : ℚ))

/-! ## Row removal and null-space projector -/

/-- Mathlib's matrices with rows `0 .. m-1` and columns `0 .. n-1`, which carry the
products and transposes of the dense matrices of the source. -/
abbrev Mat (R : Type) (m n : Nat) : Type := Matrix (Fin m) (Fin n) R

/-- Modelled from the spec: the dense Matrix class (matrix.h is not among the sources):
"row/column indexable", with "row extraction/assignment". -/
structure Matrix where
  nlin : Nat
  ncol : Nat
  data : Nat → Nat → ℚ

/-- The call `M.set(x)`: every entry receives `x`. -/
def Matrix.set (M : Matrix) (x : ℚ) : Matrix := { M with data := fun _ _ => x }

/-- Modelled from the spec: the call `M.setlin(i, row)`, row assignment; there is no row
to assign when `i` is not below the number of rows. -/
def Matrix.setlin (M : Matrix) (i : Nat) (row : Nat → ℚ) : Option Matrix :=
  if i < M.nlin then some { M with data := fun a b => if a = i then row b else M.data a b }
  else none

/-- Modelled from the spec: the call `M.getlin(i)`, row extraction. -/
def SymMatrix.getlin (M : SymMatrix) (i : Nat) : Nat → ℚ := fun j => M.get i j

/-- The number `Nc` of `assemble_cortical`. -/
def assemble_cortical_Nc (geo : Geometry) : Nat :=
  geo.size - Interface_nb_triangles geo.outermost_interface

/-- The number `Nl` of `assemble_cortical`; `Cortex` is the Interface of the source
Domain. The differences are `unsigned` in the source and are used here only where none
of them is negative. -/
def assemble_cortical_Nl (geo : Geometry) (Cortex : List Surface) : Nat :=
  geo.size - Interface_nb_triangles geo.outermost_interface - Interface_nb_vertices Cortex
    - Interface_nb_triangles Cortex

/-- The test of the row-removal loop of `assemble_cortical` on the row `i`, with
`i_vb_c`, `i_ve_c` the indices of the first and of the last vertex of the cortex and
`i_tb_c`, `i_te_c` the indices of its first and of its last triangle. -/
def cortical_row_kept (cortex : Surface) (i : Nat) : Bool :=
  let i_vb_c := cortex.vertex_indices.head?.getD 0
  let i_ve_c := cortex.vertex_indices.getLast?.getD 0
  let i_tb_c := cortex.triangle_indices.head?.getD 0
  let i_te_c := cortex.triangle_indices.getLast?.getD 0
  !(decide (i_vb_c ≤ i) && decide (i ≤ i_ve_c)) && !(decide (i_tb_c ≤ i) && decide (i ≤ i_te_c))

/-- One iteration of the row-removal loop: the state is the matrix `mat` and the
destination row counter `iNl`; it is lost when a row is assigned outside `mat`. -/
def cortical_row_step (mat_temp : SymMatrix) (cortex : Surface) (st : Option (Matrix × Nat))
    (i : Nat) : Option (Matrix × Nat) :=
  st.bind (fun s =>
    if cortical_row_kept cortex i then
      (s.1.setlin s.2 (mat_temp.getlin i)).map (fun mat => (mat, s.2 + 1))
    else some s)

/-- The row-removal loop of `assemble_cortical`: `mat = Matrix(Nl, Nc)`, set to 0, then
`i` runs from 0 to `Nc - 1`. -/
def cortical_row_removal (mat_temp : SymMatrix) (cortex : Surface) (Nl Nc : Nat)
    (fresh : Nat → Nat → ℚ) : Option (Matrix × Nat) :=
  (List.range Nc).foldl (cortical_row_step mat_temp cortex)
    (some ((⟨Nl, Nc, fresh⟩ : Matrix).set 0, 0))

/-- The selector `S` of `assemble_cortical`: a sparse `Nc x Nc` matrix, 0 everywhere,
in which the loop `for i = Nl .. Nc-1` sets `S(i, i) = 1.0`. -/
def cortical_selector (R : Type) [CommRing R] (Nl Nc : Nat) : Mat R Nc Nc :=
  (List.range' Nl (Nc - Nl)).foldl
    (fun S i => fun a b => if a.val = i ∧ b.val = i then 1 else S a b) (fun _ _ => 0)

/-- The projector `P = (W * S) * W.transpose()` of `assemble_cortical`. -/
def cortical_projector {R : Type} [CommRing R] {Nc : Nat} (W S : Mat R Nc Nc) : Mat R Nc Nc :=
  (W * S) * W.transpose

/-! ## Surface to volume -/

/-- The statement `m_points[domain].push_back(v)` on the map
`std::map<const Domain, Vertices>`, an association list here: the order in which the map
is iterated (the `operator<` of Domain, domain.h) is not among the sources. -/
def push_point (m_points : List (Domain × List Vertex)) (domain : Domain) (v : Vertex) :
    List (Domain × List Vertex) :=
  match m_points with
  | [] => [(domain, [v])]
  | (k, vs) :: rest =>
    if k = domain then (k, vs ++ [v]) :: rest else (k, vs) :: push_point rest domain v

/-- One iteration of the loop of the constructor `Surf2VolMat::Surf2VolMat` over the
rows of `points`; the state is the map `m_points` and the counter `index`.
`geo_domain` is `Geometry::domain(const Vect3&)`, the enclosing Domain of a point. -/
def Surf2VolMat_step (geo_domain : Vect3 → Domain)
    (st : List (Domain × List Vertex) × Nat) (p : Vect3) : List (Domain × List Vertex) × Nat :=
  let domain := geo_domain p
  if domain.name = "Air" then st
  else (push_point st.1 domain ⟨p, st.2⟩, st.2 + 1)

/-- The map `m_points` built by the constructor `Surf2VolMat::Surf2VolMat`. -/
def Surf2VolMat_points (geo_domain : Vect3 → Domain) (points : List Vect3) :
    List (Domain × List Vertex) :=
  (points.foldl (Surf2VolMat_step geo_domain) ([], 0)).1

/-- The two internal operator evaluations of `assemble_Surf2Vol`: `operatorDinternal`
and `operatorSinternal`. -/
inductive InternalKind where
  | Dinternal
  | Sinternal
deriving DecidableEq, Repr

/-- One call of an internal operator evaluator: the Surface, the points and the
coefficient handed to it. -/
structure InternalCall where
  kind : InternalKind
  mesh : Surface
  points : List Vertex
  coeff : ℚ
deriving DecidableEq

/-- The body of the two loops of `assemble_Surf2Vol` for the map entry `dvit` and the
Surface `mit`. `mesh_orientation` is `Domain::mesh_orientation`, and the conductivity
`geo.sigma(dvit->first)` is the conductivity of the Domain. -/
def Surf2Vol_mesh_calls (mesh_orientation : Domain → Surface → Int) (K : ℚ)
    (dvit : Domain × List Vertex) (mit : Surface) : List InternalCall :=
  let orientation := mesh_orientation dvit.1 mit
  if orientation ≠ 0 then
    [⟨InternalKind.Dinternal, mit, dvit.2, orientation * -1 * K⟩]
      ++ (if !mit.outermost then
            [⟨InternalKind.Sinternal, mit, dvit.2, orientation * K / dvit.1.sigma⟩] else [])
  else []

/-- The two nested loops of `assemble_Surf2Vol`. -/
def assemble_Surf2Vol_calls (geo : Geometry) (mesh_orientation : Domain → Surface → Int)
    (K : ℚ) (m_points : List (Domain × List Vertex)) : List InternalCall :=
  m_points.flatMap (fun dvit =>
    geo.meshes.flatMap (fun mit => Surf2Vol_mesh_calls mesh_orientation K dvit mit))

/-- The effect of one internal operator call on the matrix; `ops` is the action of the
evaluators (operators.h is not among the sources) on the entries. -/
def Matrix.apply (ops : InternalCall → (Nat → Nat → ℚ) → (Nat → Nat → ℚ)) (M : Matrix)
    (c : InternalCall) : Matrix :=
  { M with data := ops c M.data }

/-- The function `assemble_Surf2Vol`. -/
def assemble_Surf2Vol (ops : InternalCall → (Nat → Nat → ℚ) → (Nat → Nat → ℚ))
    (geo : Geometry) (mesh_orientation : Domain → Surface → Int) (K : ℚ)
    (fresh : Nat → Nat → ℚ) (m_points : List (Domain × List Vertex)) : Matrix :=
  let size := m_points.foldl (fun size dvit => size + dvit.2.length) 0
  let mat : Matrix :=
    (⟨size, geo.size - Interface_nb_triangles geo.outermost_interface, fresh⟩ : Matrix).set 0
  (assemble_Surf2Vol_calls geo mesh_orientation K m_points).foldl (Matrix.apply ops) mat

/-- The constructor `Surf2VolMat::Surf2VolMat`. -/
def Surf2VolMat (ops : InternalCall → (Nat → Nat → ℚ) → (Nat → Nat → ℚ))
    (geo : Geometry) (geo_domain : Vect3 → Domain) (mesh_orientation : Domain → Surface → Int)
    (K : ℚ) (fresh : Nat → Nat → ℚ) (points : List Vect3) : Matrix :=
  assemble_Surf2Vol ops geo mesh_orientation K fresh (Surf2VolMat_points geo_domain points)

/-! ## Vertex insertion, merging, loading and saving -/

instance : Inhabited Vertex := ⟨⟨⟨0, 0, 0⟩, 0⟩⟩

/-- The data members of a `Mesh` that vertex insertion, merging, loading and saving read
and write: the vertex storage `*all_vertices_` (the address of a stored vertex is its
position in the storage), the vertex pointers `vertices_`, the set `set_vertices_` (its
elements, in insertion order) and the triangles. -/
structure MeshData where
  all_vertices : List Vertex
  vertices : List Nat
  set_vertices : List Vertex
  triangles : List Triangle
deriving DecidableEq

namespace MeshData

/-- A mesh without vertices and triangles. -/
def empty : MeshData := ⟨[], [], [], []⟩

/-- Dereferencing a `Vertex *`. -/
def deref (m : MeshData) (a : Nat) : Vertex := m.all_vertices.getD a default

/-- The count `nb_vertices()`. -/
def nb_vertices (m : MeshData) : Nat := m.vertices.length

/-- The count `nb_triangles()`. -/
def nb_triangles (m : MeshData) : Nat := m.triangles.length

/-- The mesh state the orientation code works on. -/
def toMesh (m : MeshData) : Mesh :=
  { vertex := m.deref, triangles := m.triangles, links := Mesh.make_links m.triangles }

/-- The function `Mesh::add_vertex`. Two vertices are the same element of the set, and
equal for `std::find`, when their coordinates are equal; `std::find` returns the position
of the first equal vertex of the storage (the end of the storage when there is none). -/
def add_vertex (m : MeshData) (v : Vertex) : MeshData :=
  if m.set_vertices.all (fun w => decide (w.pos ≠ v.pos)) then
    { m with
      set_vertices := m.set_vertices ++ [v]
      all_vertices := m.all_vertices ++ [v]
      vertices := m.vertices ++ [m.all_vertices.length] }
  else
    let vit := m.all_vertices.findIdx (fun w => decide (w.pos = v.pos))
    if m.vertices.contains vit then m else { m with vertices := m.vertices ++ [vit] }

/-- The function `Mesh::update`, as far as these data members go: the set is emptied,
the links are rebuilt and the orientation is corrected. -/
def update (m : MeshData) : Option MeshData :=
  (Mesh.update m.toMesh).map (fun m' => { m with set_vertices := [], triangles := m'.triangles })

end MeshData

/-- A field of a text file: a number, any other word, or the end of a line. -/
inductive Token where
  | num (n : Int)
  | word (s : String)
  | eol
deriving DecidableEq, Repr

/-- The characters of a field. -/
def Token.text : Token → String
  | Token.num n => toString n
  | Token.word s => s
  | Token.eol => ""

/-- An input stream: the fields that remain to be read, or `none` once an extraction
has failed; every extraction from a failed stream fails and leaves its variable as it
was. -/
abbrev IStream := Option (List Token)

/-- Skipping white space. -/
def skip_ws : List Token → List Token
  | Token.eol :: rest => skip_ws rest
  | l => l

/-- The extraction `f >> n` of an `unsigned`, a number of 32 bits. A number from 0 to
`2 ^ 32 - 1` is extracted as it is; a negative number `-k` with `k` below `2 ^ 32` is
extracted as `2 ^ 32 - k`, the conversion negating in the type `unsigned`. On a number
that 32 bits cannot hold the stream fails, and so it does on a word: `none`, no value
being given to what the variable then holds. -/
def get_unsigned (f : IStream) : Option Nat × IStream :=
  match f with
  | none => (none, none)
  | some toks =>
    match skip_ws toks with
    | Token.num n :: rest =>
      if 2 ^ 32 ≤ n.natAbs then (none, none)
      else if 0 ≤ n then (some n.toNat, some rest)
      else (some (2 ^ 32 - n.natAbs), some rest)
    | _ => (none, none)

/-- The extraction `f >> trash` of an `int`, a number of 32 bits, whose value is never
used: a number from `-2 ^ 31` to `2 ^ 31 - 1` is extracted, on any other field the stream
fails. -/
def get_trash (f : IStream) : IStream :=
  match f with
  | none => none
  | some toks =>
    match skip_ws toks with
    | Token.num n :: rest => if n.natAbs < 2 ^ 31 ∨ n = -2 ^ 31 then some rest else none
    | _ => none

/-- The extraction `f >> x` of a coordinate; `cur` is the value the variable holds. -/
def get_coord (f : IStream) (cur : Int) : Int × IStream :=
  match f with
  | none => (cur, none)
  | some toks =>
    match skip_ws toks with
    | Token.num n :: rest => (n, some rest)
    | _ => (cur, none)

/-- Modelled from the spec: the input operator of `Vect3` (vect3.h is not among the
sources), the extraction of the three coordinates. -/
def get_vect3 (f : IStream) (cur : Vect3) : Vect3 × IStream :=
  let (x, f) := get_coord f cur.x
  let (y, f) := get_coord f cur.y
  let (z, f) := get_coord f cur.z
  (⟨x, y, z⟩, f)

/-- The extraction `f >> st` of a `std::string`, which holds a word of any length: the
next field, whatever it is; `cur` is the value the variable holds. Where the source
extracts into an array of characters, the function that does so bounds the length. -/
def get_string (f : IStream) (cur : String) : String × IStream :=
  match f with
  | none => (cur, none)
  | some toks =>
    match skip_ws toks with
    | [] => (cur, none)
    | t :: rest => (t.text, some rest)

/-- The extraction `f >> ch` of one character, whose value is never used: the first
character of the next field is consumed, the remaining characters stay. -/
def get_char (f : IStream) : IStream :=
  match f with
  | none => none
  | some toks =>
    match skip_ws toks with
    | [] => none
    | Token.word s :: rest =>
      if s.length ≤ 1 then some rest else some (Token.word (s.drop 1) :: rest)
    | Token.num n :: rest =>
      if n < 0 then some (Token.num (-n) :: rest)
      else if n < 10 then some rest
      else some (Token.num (n % 10 ^ Nat.log 10 n.toNat) :: rest)
    | Token.eol :: rest => some rest

/-- Dropping the fields up to the end of the line. -/
def drop_line : List Token → List Token
  | [] => []
  | Token.eol :: rest => rest
  | _ :: rest => drop_line rest

/-- Modelled from the spec: `io_utils::skip_line` (IOUtils.H is not among the sources),
which leaves the rest of the line unread. -/
def skip_line (f : IStream) : IStream := f.map drop_line

/-- Skipping white space and the lines that start with `#`; `fuel` bounds the number of
lines. -/
def skip_comment_lines : Nat → List Token → List Token
  | 0, l => skip_ws l
  | fuel + 1, l =>
    match skip_ws l with
    | Token.word s :: rest =>
      if s.data.head? = some '#' then skip_comment_lines fuel (drop_line rest)
      else Token.word s :: rest
    | l' => l'

/-- Modelled from the spec: the manipulator `io_utils::skip_comments('#')` (IOUtils.H is
not among the sources), which skips white space and the lines that start with `#`. -/
def skip_comments (f : IStream) : IStream := f.map (fun l => skip_comment_lines l.length l)

/-- How a load ends: with a value; at a failed `assert(st == tag)`, of which the
expected tag is kept; without the orientation loop having ended; or in a state for which
the source defines no behaviour (a count or a vertex number whose extraction failed is
used, `vertices_[a]` is taken outside `vertices_`, or a tag is written past the end of
its array). -/
inductive LoadResult (α : Type) where
  | returned (a : α)
  | assertion_failed (expected : String)
  | unfinished
  | undefined
deriving DecidableEq

namespace MeshData

/-- The stream operator `operator>>(std::istream&, Mesh&)`: reads three vertex numbers
and appends the triangle of the three vertices. -/
def get_triangle (m : MeshData) (f : IStream) : Option (MeshData × IStream) :=
  let (a, f) := get_unsigned f
  let (b, f) := get_unsigned f
  let (c, f) := get_unsigned f
  match a, b, c with
  | some a, some b, some c =>
    match m.vertices[a]?, m.vertices[b]?, m.vertices[c]? with
    | some va, some vb, some vc => some ({ m with triangles := m.triangles ++ [⟨va, vb, vc⟩] }, f)
    | _, _, _ => none
  | _, _, _ => none

/-- The loops `for i < npts` of the loaders: a vertex `v` is default-constructed
(`dflt`), read and added; `normals` tells whether three more numbers, the normal, are
read after the coordinates, and `comments` whether comment lines are skipped first. -/
def get_vertices (dflt : Vertex) (normals comments : Bool) :
    Nat → MeshData → IStream → MeshData × IStream
  | 0, m, f => (m, f)
  | npts + 1, m, f =>
    let f := if comments then skip_comments f else f
    let (pos, f) := get_vect3 f dflt.pos
    let f := if normals then (get_vect3 f ⟨0, 0, 0⟩).2 else f
    get_vertices dflt normals comments npts (m.add_vertex { dflt with pos := pos }) f

/-- The loops `for i < ntrgs` of the loaders; `count` tells whether the number of
vertices of the polygon is read (and ignored) before each triangle, and `comments`
whether comment lines are skipped first. -/
def get_triangles (count comments : Bool) : Nat → MeshData → IStream → Option MeshData
  | 0, m, _ => some m
  | ntrgs + 1, m, f =>
    let f := if comments then skip_comments f else f
    let f := if count then get_trash f else f
    match m.get_triangle f with
    | some (m, f) => get_triangles count comments ntrgs m f
    | none => none

/-- The function `Mesh::load_off`. The tag is extracted into the array `char tmp[128]`,
which holds a tag of at most 127 characters and its terminator: a longer tag is written
past the end of the array, for which the language defines no behaviour. -/
def load_off (m : MeshData) (dflt : Vertex) (f : IStream) (read_all : Bool) :
    LoadResult (Nat × MeshData) :=
  let (tmp, f) := get_string f ""
  if 128 ≤ tmp.length then LoadResult.undefined
  else
    let (npts, f) := get_unsigned f
    let (ntrgs, f) := get_unsigned f
    let f := get_trash f
    match npts with
    | none => LoadResult.undefined
    | some npts =>
      if !read_all then LoadResult.returned (npts, m)
      else
        let (m, f) := get_vertices dflt false false npts m f
        match ntrgs with
        | none => LoadResult.undefined
        | some ntrgs =>
          match get_triangles true false ntrgs m f with
          | some m => LoadResult.returned (0, m)
          | none => LoadResult.undefined

/-- The function `Mesh::load_tri`. -/
def load_tri (m : MeshData) (dflt : Vertex) (f : IStream) (read_all : Bool) :
    LoadResult (Nat × MeshData) :=
  let f := get_char f
  let (npts, f) := get_unsigned f
  match npts with
  | none => LoadResult.undefined
  | some npts =>
    if !read_all then LoadResult.returned (npts, m)
    else
      let (m, f) := get_vertices dflt true false npts m f
      let f := get_char f
      let (_, f) := get_unsigned f
      let (_, f) := get_unsigned f
      let (ntrgs, f) := get_unsigned f
      match ntrgs with
      | none => LoadResult.undefined
      | some ntrgs =>
        match get_triangles false false ntrgs m f with
        | some m => LoadResult.returned (0, m)
        | none => LoadResult.undefined

/-- The function `Mesh::load_bnd`. -/
def load_bnd (m : MeshData) (dflt : Vertex) (f : IStream) (read_all : Bool) :
    LoadResult (Nat × MeshData) :=
  let (st, f) := get_string (skip_comments f) ""
  let (st, f) :=
    if st = "Type=" then get_string (skip_comments (skip_line f)) st else (st, f)
  if st ≠ "NumberPositions=" then LoadResult.assertion_failed "NumberPositions="
  else
    let (npts, f) := get_unsigned f
    match npts with
    | none => LoadResult.undefined
    | some npts =>
      if !read_all then LoadResult.returned (npts, m)
      else
        let (st, f) := get_string (skip_comments f) st
        let f := if st = "UnitPosition" then skip_line f else f
        let (st, f) := get_string (skip_comments f) st
        if st ≠ "Positions" then LoadResult.assertion_failed "Positions"
        else
          let (m, f) := get_vertices dflt false true npts m f
          let (st, f) := get_string (skip_comments f) st
          if st ≠ "NumberPolygons=" then LoadResult.assertion_failed "NumberPolygons="
          else
            let (ntrgs, f) := get_unsigned (skip_comments f)
            let (st, f) := get_string (skip_comments f) st
            if st ≠ "TypePolygons=" then LoadResult.assertion_failed "TypePolygons="
            else
              let (st, f) := get_string (skip_comments f) st
              if st ≠ "3" then LoadResult.assertion_failed "3"
              else
                let (st, f) := get_string (skip_comments f) st
                if st ≠ "Polygons" then LoadResult.assertion_failed "Polygons"
                else
                  match ntrgs with
                  | none => LoadResult.undefined
                  | some ntrgs =>
                    match get_triangles false true ntrgs m f with
                    | some m => LoadResult.returned (0, m)
                    | none => LoadResult.undefined

end MeshData

/-- The text formats of `Mesh::load` and `Mesh::save`, chosen by the file suffix. -/
inductive Format where
  | tri
  | off
  | bnd
deriving DecidableEq, Repr

namespace MeshData

/-- The dispatch of `Mesh::load` on the file suffix; each loader opens the file and
reads it from its first field. -/
def load_format (fmt : Format) (m : MeshData) (dflt : Vertex) (file : List Token)
    (read_all : Bool) : LoadResult (Nat × MeshData) :=
  match fmt with
  | Format.tri => m.load_tri dflt (some file) read_all
  | Format.off => m.load_off dflt (some file) read_all
  | Format.bnd => m.load_bnd dflt (some file) read_all

/-- The last loop of `Mesh::load`: the vertex at position `index` of `vertices_`
receives the index `index`. -/
def generate_indices (m : MeshData) : MeshData :=
  let stored := m.vertices.enum.foldl
    (fun (stored : List Vertex) e => stored.set e.2 ⟨(stored.getD e.2 default).pos, e.1⟩)
    m.all_vertices
  { m with all_vertices := stored }

/-- The function `Mesh::load` with `read_all` set, on a mesh that holds nothing: a first
pass reads the number of vertices, for which storage is reserved; the second pass reads
the file, then the mesh is updated and the indices are generated. -/
def load (fmt : Format) (dflt : Vertex) (file : List Token) : LoadResult MeshData :=
  match load_format fmt empty dflt file false with
  | LoadResult.assertion_failed tag => LoadResult.assertion_failed tag
  | LoadResult.unfinished => LoadResult.unfinished
  | LoadResult.undefined => LoadResult.undefined
  | LoadResult.returned _ =>
    match load_format fmt empty dflt file true with
    | LoadResult.assertion_failed tag => LoadResult.assertion_failed tag
    | LoadResult.unfinished => LoadResult.unfinished
    | LoadResult.undefined => LoadResult.undefined
    | LoadResult.returned r =>
      match r.2.update with
      | none => LoadResult.unfinished
      | some m => LoadResult.returned m.generate_indices

/-- The map `std::map<const Vertex *, unsigned> map` of the writers after their loop
over the vertices: `map[*vit] = i` for the vertex at position `i`. A key that was never
written reads as 0. -/
def vertex_map (vertices : List Nat) : Nat → Nat :=
  vertices.enum.foldl (fun map e => Function.update map e.2 e.1) (fun _ => 0)

/-- Modelled from the spec: the output operator of `Vect3` (vect3.h is not among the
sources), as used in `os << **vit`: the three coordinates, written exactly. -/
def put_vect3 (p : Vect3) : List Token := [Token.num p.x, Token.num p.y, Token.num p.z]

/-- The output of one triangle: the numbers of its three vertices. -/
def put_triangle (m : MeshData) (t : Triangle) : List Token :=
  [Token.num (vertex_map m.vertices t.s1), Token.num (vertex_map m.vertices t.s2),
   Token.num (vertex_map m.vertices t.s3)]

/-- The function `Mesh::save_off`. -/
def save_off (m : MeshData) : List Token :=
  [Token.word "OFF", Token.eol,
   Token.num m.nb_vertices, Token.num m.nb_triangles, Token.num 0, Token.eol]
  ++ m.vertices.flatMap (fun vit => put_vect3 (m.deref vit).pos ++ [Token.eol])
  ++ m.triangles.flatMap (fun tit => Token.num 3 :: m.put_triangle tit ++ [Token.eol])

/-- The function `Mesh::save_tri`; `normal` gives the normal stored with a vertex. -/
def save_tri (m : MeshData) (normal : Nat → Vect3) : List Token :=
  [Token.word "-", Token.num m.nb_vertices, Token.eol]
  ++ m.vertices.flatMap
      (fun vit => put_vect3 (m.deref vit).pos ++ put_vect3 (normal vit) ++ [Token.eol])
  ++ [Token.word "-", Token.num m.nb_triangles, Token.num m.nb_triangles,
      Token.num m.nb_triangles, Token.eol]
  ++ m.triangles.flatMap (fun tit => m.put_triangle tit ++ [Token.eol])

/-- The function `Mesh::save_bnd`. -/
def save_bnd (m : MeshData) : List Token :=
  [Token.word "#", Token.word "Bnd", Token.word "mesh", Token.word "file",
   Token.word "generated", Token.word "by", Token.word "OpenMeeg", Token.eol,
   Token.word "Type=", Token.word "Unknown", Token.eol,
   Token.word "NumberPositions=", Token.num m.nb_vertices, Token.eol,
   Token.word "UnitPosition", Token.word "mm", Token.eol,
   Token.word "Positions", Token.eol]
  ++ m.vertices.flatMap (fun vit => put_vect3 (m.deref vit).pos ++ [Token.eol])
  ++ [Token.word "NumberPolygons=", Token.num m.nb_triangles, Token.eol,
      Token.word "TypePolygons=", Token.num 3, Token.eol,
      Token.word "Polygons", Token.eol]
  ++ m.triangles.flatMap (fun tit => m.put_triangle tit ++ [Token.eol])

/-- The dispatch of `Mesh::save` on the file suffix. -/
def save (fmt : Format) (m : MeshData) (normal : Nat → Vect3) : List Token :=
  match fmt with
  | Format.tri => m.save_tri normal
  | Format.off => m.save_off
  | Format.bnd => m.save_bnd

end MeshData

/-! ## Copying, rebuilding the vertex list, flipping -/

namespace MeshData

/-- The function `Mesh::build_mesh_vertices`: the vertex list is emptied and receives
the vertices of the triangles, each at its first occurrence; the local set `mesh_v`
holds the same pointers as the list. -/
def build_mesh_vertices (m : MeshData) : MeshData :=
  let vertices := m.triangles.foldl
    (fun vs tit => tit.vertices.foldl
      (fun vs sit => if vs.contains sit then vs else vs ++ [sit]) vs) []
  { m with vertices := vertices }

/-- The function `Mesh::flip_triangles`. -/
def flip_triangles (m : MeshData) : MeshData :=
  { m with triangles := m.triangles.map Triangle.flip }

/-- The first loop of the branch `m.allocate_` of `Mesh::copy`: every vertex of the
vertex list of `m` is added, and `map[*vit] = *vertices_.rbegin()` records the last
pointer of the vertex list for it. A key that was never written reads as the null
pointer, `none`. -/
def copy_vertices (this m : MeshData) : MeshData × (Nat → Option Nat) :=
  m.vertices.foldl
    (fun (acc : MeshData × (Nat → Option Nat)) vit =>
      let d := acc.1.add_vertex (m.deref vit)
      (d, Function.update acc.2 vit d.vertices.getLast?))
    (this, fun _ => none)

/-- The function `Mesh::copy`, called on the mesh `this` with the source `m`;
`allocate` is the flag `m.allocate_`, set when `m` owns its vertex storage. In the
branch of an owning source the vertices are added to a new storage, the triangles are
rebuilt through the map and the mesh is updated; a triangle built from a null pointer
leaves the behaviour of the update undefined. In the other branch the storage and the
set of `m` are taken over and the triangles of `m` are appended. -/
def copy (this m : MeshData) (allocate : Bool) : LoadResult MeshData :=
  if allocate then
    let r := copy_vertices { this with all_vertices := [] } m
    let ts := m.triangles.map (fun tit => (r.2 tit.s1, r.2 tit.s2, r.2 tit.s3))
    if ts.all (fun t => t.1.isSome && t.2.1.isSome && t.2.2.isSome) then
      let built : List Triangle := ts.map (fun t => ⟨t.1.getD 0, t.2.1.getD 0, t.2.2.getD 0⟩)
      match MeshData.update ⟨r.1.all_vertices, r.1.vertices, r.1.set_vertices,
          r.1.triangles ++ built⟩ with
      | some d => LoadResult.returned d
      | none => LoadResult.unfinished
    else LoadResult.undefined
  else
    LoadResult.returned
      ⟨m.all_vertices, this.vertices, m.set_vertices, this.triangles ++ m.triangles⟩

end MeshData

/-! ## The return value of a load and the numbering -/

/-- What `Mesh::load` reads and writes of a `Mesh`: the vertices and triangles `data`,
whether a vertex storage is attached (`all_vertices_ != 0`), the flag `allocate_`, and
the index stored in each triangle, by position. -/
structure MeshState where
  data : MeshData
  storage : Bool
  allocate : Bool
  tri_index : List Nat
deriving DecidableEq

namespace MeshState

/-- The function `Mesh::destroy`: the storage is deleted when the mesh owns it, the
triangles are cleared and with them their indices, the pointer `all_vertices_` is set
to 0, the vertex list and the set are cleared and the flag `allocate_` is cleared. The
name, the links and the flag `outermost_`, which are cleared too, are not part of the
state that `Mesh::load` reads. -/
def destroy (s : MeshState) : MeshState :=
  { s with
    data := { all_vertices := [], vertices := [], set_vertices := [], triangles := [] }
    storage := false
    allocate := false
    tri_index := [] }

/-- The first statement of `Mesh::load`: `if ( size() != 0 ) destroy();`, where `size()`
is the number of triangles. -/
def destroy_if_filled (s : MeshState) : MeshState :=
  if s.data.triangles.length ≠ 0 then s.destroy else s

/-- The second loop that ends `Mesh::load`: the triangle at position `index` receives
the index `index`. -/
def generate_triangle_indices (n : Nat) (tri_index : List Nat) : List Nat :=
  (List.range n).foldl (fun idx index => idx.set index index) tri_index

/-- The function `Mesh::load`, with its return value. With `read_all` and no storage
attached, the function first calls itself without `read_all` for the number of vertices,
attaches a new storage and sets `allocate_`. Then the loader of the format runs; with
`read_all` the mesh is updated and, when `allocate_` is set, the vertices and the
triangles are numbered. A triangle appended by the loader holds the index `tdflt` until
it is numbered. -/
def load (fmt : Format) (dflt : Vertex) (tdflt : Nat) (file : List Token) (s : MeshState)
    (read_all : Bool) : LoadResult (Nat × MeshState) :=
  let s := s.destroy_if_filled
  let first : LoadResult MeshState :=
    if read_all && !s.storage then
      match MeshData.load_format fmt s.data dflt file false with
      | LoadResult.returned r =>
        LoadResult.returned ⟨⟨[], r.2.vertices, r.2.set_vertices, r.2.triangles⟩, true, true,
          s.tri_index⟩
      | LoadResult.assertion_failed tag => LoadResult.assertion_failed tag
      | LoadResult.unfinished => LoadResult.unfinished
      | LoadResult.undefined => LoadResult.undefined
    else LoadResult.returned s
  match first with
  | LoadResult.assertion_failed tag => LoadResult.assertion_failed tag
  | LoadResult.unfinished => LoadResult.unfinished
  | LoadResult.undefined => LoadResult.undefined
  | LoadResult.returned s =>
    match MeshData.load_format fmt s.data dflt file read_all with
    | LoadResult.assertion_failed tag => LoadResult.assertion_failed tag
    | LoadResult.unfinished => LoadResult.unfinished
    | LoadResult.undefined => LoadResult.undefined
    | LoadResult.returned r =>
      if read_all then
        match r.2.update with
        | none => LoadResult.unfinished
        | some d =>
          let idx := s.tri_index ++ List.replicate (d.triangles.length - s.tri_index.length) tdflt
          if s.allocate then
            LoadResult.returned (r.1, ⟨d.generate_indices, s.storage, s.allocate,
              generate_triangle_indices d.triangles.length idx⟩)
          else LoadResult.returned (r.1, ⟨d, s.storage, s.allocate, idx⟩)
      else LoadResult.returned (r.1, ⟨r.2, s.storage, s.allocate, s.tri_index⟩)

/-- A mesh as its constructor leaves it: no vertex, no triangle, no storage. -/
def fresh : MeshState := ⟨MeshData.empty, false, false, []⟩

end MeshState

/-! ## Smoothing -/

/-- How `Mesh::smooth` ends: with the smoothed mesh; with a read of `new_pts[i]` at an
index `i` that is not smaller than the length of `new_pts`, for which the language
defines no behaviour; or without the orientation loop of `update()` having ended. -/
inductive SmoothResult where
  | returned (m : MeshData)
  | out_of_range
  | unfinished
deriving DecidableEq

namespace MeshData

/-- The insertion into a `std::set<Vertex>`: a vertex whose coordinates are those of an
element of the set is not inserted. -/
def set_insert (s : List Vertex) (v : Vertex) : List Vertex :=
  if s.all (fun w => decide (w.pos ≠ v.pos)) then s ++ [v] else s

/-- The first loop of `Mesh::smooth`: the sets `neighbors[i]`, one for each vertex of the
vertex list. For the triangles linked to the vertex, a vertex of the triangle is inserted
when it is equal (`==`) to the vertex itself. -/
def smooth_neighbors (m : MeshData) (links : Nat → List Nat) : List (List Vertex) :=
  m.vertices.map (fun vit =>
    (links vit).foldl (fun s tit =>
      (List.range 3).foldl (fun s k =>
        let w := m.deref ((m.triangles.getD tit default).get k)
        if w.pos = (m.deref vit).pos then set_insert s w else s) s) [])

/-- The innermost loop of the accumulation in `Mesh::smooth`, over the elements `it` of
`neighbors[i]`: `new_pts[i]` is read and written. `blend cur it vit size` stands for the
value `cur + (smoothing_intensity * (it - vit)) / size`; `none` is a read outside
`new_pts`. -/
def smooth_add (blend : Vertex → Vertex → Vertex → Nat → Vertex) (vit : Vertex)
    (size i : Nat) : List Vertex → List Vertex → Option (List Vertex)
  | [], new_pts => some new_pts
  | it :: rest, new_pts =>
    match new_pts[i]? with
    | none => none
    | some cur => smooth_add blend vit size i rest (new_pts.set i (blend cur it vit size))

/-- The accumulation loop of one pass of `Mesh::smooth` over the vertex list, from the
counter `i`: the vertex is appended to `new_pts`, then `new_pts[i]` is moved once for
every element of `neighbors[i]`. The result is the counter and `new_pts` after the
loop. -/
def smooth_accumulate (blend : Vertex → Vertex → Vertex → Nat → Vertex)
    (neighbors : List (List Vertex)) (store : List Vertex) :
    List Nat → Nat → List Vertex → Option (Nat × List Vertex)
  | [], i, new_pts => some (i, new_pts)
  | vit :: rest, i, new_pts =>
    match smooth_add blend (store.getD vit default) (neighbors.getD i []).length i
        (neighbors.getD i []) (new_pts ++ [store.getD vit default]) with
    | none => none
    | some new_pts => smooth_accumulate blend neighbors store rest (i + 1) new_pts

/-- The write-back loop of one pass of `Mesh::smooth`: for every vertex of the vertex
list, `**vit = new_pts[i]` with the counter `i` as the accumulation loop left it, then
`new_pts.clear()`. The result is `new_pts` and the vertex storage after the loop. -/
def smooth_write_back (i : Nat) :
    List Nat → List Vertex → List Vertex → Option (List Vertex × List Vertex)
  | [], new_pts, store => some (new_pts, store)
  | vit :: rest, new_pts, store =>
    match new_pts[i]? with
    | none => none
    | some v => smooth_write_back i rest [] (store.set vit v)

/-- One pass of the loop `for n < niter` of `Mesh::smooth` on the pair of `new_pts` and
the vertex storage. -/
def smooth_pass (blend : Vertex → Vertex → Vertex → Nat → Vertex)
    (neighbors : List (List Vertex)) (vertices : List Nat) (st : List Vertex × List Vertex) :
    Option (List Vertex × List Vertex) :=
  match smooth_accumulate blend neighbors st.2 vertices 0 st.1 with
  | none => none
  | some r => smooth_write_back r.1 vertices r.2 st.2

/-- The loop `for n < niter` of `Mesh::smooth`. -/
def smooth_passes (blend : Vertex → Vertex → Vertex → Nat → Vertex)
    (neighbors : List (List Vertex)) (vertices : List Nat) :
    Nat → List Vertex × List Vertex → Option (List Vertex × List Vertex)
  | 0, st => some st
  | niter + 1, st =>
    match smooth_pass blend neighbors vertices st with
    | none => none
    | some st => smooth_passes blend neighbors vertices niter st

/-- The function `Mesh::smooth`; `links` is the map `links_`, and `new_pts` starts with
`nb_vertices()` default-constructed vertices `dflt`. -/
def smooth (m : MeshData) (blend : Vertex → Vertex → Vertex → Nat → Vertex) (dflt : Vertex)
    (links : Nat → List Nat) (niter : Nat) : SmoothResult :=
  match smooth_passes blend (m.smooth_neighbors links) m.vertices niter
      (List.replicate m.nb_vertices dflt, m.all_vertices) with
  | none => SmoothResult.out_of_range
  | some st =>
    match MeshData.update ⟨st.2, m.vertices, m.set_vertices, m.triangles⟩ with
    | none => SmoothResult.unfinished
    | some m' => SmoothResult.returned m'

end MeshData

/-! ## Text input and output of symmetric matrices -/

/-- A `double` as far as the text of a matrix file tells its values apart: a finite
value, an infinity of either sign, or a NaN. -/
inductive Double where
  | finite (x : ℚ)
  | infinite (negative : Bool)
  | nan
deriving DecidableEq

/-- A field of a line of a matrix text file: a word that the extraction `buffer >> x`
of a `double` accepts, given by the value that the extraction yields, or any other
word. -/
inductive Field where
  | num (x : ℚ)
  | word (s : String)
deriving DecidableEq

/-- Modelled from the spec: what `AsciiIO` reads and writes of a `LinOp` whose storage
is symmetric, a `SymMatrix` (linop.h and symmatrix.h are not among the sources): the
dimensions `nlin()` and `ncol()` and the array `data()` of the "packed-symmetric" linear
storage, of which the matrix owns the first `nlin (nlin + 1) / 2` cells. -/
structure SymLinOp where
  nlin : Nat
  ncol : Nat
  data : Nat → Double

/-- The index expression `i+j*(j+1)/2` of `read_symmetric` and `write_symmetric`. -/
def packed_index (i j : Nat) : Nat := i + j * (j + 1) / 2

/-- How `AsciiIO::read` ends for a symmetric matrix: with the matrix read; with the
exception `"Error parsing"`; or with a write to `data()` outside the storage, for which
the language defines no behaviour. -/
inductive AsciiRead (α : Type) where
  | done (a : α)
  | error_parsing
  | outside_storage

/-- The insertion `os << x` of a `double`, with the formatting of the stream, which the
source does not set. A finite value is written as a decimal number of the precision of
the stream, and `shown x` is the value that this number has when it is extracted as a
`double`: the text need not denote `x` itself. An infinity and a NaN are written as the
words `inf`, `-inf` and `nan`, which the extraction of a `double` does not accept. -/
def put_double (shown : ℚ → ℚ) : Double → Field
  | Double.finite x => Field.num (shown x)
  | Double.infinite false => Field.word "inf"
  | Double.infinite true => Field.word "-inf"
  | Double.nan => Field.word "nan"

/-- The function `AsciiIO::write_symmetric`. The text is the sequence of its lines, a
line the sequence of its fields: the entry is followed by a tab, or by the end of the
line after the entry of column `ncol() - 1`; a row without entry writes nothing. -/
def write_symmetric (shown : ℚ → ℚ) (M : SymLinOp) : List (List Field) :=
  ((List.range M.nlin).map (fun i =>
    (List.range' i (M.ncol - i)).map
      (fun j => put_double shown (M.data (packed_index i j))))).filter
        (fun line => decide (line ≠ []))

/-- The loop `while(!buffer.fail()) { buffer >> s; linop.ncol()++; }` of
`AsciiIO::read` on the fields of the first line: the number of extractions, of which the
last one fails. -/
def count_extractions : List Field → Nat
  | [] => 1
  | _ :: rest => count_extractions rest + 1

/-- The loop `for j` of `read_symmetric` on the line `i`, with `count` columns left from
column `j`: each extraction of a number is stored at the packed index. An extraction
that fails, at the end of the line or on a word that is not a number, makes the function
throw after the loop. -/
def read_symmetric_row (size i : Nat) :
    Nat → Nat → List Field → (Nat → Double) → AsciiRead (Nat → Double)
  | 0, _, _, data => AsciiRead.done data
  | count + 1, j, Field.num x :: rest, data =>
    if packed_index i j < size then
      read_symmetric_row size i count (j + 1) rest
        (Function.update data (packed_index i j) (Double.finite x))
    else AsciiRead.outside_storage
  | _ + 1, _, _, _ => AsciiRead.error_parsing

/-- The loop `for i` of `read_symmetric` over the lines `rows`, read one after the
other from the start of the text (a line past the end of the text reads as an empty
line). -/
def read_symmetric_rows (text : List (List Field)) (size ncol : Nat) :
    List Nat → (Nat → Double) → AsciiRead (Nat → Double)
  | [], data => AsciiRead.done data
  | i :: rows, data =>
    match read_symmetric_row size i (ncol - i) i (text.getD i []) data with
    | AsciiRead.done data => read_symmetric_rows text size ncol rows data
    | AsciiRead.error_parsing => AsciiRead.error_parsing
    | AsciiRead.outside_storage => AsciiRead.outside_storage

/-- The function `AsciiIO::read_symmetric` on a matrix whose dimensions are set.
Modelled from the spec: `alloc_data()` (symmatrix.h) creates the `nlin (nlin + 1) / 2`
cells of the packed storage; `fresh` is the content of the new storage. -/
def read_symmetric (text : List (List Field)) (nlin ncol : Nat) (fresh : Nat → Double) :
    AsciiRead SymLinOp :=
  match read_symmetric_rows text (nlin * (nlin + 1) / 2) ncol (List.range nlin) fresh with
  | AsciiRead.done data => AsciiRead.done ⟨nlin, ncol, data⟩
  | AsciiRead.error_parsing => AsciiRead.error_parsing
  | AsciiRead.outside_storage => AsciiRead.outside_storage

/-- The function `AsciiIO::read` for a matrix with symmetric storage: the number of
columns is the number of fields of the first line, the number of lines is the number of
non-empty lines of the text, then `read_symmetric` reads the entries. -/
def AsciiIO_read (text : List (List Field)) (fresh : Nat → Double) : AsciiRead SymLinOp :=
  let ncol := count_extractions (text.headD []) - 1
  let nlin := (text.filter (fun line => decide (line ≠ []))).length
  read_symmetric text nlin ncol fresh

/-- The function `AsciiIO::write` for a matrix with symmetric storage. -/
def AsciiIO_write (shown : ℚ → ℚ) (M : SymLinOp) : List (List Field) :=
  write_symmetric shown M

/-! # Part 2: the notions the properties are stated with -/

/-- Number of sides of `t` that go from `x` to `y` in the winding of `t`. -/
def Triangle.trav (t : Triangle) (x y : Nat) : Nat :=
  (if t.s1 = x ∧ t.s2 = y then 1 else 0) + (if t.s2 = x ∧ t.s3 = y then 1 else 0)
    + (if t.s3 = x ∧ t.s1 = y then 1 else 0)

/-- Number of triangle sides of the mesh that go from `x` to `y`. -/
def Mesh.traversals (m : Mesh) (x y : Nat) : Nat :=
  (m.triangles.map (fun t => t.trav x y)).sum

/-- A triangle with three distinct vertices. -/
def Triangle.proper (t : Triangle) : Prop := t.s1 ≠ t.s2 ∧ t.s2 ≠ t.s3 ∧ t.s1 ≠ t.s3

instance (t : Triangle) : Decidable t.proper := by unfold Triangle.proper; infer_instance

/-- The number of vertices `u` shares with `t`: how many of the three vertex slots of
`u` hold a vertex of `t`. -/
def Triangle.shared (t u : Triangle) : Nat := (u.vertices.filter (fun v => t.contains v)).length

/-- The winding of `t` goes from `x` directly to `y`: `(x, y)` is one of the three
sides of `t`, traversed in this direction. -/
def Triangle.traverses (t : Triangle) (x y : Nat) : Prop :=
  (t.s1 = x ∧ t.s2 = y) ∨ (t.s2 = x ∧ t.s3 = y) ∨ (t.s3 = x ∧ t.s1 = y)

instance (t : Triangle) (x y : Nat) : Decidable (t.traverses x y) := by
  unfold Triangle.traverses; infer_instance

/-- Two triangles traverse some common side in the same direction. -/
def Triangle.common (t u : Triangle) : Prop :=
  u.traverses t.s1 t.s2 ∨ u.traverses t.s2 t.s3 ∨ u.traverses t.s3 t.s1

instance (t u : Triangle) : Decidable (t.common u) := by
  unfold Triangle.common; infer_instance

/-- Membership of a vertex among the three slots. -/
def Triangle.has (t : Triangle) (x : Nat) : Prop := t.s1 = x ∨ t.s2 = x ∨ t.s3 = x

instance (t : Triangle) (x : Nat) : Decidable (t.has x) := by
  unfold Triangle.has; infer_instance

/-- Two triangles of the mesh, given by position, share exactly two vertices. -/
def Mesh.adjacent (m : Mesh) (p q : Nat) : Prop :=
  p < m.triangles.length ∧ q < m.triangles.length ∧ (m.tri p).shared (m.tri q) = 2

instance (m : Mesh) (p q : Nat) : Decidable (m.adjacent p q) := by
  unfold Mesh.adjacent; infer_instance

/-- Every triangle can be reached from the first one through a chain of triangles in
which consecutive ones share exactly two vertices. -/
def Mesh.Connected (m : Mesh) : Prop :=
  ∀ p, p < m.triangles.length → Relation.ReflTransGen m.adjacent 0 p

/-- Each edge belongs to at most two triangles. -/
def Mesh.EdgeManifold (m : Mesh) : Prop :=
  ∀ x y, x ≠ y → (m.triangles.filter (fun t => t.contains x && t.contains y)).length ≤ 2

/-- The triangle list in which the winding of the triangles at the positions selected
by `F` is reversed (`k` is the position of the head of the list). -/
def reverseFrom (F : Nat → Bool) : Nat → List Triangle → List Triangle
  | _, [] => []
  | k, t :: rest => (if F k then t.flip else t) :: reverseFrom F (k + 1) rest

/-- The mesh in which the subset `F` of the triangles has reversed winding. -/
def Mesh.reverse_subset (m : Mesh) (F : Nat → Bool) : Mesh :=
  { m with triangles := reverseFrom F 0 m.triangles }

/-- The addresses that are a vertex of some triangle of the mesh. -/
def Mesh.isVertex (m : Mesh) (a : Nat) : Prop := ∃ t ∈ m.triangles, t.has a

/-- Distinct vertices of the mesh have distinct coordinates. -/
def Mesh.DistinctPositions (m : Mesh) : Prop :=
  ∀ a b, m.isVertex a → m.isVertex b → (m.vertex a).pos = (m.vertex b).pos → a = b

/-- The triangles the traversal of `correct_local_orientation` reaches from the seed
(the keys of `tri_reoriented` when the loop ends). -/
def Mesh.reached (m : Mesh) : Option (List Nat) :=
  (Mesh.orient_adjacent_triangles m.triangles.length
    { mesh := m, t_stack := [0], tri_reoriented := [0] }).map (fun s => s.tri_reoriented)

/-- The number of triangle sides that join `x` and `y`, in either direction. -/
def Mesh.sideCount (m : Mesh) (x y : Nat) : Nat := m.traversals x y + m.traversals y x

/-- The key under which `compute_edge_map` files the edge between `x` and `y`. -/
def Mesh.edgeKey (m : Mesh) (x y : Nat) : Nat × Nat :=
  if (m.vertex x).index > (m.vertex y).index then (x, y) else (y, x)

/-- The condition under which the specification has `has_self_intersection` return
true: the overlap predicate holds for at least one pair of triangles that share no
vertex. -/
def Mesh.some_disjoint_pair_overlaps (m : Mesh)
    (overlap : Vect3 → Vect3 → Vect3 → Vect3 → Vect3 → Vect3 → Bool) : Prop :=
  ∃ p1 p2, p1 < m.triangles.length ∧ p2 < m.triangles.length
    ∧ (m.tri p1).shared (m.tri p2) = 0
    ∧ m.triangle_intersection overlap (m.tri p1) (m.tri p2) = true

/-- The number of Surfaces of an Interface that have both `i` and `j` among the indices
of their vertices. -/
def Interface_pair_count (I : List Surface) (i j : Nat) : Nat :=
  (I.filter (fun s => decide (i ∈ s.vertex_indices ∧ j ∈ s.vertex_indices))).length

/-- The matrix of `assemble_HM` just before the deflation step. -/
def assemble_HM_before_deflat (ops : OpCall → (Nat → Nat → ℚ) → (Nat → Nat → ℚ))
    (geo : Geometry) (fresh : Nat → Nat → ℚ) (K : ℚ) (gauss_order : Nat) : SymMatrix :=
  (assemble_HM_calls geo K gauss_order).foldl (SymMatrix.apply ops) (assemble_HM_init geo fresh)

/-- The constant handed to `deflat` by `assemble_HM`: the entry `(i_first, i_first)` of
the matrix before deflation, divided by the number of vertices of the outermost
Interface. -/
def assemble_HM_deflat_coef (ops : OpCall → (Nat → Nat → ℚ) → (Nat → Nat → ℚ))
    (geo : Geometry) (fresh : Nat → Nat → ℚ) (K : ℚ) (gauss_order : Nat) : ℚ :=
  let i := geo.outermost_interface
  let i_first := ((i.head?).bind (fun s => s.vertex_indices.head?)).getD 0
  (assemble_HM_before_deflat ops geo fresh K gauss_order).get i_first i_first
    / (Interface_nb_vertices i : ℚ)

/-- The deflation as both `assemble_HM` and `assemble_cortical` call it: `deflat` on the
outermost Interface, with the entry of the first vertex of that Interface divided by its
number of vertices. -/
def deflate_outermost (geo : Geometry) (M : SymMatrix) : SymMatrix :=
  let i := geo.outermost_interface
  let i_first := ((i.head?).bind (fun s => s.vertex_indices.head?)).getD 0
  deflat M i (M.get i_first i_first / (Interface_nb_vertices i : ℚ))

/-- The sequence of calls of the specification of `assemble_cortical`: the calls of
`assemble_HM` with every call for the pair (cortex, cortex) removed. -/
def assemble_HM_calls_without_cortex (geo : Geometry) (K : ℚ) (gauss_order : Nat)
    (cortex : Surface) : List OpCall :=
  (assemble_HM_calls geo K gauss_order).filter
    (fun c => !(decide (c.m1 = cortex) && decide (c.m2 = cortex)))

/-- The rows the specification has the row-removal keep: those whose index is neither a
cortex vertex index nor a cortex triangle index, in increasing order. -/
def non_cortex_rows (cortex : Surface) (Nc : Nat) : List Nat :=
  (List.range Nc).filter
    (fun i => decide (i ∉ cortex.vertex_indices ∧ i ∉ cortex.triangle_indices))

/-- The sample points the specification retains: those whose enclosing Domain is not
"Air", in input order. -/
def retained_points (geo_domain : Vect3 → Domain) (points : List Vect3) : List Vect3 :=
  points.filter (fun p => decide ((geo_domain p).name ≠ "Air"))

/-- The retained points numbered 0, 1, ... in input order, as vertices. -/
def numbered_points (geo_domain : Vect3 → Domain) (points : List Vect3) : List Vertex :=
  (retained_points geo_domain points).enum.map (fun e => ⟨e.2, e.1⟩)

/-- The points stored for a Domain in the map `m_points` (none for an absent key). -/
def points_of (m_points : List (Domain × List Vertex)) (domain : Domain) : List Vertex :=
  match m_points with
  | [] => []
  | (k, vs) :: rest => if k = domain then vs else points_of rest domain

/-- The coordinates of the three vertices of a triangle, in the order of its winding. -/
def MeshData.positions_of (m : MeshData) (t : Triangle) : List Vect3 :=
  [(m.deref t.s1).pos, (m.deref t.s2).pos, (m.deref t.s3).pos]

/-- The coordinates of the vertices of the mesh, in the order of its vertex list. -/
def MeshData.vertex_positions (m : MeshData) : List Vect3 :=
  m.vertices.map (fun a => (m.deref a).pos)

/-- Every triangle refers to vertices of the vertex list of the mesh. -/
def MeshData.Closed (m : MeshData) : Prop :=
  ∀ t ∈ m.triangles, t.s1 ∈ m.vertices ∧ t.s2 ∈ m.vertices ∧ t.s3 ∈ m.vertices

instance (m : MeshData) : Decidable m.Closed := by unfold MeshData.Closed; infer_instance

/-- No edge is traversed in the same direction by two triangle sides of the mesh. -/
def MeshData.Consistent (m : MeshData) : Prop := ∀ x y, m.toMesh.traversals x y ≤ 1

/-- The ordered pairs of positions `(a, b)` of a Geometry of `n` Surfaces in which the
Surface at `b` is the Surface at `a` or precedes it, in lexicographic order. -/
def lower_pairs (n : Nat) : List (Nat × Nat) :=
  ((List.range n).product (List.range n)).filter (fun p => decide (p.2 ≤ p.1))

/-- The calls that `assemble_HM` issues for the pair of Surfaces at the positions
`p`. -/
def calls_at (geo : Geometry) (K : ℚ) (gauss_order : Nat) (p : Nat × Nat) : List OpCall :=
  match geo.meshes[p.1]?, geo.meshes[p.2]? with
  | some A, some B => pair_calls geo K gauss_order A B
  | _, _ => []

/-- The direct conductivity term `orientation * sigma(A,B) / (4 pi)`. -/
def direct_term (geo : Geometry) (K : ℚ) (A B : Surface) : ℚ :=
  geo.oriented A B * geo.sigma A B * K

/-- The ratio `sigma(A,B) / sigma_inv(A,B)`. -/
def sigma_ratio (geo : Geometry) (A B : Surface) : ℚ := geo.sigma A B / geo.sigma_inv A B

/-- The calls of `calls`: `c` is issued after some call of kind `S`. -/
def after_S (calls : List OpCall) (c : OpCall) : Prop :=
  ∃ pre post, calls = pre ++ c :: post ∧ ∃ s ∈ pre, s.kind = OpKind.S

/-- The rules of order of the calls issued for one pair of Surfaces: the kinds follow
the order S, D, `D*`, N; an N call is the last call; and the coefficient of an N call is
the ratio after an S call of the pair, or the direct term without any S call of the
pair. -/
def OrderedCalls (geo : Geometry) (K : ℚ) (A B : Surface) (calls : List OpCall) : Prop :=
  (calls.map OpCall.kind).Sublist [OpKind.S, OpKind.D, OpKind.Dstar, OpKind.N]
    ∧ (∀ c ∈ calls, c.m1 = A ∧ c.m2 = B)
    ∧ ∀ c ∈ calls, c.kind = OpKind.N →
        calls.getLast? = some c
          ∧ ((c.coeff = sigma_ratio geo A B ∧ after_S calls c)
            ∨ (c.coeff = direct_term geo K A B ∧ ∀ s ∈ calls, s.kind ≠ OpKind.S))

/-- Two different triangles of the mesh traverse a common side in the same direction. -/
def Mesh.same_direction_pair (m : Mesh) : Prop :=
  ∃ p q, p < q ∧ q < m.triangles.length ∧ (m.tri p).common (m.tri q)

/-- The mesh with other vertices, and so other vertex indices, behind the same
addresses. -/
def Mesh.with_vertices (m : Mesh) (vertex : Nat → Vertex) : Mesh := { m with vertex := vertex }

/-- The number of triangles the edge between `x` and `y` belongs to: the triangles that
have both `x` and `y` among their vertices. -/
def Mesh.edgeCount (m : Mesh) (x y : Nat) : Nat :=
  (m.triangles.filter (fun t => t.contains x && t.contains y)).length

/-- The number of vertices `u` has in common with `t`: the number of different vertices
of `u` that are vertices of `t`. -/
def Triangle.shared_vertices (t u : Triangle) : Nat :=
  ((u.vertices.filter (fun v => t.contains v)).dedup).length

/-! # Part 3: auxiliary notions of the proofs -/

/-- The summed vote of the edge map at the key `(x, y)`, in closed form. -/
def Mesh.vote (m : Mesh) (x y : Nat) : Int :=
  (if (m.vertex x).index > (m.vertex y).index then (m.traversals x y : Int) else 0)
    - (if (m.vertex y).index ≤ (m.vertex x).index then (m.traversals y x : Int) else 0)

/-- What one triangle side from `p` to `q` adds to the vote stored at key `k`. -/
def sideVote (m : Mesh) (p q : Nat) (k : Nat × Nat) : Int :=
  if (m.vertex p).index > (m.vertex q).index then (if (p, q) = k then 1 else 0)
  else (if (q, p) = k then -1 else 0)

/-- The three sides of one triangle. -/
def triVote (m : Mesh) (t : Triangle) (k : Nat × Nat) : Int :=
  sideVote m t.s1 t.s2 k + sideVote m t.s2 t.s3 k + sideVote m t.s3 t.s1 k

/-- The key under which `compute_edge_map` files a triangle side from `p` to `q`. -/
def sideKey (m : Mesh) (p q : Nat) : Nat × Nat :=
  if (m.vertex p).index > (m.vertex q).index then (p, q) else (q, p)

/-- One of the three sides of `t` is filed under the key `k`. -/
def triKey (m : Mesh) (t : Triangle) (k : Nat × Nat) : Prop :=
  sideKey m t.s1 t.s2 = k ∨ sideKey m t.s2 t.s3 = k ∨ sideKey m t.s3 t.s1 = k

instance (m : Mesh) (t : Triangle) (k : Nat × Nat) : Decidable (triKey m t k) := by
  unfold triKey; infer_instance

/-- The count stored for key `k` in the counter `mapt` (0 for an absent key). -/
def tally (mapt : List (Nat × Nat)) (k : Nat) : Nat :=
  match mapt with
  | [] => 0
  | (k', c) :: rest => if k' = k then c else tally rest k

/-- Well-formedness of the counter: strictly increasing keys, positive counts. -/
def TallyOK (mapt : List (Nat × Nat)) : Prop :=
  (mapt.map Prod.fst).Pairwise (· < ·) ∧ ∀ e ∈ mapt, 0 < e.2

/-- The keys over which `adjacent_triangles` counts: the triangles linked to the three
slots of `t`. -/
def Mesh.linked (m : Mesh) (t : Triangle) : List Nat :=
  m.links t.s1 ++ m.links t.s2 ++ m.links t.s3

/-- Distinct vertices of the two triangles have distinct coordinates. -/
def PosInjOn (m : Mesh) (t u : Triangle) : Prop :=
  ∀ a b, t.has a → u.has b → (m.vertex a).pos = (m.vertex b).pos → a = b

/-- The facts about the loop state of `orient_adjacent_triangles` that hold for every
mesh `m` it is started on. -/
structure Basic (m : Mesh) (s : Mesh.OrientState) : Prop where
  vertex_eq : s.mesh.vertex = m.vertex
  links_eq : s.mesh.links = m.links
  length_eq : s.mesh.triangles.length = m.triangles.length
  tri_cases : ∀ p, s.mesh.tri p = m.tri p ∨ s.mesh.tri p = (m.tri p).flip
  unmarked : ∀ p, p ∉ s.tri_reoriented → s.mesh.tri p = m.tri p
  marked_lt : ∀ p ∈ s.tri_reoriented, p < m.triangles.length
  marked_nodup : s.tri_reoriented.Nodup
  stack_sub : ∀ p ∈ s.t_stack, p ∈ s.tri_reoriented

/-- The number of iterations the `while` loop can still make. -/
def Mesh.OrientState.budget (n : Nat) (s : Mesh.OrientState) : Nat :=
  (n - s.tri_reoriented.length) + s.t_stack.length

/-- A triangle, or the triangle with reversed winding. -/
def orient (b : Bool) (t : Triangle) : Triangle := if b then t else t.flip

/-- What the orientation proof assumes of the mesh `m` the loop is started on, relative
to a reference list `σ` of consistently wound triangles. -/
structure Reference (m : Mesh) (σ : List Triangle) : Prop where
  links : m.links = Mesh.make_links m.triangles
  length_eq : σ.length = m.triangles.length
  proper : ∀ p, p < m.triangles.length → (m.tri p).proper
  posinj : ∀ p q, p < m.triangles.length → q < m.triangles.length →
    PosInjOn m (m.tri p) (m.tri q)
  ref : ∀ p, p < m.triangles.length →
    m.tri p = σ.getD p default ∨ m.tri p = (σ.getD p default).flip
  cons : ∀ p q, p < m.triangles.length → q < m.triangles.length → p ≠ q →
    ¬ (σ.getD p default).common (σ.getD q default)

/-- The invariant of the traversal: every triangle reached so far is wound as in the
reference (`b = true`) or opposite to it (`b = false`), and every reached triangle that
left the stack has all its adjacent triangles reached. -/
structure Oriented (m : Mesh) (σ : List Triangle) (b : Bool) (s : Mesh.OrientState) :
    Prop where
  seed : 0 ∈ s.tri_reoriented
  agree : ∀ p ∈ s.tri_reoriented, s.mesh.tri p = orient b (σ.getD p default)
  closed : ∀ p ∈ s.tri_reoriented, p ∈ s.t_stack ∨
    ∀ q ∈ m.adjacent_triangles (m.tri p), q ∈ s.tri_reoriented

/-- The invariant inside the `for` loop over the adjacent triangles of the popped
triangle `t`. -/
structure OrientedAt (m : Mesh) (σ : List Triangle) (b : Bool) (t : Nat)
    (s : Mesh.OrientState) : Prop where
  seed : 0 ∈ s.tri_reoriented
  popped : t ∈ s.tri_reoriented
  agree : ∀ p ∈ s.tri_reoriented, s.mesh.tri p = orient b (σ.getD p default)
  closed : ∀ p ∈ s.tri_reoriented, p ∈ s.t_stack ∨ p = t ∨
    ∀ q ∈ m.adjacent_triangles (m.tri p), q ∈ s.tri_reoriented

/-- No side is traversed in the same direction by two triangles of the list. -/
def Consistent (ts : List Triangle) : Prop := ts.Pairwise (fun t u => ¬ t.common u)

/-- The pair `e` of `deflat` addresses the cell of the entry `(i, j)`. -/
def hitsCell (i j : Nat) (e : Nat × Nat) : Bool :=
  decide ((e.1 = i ∧ e.2 = j) ∨ (e.1 = j ∧ e.2 = i))

/-- The state of a mesh that was filled by `add_vertex` only: the set and the storage
hold the same vertices, every stored vertex is in the vertex list, in storage order, and
no two stored vertices have the same coordinates. -/
structure Filled (m : MeshData) : Prop where
  set_eq : m.set_vertices = m.all_vertices
  vertices_eq : m.vertices = List.range m.all_vertices.length
  nodup : (m.all_vertices.map (fun v => v.pos)).Nodup

/-- The triangle of the vertex numbers written for `t` by the writers. -/
def MeshData.numbered (m : MeshData) (t : Triangle) : Triangle :=
  ⟨MeshData.vertex_map m.vertices t.s1, MeshData.vertex_map m.vertices t.s2,
   MeshData.vertex_map m.vertices t.s3⟩

/-- The mesh a loader builds from the file written for `m`, before `Mesh::update`: the
vertices of the vertex list of `m`, default-constructed but for their coordinates, and
the triangles of their numbers. -/
def MeshData.reloaded (m : MeshData) (dflt : Vertex) : MeshData :=
  ⟨m.vertices.map (fun a => { dflt with pos := (m.deref a).pos }),
   List.range m.vertices.length,
   m.vertices.map (fun a => { dflt with pos := (m.deref a).pos }),
   m.triangles.map m.numbered⟩

/-! # Part 4: example inputs -/

/-- A vertex store in which the vertex at address `a` has index `a` and position
`(a, 0, 0)`. -/
def plainVertex (a : Nat) : Vertex := ⟨⟨a, 0, 0⟩, a⟩

/-- A mesh over `plainVertex` with up-to-date links. -/
def mkMesh (ts : List Triangle) : Mesh :=
  { vertex := plainVertex, triangles := ts, links := Mesh.make_links ts }

/-- The 4-vertex, 2-triangle strip, second triangle with reversed winding. -/
def stripReversed : Mesh := mkMesh [⟨0, 1, 2⟩, ⟨1, 2, 3⟩]

/-- Two disjoint parts: a single triangle, and two triangles that traverse their common
edge in the same direction. -/
def islandMesh : Mesh := mkMesh [⟨0, 1, 2⟩, ⟨3, 4, 5⟩, ⟨3, 4, 6⟩]

/-- A Moebius band of five triangles: connected, each edge in at most two triangles,
but without any consistent winding. -/
def moebiusMesh : Mesh := mkMesh [⟨0, 1, 2⟩, ⟨1, 2, 3⟩, ⟨2, 3, 4⟩, ⟨3, 4, 0⟩, ⟨4, 0, 1⟩]

/-- A consistently wound fan of four triangles around vertex 0 together with a triangle
that has vertex 0 twice. -/
def pinchedFan : Mesh := mkMesh [⟨0, 1, 2⟩, ⟨0, 2, 3⟩, ⟨0, 3, 4⟩, ⟨0, 0, 1⟩, ⟨0, 4, 5⟩]

/-- The vertex store of `plainVertex`, except that vertex 3 has the coordinates of
vertex 1. -/
def twinVertex (a : Nat) : Vertex := if a = 3 then ⟨⟨1, 0, 0⟩, 3⟩ else plainVertex a

/-- Three consistently wound triangles with three distinct vertices each; the vertices
1 and 3 are distinct but have the same coordinates. -/
def twinMesh : Mesh :=
  { vertex := twinVertex
    triangles := [⟨0, 1, 2⟩, ⟨1, 0, 3⟩, ⟨2, 1, 4⟩]
    links := Mesh.make_links [⟨0, 1, 2⟩, ⟨1, 0, 3⟩, ⟨2, 1, 4⟩] }

/-- The 4-vertex, 2-triangle strip with consistent winding. -/
def stripMesh : Mesh := mkMesh [⟨0, 1, 2⟩, ⟨2, 1, 3⟩]

/-- The boundary of a tetrahedron, consistently wound. -/
def tetraMesh : Mesh := mkMesh [⟨0, 1, 2⟩, ⟨0, 3, 1⟩, ⟨0, 2, 3⟩, ⟨1, 3, 2⟩]

/-- A strip with reversed second triangle next to a separate pair of triangles that
traverse their common edge in the same direction. -/
def twoPartMesh : Mesh := mkMesh [⟨0, 1, 2⟩, ⟨1, 2, 3⟩, ⟨4, 5, 6⟩, ⟨4, 5, 7⟩]

/-- The tetrahedron boundary with its second and fourth triangle reversed. -/
def tetraReversed : Mesh := mkMesh [⟨0, 1, 2⟩, ⟨3, 0, 1⟩, ⟨0, 2, 3⟩, ⟨3, 1, 2⟩]

/-- Two triangles without a common vertex, the second piercing the first. -/
def crossingMesh : Mesh :=
  { vertex := fun a =>
      match a with
      | 0 => ⟨⟨0, 0, 0⟩, 0⟩
      | 1 => ⟨⟨4, 0, 0⟩, 1⟩
      | 2 => ⟨⟨0, 4, 0⟩, 2⟩
      | 3 => ⟨⟨1, 1, -1⟩, 3⟩
      | 4 => ⟨⟨1, 1, 1⟩, 4⟩
      | _ => ⟨⟨2, 2, 1⟩, 5⟩
    triangles := [⟨0, 1, 2⟩, ⟨3, 4, 5⟩]
    links := Mesh.make_links [⟨0, 1, 2⟩, ⟨3, 4, 5⟩] }

/-- The inner Surface of the two-shell Geometry: 12 vertices and 12 triangles. -/
def innerShell : Surface :=
  ⟨"cortex", false, List.range 12, (List.range 12).map (fun i => i + 24)⟩

/-- The outermost Surface of the two-shell Geometry: 12 vertices and 12 triangles. -/
def outerShell : Surface :=
  ⟨"scalp", true, (List.range 12).map (fun i => i + 12), (List.range 12).map (fun i => i + 36)⟩

/-- A two-shell Geometry: the inner Surface bounds a domain of conductivity 1, the
shell between the two Surfaces has conductivity 1/3. For a pair of Surfaces, `sigma`,
`sigma_inv` and `indicator` add up the conductivity, its inverse and 1 over the domains
both Surfaces bound; `o` is the value of `oriented`. -/
def twoShell (o : Int) : Geometry :=
  { meshes := [innerShell, outerShell]
    nb_vertices := 24
    oriented := fun _ _ => o
    sigma := fun a b => if a = innerShell ∧ b = innerShell then 4 / 3 else 1 / 3
    sigma_inv := fun a b => if a = innerShell ∧ b = innerShell then 4 else 3
    indicator := fun a b => if a = innerShell ∧ b = innerShell then 2 else 1 }

/-- One of two patches that make up an outermost Interface: vertices 0 and 1. -/
def patchA : Surface := ⟨"patchA", true, [0, 1], [4]⟩

/-- The other patch: vertices 2 and 3. -/
def patchB : Surface := ⟨"patchB", true, [2, 3], [5]⟩

/-- A Geometry whose outermost Interface is made of the two patches. -/
def twoPatch : Geometry :=
  { meshes := [patchA, patchB]
    nb_vertices := 4
    oriented := fun _ _ => 1
    sigma := fun _ _ => 1
    sigma_inv := fun _ _ => 1
    indicator := fun _ _ => 1 }

/-- Operator evaluators that add their coefficient to every cell. -/
def addCoeff (c : OpCall) (d : Nat → Nat → ℚ) : Nat → Nat → ℚ := fun a b => d a b + c.coeff

/-- A source Domain without any bounding Interface. -/
def unboundedDomain : Domain := ⟨"Brain", 1, []⟩

/-- A source Domain bounded by two Interfaces. -/
def twoInterfaceDomain : Domain := ⟨"Brain", 1, [([innerShell], true), ([outerShell], false)]⟩

/-- A source Domain bounded by one Interface made of two Surfaces. -/
def twoSurfaceDomain : Domain := ⟨"Brain", 1, [([patchA, patchB], true)]⟩

/-- A cortex with vertex indices 1, 2 and triangle indices 4, 5. -/
def smallCortex : Surface := ⟨"cortex", false, [1, 2], [4, 5]⟩

/-- A symmetric matrix with the entry `10 * i + j` at `(i, j)`, `i ≤ j`. -/
def sampleSym : SymMatrix := ⟨7, fun i j => 10 * i + j⟩

/-- The exchange of the two coordinates, an orthogonal matrix. -/
def swapMat : Mat ℚ 2 2 := fun i j => if i = j then 0 else 1

/-- The singular values of the example: one row, with the value 2 on the diagonal. -/
def rowSigma : Mat ℚ 1 2 := fun _ j => if j.val = 0 then 2 else 0

/-- The reduced matrix of the example, `(0 2)`, the product of the 1 x 1 identity,
`rowSigma` and the transpose of `swapMat`. -/
def rowA : Mat ℚ 1 2 := fun _ j => if j.val = 0 then 0 else 2

/-- The Domain inside the inner Surface of the two-shell Geometry, with conductivity
`c`. -/
def brainDomain (c : ℚ) : Domain := ⟨"Brain", c, [([innerShell], true)]⟩

/-- A sample point stored with index 0. -/
def samplePoint : Vertex := ⟨⟨1, 2, 3⟩, 0⟩

/-- Four vertices with distinct coordinates, stored with the indices 0 to 3. -/
def squareVertices : List Vertex :=
  [⟨⟨0, 0, 0⟩, 0⟩, ⟨⟨1, 0, 0⟩, 1⟩, ⟨⟨0, 1, 0⟩, 2⟩, ⟨⟨1, 1, 0⟩, 3⟩]

/-- A strip of two triangles over the four vertices, the second triangle wound against
the first. -/
def stripData : MeshData := ⟨squareVertices, [0, 1, 2, 3], [], [⟨0, 1, 2⟩, ⟨1, 2, 3⟩]⟩

/-- The consistently wound strip of two triangles over the four vertices. -/
def goodStrip : MeshData := ⟨squareVertices, [0, 1, 2, 3], [], [⟨0, 1, 2⟩, ⟨2, 1, 3⟩]⟩

/-- One triangle over five vertices, of which the first two have the same
coordinates. -/
def twinData : MeshData :=
  ⟨[⟨⟨0, 0, 0⟩, 0⟩, ⟨⟨0, 0, 0⟩, 1⟩, ⟨⟨1, 0, 0⟩, 2⟩, ⟨⟨0, 1, 0⟩, 3⟩, ⟨⟨1, 1, 0⟩, 4⟩],
    [0, 1, 2, 3, 4], [], [⟨1, 2, 3⟩]⟩

/-- The content of a default-constructed vertex in the examples. -/
def blankVertex : Vertex := ⟨⟨9, 9, 9⟩, 0⟩

/-- A Geometry of three nested Surfaces in which the innermost and the outermost do not
communicate. -/
def threeShell : Geometry :=
  { meshes := [innerShell, ⟨"skull", false, [], []⟩, outerShell]
    nb_vertices := 24
    oriented := fun a b =>
      if (a = innerShell ∧ b = outerShell) ∨ (a = outerShell ∧ b = innerShell) then 0 else 1
    sigma := fun _ _ => 1
    sigma_inv := fun _ _ => 2
    indicator := fun _ _ => 1 }

/-- A single triangle whose vertices have the indices 0, 1, 2 in the order of its
winding. -/
def oneTriangle : Mesh := mkMesh [⟨0, 1, 2⟩]

/-- The strip whose second triangle is reversed, with the index 0 in all its vertices,
as it is when `Mesh::load` runs `update()`. -/
def stripUnindexed : Mesh := stripReversed.with_vertices (fun a => ⟨⟨a, 0, 0⟩, 0⟩)

/-- Two triangles on the edge between the vertices 0 and 1, of which the second has the
vertex 0 twice; the vertex at the address `a` has the index `a`. -/
def repeatedVertexPair : Mesh := mkMesh [⟨0, 1, 2⟩, ⟨0, 1, 0⟩]

/-- Two triangles on the edge between the vertices 0 and 1, of which the second has the
vertex 1 twice; the vertex at the address `a` has the index `a`. -/
def foldedPair : Mesh := mkMesh [⟨0, 1, 2⟩, ⟨1, 0, 1⟩]

/-- An off file that declares three vertices, of which the first two have the same
coordinates, and one triangle of the vertices 0, 1, 2. -/
def twinOff : List Token :=
  [Token.word "OFF", Token.eol, Token.num 3, Token.num 1, Token.num 0, Token.eol,
   Token.num 0, Token.num 0, Token.num 0, Token.eol,
   Token.num 0, Token.num 0, Token.num 0, Token.eol,
   Token.num 1, Token.num 0, Token.num 0, Token.eol,
   Token.num 3, Token.num 0, Token.num 1, Token.num 2, Token.eol]

/-- A tri file that declares four vertices, of which the first two have the same
coordinates, and one triangle of the vertices 0, 1, 2. -/
def twinTri : List Token :=
  [Token.word "-", Token.num 4, Token.eol,
   Token.num 0, Token.num 0, Token.num 0, Token.num 0, Token.num 0, Token.num 1, Token.eol,
   Token.num 0, Token.num 0, Token.num 0, Token.num 0, Token.num 0, Token.num 1, Token.eol,
   Token.num 1, Token.num 0, Token.num 0, Token.num 0, Token.num 0, Token.num 1, Token.eol,
   Token.num 0, Token.num 1, Token.num 0, Token.num 0, Token.num 0, Token.num 1, Token.eol,
   Token.word "-", Token.num 1, Token.num 1, Token.num 1, Token.eol,
   Token.num 0, Token.num 1, Token.num 2, Token.eol]

/-- A mesh of one triangle with two of its three vertices in the vertex list. -/
def twoVertexData : MeshData :=
  ⟨[⟨⟨0, 0, 0⟩, 0⟩, ⟨⟨1, 0, 0⟩, 1⟩, ⟨⟨0, 1, 0⟩, 2⟩], [0, 1], [], [⟨0, 1, 2⟩]⟩

/-- A mesh whose vertex list holds one vertex, at coordinates (5, 5, 5). -/
def oneVertexData : MeshData := ⟨[⟨⟨5, 5, 5⟩, 0⟩], [0], [], []⟩

/-- A symmetric matrix of dimension 3 with the packed entries 1, 2, 3, 4, 5, 6. -/
def sampleSymLinOp : SymLinOp := ⟨3, 3, fun k => Double.finite ((k : ℚ) + 1)⟩

/-- A symmetric matrix of dimension 1 whose entry is a NaN. -/
def nanSymLinOp : SymLinOp := ⟨1, 1, fun _ => Double.nan⟩

/-- A symmetric matrix of dimension 1 whose entry is the infinity. -/
def infSymLinOp : SymLinOp := ⟨1, 1, fun _ => Double.infinite false⟩

/-- A symmetric matrix of dimension 1 with the entry 1234567. -/
def longSymLinOp : SymLinOp := ⟨1, 1, fun _ => Double.finite 1234567⟩

/-- The value of the number written for a value of seven digits before the point by a
formatting of six significant digits, the precision of a stream that was not set: the
value rounded to a multiple of ten. The number written for 1234567 is `1.23457e+06`. -/
def shown_tens (x : ℚ) : ℚ := (Int.floor (x / 10 + 1 / 2) : ℚ) * 10

/-! # Theorems -/

/-! ### The edge map of `compute_edge_map` -/

namespace EdgeMap

theorem value_assign (mape : EdgeMap) (k : Nat × Nat) (v : Int) (k' : Nat × Nat) :
    value (assign mape k v) k' = if k = k' then v else value mape k' := by
  induction mape with
  | nil => simp [assign, value]
  | cons e rest ih =>
    obtain ⟨k0, w⟩ := e
    by_cases h : k0 = k
    · subst h
      by_cases h' : k0 = k' <;> simp [assign, value, h']
    · by_cases h' : k0 = k'
      · subst h'
        have : ¬ k = k0 := fun e => h e.symm
        simp [assign, value, h, this]
      · simp [assign, value, h, h', ih]

theorem value_eq_zero_of_count (mape : EdgeMap) (k : Nat × Nat) (h : count mape k = 0) :
    value mape k = 0 := by
  induction mape with
  | nil => simp [value]
  | cons e rest ih =>
    obtain ⟨k0, w⟩ := e
    by_cases h' : k0 = k
    · simp [count, h'] at h
    · simp [count, h'] at h
      simp [value, h', ih h]

theorem keys_assign (mape : EdgeMap) (k : Nat × Nat) (v : Int) :
    (assign mape k v).map Prod.fst
      = if k ∈ mape.map Prod.fst then mape.map Prod.fst else mape.map Prod.fst ++ [k] := by
  induction mape with
  | nil => simp [assign]
  | cons e rest ih =>
    obtain ⟨k0, w⟩ := e
    by_cases h : k0 = k
    · subst h; simp [assign]
    · have h2 : ¬ k = k0 := fun e => h e.symm
      simp only [assign, h, if_false, List.map_cons, ih, List.mem_cons, h2, false_or]
      split_ifs <;> simp

theorem nodup_keys_assign (mape : EdgeMap) (k : Nat × Nat) (v : Int)
    (h : (mape.map Prod.fst).Nodup) : ((assign mape k v).map Prod.fst).Nodup := by
  rw [keys_assign]
  split_ifs with hk
  · exact h
  · rw [List.nodup_append]
    refine ⟨h, List.nodup_singleton k, ?_⟩
    intro a ha hb
    simp at hb
    subst hb
    exact hk ha

theorem value_of_mem (mape : EdgeMap) (h : (mape.map Prod.fst).Nodup) (e : (Nat × Nat) × Int)
    (he : e ∈ mape) : value mape e.1 = e.2 := by
  induction mape with
  | nil => simp at he
  | cons e0 rest ih =>
    obtain ⟨k0, w⟩ := e0
    simp only [List.map_cons, List.nodup_cons] at h
    rcases List.mem_cons.1 he with rfl | hmem
    · simp [value]
    · have hne : ¬ k0 = e.1 := by
        intro hk
        apply h.1
        rw [hk]
        exact List.mem_map_of_mem Prod.fst hmem
      simp [value, hne, ih h.2 hmem]

theorem value_mem_or_zero (mape : EdgeMap) (k : Nat × Nat) :
    value mape k = 0 ∨ (k, value mape k) ∈ mape := by
  induction mape with
  | nil => simp [value]
  | cons e0 rest ih =>
    obtain ⟨k0, w⟩ := e0
    by_cases h : k0 = k
    · subst h; simp [value]
    · rcases ih with h0 | h1
      · left; simp [value, h, h0]
      · right; simp [value, h, h1]

end EdgeMap

theorem Mesh.edge_vote_value (m : Mesh) (t : Triangle) (mape : EdgeMap) (j : Nat)
    (k : Nat × Nat) :
    (m.edge_vote t mape j).value k = mape.value k + sideVote m (t.get j) (t.get (j + 1)) k := by
  unfold Mesh.edge_vote sideVote
  by_cases h : (m.vertex (t.get j)).index > (m.vertex (t.get (j + 1))).index
  · simp only [h, if_true]
    by_cases hc : mape.count (t.get j, t.get (j + 1)) = 0
    · simp only [hc, if_true, EdgeMap.value_assign]
      split_ifs with hk
      · rw [← hk, EdgeMap.value_eq_zero_of_count _ _ hc]; simp
      · simp
    · simp only [hc, if_false, EdgeMap.value_assign]
      split_ifs with hk
      · rw [← hk]
      · simp
  · simp only [h, if_false]
    by_cases hc : mape.count (t.get (j + 1), t.get j) = 0
    · simp only [hc, if_true, EdgeMap.value_assign]
      split_ifs with hk
      · rw [← hk, EdgeMap.value_eq_zero_of_count _ _ hc]; simp
      · simp
    · simp only [hc, if_false, EdgeMap.value_assign]
      split_ifs with hk
      · rw [← hk]; ring
      · simp

theorem Mesh.edge_vote_nodup (m : Mesh) (t : Triangle) (mape : EdgeMap) (j : Nat)
    (h : (mape.map Prod.fst).Nodup) : ((m.edge_vote t mape j).map Prod.fst).Nodup := by
  unfold Mesh.edge_vote
  dsimp only
  split_ifs <;> exact EdgeMap.nodup_keys_assign _ _ _ h

theorem Mesh.tri_votes_value (m : Mesh) (t : Triangle) (mape : EdgeMap) (k : Nat × Nat) :
    ((List.range 3).foldl (m.edge_vote t) mape).value k = mape.value k + triVote m t k := by
  have h3 : List.range 3 = [0, 1, 2] := by decide
  simp only [h3, List.foldl_cons, List.foldl_nil, Mesh.edge_vote_value, triVote]
  have g0 : t.get 0 = t.s1 := rfl
  have g1 : t.get 1 = t.s2 := rfl
  have g2 : t.get 2 = t.s3 := rfl
  have g3 : t.get 3 = t.s1 := rfl
  simp only [g0, g1, g2, g3, Nat.zero_add, Nat.reduceAdd]
  ring

theorem Mesh.tri_votes_nodup (m : Mesh) (t : Triangle) (mape : EdgeMap)
    (h : (mape.map Prod.fst).Nodup) :
    (((List.range 3).foldl (m.edge_vote t) mape).map Prod.fst).Nodup := by
  have h3 : List.range 3 = [0, 1, 2] := by decide
  simp only [h3, List.foldl_cons, List.foldl_nil]
  exact Mesh.edge_vote_nodup _ _ _ _ (Mesh.edge_vote_nodup _ _ _ _ (Mesh.edge_vote_nodup _ _ _ _ h))

theorem fold_votes_value (m : Mesh) (ts : List Triangle) (mape : EdgeMap) (k : Nat × Nat) :
    (ts.foldl (fun mape t => (List.range 3).foldl (m.edge_vote t) mape) mape).value k
      = mape.value k + (ts.map (fun t => triVote m t k)).sum := by
  induction ts generalizing mape with
  | nil => simp
  | cons t rest ih =>
    simp only [List.foldl_cons, ih, Mesh.tri_votes_value, List.map_cons, List.sum_cons]
    ring

theorem fold_votes_nodup (m : Mesh) (ts : List Triangle) (mape : EdgeMap)
    (h : (mape.map Prod.fst).Nodup):
    ((ts.foldl (fun mape t => (List.range 3).foldl (m.edge_vote t) mape) mape).map
      Prod.fst).Nodup := by
  induction ts generalizing mape with
  | nil => simpa using h
  | cons t rest ih =>
    simp only [List.foldl_cons]
    exact ih _ (Mesh.tri_votes_nodup _ _ _ h)

theorem sideVote_eq (m : Mesh) (p q x y : Nat) :
    sideVote m p q (x, y)
      = (if (m.vertex x).index > (m.vertex y).index then
            ((if p = x ∧ q = y then 1 else 0 : Nat) : Int) else 0)
        - (if (m.vertex y).index ≤ (m.vertex x).index then
            ((if p = y ∧ q = x then 1 else 0 : Nat) : Int) else 0) := by
  simp only [sideVote, Prod.mk.injEq]
  by_cases h1 : p = x ∧ q = y
  · obtain ⟨rfl, rfl⟩ := h1
    by_cases h2 : p = q
    · subst h2; simp
    · have h3 : ¬ (q = p ∧ p = q) := fun h => h2 h.2
      have h4 : ¬ (p = q ∧ q = p) := fun h => h2 h.1
      simp only [h3, h4, and_self, if_true, if_false]
      split_ifs <;> simp
  · by_cases h2 : p = y ∧ q = x
    · obtain ⟨rfl, rfl⟩ := h2
      have h3 : ¬ (p = q ∧ q = p) := fun h => h1 h
      simp only [h3, and_self, if_true, if_false]
      split_ifs <;> simp <;> omega
    · have h3 : ¬ (q = x ∧ p = y) := fun h => h2 ⟨h.2, h.1⟩
      simp [h1, h2, h3]

theorem triVote_eq (m : Mesh) (t : Triangle) (x y : Nat) :
    triVote m t (x, y)
      = (if (m.vertex x).index > (m.vertex y).index then (t.trav x y : Int) else 0)
        - (if (m.vertex y).index ≤ (m.vertex x).index then (t.trav y x : Int) else 0) := by
  obtain ⟨a, b, c⟩ := t
  simp only [triVote, sideVote_eq, Triangle.trav]
  by_cases h1 : (m.vertex x).index > (m.vertex y).index
  · by_cases h2 : (m.vertex y).index ≤ (m.vertex x).index
    · simp only [h1, h2, if_true]; push_cast; ring
    · simp only [h1, h2, if_true, if_false]; push_cast; ring
  · by_cases h2 : (m.vertex y).index ≤ (m.vertex x).index
    · simp only [h1, h2, if_true, if_false]; push_cast; ring
    · simp only [h1, h2, if_false]; ring

theorem Mesh.value_compute_edge_map (m : Mesh) (x y : Nat) :
    m.compute_edge_map.value (x, y) = m.vote x y := by
  unfold Mesh.compute_edge_map Mesh.vote Mesh.traversals
  rw [fold_votes_value]
  simp only [EdgeMap.value, zero_add, triVote_eq]
  induction m.triangles with
  | nil => simp
  | cons t rest ih =>
    simp only [List.map_cons, List.sum_cons, ih]
    split_ifs <;> push_cast <;> ring

theorem Mesh.nodup_compute_edge_map (m : Mesh) :
    (m.compute_edge_map.map Prod.fst).Nodup :=
  fold_votes_nodup m m.triangles [] (by simp)

/-- The verdict of `has_correct_orientation` in terms of the closed-form votes. -/
theorem Mesh.has_correct_orientation_iff_vote (m : Mesh) :
    m.has_correct_orientation = true ↔ ∀ x y, (m.vote x y).natAbs ≠ 2 := by
  unfold Mesh.has_correct_orientation
  rw [List.all_eq_true]
  constructor
  · intro h x y
    rw [← Mesh.value_compute_edge_map]
    rcases EdgeMap.value_mem_or_zero m.compute_edge_map (x, y) with h0 | h1
    · rw [h0]; decide
    · simpa using h _ h1
  · intro h e he
    have := EdgeMap.value_of_mem _ m.nodup_compute_edge_map e he
    obtain ⟨⟨x, y⟩, v⟩ := e
    simp only at this
    rw [Mesh.value_compute_edge_map] at this
    simpa [← this] using h x y

namespace EdgeMap

theorem count_assign (mape : EdgeMap) (k : Nat × Nat) (v : Int) (k' : Nat × Nat) :
    count (assign mape k v) k' = if k = k' then 1 else count mape k' := by
  induction mape with
  | nil => simp [assign, count]
  | cons e rest ih =>
    obtain ⟨k0, w⟩ := e
    by_cases h : k0 = k
    · subst h
      by_cases h' : k0 = k' <;> simp [assign, count, h']
    · by_cases h' : k0 = k'
      · subst h'
        have : ¬ k = k0 := fun e => h e.symm
        simp [assign, count, h, this]
      · simp [assign, count, h, h', ih]

end EdgeMap

theorem Mesh.edge_vote_count (m : Mesh) (t : Triangle) (mape : EdgeMap) (j : Nat)
    (k : Nat × Nat) :
    (m.edge_vote t mape j).count k
      = if sideKey m (t.get j) (t.get (j + 1)) = k then 1 else mape.count k := by
  unfold Mesh.edge_vote sideKey
  by_cases h : (m.vertex (t.get j)).index > (m.vertex (t.get (j + 1))).index
  · simp only [h, if_true]
    split_ifs <;> simp_all [EdgeMap.count_assign]
  · simp only [h, if_false]
    split_ifs <;> simp_all [EdgeMap.count_assign]

theorem Mesh.tri_votes_count (m : Mesh) (t : Triangle) (mape : EdgeMap) (k : Nat × Nat) :
    ((List.range 3).foldl (m.edge_vote t) mape).count k
      = if triKey m t k then 1 else mape.count k := by
  have h3 : List.range 3 = [0, 1, 2] := by decide
  simp only [h3, List.foldl_cons, List.foldl_nil, Mesh.edge_vote_count, triKey]
  have g0 : t.get 0 = t.s1 := rfl
  have g1 : t.get 1 = t.s2 := rfl
  have g2 : t.get 2 = t.s3 := rfl
  have g3 : t.get 3 = t.s1 := rfl
  simp only [g0, g1, g2, g3, Nat.zero_add, Nat.reduceAdd]
  by_cases h1 : sideKey m t.s1 t.s2 = k <;> by_cases h2 : sideKey m t.s2 t.s3 = k <;>
    by_cases h3 : sideKey m t.s3 t.s1 = k <;> simp [h1, h2, h3]

theorem fold_votes_count (m : Mesh) (ts : List Triangle) (mape : EdgeMap) (k : Nat × Nat) :
    (ts.foldl (fun mape t => (List.range 3).foldl (m.edge_vote t) mape) mape).count k
      = if (∃ t ∈ ts, triKey m t k) then 1 else mape.count k := by
  induction ts generalizing mape with
  | nil => simp
  | cons t rest ih =>
    simp only [List.foldl_cons, ih, Mesh.tri_votes_count, List.mem_cons, exists_eq_or_imp]
    by_cases h1 : triKey m t k <;> by_cases h2 : ∃ t ∈ rest, triKey m t k <;> simp [h1, h2]

theorem triKey_iff (m : Mesh) (t : Triangle) (x y : Nat) :
    triKey m t (x, y) ↔
      ((m.vertex x).index > (m.vertex y).index ∧ 0 < t.trav x y)
      ∨ ((m.vertex y).index ≤ (m.vertex x).index ∧ 0 < t.trav y x) := by
  have side : ∀ p q, sideKey m p q = (x, y) ↔
      ((m.vertex x).index > (m.vertex y).index ∧ p = x ∧ q = y)
      ∨ ((m.vertex y).index ≤ (m.vertex x).index ∧ p = y ∧ q = x) := by
    intro p q
    unfold sideKey
    by_cases h : (m.vertex p).index > (m.vertex q).index
    · rw [if_pos h, Prod.mk.injEq]
      constructor
      · rintro ⟨rfl, rfl⟩
        exact Or.inl ⟨h, rfl, rfl⟩
      · rintro (⟨_, rfl, rfl⟩ | ⟨h2, rfl, rfl⟩)
        · exact ⟨rfl, rfl⟩
        · omega
    · rw [if_neg h, Prod.mk.injEq]
      constructor
      · rintro ⟨rfl, rfl⟩
        exact Or.inr ⟨by omega, rfl, rfl⟩
      · rintro (⟨h2, rfl, rfl⟩ | ⟨_, rfl, rfl⟩)
        · exact absurd h2 h
        · exact ⟨rfl, rfl⟩
  have pos : ∀ a b, 0 < t.trav a b ↔
      (t.s1 = a ∧ t.s2 = b) ∨ (t.s2 = a ∧ t.s3 = b) ∨ (t.s3 = a ∧ t.s1 = b) := by
    intro a b
    unfold Triangle.trav
    by_cases h1 : t.s1 = a ∧ t.s2 = b
    · rw [if_pos h1]
      exact ⟨fun _ => Or.inl h1, fun _ => by omega⟩
    · by_cases h2 : t.s2 = a ∧ t.s3 = b
      · rw [if_pos h2]
        exact ⟨fun _ => Or.inr (Or.inl h2), fun _ => by omega⟩
      · by_cases h3 : t.s3 = a ∧ t.s1 = b
        · rw [if_pos h3]
          exact ⟨fun _ => Or.inr (Or.inr h3), fun _ => by omega⟩
        · rw [if_neg h1, if_neg h2, if_neg h3]
          constructor
          · intro h; exact absurd h (by decide)
          · rintro (h | h | h)
            · exact absurd h h1
            · exact absurd h h2
            · exact absurd h h3
  unfold triKey
  rw [side, side, side, pos, pos]
  tauto

theorem sum_pos_iff_exists (ts : List Triangle) (f : Triangle → Nat) :
    0 < (ts.map f).sum ↔ ∃ t ∈ ts, 0 < f t := by
  induction ts with
  | nil => simp
  | cons a rest ih =>
    simp only [List.map_cons, List.sum_cons, List.mem_cons, exists_eq_or_imp, ← ih]
    omega

/-- The edge map has an entry under the key `(x, y)` exactly when some triangle side
is filed under it: a side from `x` to `y` when `x` has the higher index, or a side
from `y` to `x` when the index of `y` is not higher than that of `x`. -/
theorem Mesh.count_compute_edge_map (m : Mesh) (x y : Nat) :
    m.compute_edge_map.count (x, y)
      = if ((m.vertex x).index > (m.vertex y).index ∧ 0 < m.traversals x y)
          ∨ ((m.vertex y).index ≤ (m.vertex x).index ∧ 0 < m.traversals y x) then 1 else 0 := by
  unfold Mesh.compute_edge_map Mesh.traversals
  rw [fold_votes_count]
  simp only [EdgeMap.count, triKey_iff, sum_pos_iff_exists]
  congr 1
  apply propext
  constructor
  · rintro ⟨t, ht, h | h⟩
    · exact Or.inl ⟨h.1, t, ht, h.2⟩
    · exact Or.inr ⟨h.1, t, ht, h.2⟩
  · rintro (⟨h, t, ht, h2⟩ | ⟨h, t, ht, h2⟩)
    · exact ⟨t, ht, Or.inl ⟨h, h2⟩⟩
    · exact ⟨t, ht, Or.inr ⟨h, h2⟩⟩

/-! ### The counter of `adjacent_triangles` -/

theorem tally_eq_zero_of_lt (mapt : List (Nat × Nat)) (k : Nat)
    (h : ∀ e ∈ mapt, k < e.1) : tally mapt k = 0 := by
  induction mapt with
  | nil => rfl
  | cons e rest ih =>
    obtain ⟨k', c⟩ := e
    have h1 : k < k' := h (k', c) (List.mem_cons_self _ _)
    have h2 : ¬ k' = k := by omega
    simp only [tally, h2, if_false]
    exact ih (fun e he => h e (List.mem_cons_of_mem _ he))

theorem bump_keys_mem (mapt : List (Nat × Nat)) (k : Nat) (e : Nat × Nat)
    (he : e ∈ Mesh.bump mapt k) : e.1 = k ∨ e.1 ∈ mapt.map Prod.fst := by
  induction mapt with
  | nil => simp [Mesh.bump] at he; left; rw [he]
  | cons e0 rest ih =>
    obtain ⟨k', c⟩ := e0
    unfold Mesh.bump at he
    split_ifs at he with h1 h2
    · rcases List.mem_cons.1 he with rfl | h
      · right; simp
      · right; simp only [List.map_cons, List.mem_cons]; right
        exact List.mem_map_of_mem Prod.fst h
    · rcases List.mem_cons.1 he with rfl | h
      · left; rfl
      · right
        exact List.mem_map_of_mem Prod.fst h
    · rcases List.mem_cons.1 he with rfl | h
      · right; simp
      · rcases ih h with h3 | h3
        · left; exact h3
        · right; simp only [List.map_cons, List.mem_cons]; right; exact h3

theorem bump_ok (mapt : List (Nat × Nat)) (k : Nat) (h : TallyOK mapt) :
    TallyOK (Mesh.bump mapt k) := by
  induction mapt with
  | nil => simp [Mesh.bump, TallyOK]
  | cons e0 rest ih =>
    obtain ⟨k', c⟩ := e0
    obtain ⟨hs, hp⟩ := h
    simp only [List.map_cons, List.pairwise_cons] at hs
    have hrest : TallyOK rest := ⟨hs.2, fun e he => hp e (List.mem_cons_of_mem _ he)⟩
    unfold Mesh.bump
    split_ifs with h1 h2
    · refine ⟨by simpa using hs, ?_⟩
      intro e he
      rcases List.mem_cons.1 he with rfl | h
      · simp
      · exact hp e (List.mem_cons_of_mem _ h)
    · refine ⟨?_, ?_⟩
      · simp only [List.map_cons, List.pairwise_cons]
        refine ⟨?_, hs⟩
        intro a ha
        rcases List.mem_cons.1 ha with rfl | h
        · exact h2
        · exact lt_trans h2 (hs.1 a h)
      · intro e he
        rcases List.mem_cons.1 he with rfl | h
        · simp
        · exact hp e h
    · have ih' := ih hrest
      refine ⟨?_, ?_⟩
      · simp only [List.map_cons, List.pairwise_cons]
        refine ⟨?_, ih'.1⟩
        intro a ha
        obtain ⟨e, he, rfl⟩ := List.mem_map.1 ha
        rcases bump_keys_mem rest k e he with h3 | h3
        · rw [h3]; omega
        · exact hs.1 _ h3
      · intro e he
        rcases List.mem_cons.1 he with rfl | h
        · exact hp _ (List.mem_cons_self _ _)
        · exact ih'.2 e h

theorem tally_bump (mapt : List (Nat × Nat)) (k k' : Nat) (h : TallyOK mapt) :
    tally (Mesh.bump mapt k) k' = tally mapt k' + (if k = k' then 1 else 0) := by
  induction mapt with
  | nil => simp [Mesh.bump, tally]
  | cons e0 rest ih =>
    obtain ⟨k0, c⟩ := e0
    obtain ⟨hs, hp⟩ := h
    simp only [List.map_cons, List.pairwise_cons] at hs
    have hrest : TallyOK rest := ⟨hs.2, fun e he => hp e (List.mem_cons_of_mem _ he)⟩
    by_cases h1 : k = k0
    · subst h1
      by_cases h2 : k = k' <;> simp [Mesh.bump, tally, h2]
    · have h1' : ¬ k0 = k := fun e => h1 e.symm
      by_cases h3 : k < k0
      · have hz : tally rest k = 0 := by
          apply tally_eq_zero_of_lt
          intro e he
          exact lt_trans h3 (hs.1 _ (List.mem_map_of_mem Prod.fst he))
        by_cases h2 : k = k'
        · subst h2
          simp [Mesh.bump, tally, h1, h1', h3, hz]
        · simp [Mesh.bump, tally, h1, h3, h2]
      · by_cases h6 : k0 = k'
        · subst h6
          simp [Mesh.bump, tally, h1, h3]
        · simp only [Mesh.bump, h1, h3, if_false, tally, h6, ih hrest]

theorem fold_bump_ok (l : List Nat) (mapt : List (Nat × Nat)) (h : TallyOK mapt) :
    TallyOK (l.foldl Mesh.bump mapt) := by
  induction l generalizing mapt with
  | nil => exact h
  | cons a rest ih => exact ih _ (bump_ok _ _ h)

theorem tally_fold_bump (l : List Nat) (mapt : List (Nat × Nat)) (h : TallyOK mapt) (k : Nat) :
    tally (l.foldl Mesh.bump mapt) k = tally mapt k + l.count k := by
  induction l generalizing mapt with
  | nil => simp
  | cons a rest ih =>
    simp only [List.foldl_cons, ih _ (bump_ok _ _ h), tally_bump _ _ _ h, List.count_cons]
    by_cases hak : a = k
    · simp [hak]; omega
    · simp [hak]

theorem tally_of_mem (mapt : List (Nat × Nat)) (h : TallyOK mapt) (e : Nat × Nat)
    (he : e ∈ mapt) : tally mapt e.1 = e.2 := by
  induction mapt with
  | nil => simp at he
  | cons e0 rest ih =>
    obtain ⟨k0, c⟩ := e0
    obtain ⟨hs, hp⟩ := h
    simp only [List.map_cons, List.pairwise_cons] at hs
    have hrest : TallyOK rest := ⟨hs.2, fun e he => hp e (List.mem_cons_of_mem _ he)⟩
    rcases List.mem_cons.1 he with rfl | hmem
    · simp [tally]
    · have : k0 < e.1 := hs.1 _ (List.mem_map_of_mem Prod.fst hmem)
      have hne : ¬ k0 = e.1 := by omega
      simp only [tally, hne, if_false]
      exact ih hrest hmem

theorem mem_of_tally_pos (mapt : List (Nat × Nat)) (k : Nat) (h : 0 < tally mapt k) :
    (k, tally mapt k) ∈ mapt := by
  induction mapt with
  | nil => simp [tally] at h
  | cons e0 rest ih =>
    obtain ⟨k0, c⟩ := e0
    by_cases h0 : k0 = k
    · subst h0; simp [tally]
    · simp only [tally, h0, if_false] at h ⊢
      exact List.mem_cons_of_mem _ (ih h)

theorem Mesh.adjacent_triangles_eq (m : Mesh) (t : Triangle) :
    m.adjacent_triangles t
      = (((m.linked t).foldl Mesh.bump []).filter (fun e => decide (e.2 = 2))).map
          (fun e => e.1) := by
  simp [Mesh.adjacent_triangles, Mesh.linked, Triangle.vertices, List.foldl_append]

theorem tallyOK_nil : TallyOK [] := by simp [TallyOK]

/-- A triangle is returned by `adjacent_triangles` exactly when it was counted twice. -/
theorem Mesh.mem_adjacent_triangles (m : Mesh) (t : Triangle) (p : Nat) :
    p ∈ m.adjacent_triangles t ↔ (m.linked t).count p = 2 := by
  rw [Mesh.adjacent_triangles_eq]
  have hok := fold_bump_ok (m.linked t) [] tallyOK_nil
  have ht := tally_fold_bump (m.linked t) [] tallyOK_nil p
  simp only [tally, zero_add] at ht
  constructor
  · intro h
    obtain ⟨e, he, rfl⟩ := List.mem_map.1 h
    obtain ⟨hmem, h2⟩ := List.mem_filter.1 he
    have := tally_of_mem _ hok e hmem
    rw [← ht, this]
    simpa using h2
  · intro h
    rw [← ht] at h
    have hm := mem_of_tally_pos ((m.linked t).foldl Mesh.bump []) p (by omega)
    rw [h] at hm
    exact List.mem_map.2 ⟨(p, 2), List.mem_filter.2 ⟨hm, by simp⟩, rfl⟩

/-- The result of `adjacent_triangles` is in strictly increasing order. -/
theorem Mesh.adjacent_triangles_sorted (m : Mesh) (t : Triangle) :
    (m.adjacent_triangles t).Pairwise (· < ·) := by
  rw [Mesh.adjacent_triangles_eq]
  have hok := fold_bump_ok (m.linked t) [] tallyOK_nil
  have : List.Sublist
      ((((m.linked t).foldl Mesh.bump []).filter (fun e => decide (e.2 = 2))).map
          (fun e => e.1)) (((m.linked t).foldl Mesh.bump []).map Prod.fst) :=
    List.Sublist.map _ (List.filter_sublist _)
  exact List.Pairwise.sublist this hok.1

theorem count_flatMap_range (f : Nat → List Nat) (g : Nat → Nat) (p : Nat)
    (h : ∀ q, (f q).count p = if q = p then g q else 0) (n : Nat) :
    ((List.range n).flatMap f).count p = if p < n then g p else 0 := by
  induction n with
  | zero => simp
  | succ n ih =>
    rw [List.range_succ, List.flatMap_append, List.count_append, ih]
    simp only [List.flatMap_cons, List.flatMap_nil, List.append_nil, h]
    by_cases h1 : p < n
    · have : ¬ n = p := by omega
      have h2 : p < n + 1 := by omega
      simp [h1, this, h2]
    · by_cases h2 : n = p
      · subst h2; simp
      · have h3 : ¬ p < n + 1 := by omega
        simp [h1, h2, h3]

theorem count_map_const (l : List Nat) (q p : Nat) :
    (l.map (fun _ => q)).count p = if q = p then l.length else 0 := by
  induction l with
  | nil => simp
  | cons a rest ih =>
    simp only [List.map_cons, List.count_cons, ih, List.length_cons]
    by_cases h : q = p <;> simp [h]

theorem Mesh.count_make_links (ts : List Triangle) (v p : Nat) :
    (Mesh.make_links ts v).count p
      = if p < ts.length then (ts.getD p default).vertices.count v else 0 := by
  unfold Mesh.make_links
  apply count_flatMap_range
    (fun p => ((ts.getD p default).vertices.filter (fun s => decide (s = v))).map (fun _ => p))
    (fun q => (ts.getD q default).vertices.count v)
  intro q
  rw [count_map_const]
  have : ((ts.getD q default).vertices.filter (fun s => decide (s = v))).length
      = (ts.getD q default).vertices.count v := by
    rw [List.count_eq_countP, List.countP_eq_length_filter]
    congr 1
  rw [this]

theorem Triangle.count_sum_eq_shared (t u : Triangle) (ht : t.proper) :
    u.vertices.count t.s1 + u.vertices.count t.s2 + u.vertices.count t.s3 = t.shared u := by
  obtain ⟨a, b, c⟩ := t
  obtain ⟨d, e, f⟩ := u
  obtain ⟨h1, h2, h3⟩ := ht
  simp only at h1 h2 h3
  have key : ∀ x : Nat, ([x].count a + [x].count b + [x].count c)
      = ([x].filter (fun v => (⟨a, b, c⟩ : Triangle).contains v)).length := by
    intro x
    simp only [Triangle.contains, List.count_cons, List.count_nil, List.filter_cons,
      List.filter_nil, Bool.or_eq_true, decide_eq_true_eq, beq_iff_eq]
    have h1' : ¬ b = a := fun h => h1 h.symm
    have h2' : ¬ c = b := fun h => h2 h.symm
    have h3' : ¬ c = a := fun h => h3 h.symm
    by_cases ha : x = a
    · subst ha
      simp [h1, h3, h1', h3']
    · by_cases hb : x = b
      · subst hb
        simp [h1, h2, h1', h2']
      · by_cases hc : x = c
        · subst hc
          simp [h3, h2, h3', h2']
        · have ha' : ¬ a = x := fun h => ha h.symm
          have hb' : ¬ b = x := fun h => hb h.symm
          have hc' : ¬ c = x := fun h => hc h.symm
          simp [ha, hb, hc, ha', hb', hc']
  have kd := key d
  have ke := key e
  have kf := key f
  simp only [Triangle.shared, Triangle.vertices]
  have e1 : ∀ z : Nat, [d, e, f].count z = [d].count z + [e].count z + [f].count z := by
    intro z
    simp only [List.count_cons, List.count_nil]; omega
  have e2 : ([d, e, f].filter (fun v => (⟨a, b, c⟩ : Triangle).contains v)).length
      = ([d].filter (fun v => (⟨a, b, c⟩ : Triangle).contains v)).length
        + ([e].filter (fun v => (⟨a, b, c⟩ : Triangle).contains v)).length
        + ([f].filter (fun v => (⟨a, b, c⟩ : Triangle).contains v)).length := by
    have : [d, e, f] = [d] ++ [e] ++ [f] := rfl
    rw [this, List.filter_append, List.filter_append, List.length_append, List.length_append]
  rw [e1, e1, e1, e2]
  omega

/-- With links up to date, the number of times `adjacent_triangles` counts the triangle
at position `p`. -/
theorem Mesh.count_linked (m : Mesh) (t : Triangle) (p : Nat)
    (hlinks : m.links = Mesh.make_links m.triangles) :
    (m.linked t).count p
      = if p < m.triangles.length then
          (m.tri p).vertices.count t.s1 + (m.tri p).vertices.count t.s2
            + (m.tri p).vertices.count t.s3
        else 0 := by
  simp only [Mesh.linked, hlinks, List.count_append, Mesh.count_make_links, Mesh.tri]
  split_ifs <;> rfl

theorem Mesh.mem_adjacent_triangles_iff (m : Mesh) (t : Triangle) (p : Nat)
    (hlinks : m.links = Mesh.make_links m.triangles) (ht : t.proper) :
    p ∈ m.adjacent_triangles t ↔ p < m.triangles.length ∧ t.shared (m.tri p) = 2 := by
  rw [Mesh.mem_adjacent_triangles, Mesh.count_linked m t p hlinks]
  split_ifs with h
  · rw [Triangle.count_sum_eq_shared t _ ht]
    simp [h]
  · simp [h]

theorem list_eq_of_sorted_of_mem_iff (l₁ l₂ : List Nat) (h₁ : l₁.Pairwise (· < ·))
    (h₂ : l₂.Pairwise (· < ·)) (h : ∀ a, a ∈ l₁ ↔ a ∈ l₂) : l₁ = l₂ := by
  apply List.eq_of_perm_of_sorted (r := (· < ·)) _ h₁ h₂
  rw [List.perm_ext_iff_of_nodup]
  · exact h
  · exact h₁.imp (fun h => Nat.ne_of_lt h)
  · exact h₂.imp (fun h => Nat.ne_of_lt h)

theorem Mesh.adjacent_triangles_eq_filter (m : Mesh) (t : Triangle)
    (hlinks : m.links = Mesh.make_links m.triangles) (ht : t.proper) :
    m.adjacent_triangles t
      = (List.range m.triangles.length).filter (fun p => decide (t.shared (m.tri p) = 2)) := by
  apply list_eq_of_sorted_of_mem_iff
  · exact Mesh.adjacent_triangles_sorted m t
  · exact List.Pairwise.filter _ (List.pairwise_lt_range _)
  · intro a
    rw [Mesh.mem_adjacent_triangles_iff m t a hlinks ht]
    simp

/-! ### Winding of two triangles that share an edge -/

theorem Triangle.contains_iff (t : Triangle) (x : Nat) : t.contains x = true ↔ t.has x := by
  simp [Triangle.contains, Triangle.has, or_assoc]

theorem Triangle.common_iff_exists (t u : Triangle) :
    t.common u ↔ ∃ x y, t.traverses x y ∧ u.traverses x y := by
  constructor
  · intro h
    rcases h with h | h | h
    · exact ⟨t.s1, t.s2, Or.inl ⟨rfl, rfl⟩, h⟩
    · exact ⟨t.s2, t.s3, Or.inr (Or.inl ⟨rfl, rfl⟩), h⟩
    · exact ⟨t.s3, t.s1, Or.inr (Or.inr ⟨rfl, rfl⟩), h⟩
  · rintro ⟨x, y, h1, h2⟩
    rcases h1 with ⟨rfl, rfl⟩ | ⟨rfl, rfl⟩ | ⟨rfl, rfl⟩
    · exact Or.inl h2
    · exact Or.inr (Or.inl h2)
    · exact Or.inr (Or.inr h2)

theorem Triangle.traverses_has (t : Triangle) (x y : Nat) (h : t.traverses x y) :
    t.has x ∧ t.has y := by
  rcases h with ⟨rfl, rfl⟩ | ⟨rfl, rfl⟩ | ⟨rfl, rfl⟩ <;> simp [Triangle.has]

theorem Triangle.traverses_ne (t : Triangle) (ht : t.proper) (x y : Nat)
    (h : t.traverses x y) : x ≠ y := by
  obtain ⟨h1, h2, h3⟩ := ht
  rcases h with ⟨rfl, rfl⟩ | ⟨rfl, rfl⟩ | ⟨rfl, rfl⟩
  · exact h1
  · exact h2
  · exact fun e => h3 e.symm

theorem Triangle.traverses_flip (t : Triangle) (x y : Nat) :
    t.flip.traverses x y ↔ t.traverses y x := by
  simp only [Triangle.traverses, Triangle.flip]
  tauto

theorem Triangle.traverses_or (t : Triangle) (x y : Nat) (hx : t.has x)
    (hy : t.has y) (hxy : x ≠ y) : t.traverses x y ∨ t.traverses y x := by
  simp only [Triangle.traverses]
  rcases hx with rfl | rfl | rfl <;> rcases hy with rfl | rfl | rfl <;>
    first
    | exact absurd rfl hxy
    | tauto

theorem Triangle.not_traverses_both (t : Triangle) (ht : t.proper) (x y : Nat)
    (h1 : t.traverses x y) (h2 : t.traverses y x) : False := by
  obtain ⟨p1, p2, p3⟩ := ht
  rcases h1 with ⟨rfl, rfl⟩ | ⟨rfl, rfl⟩ | ⟨rfl, rfl⟩ <;>
    rcases h2 with ⟨h, h'⟩ | ⟨h, h'⟩ | ⟨h, h'⟩ <;>
    first
    | exact p1 h
    | exact p1 h.symm
    | exact p1 h'
    | exact p1 h'.symm
    | exact p2 h
    | exact p2 h.symm
    | exact p2 h'
    | exact p2 h'.symm
    | exact p3 h
    | exact p3 h.symm
    | exact p3 h'
    | exact p3 h'.symm

theorem Triangle.shared_eq (t u : Triangle) :
    t.shared u = (if t.has u.s1 then 1 else 0) + (if t.has u.s2 then 1 else 0)
      + (if t.has u.s3 then 1 else 0) := by
  simp only [Triangle.shared, Triangle.vertices, List.filter_cons, List.filter_nil,
    Triangle.contains_iff]
  by_cases h1 : t.has u.s1 <;> by_cases h2 : t.has u.s2 <;> by_cases h3 : t.has u.s3 <;>
    simp [h1, h2, h3]

/-- Two proper triangles that share exactly two vertices: the two shared vertices. -/
theorem Triangle.shared_two (t u : Triangle) (hu : u.proper) (h : t.shared u = 2) :
    ∃ x y, x ≠ y ∧ t.has x ∧ t.has y ∧ u.has x ∧ u.has y
      ∧ ∀ z, t.has z → u.has z → z = x ∨ z = y := by
  rw [Triangle.shared_eq] at h
  obtain ⟨p1, p2, p3⟩ := hu
  by_cases h1 : t.has u.s1 <;> by_cases h2 : t.has u.s2 <;> by_cases h3 : t.has u.s3 <;>
    simp only [h1, h2, h3, if_true, if_false] at h <;>
    first
    | omega
    | skip
  · refine ⟨u.s1, u.s2, p1, h1, h2, Or.inl rfl, Or.inr (Or.inl rfl), ?_⟩
    intro z hz hu
    rcases hu with rfl | rfl | rfl
    · exact Or.inl rfl
    · exact Or.inr rfl
    · exact absurd hz h3
  · refine ⟨u.s1, u.s3, p3, h1, h3, Or.inl rfl, Or.inr (Or.inr rfl), ?_⟩
    intro z hz hu
    rcases hu with rfl | rfl | rfl
    · exact Or.inl rfl
    · exact absurd hz h2
    · exact Or.inr rfl
  · refine ⟨u.s2, u.s3, p2, h2, h3, Or.inr (Or.inl rfl), Or.inr (Or.inr rfl), ?_⟩
    intro z hz hu
    rcases hu with rfl | rfl | rfl
    · exact absurd hz h1
    · exact Or.inl rfl
    · exact Or.inr rfl

theorem Triangle.common_flip_iff (t u : Triangle) (ht : t.proper) (hu : u.proper)
    (h : t.shared u = 2) : t.common u.flip ↔ ¬ t.common u := by
  rw [Triangle.common_iff_exists, Triangle.common_iff_exists]
  obtain ⟨x, y, hxy, tx, ty, ux, uy, hall⟩ := Triangle.shared_two t u hu h
  constructor
  · rintro ⟨p, q, h1, h2⟩ ⟨p', q', h3, h4⟩
    rw [Triangle.traverses_flip] at h2
    have hp := hall p (t.traverses_has _ _ h1).1 (u.traverses_has _ _ h2).2
    have hq := hall q (t.traverses_has _ _ h1).2 (u.traverses_has _ _ h2).1
    have hp' := hall p' (t.traverses_has _ _ h3).1 (u.traverses_has _ _ h4).1
    have hq' := hall q' (t.traverses_has _ _ h3).2 (u.traverses_has _ _ h4).2
    have n1 := t.traverses_ne ht _ _ h1
    have n2 := t.traverses_ne ht _ _ h3
    rcases hp with rfl | rfl <;> rcases hq with rfl | rfl <;>
      rcases hp' with rfl | rfl <;> rcases hq' with rfl | rfl <;>
      first
      | exact absurd rfl n1
      | exact absurd rfl n2
      | exact u.not_traverses_both hu _ _ h2 h4
      | exact t.not_traverses_both ht _ _ h1 h3
  · intro hn
    rcases t.traverses_or x y tx ty hxy with h1 | h1
    · rcases u.traverses_or x y ux uy hxy with h2 | h2
      · exact absurd ⟨x, y, h1, h2⟩ hn
      · exact ⟨x, y, h1, (u.traverses_flip x y).2 h2⟩
    · rcases u.traverses_or x y ux uy hxy with h2 | h2
      · exact ⟨y, x, h1, (u.traverses_flip y x).2 h2⟩
      · exact absurd ⟨y, x, h1, h2⟩ hn

theorem Triangle.common_flip_flip (t u : Triangle) : t.flip.common u.flip ↔ t.common u := by
  rw [Triangle.common_iff_exists, Triangle.common_iff_exists]
  constructor
  · rintro ⟨x, y, h1, h2⟩
    exact ⟨y, x, (t.traverses_flip x y).1 h1, (u.traverses_flip x y).1 h2⟩
  · rintro ⟨x, y, h1, h2⟩
    exact ⟨y, x, (t.traverses_flip y x).2 h1, (u.traverses_flip y x).2 h2⟩

theorem Triangle.flip_flip (t : Triangle) : t.flip.flip = t := rfl

theorem Triangle.proper_flip (t : Triangle) (h : t.proper) : t.flip.proper := by
  obtain ⟨h1, h2, h3⟩ := h
  exact ⟨fun e => h1 e.symm, h3, h2⟩

theorem Triangle.has_flip (t : Triangle) (x : Nat) : t.flip.has x ↔ t.has x := by
  simp only [Triangle.has, Triangle.flip]; tauto

theorem Triangle.shared_flip_right (t u : Triangle) : t.shared u.flip = t.shared u := by
  rw [Triangle.shared_eq, Triangle.shared_eq]
  simp only [Triangle.flip]
  omega

theorem Triangle.shared_flip_left (t u : Triangle) : t.flip.shared u = t.shared u := by
  rw [Triangle.shared_eq, Triangle.shared_eq]
  simp only [Triangle.has_flip]

theorem Triangle.next_traverses (t : Triangle) (v w : Nat) (h : t.next v = some w) :
    t.traverses v w := by
  unfold Triangle.next Triangle.vertex_index at h
  unfold Triangle.traverses
  split_ifs at h with h1 h2 h3
  · simp only [Option.map_some', Option.some.injEq] at h
    exact Or.inl ⟨h1, h⟩
  · simp only [Option.map_some', Option.some.injEq] at h
    exact Or.inr (Or.inl ⟨h2, h⟩)
  · simp only [Option.map_some', Option.some.injEq] at h
    exact Or.inr (Or.inr ⟨h3, h⟩)
  · simp at h

theorem Triangle.traverses_next (t : Triangle) (ht : t.proper) (v w : Nat)
    (h : t.traverses v w) : t.next v = some w := by
  obtain ⟨p1, p2, p3⟩ := ht
  unfold Triangle.next Triangle.vertex_index
  rcases h with ⟨rfl, rfl⟩ | ⟨rfl, rfl⟩ | ⟨rfl, rfl⟩
  · simp; rfl
  · simp [p1]; rfl
  · have : ¬ t.s2 = t.s3 := p2
    simp [p3, this]; rfl

theorem Triangle.next_isSome (t : Triangle) (v : Nat) (h : t.has v) :
    ∃ w, t.next v = some w := by
  unfold Triangle.next Triangle.vertex_index
  rcases h with h | h | h
  · simp [h]
  · by_cases h1 : t.s1 = v <;> simp [h1, h]
  · by_cases h1 : t.s1 = v <;> by_cases h2 : t.s2 = v <;> simp [h1, h2, h]

theorem Mesh.same_next_iff (m : Mesh) (t u : Triangle) (hpos : PosInjOn m t u) (v : Nat)
    (hv : u.has v) : m.same_next t u v = true ↔ t.next v = u.next v := by
  unfold Mesh.same_next
  simp only [decide_eq_true_eq]
  obtain ⟨w, hw⟩ := u.next_isSome v hv
  rw [hw]
  cases h : t.next v with
  | none => simp
  | some w' =>
    simp only [Option.map_some', Option.some.injEq]
    constructor
    · intro e
      exact hpos w' w (t.traverses_has _ _ (t.next_traverses _ _ h)).2
        (u.traverses_has _ _ (u.next_traverses _ _ hw)).2 e
    · intro e; rw [e]

theorem exists_same_next_iff_common (t u : Triangle) (ht : t.proper) (hu : u.proper) :
    (∃ v, u.has v ∧ t.next v = u.next v) ↔ t.common u := by
  rw [Triangle.common_iff_exists]
  constructor
  · rintro ⟨v, hv, e⟩
    obtain ⟨w, hw⟩ := u.next_isSome v hv
    rw [hw] at e
    exact ⟨v, w, t.next_traverses _ _ e, u.next_traverses _ _ hw⟩
  · rintro ⟨x, y, h1, h2⟩
    refine ⟨x, (u.traverses_has _ _ h2).1, ?_⟩
    rw [t.traverses_next ht _ _ h1, u.traverses_next hu _ _ h2]

/-- The vertex loop of `orient_adjacent_triangles` flips the triangle exactly when it
traverses a side of `t` in the same direction as `t`. -/
theorem Mesh.flip_if_same_next_eq (m : Mesh) (t u : Triangle) (ht : t.proper)
    (hu : u.proper) (hpos : PosInjOn m t u) :
    m.flip_if_same_next t u u.vertices = if t.common u then u.flip else u := by
  have k1 := m.same_next_iff t u hpos u.s1 (Or.inl rfl)
  have k2 := m.same_next_iff t u hpos u.s2 (Or.inr (Or.inl rfl))
  have k3 := m.same_next_iff t u hpos u.s3 (Or.inr (Or.inr rfl))
  have hc := exists_same_next_iff_common t u ht hu
  simp only [Triangle.vertices, Mesh.flip_if_same_next]
  by_cases c : t.common u
  · simp only [c, if_true]
    obtain ⟨v, hv, e⟩ := hc.2 c
    rcases hv with rfl | rfl | rfl
    · simp [k1.2 e]
    · simp [k2.2 e]
    · simp [k3.2 e]
  · simp only [c, if_false]
    have n1 : ¬ m.same_next t u u.s1 = true := fun h => c (hc.1 ⟨_, Or.inl rfl, k1.1 h⟩)
    have n2 : ¬ m.same_next t u u.s2 = true :=
      fun h => c (hc.1 ⟨_, Or.inr (Or.inl rfl), k2.1 h⟩)
    have n3 : ¬ m.same_next t u u.s3 = true :=
      fun h => c (hc.1 ⟨_, Or.inr (Or.inr rfl), k3.1 h⟩)
    simp [n1, n2, n3]

/-- In any case the vertex loop leaves the triangle as it is or flipped. -/
theorem Mesh.flip_if_same_next_cases (m : Mesh) (t u : Triangle) (l : List Nat) :
    m.flip_if_same_next t u l = u ∨ m.flip_if_same_next t u l = u.flip := by
  induction l with
  | nil => exact Or.inl rfl
  | cons v rest ih =>
    simp only [Mesh.flip_if_same_next]
    split_ifs
    · exact Or.inr rfl
    · exact ih

/-- After the vertex loop the adjacent triangle traverses no side of `t` in the same
direction as `t`. -/
theorem Mesh.not_common_flip_if_same_next (m : Mesh) (t u : Triangle) (ht : t.proper)
    (hu : u.proper) (hpos : PosInjOn m t u) (h : t.shared u = 2) :
    ¬ t.common (m.flip_if_same_next t u u.vertices) := by
  rw [Mesh.flip_if_same_next_eq m t u ht hu hpos]
  by_cases c : t.common u
  · simp only [c, if_true]
    intro h'
    exact (Triangle.common_flip_iff t u ht hu h).1 h' c
  · simp [c]

/-! ### The loop of `orient_adjacent_triangles` -/

theorem Mesh.tri_set_tri (m : Mesh) (p q : Nat) (t : Triangle) :
    (m.set_tri p t).tri q = if q = p ∧ p < m.triangles.length then t else m.tri q := by
  simp only [Mesh.tri, Mesh.set_tri, List.getD_eq_getElem?_getD, List.getElem?_set]
  by_cases h : p = q
  · subst h
    by_cases h2 : p < m.triangles.length
    · simp [h2]
    · have : m.triangles[p]? = none := List.getElem?_eq_none (by omega)
      simp [h2, this]
  · have : ¬ q = p := fun e => h e.symm
    simp [h, this]

theorem Mesh.adjacent_triangles_congr (m₁ m₂ : Mesh) (h : m₁.links = m₂.links) (t : Triangle) :
    m₁.adjacent_triangles t = m₂.adjacent_triangles t := by
  simp only [Mesh.adjacent_triangles, h]

theorem Mesh.adjacent_triangles_flip (m : Mesh) (t : Triangle) :
    m.adjacent_triangles t.flip = m.adjacent_triangles t := by
  apply list_eq_of_sorted_of_mem_iff _ _ (m.adjacent_triangles_sorted _)
    (m.adjacent_triangles_sorted _)
  intro a
  rw [Mesh.mem_adjacent_triangles, Mesh.mem_adjacent_triangles]
  simp only [Mesh.linked, Triangle.flip, List.count_append]
  omega

theorem Mesh.adjacent_triangles_lt (m : Mesh) (t : Triangle) (n : Nat)
    (hv : ∀ v, ∀ p ∈ m.links v, p < n) (p : Nat) (hp : p ∈ m.adjacent_triangles t) : p < n := by
  rw [Mesh.mem_adjacent_triangles] at hp
  have : p ∈ m.linked t := by
    apply List.count_pos_iff.1
    omega
  simp only [Mesh.linked, List.mem_append] at this
  rcases this with (h | h) | h
  · exact hv _ _ h
  · exact hv _ _ h
  · exact hv _ _ h

theorem nodup_length_le (l : List Nat) (n : Nat) (hd : l.Nodup) (hl : ∀ p ∈ l, p < n) :
    l.length ≤ n := by
  have h1 : l.toFinset ⊆ Finset.range n := by
    intro x hx
    rw [List.mem_toFinset] at hx
    exact Finset.mem_range.2 (hl x hx)
  have h2 := Finset.card_le_card h1
  rw [List.toFinset_card_of_nodup hd, Finset.card_range] at h2
  exact h2

theorem Mesh.orient_step_marked (t : Nat) (s : Mesh.OrientState) (tit : Nat) :
    (Mesh.orient_step t s tit).tri_reoriented
      = if tit ∈ s.tri_reoriented then s.tri_reoriented else tit :: s.tri_reoriented := by
  unfold Mesh.orient_step
  by_cases h : tit ∈ s.tri_reoriented
  · simp [h]
  · simp [h]

theorem Mesh.orient_step_stack (t : Nat) (s : Mesh.OrientState) (tit : Nat) :
    (Mesh.orient_step t s tit).t_stack
      = if tit ∈ s.tri_reoriented then s.t_stack else tit :: s.t_stack := by
  unfold Mesh.orient_step
  by_cases h : tit ∈ s.tri_reoriented
  · simp [h]
  · simp [h]

theorem Basic.orient_step (m : Mesh) (t : Nat) (s : Mesh.OrientState) (tit : Nat)
    (hb : Basic m s) (htit : tit < m.triangles.length) :
    Basic m (Mesh.orient_step t s tit)
      ∧ (Mesh.orient_step t s tit).budget m.triangles.length = s.budget m.triangles.length := by
  by_cases h : tit ∈ s.tri_reoriented
  · have e : Mesh.orient_step t s tit = s := by simp [Mesh.orient_step, h]
    rw [e]; exact ⟨hb, rfl⟩
  · have e : Mesh.orient_step t s tit =
        { mesh := s.mesh.set_tri tit
            (s.mesh.flip_if_same_next (s.mesh.tri t) (s.mesh.tri tit) (s.mesh.tri tit).vertices)
          t_stack := tit :: s.t_stack
          tri_reoriented := tit :: s.tri_reoriented } := by
      simp [Mesh.orient_step, h]
    rw [e]
    have hlen : (s.mesh.set_tri tit
            (s.mesh.flip_if_same_next (s.mesh.tri t) (s.mesh.tri tit)
              (s.mesh.tri tit).vertices)).triangles.length = m.triangles.length := by
      simp [Mesh.set_tri, hb.length_eq]
    refine ⟨⟨hb.vertex_eq, hb.links_eq, hlen, ?_, ?_, ?_, ?_, ?_⟩, ?_⟩
    · intro p
      rw [Mesh.tri_set_tri]
      by_cases hp : p = tit ∧ tit < s.mesh.triangles.length
      · simp only [hp, and_self, if_true]
        obtain ⟨rfl, -⟩ := hp
        have hu := hb.unmarked p h
        rcases Mesh.flip_if_same_next_cases s.mesh (s.mesh.tri t) (s.mesh.tri p)
          (s.mesh.tri p).vertices with h1 | h1
        · left; rw [h1, hu]
        · right; rw [h1, hu]
      · simp only [hp, if_false]; exact hb.tri_cases p
    · intro p hp
      have hp1 : p ≠ tit := fun e => hp (by rw [e]; exact List.mem_cons_self _ _)
      have hp2 : p ∉ s.tri_reoriented := fun e => hp (List.mem_cons_of_mem _ e)
      rw [Mesh.tri_set_tri]
      simp only [hp1, false_and, if_false]
      exact hb.unmarked p hp2
    · intro p hp
      rcases List.mem_cons.1 hp with rfl | hp
      · exact htit
      · exact hb.marked_lt p hp
    · exact List.nodup_cons.2 ⟨h, hb.marked_nodup⟩
    · intro p hp
      rcases List.mem_cons.1 hp with rfl | hp
      · exact List.mem_cons_self _ _
      · exact List.mem_cons_of_mem _ (hb.stack_sub p hp)
    · have hle : (tit :: s.tri_reoriented).length ≤ m.triangles.length := by
        apply nodup_length_le
        · exact List.nodup_cons.2 ⟨h, hb.marked_nodup⟩
        · intro p hp
          rcases List.mem_cons.1 hp with rfl | hp
          · exact htit
          · exact hb.marked_lt p hp
      simp only [Mesh.OrientState.budget, List.length_cons] at hle ⊢
      omega

theorem Basic.fold_orient_step (m : Mesh) (t : Nat) (l : List Nat)
    (hl : ∀ p ∈ l, p < m.triangles.length) (s : Mesh.OrientState) (hb : Basic m s) :
    Basic m (l.foldl (Mesh.orient_step t) s)
      ∧ (l.foldl (Mesh.orient_step t) s).budget m.triangles.length
          = s.budget m.triangles.length := by
  induction l generalizing s with
  | nil => exact ⟨hb, rfl⟩
  | cons a rest ih =>
    simp only [List.foldl_cons]
    have h1 := Basic.orient_step m t s a hb (hl a (List.mem_cons_self _ _))
    have h2 := ih (fun p hp => hl p (List.mem_cons_of_mem _ hp)) _ h1.1
    exact ⟨h2.1, h2.2.trans h1.2⟩

theorem Mesh.orient_adjacent_triangles_nil (fuel : Nat) (s : Mesh.OrientState)
    (h : s.t_stack = []) : Mesh.orient_adjacent_triangles fuel s = some s := by
  cases fuel with
  | zero => simp [Mesh.orient_adjacent_triangles, h]
  | succ f => simp [Mesh.orient_adjacent_triangles, h]

theorem Mesh.orient_adjacent_triangles_cons (fuel : Nat) (s : Mesh.OrientState) (t : Nat)
    (rest : List Nat) (h : s.t_stack = t :: rest) :
    Mesh.orient_adjacent_triangles (fuel + 1) s
      = Mesh.orient_adjacent_triangles fuel
          ((s.mesh.adjacent_triangles (s.mesh.tri t)).foldl (Mesh.orient_step t)
            { s with t_stack := rest }) := by
  simp [Mesh.orient_adjacent_triangles, h]

/-- The state after popping the top of the stack. -/
theorem Basic.pop (m : Mesh) (s : Mesh.OrientState) (t : Nat) (rest : List Nat)
    (hb : Basic m s) (h : s.t_stack = t :: rest) :
    Basic m { s with t_stack := rest } :=
  { vertex_eq := hb.vertex_eq
    links_eq := hb.links_eq
    length_eq := hb.length_eq
    tri_cases := hb.tri_cases
    unmarked := hb.unmarked
    marked_lt := hb.marked_lt
    marked_nodup := hb.marked_nodup
    stack_sub := fun p hp => hb.stack_sub p (by rw [h]; exact List.mem_cons_of_mem _ hp) }

/-- Induction principle for the `while` loop of `orient_adjacent_triangles`: the loop
ends within its budget, and every property preserved by one iteration holds at the
end, where the stack is empty. -/
theorem orient_loop (m : Mesh) (hv : ∀ v, ∀ p ∈ m.links v, p < m.triangles.length)
    (P : Mesh.OrientState → Prop)
    (hP : ∀ s t rest, Basic m s → P s → s.t_stack = t :: rest →
        P ((s.mesh.adjacent_triangles (s.mesh.tri t)).foldl (Mesh.orient_step t)
            { s with t_stack := rest })) :
    ∀ fuel s, Basic m s → P s → s.budget m.triangles.length ≤ fuel →
      ∃ s', Mesh.orient_adjacent_triangles fuel s = some s' ∧ Basic m s' ∧ P s'
        ∧ s'.t_stack = [] := by
  intro fuel
  induction fuel with
  | zero =>
    intro s hb hp hf
    have : s.t_stack = [] := by
      simp only [Mesh.OrientState.budget] at hf
      exact List.length_eq_zero.1 (by omega)
    exact ⟨s, Mesh.orient_adjacent_triangles_nil _ _ this, hb, hp, this⟩
  | succ fuel ih =>
    intro s hb hp hf
    cases hst : s.t_stack with
    | nil => exact ⟨s, Mesh.orient_adjacent_triangles_nil _ _ hst, hb, hp, hst⟩
    | cons t rest =>
      rw [Mesh.orient_adjacent_triangles_cons _ _ _ _ hst]
      have hpop := Basic.pop m s t rest hb hst
      have hadj : ∀ p ∈ s.mesh.adjacent_triangles (s.mesh.tri t), p < m.triangles.length := by
        intro p hp'
        apply Mesh.adjacent_triangles_lt s.mesh _ _ _ p hp'
        rw [hb.links_eq]; exact hv
      have hfold := Basic.fold_orient_step m t _ hadj _ hpop
      apply ih _ hfold.1 (hP s t rest hb hp hst)
      rw [hfold.2]
      simp only [Mesh.OrientState.budget, hst, List.length_cons] at hf ⊢
      omega

/-! ### The loop keeps the reached triangles consistently wound -/

theorem orient_proper (b : Bool) (t : Triangle) (h : t.proper) : (orient b t).proper := by
  cases b
  · exact t.proper_flip h
  · exact h

theorem orient_has (b : Bool) (t : Triangle) (x : Nat) : (orient b t).has x ↔ t.has x := by
  cases b
  · exact t.has_flip x
  · exact Iff.rfl

theorem orient_shared (b c : Bool) (t u : Triangle) :
    (orient b t).shared (orient c u) = t.shared u := by
  cases b <;> cases c <;>
    simp [orient, Triangle.shared_flip_left, Triangle.shared_flip_right]

theorem orient_common (b : Bool) (t u : Triangle) :
    (orient b t).common (orient b u) ↔ t.common u := by
  cases b
  · exact Triangle.common_flip_flip t u
  · exact Iff.rfl

theorem orient_flip (b : Bool) (t : Triangle) : (orient b t).flip = orient (!b) t := by
  cases b <;> rfl

theorem eq_orient_of_cases (t u : Triangle) (h : t = u ∨ t = u.flip) :
    ∃ c, t = orient c u := by
  rcases h with h | h
  · exact ⟨true, h⟩
  · exact ⟨false, h⟩

theorem PosInjOn.congr (m₁ m₂ : Mesh) (t₁ u₁ t₂ u₂ : Triangle) (hv : m₁.vertex = m₂.vertex)
    (ht : ∀ x, t₁.has x ↔ t₂.has x) (hu : ∀ x, u₁.has x ↔ u₂.has x)
    (h : PosInjOn m₂ t₂ u₂) : PosInjOn m₁ t₁ u₁ := by
  intro a b ha hb e
  rw [hv] at e
  exact h a b ((ht a).1 ha) ((hu b).1 hb) e

/-- The key step: an unreached triangle adjacent to a reached one comes out of the
vertex loop wound like the reference, up to the common reversal `b`. -/
theorem orient_new_triangle (m : Mesh) (σ : List Triangle) (b : Bool) (href : Reference m σ)
    (s : Mesh.OrientState) (hb : Basic m s) (t tit : Nat)
    (ht : t < m.triangles.length) (htit : tit < m.triangles.length) (hne : tit ≠ t)
    (hadj : tit ∈ m.adjacent_triangles (m.tri t))
    (hagree : s.mesh.tri t = orient b (σ.getD t default)) :
    s.mesh.flip_if_same_next (s.mesh.tri t) (s.mesh.tri tit) (s.mesh.tri tit).vertices
      = orient b (σ.getD tit default) := by
  obtain ⟨ct, hct⟩ := eq_orient_of_cases _ _ (href.ref t ht)
  obtain ⟨cu, hcu⟩ := eq_orient_of_cases _ _ (href.ref tit htit)
  obtain ⟨du, hdu⟩ := eq_orient_of_cases _ _ (hb.tri_cases tit)
  have pT : (σ.getD t default).proper := by
    have := href.proper t ht
    rw [hct] at this
    have h2 := orient_proper ct _ this
    cases ct <;> simpa [orient] using h2
  have pU : (σ.getD tit default).proper := by
    have := href.proper tit htit
    rw [hcu] at this
    have h2 := orient_proper cu _ this
    cases cu <;> simpa [orient] using h2
  have hsh0 : (m.tri t).shared (m.tri tit) = 2 :=
    ((Mesh.mem_adjacent_triangles_iff m (m.tri t) tit href.links (href.proper t ht)).1 hadj).2
  have hshσ : (σ.getD t default).shared (σ.getD tit default) = 2 := by
    rw [hct, hcu, orient_shared] at hsh0; exact hsh0
  -- the current triangles
  have eT : s.mesh.tri t = orient b (σ.getD t default) := hagree
  have eU : ∃ c, s.mesh.tri tit = orient c (σ.getD tit default) := by
    rw [hdu, hcu]
    cases du <;> cases cu
    · exact ⟨true, rfl⟩
    · exact ⟨false, rfl⟩
    · exact ⟨false, rfl⟩
    · exact ⟨true, rfl⟩
  obtain ⟨c, eU⟩ := eU
  have hpos : PosInjOn s.mesh (s.mesh.tri t) (s.mesh.tri tit) := by
    apply PosInjOn.congr s.mesh m _ _ (m.tri t) (m.tri tit) hb.vertex_eq _ _
      (href.posinj t tit ht htit)
    · intro x; rw [eT, hct, orient_has, orient_has]
    · intro x; rw [eU, hcu, orient_has, orient_has]
  have hprT : (s.mesh.tri t).proper := by rw [eT]; exact orient_proper _ _ pT
  have hprU : (s.mesh.tri tit).proper := by rw [eU]; exact orient_proper _ _ pU
  have hsh : (s.mesh.tri t).shared (s.mesh.tri tit) = 2 := by
    rw [eT, eU, orient_shared]; exact hshσ
  have hnc := Mesh.not_common_flip_if_same_next s.mesh _ _ hprT hprU hpos hsh
  have hnσ : ¬ (orient b (σ.getD t default)).common (orient b (σ.getD tit default)) := by
    rw [orient_common]
    exact href.cons t tit ht htit (fun e => hne e.symm)
  rcases Mesh.flip_if_same_next_cases s.mesh (s.mesh.tri t) (s.mesh.tri tit)
    (s.mesh.tri tit).vertices with h1 | h1
  · rw [h1] at hnc ⊢
    rw [eU] at hnc ⊢
    rw [eT] at hnc
    by_cases hcb : c = b
    · rw [hcb]
    · exfalso
      have hc' : c = !b := by cases c <;> cases b <;> simp at hcb ⊢
      rw [hc', ← orient_flip] at hnc
      exact hnσ (by
        by_contra hcon
        exact hnc ((Triangle.common_flip_iff _ _ (orient_proper _ _ pT)
          (orient_proper _ _ pU) (by rw [orient_shared]; exact hshσ)).2 hcon))
  · rw [h1] at hnc ⊢
    rw [eU] at hnc ⊢
    rw [eT] at hnc
    rw [orient_flip] at hnc ⊢
    by_cases hcb : (!c) = b
    · rw [hcb]
    · exfalso
      have hc' : (!c) = !b := by cases c <;> cases b <;> simp at hcb ⊢
      rw [hc', ← orient_flip] at hnc
      exact hnσ (by
        by_contra hcon
        exact hnc ((Triangle.common_flip_iff _ _ (orient_proper _ _ pT)
          (orient_proper _ _ pU) (by rw [orient_shared]; exact hshσ)).2 hcon))

theorem OrientedAt.step_preserved (m : Mesh) (σ : List Triangle) (b : Bool)
    (href : Reference m σ) (t : Nat) (s : Mesh.OrientState) (tit : Nat)
    (hb : Basic m s) (ho : OrientedAt m σ b t s)
    (hadj : tit ∈ m.adjacent_triangles (m.tri t)) :
    OrientedAt m σ b t (Mesh.orient_step t s tit) := by
  by_cases h : tit ∈ s.tri_reoriented
  · have e : Mesh.orient_step t s tit = s := by simp [Mesh.orient_step, h]
    rw [e]; exact ho
  · have e : Mesh.orient_step t s tit =
        { mesh := s.mesh.set_tri tit
            (s.mesh.flip_if_same_next (s.mesh.tri t) (s.mesh.tri tit) (s.mesh.tri tit).vertices)
          t_stack := tit :: s.t_stack
          tri_reoriented := tit :: s.tri_reoriented } := by
      simp [Mesh.orient_step, h]
    rw [e]
    have ht : t < m.triangles.length := hb.marked_lt t ho.popped
    have htit : tit < m.triangles.length :=
      ((Mesh.mem_adjacent_triangles_iff m (m.tri t) tit href.links (href.proper t ht)).1 hadj).1
    have hne : tit ≠ t := fun e' => h (by rw [e']; exact ho.popped)
    have hnew := orient_new_triangle m σ b href s hb t tit ht htit hne hadj (ho.agree t ho.popped)
    refine ⟨List.mem_cons_of_mem _ ho.seed, List.mem_cons_of_mem _ ho.popped, ?_, ?_⟩
    · intro p hp
      show (s.mesh.set_tri tit _).tri p = _
      rw [Mesh.tri_set_tri]
      rcases List.mem_cons.1 hp with rfl | hp
      · have : p < s.mesh.triangles.length := by rw [hb.length_eq]; exact htit
        simp only [this, and_self, if_true]
        exact hnew
      · have hpt : p ≠ tit := fun e' => h (by rw [← e']; exact hp)
        simp only [hpt, false_and, if_false]
        exact ho.agree p hp
    · intro p hp
      rcases List.mem_cons.1 hp with rfl | hp
      · exact Or.inl (List.mem_cons_self _ _)
      · rcases ho.closed p hp with h1 | h1 | h1
        · exact Or.inl (List.mem_cons_of_mem _ h1)
        · exact Or.inr (Or.inl h1)
        · exact Or.inr (Or.inr (fun q hq => List.mem_cons_of_mem _ (h1 q hq)))

theorem OrientedAt.fold_preserved (m : Mesh) (σ : List Triangle) (b : Bool)
    (href : Reference m σ) (t : Nat) (l : List Nat)
    (hl : ∀ tit ∈ l, tit ∈ m.adjacent_triangles (m.tri t)) (s : Mesh.OrientState)
    (hb : Basic m s) (ho : OrientedAt m σ b t s) :
    OrientedAt m σ b t (l.foldl (Mesh.orient_step t) s) := by
  induction l generalizing s with
  | nil => exact ho
  | cons a rest ih =>
    simp only [List.foldl_cons]
    have ha := hl a (List.mem_cons_self _ _)
    have ht : t < m.triangles.length := hb.marked_lt t ho.popped
    have hlt : a < m.triangles.length :=
      ((Mesh.mem_adjacent_triangles_iff m (m.tri t) a href.links (href.proper t ht)).1 ha).1
    exact ih (fun p hp => hl p (List.mem_cons_of_mem _ hp)) _
      (Basic.orient_step m t s a hb hlt).1 (OrientedAt.step_preserved m σ b href t s a hb ho ha)

theorem Mesh.mem_marked_fold (t : Nat) (l : List Nat) (s : Mesh.OrientState) (x : Nat)
    (h : x ∈ l ∨ x ∈ s.tri_reoriented) :
    x ∈ (l.foldl (Mesh.orient_step t) s).tri_reoriented := by
  induction l generalizing s with
  | nil =>
    rcases h with h | h
    · simp at h
    · exact h
  | cons a rest ih =>
    simp only [List.foldl_cons]
    apply ih
    rcases h with h | h
    · rcases List.mem_cons.1 h with rfl | h
      · right
        rw [Mesh.orient_step_marked]
        split_ifs with h1
        · exact h1
        · exact List.mem_cons_self _ _
      · left; exact h
    · right
      rw [Mesh.orient_step_marked]
      split_ifs
      · exact h
      · exact List.mem_cons_of_mem _ h

/-- The adjacency list computed in the loop does not depend on the flips made so far. -/
theorem Basic.adjacent_eq (m : Mesh) (s : Mesh.OrientState) (hb : Basic m s) (t : Nat) :
    s.mesh.adjacent_triangles (s.mesh.tri t) = m.adjacent_triangles (m.tri t) := by
  rw [Mesh.adjacent_triangles_congr s.mesh m hb.links_eq]
  rcases hb.tri_cases t with h | h
  · rw [h]
  · rw [h, Mesh.adjacent_triangles_flip]

theorem Oriented.iterate (m : Mesh) (σ : List Triangle) (b : Bool) (href : Reference m σ)
    (s : Mesh.OrientState) (t : Nat) (rest : List Nat) (hb : Basic m s)
    (ho : Oriented m σ b s) (hst : s.t_stack = t :: rest) :
    Oriented m σ b ((s.mesh.adjacent_triangles (s.mesh.tri t)).foldl (Mesh.orient_step t)
      { s with t_stack := rest }) := by
  rw [Basic.adjacent_eq m s hb t]
  have hpop := Basic.pop m s t rest hb hst
  have htm : t ∈ s.tri_reoriented := hb.stack_sub t (by rw [hst]; exact List.mem_cons_self _ _)
  have hat : OrientedAt m σ b t { s with t_stack := rest } := by
    refine ⟨ho.seed, htm, ho.agree, ?_⟩
    intro p hp
    rcases ho.closed p hp with h1 | h1
    · rw [hst] at h1
      rcases List.mem_cons.1 h1 with rfl | h1
      · exact Or.inr (Or.inl rfl)
      · exact Or.inl h1
    · exact Or.inr (Or.inr h1)
  have hfold := OrientedAt.fold_preserved m σ b href t _ (fun _ h => h) _ hpop hat
  refine ⟨hfold.seed, hfold.agree, ?_⟩
  intro p hp
  rcases hfold.closed p hp with h1 | h1 | h1
  · exact Or.inl h1
  · right
    intro q hq
    rw [h1] at hq
    exact Mesh.mem_marked_fold t _ _ q (Or.inl hq)
  · exact Or.inr h1

/-! ### Consistent winding and the verdict of `has_correct_orientation` -/

theorem Mesh.make_links_lt (ts : List Triangle) (v p : Nat) (h : p ∈ Mesh.make_links ts v) :
    p < ts.length := by
  have h1 := List.count_pos_iff.2 h
  rw [Mesh.count_make_links] at h1
  by_contra hn
  simp [hn] at h1

theorem Triangle.common_symm (t u : Triangle) (h : t.common u) : u.common t := by
  rw [Triangle.common_iff_exists] at h ⊢
  obtain ⟨x, y, h1, h2⟩ := h
  exact ⟨x, y, h2, h1⟩

theorem Triangle.trav_pos_iff (t : Triangle) (x y : Nat) :
    0 < t.trav x y ↔ t.traverses x y := by
  unfold Triangle.trav Triangle.traverses
  by_cases h1 : t.s1 = x ∧ t.s2 = y
  · rw [if_pos h1]
    constructor
    · intro _; exact Or.inl h1
    · intro _; omega
  · by_cases h2 : t.s2 = x ∧ t.s3 = y
    · rw [if_pos h2]
      constructor
      · intro _; exact Or.inr (Or.inl h2)
      · intro _; omega
    · by_cases h3 : t.s3 = x ∧ t.s1 = y
      · rw [if_pos h3]
        constructor
        · intro _; exact Or.inr (Or.inr h3)
        · intro _; omega
      · rw [if_neg h1, if_neg h2, if_neg h3]
        constructor
        · intro h; exact absurd h (by decide)
        · rintro (h | h | h)
          · exact absurd h h1
          · exact absurd h h2
          · exact absurd h h3

theorem Triangle.trav_le_one (t : Triangle) (ht : t.proper) (x y : Nat) : t.trav x y ≤ 1 := by
  obtain ⟨p1, p2, p3⟩ := ht
  unfold Triangle.trav
  by_cases h1 : t.s1 = x ∧ t.s2 = y
  · have h2 : ¬ (t.s2 = x ∧ t.s3 = y) := fun h => p1 (h1.1.trans h.1.symm)
    have h3 : ¬ (t.s3 = x ∧ t.s1 = y) := fun h => p3 (h1.1.trans h.1.symm)
    rw [if_pos h1, if_neg h2, if_neg h3]
  · by_cases h2 : t.s2 = x ∧ t.s3 = y
    · have h3 : ¬ (t.s3 = x ∧ t.s1 = y) := fun h => p2 (h2.1.trans h.1.symm)
      rw [if_neg h1, if_pos h2, if_neg h3]
    · by_cases h3 : t.s3 = x ∧ t.s1 = y
      · rw [if_neg h1, if_neg h2, if_pos h3]
      · rw [if_neg h1, if_neg h2, if_neg h3]; decide

theorem sum_trav_eq_zero (ts : List Triangle) (x y : Nat)
    (h : ∀ u ∈ ts, ¬ u.traverses x y) : (ts.map (fun t => t.trav x y)).sum = 0 := by
  induction ts with
  | nil => rfl
  | cons a rest ih =>
    simp only [List.map_cons, List.sum_cons]
    have h1 : a.trav x y = 0 := by
      have := (a.trav_pos_iff x y).not.2 (h a (List.mem_cons_self _ _))
      omega
    rw [h1, ih (fun u hu => h u (List.mem_cons_of_mem _ hu))]

theorem traverses_of_sum_pos (ts : List Triangle) (x y : Nat)
    (h : 0 < (ts.map (fun t => t.trav x y)).sum) : ∃ u ∈ ts, u.traverses x y := by
  by_contra hn
  push_neg at hn
  rw [sum_trav_eq_zero ts x y hn] at h
  exact absurd h (by decide)

/-- A list of proper triangles is consistent exactly when no directed side is traversed
twice. -/
theorem consistent_iff_trav (ts : List Triangle) (hp : ∀ t ∈ ts, t.proper) :
    Consistent ts ↔ ∀ x y, (ts.map (fun t => t.trav x y)).sum ≤ 1 := by
  induction ts with
  | nil => simp [Consistent]
  | cons a rest ih =>
    have hpa := hp a (List.mem_cons_self _ _)
    have hpr : ∀ t ∈ rest, t.proper := fun t ht => hp t (List.mem_cons_of_mem _ ht)
    unfold Consistent at ih ⊢
    rw [List.pairwise_cons, ih hpr]
    simp only [List.map_cons, List.sum_cons]
    constructor
    · rintro ⟨h1, h2⟩ x y
      by_cases ha : a.traverses x y
      · have : (rest.map (fun t => t.trav x y)).sum = 0 := by
          apply sum_trav_eq_zero
          intro u hu hux
          exact h1 u hu ((Triangle.common_iff_exists a u).2 ⟨x, y, ha, hux⟩)
        have := a.trav_le_one hpa x y
        omega
      · have h0 : a.trav x y = 0 := by
          have := (a.trav_pos_iff x y).not.2 ha
          omega
        have := h2 x y
        omega
    · intro h
      constructor
      · intro u hu hc
        obtain ⟨x, y, h1, h2⟩ := (Triangle.common_iff_exists a u).1 hc
        have ha := (a.trav_pos_iff x y).2 h1
        have hr : 0 < (rest.map (fun t => t.trav x y)).sum := by
          by_contra h0
          have h0' : (rest.map (fun t => t.trav x y)).sum = 0 := by omega
          have : u.trav x y = 0 := by
            have hmem : u.trav x y ∈ rest.map (fun t => t.trav x y) :=
              List.mem_map_of_mem (fun t => t.trav x y) hu
            exact List.sum_eq_zero_iff.1 h0' _ hmem
          have := (u.trav_pos_iff x y).2 h2
          omega
        have := h x y
        omega
      · intro x y
        have := h x y
        omega

theorem Consistent.getD (ts : List Triangle) (h : Consistent ts) (p q : Nat)
    (hp : p < ts.length) (hq : q < ts.length) (hne : p ≠ q) :
    ¬ (ts.getD p default).common (ts.getD q default) := by
  unfold Consistent at h
  rw [List.pairwise_iff_getElem] at h
  have ep : ts.getD p default = ts[p] := by
    simp [List.getD_eq_getElem?_getD, List.getElem?_eq_getElem hp]
  have eq : ts.getD q default = ts[q] := by
    simp [List.getD_eq_getElem?_getD, List.getElem?_eq_getElem hq]
  rw [ep, eq]
  rcases Nat.lt_or_gt_of_ne hne with h1 | h1
  · exact h p q hp hq h1
  · exact fun hc => h q p hq hp h1 (Triangle.common_symm _ _ hc)

theorem Mesh.tri_mem (m : Mesh) (p : Nat) (hp : p < m.triangles.length) :
    m.tri p ∈ m.triangles := by
  have : m.tri p = m.triangles[p] := by
    simp [Mesh.tri, List.getD_eq_getElem?_getD, List.getElem?_eq_getElem hp]
  rw [this]
  exact List.getElem_mem _

theorem list_eq_map_of_getD (l σ : List Triangle) (f : Triangle → Triangle)
    (hlen : l.length = σ.length)
    (h : ∀ p, p < l.length → l.getD p default = f (σ.getD p default)) : l = σ.map f := by
  apply List.ext_getElem
  · simp [hlen]
  · intro n h1 h2
    have h3 : n < σ.length := by rw [← hlen]; exact h1
    have := h n h1
    simp only [List.getD_eq_getElem?_getD, List.getElem?_eq_getElem h1,
      List.getElem?_eq_getElem h3, Option.getD_some] at this
    simp [this]

theorem Consistent.map_orient (σ : List Triangle) (b : Bool) (h : Consistent σ) :
    Consistent (σ.map (orient b)) := by
  unfold Consistent at h ⊢
  rw [List.pairwise_map]
  exact h.imp (fun hn hc => hn ((orient_common b _ _).1 hc))

theorem Mesh.has_correct_of_trav_le_one (m : Mesh) (h : ∀ x y, m.traversals x y ≤ 1) :
    m.has_correct_orientation = true := by
  rw [Mesh.has_correct_orientation_iff_vote]
  intro x y
  have h1 := h x y
  have h2 := h y x
  unfold Mesh.vote
  split_ifs <;> omega

theorem Triangle.trav_add_le (t : Triangle) (ht : t.proper) (x y : Nat) :
    t.trav x y + t.trav y x ≤ if (t.contains x && t.contains y) = true then 1 else 0 := by
  have h1 := t.trav_le_one ht x y
  have h2 := t.trav_le_one ht y x
  by_cases a : t.traverses x y
  · have hb : ¬ t.traverses y x := fun hb => t.not_traverses_both ht x y a hb
    have hb0 : t.trav y x = 0 := by
      have := (t.trav_pos_iff y x).not.2 hb
      omega
    have hc : (t.contains x && t.contains y) = true := by
      rw [Bool.and_eq_true, Triangle.contains_iff, Triangle.contains_iff]
      exact t.traverses_has x y a
    rw [if_pos hc]; omega
  · have ha0 : t.trav x y = 0 := by
      have := (t.trav_pos_iff x y).not.2 a
      omega
    by_cases b : t.traverses y x
    · have hc : (t.contains x && t.contains y) = true := by
        rw [Bool.and_eq_true, Triangle.contains_iff, Triangle.contains_iff]
        exact ⟨(t.traverses_has y x b).2, (t.traverses_has y x b).1⟩
      rw [if_pos hc]; omega
    · have hb0 : t.trav y x = 0 := by
        have := (t.trav_pos_iff y x).not.2 b
        omega
      omega

theorem sum_trav_add_le (ts : List Triangle) (hp : ∀ t ∈ ts, t.proper) (x y : Nat) :
    (ts.map (fun t => t.trav x y)).sum + (ts.map (fun t => t.trav y x)).sum
      ≤ (ts.filter (fun t => t.contains x && t.contains y)).length := by
  induction ts with
  | nil => simp
  | cons a rest ih =>
    have h1 := a.trav_add_le (hp a (List.mem_cons_self _ _)) x y
    have h2 := ih (fun t ht => hp t (List.mem_cons_of_mem _ ht))
    simp only [List.map_cons, List.sum_cons, List.filter_cons]
    by_cases hc : (a.contains x && a.contains y) = true
    · rw [if_pos hc] at h1 ⊢
      simp only [List.length_cons]
      omega
    · rw [if_neg hc] at h1 ⊢
      omega

/-- On a mesh of proper triangles in which each edge belongs to at most two triangles,
a positive verdict of `has_correct_orientation` means that no side is traversed twice in
the same direction. -/
theorem Mesh.trav_le_one_of_has_correct (m : Mesh) (hp : ∀ t ∈ m.triangles, t.proper)
    (hman : m.EdgeManifold) (h : m.has_correct_orientation = true) (x y : Nat) :
    m.traversals x y ≤ 1 := by
  rw [Mesh.has_correct_orientation_iff_vote] at h
  by_contra hn
  have hxy : x ≠ y := by
    intro e
    subst e
    have : m.traversals x x = 0 := by
      unfold Mesh.traversals
      apply sum_trav_eq_zero
      intro u hu hux
      exact u.traverses_ne (hp u hu) x x hux rfl
    omega
  have h1 := sum_trav_add_le m.triangles hp x y
  have h2 := hman x y hxy
  have h3 := h x y
  have h4 := h y x
  unfold Mesh.vote at h3 h4
  unfold Mesh.traversals at hn h3 h4
  split_ifs at h3 h4 <;> omega

theorem Mesh.consistent_of_has_correct (m : Mesh) (hp : ∀ t ∈ m.triangles, t.proper)
    (hman : m.EdgeManifold) (h : m.has_correct_orientation = true) :
    Consistent m.triangles :=
  (consistent_iff_trav m.triangles hp).2 (m.trav_le_one_of_has_correct hp hman h)

theorem Mesh.has_correct_of_consistent (m : Mesh) (hp : ∀ t ∈ m.triangles, t.proper)
    (h : Consistent m.triangles) : m.has_correct_orientation = true :=
  m.has_correct_of_trav_le_one ((consistent_iff_trav m.triangles hp).1 h)

/-- The traversal reaches every triangle of a connected mesh and leaves all of them
wound as in the reference, or all of them opposite to it. -/
theorem orient_run (m : Mesh) (σ : List Triangle) (href : Reference m σ)
    (hconn : m.Connected) (hn : 0 < m.triangles.length) :
    ∃ s', Mesh.orient_adjacent_triangles m.triangles.length
        { mesh := m, t_stack := [0], tri_reoriented := [0] } = some s'
      ∧ Basic m s' ∧ ∃ b, s'.mesh.triangles = σ.map (orient b) := by
  obtain ⟨b, hb0⟩ := eq_orient_of_cases _ _ (href.ref 0 hn)
  have hv : ∀ v, ∀ p ∈ m.links v, p < m.triangles.length := by
    intro v p hp
    rw [href.links] at hp
    exact Mesh.make_links_lt _ _ _ hp
  have hbasic : Basic m { mesh := m, t_stack := [0], tri_reoriented := [0] } :=
    { vertex_eq := rfl
      links_eq := rfl
      length_eq := rfl
      tri_cases := fun p => Or.inl rfl
      unmarked := fun p _ => rfl
      marked_lt := by
        intro p hp
        simp only [List.mem_singleton] at hp
        rw [hp]; exact hn
      marked_nodup := List.nodup_singleton 0
      stack_sub := fun p hp => hp }
  have hor : Oriented m σ b { mesh := m, t_stack := [0], tri_reoriented := [0] } :=
    { seed := List.mem_singleton.2 rfl
      agree := by
        intro p hp
        simp only [List.mem_singleton] at hp
        subst hp
        exact hb0
      closed := fun p hp => Or.inl hp }
  obtain ⟨s', hrun, hb', ho', hst⟩ := orient_loop m hv (Oriented m σ b)
    (fun s t rest hb hp hst => Oriented.iterate m σ b href s t rest hb hp hst)
    m.triangles.length _ hbasic hor (by
      simp only [Mesh.OrientState.budget, List.length_singleton]
      omega)
  refine ⟨s', hrun, hb', b, ?_⟩
  have hreach : ∀ p, Relation.ReflTransGen m.adjacent 0 p → p ∈ s'.tri_reoriented := by
    intro p h
    induction h with
    | refl => exact ho'.seed
    | @tail q r _ hstep ih =>
      have hq : q < m.triangles.length := hstep.1
      rcases ho'.closed q ih with h1 | h1
      · rw [hst] at h1; simp at h1
      · apply h1
        rw [Mesh.mem_adjacent_triangles_iff m (m.tri q) r href.links (href.proper q hq)]
        exact ⟨hstep.2.1, hstep.2.2⟩
  have hall : ∀ p, p < m.triangles.length → p ∈ s'.tri_reoriented :=
    fun p hp => hreach p (hconn p hp)
  apply list_eq_map_of_getD
  · rw [hb'.length_eq, href.length_eq]
  · intro p hp
    rw [hb'.length_eq] at hp
    exact ho'.agree p (hall p hp)

/-! ### Meshes with a reversed subset of triangles -/

theorem length_reverseFrom (F : Nat → Bool) (k : Nat) (ts : List Triangle) :
    (reverseFrom F k ts).length = ts.length := by
  induction ts generalizing k with
  | nil => rfl
  | cons t rest ih => simp [reverseFrom, ih]

theorem getD_reverseFrom (F : Nat → Bool) (k : Nat) (ts : List Triangle) (p : Nat) :
    (reverseFrom F k ts).getD p default = orient (!F (k + p)) (ts.getD p default) := by
  induction ts generalizing k p with
  | nil =>
    simp only [reverseFrom, List.getD_nil]
    cases F (k + p) <;> rfl
  | cons t rest ih =>
    cases p with
    | zero =>
      simp only [reverseFrom, List.getD_cons_zero, Nat.add_zero]
      cases F k <;> rfl
    | succ p =>
      simp only [reverseFrom, List.getD_cons_succ, ih]
      have : k + 1 + p = k + (p + 1) := by omega
      rw [this]

theorem Mesh.tri_reverse_subset (m : Mesh) (F : Nat → Bool) (p : Nat) :
    (m.reverse_subset F).tri p = orient (!F p) (m.tri p) := by
  simp only [Mesh.tri, Mesh.reverse_subset, getD_reverseFrom, Nat.zero_add]

theorem Mesh.length_reverse_subset (m : Mesh) (F : Nat → Bool) :
    (m.reverse_subset F).triangles.length = m.triangles.length :=
  length_reverseFrom F 0 m.triangles

theorem orient_links_entry (c : Bool) (t : Triangle) (v p : Nat) :
    (((orient c t).vertices.filter (fun s => decide (s = v))).map (fun _ => p))
      = ((t.vertices.filter (fun s => decide (s = v))).map (fun _ => p)) := by
  cases c
  · simp only [orient, Triangle.flip, Triangle.vertices, List.filter_cons, List.filter_nil]
    by_cases h1 : t.s1 = v <;> by_cases h2 : t.s2 = v <;> by_cases h3 : t.s3 = v <;>
      simp [h1, h2, h3]
  · rfl

theorem Mesh.make_links_reverse (m : Mesh) (F : Nat → Bool) :
    Mesh.make_links (m.reverse_subset F).triangles = Mesh.make_links m.triangles := by
  funext v
  unfold Mesh.make_links
  rw [Mesh.length_reverse_subset]
  congr 1
  funext p
  have := Mesh.tri_reverse_subset m F p
  unfold Mesh.tri at this
  rw [this, orient_links_entry]

theorem mem_reverseFrom (F : Nat → Bool) (k : Nat) (ts : List Triangle) (u : Triangle)
    (h : u ∈ reverseFrom F k ts) : ∃ t ∈ ts, ∃ c, u = orient c t := by
  induction ts generalizing k with
  | nil => simp [reverseFrom] at h
  | cons t rest ih =>
    simp only [reverseFrom, List.mem_cons] at h
    rcases h with h | h
    · refine ⟨t, List.mem_cons_self _ _, !F k, ?_⟩
      rw [h]; cases F k <;> rfl
    · obtain ⟨t', ht', c, hc⟩ := ih _ h
      exact ⟨t', List.mem_cons_of_mem _ ht', c, hc⟩

theorem mem_of_reverseFrom (F : Nat → Bool) (k : Nat) (ts : List Triangle) (t : Triangle)
    (h : t ∈ ts) : ∃ c, orient c t ∈ reverseFrom F k ts := by
  induction ts generalizing k with
  | nil => simp at h
  | cons t' rest ih =>
    rcases List.mem_cons.1 h with rfl | h
    · refine ⟨!F k, ?_⟩
      simp only [reverseFrom]
      cases F k <;> exact List.mem_cons_self _ _
    · obtain ⟨c, hc⟩ := ih _ h
      exact ⟨c, List.mem_cons_of_mem _ hc⟩

theorem orient_contains (c : Bool) (t : Triangle) (x : Nat) :
    (orient c t).contains x = t.contains x := by
  have h := orient_has c t x
  rw [← Triangle.contains_iff, ← Triangle.contains_iff] at h
  cases h1 : (orient c t).contains x <;> cases h2 : t.contains x <;> simp_all

theorem filter_length_reverseFrom (F : Nat → Bool) (k : Nat) (ts : List Triangle) (x y : Nat) :
    ((reverseFrom F k ts).filter (fun t => t.contains x && t.contains y)).length
      = (ts.filter (fun t => t.contains x && t.contains y)).length := by
  induction ts generalizing k with
  | nil => rfl
  | cons t rest ih =>
    have e : ((if F k then t.flip else t).contains x && (if F k then t.flip else t).contains y)
        = (t.contains x && t.contains y) := by
      have h1 := orient_contains (!F k) t x
      have h2 := orient_contains (!F k) t y
      cases hF : F k <;> simp only [hF, orient, Bool.not_true, Bool.not_false, if_true] at h1 h2 ⊢
      · rfl
      · simp only [Bool.false_eq_true, if_false] at h1 h2
        rw [h1, h2]
    simp only [reverseFrom, List.filter_cons, e]
    by_cases hc : (t.contains x && t.contains y) = true
    · rw [if_pos hc, if_pos hc, List.length_cons, List.length_cons, ih]
    · rw [if_neg hc, if_neg hc, ih]

theorem Mesh.edgeManifold_reverse (m : Mesh) (F : Nat → Bool) :
    (m.reverse_subset F).EdgeManifold ↔ m.EdgeManifold := by
  unfold Mesh.EdgeManifold Mesh.reverse_subset
  simp only [filter_length_reverseFrom]

theorem Mesh.proper_reverse (m : Mesh) (F : Nat → Bool) (h : ∀ t ∈ m.triangles, t.proper) :
    ∀ t ∈ (m.reverse_subset F).triangles, t.proper := by
  intro u hu
  obtain ⟨t, ht, c, rfl⟩ := mem_reverseFrom F 0 m.triangles u hu
  exact orient_proper c t (h t ht)

theorem Mesh.proper_of_reverse (m : Mesh) (F : Nat → Bool)
    (h : ∀ t ∈ (m.reverse_subset F).triangles, t.proper) : ∀ t ∈ m.triangles, t.proper := by
  intro t ht
  obtain ⟨c, hc⟩ := mem_of_reverseFrom F 0 m.triangles t ht
  have := h _ hc
  have h2 := orient_proper c _ this
  cases c <;> simpa [orient] using h2

theorem Mesh.isVertex_reverse (m : Mesh) (F : Nat → Bool) (a : Nat) :
    (m.reverse_subset F).isVertex a ↔ m.isVertex a := by
  constructor
  · rintro ⟨u, hu, ha⟩
    obtain ⟨t, ht, c, rfl⟩ := mem_reverseFrom F 0 m.triangles u hu
    exact ⟨t, ht, (orient_has c t a).1 ha⟩
  · rintro ⟨t, ht, ha⟩
    obtain ⟨c, hc⟩ := mem_of_reverseFrom F 0 m.triangles t ht
    exact ⟨_, hc, (orient_has c t a).2 ha⟩

theorem Mesh.adjacent_reverse (m : Mesh) (F : Nat → Bool) (p q : Nat) :
    (m.reverse_subset F).adjacent p q ↔ m.adjacent p q := by
  unfold Mesh.adjacent
  rw [Mesh.length_reverse_subset, Mesh.tri_reverse_subset, Mesh.tri_reverse_subset,
    orient_shared]

theorem Mesh.connected_reverse (m : Mesh) (F : Nat → Bool) (h : m.Connected) :
    (m.reverse_subset F).Connected := by
  intro p hp
  rw [Mesh.length_reverse_subset] at hp
  exact Relation.ReflTransGen.mono (fun a b hab => (m.adjacent_reverse F a b).2 hab) (h p hp)

/-- The hypotheses on a mesh and a consistent re-winding of it, in the form the
traversal proof uses. -/
theorem Reference.of_reverse (m : Mesh) (F : Nat → Bool)
    (hlinks : m.links = Mesh.make_links m.triangles) (hproper : ∀ t ∈ m.triangles, t.proper)
    (hpos : m.DistinctPositions) (hcons : Consistent (m.reverse_subset F).triangles) :
    Reference m (m.reverse_subset F).triangles := by
  refine ⟨hlinks, Mesh.length_reverse_subset m F, ?_, ?_, ?_, ?_⟩
  · intro p hp
    exact hproper _ (m.tri_mem p hp)
  · intro p q hp hq a b ha hb e
    exact hpos a b ⟨_, m.tri_mem p hp, ha⟩ ⟨_, m.tri_mem q hq, hb⟩ e
  · intro p hp
    have := Mesh.tri_reverse_subset m F p
    unfold Mesh.tri at this
    rw [this]
    cases F p
    · left; rfl
    · right; rfl
  · intro p q hp hq hne
    exact Consistent.getD _ hcons p q (by rw [Mesh.length_reverse_subset]; exact hp)
      (by rw [Mesh.length_reverse_subset]; exact hq) hne

theorem Mesh.has_correct_orientation_nil (m : Mesh) (h : m.triangles.length = 0) :
    m.has_correct_orientation = true := by
  have : m.triangles = [] := List.length_eq_zero.1 h
  simp [Mesh.has_correct_orientation, Mesh.compute_edge_map, this]

/-- Orientation repair on a connected mesh that admits a consistent winding. -/
theorem correct_local_orientation_consistent (m : Mesh) (F : Nat → Bool)
    (hlinks : m.links = Mesh.make_links m.triangles) (hproper : ∀ t ∈ m.triangles, t.proper)
    (hpos : m.DistinctPositions) (hconn : m.Connected)
    (hcons : Consistent (m.reverse_subset F).triangles) :
    ∃ m', m.correct_local_orientation = some m' ∧ m'.has_correct_orientation = true := by
  unfold Mesh.correct_local_orientation
  by_cases h : m.has_correct_orientation = true
  · rw [if_pos h]
    exact ⟨m, rfl, h⟩
  · rw [if_neg h]
    have hn : 0 < m.triangles.length := by
      by_contra h0
      exact h (m.has_correct_orientation_nil (by omega))
    have href := Reference.of_reverse m F hlinks hproper hpos hcons
    obtain ⟨s', hrun, _, b, htri⟩ := orient_run m _ href hconn hn
    refine ⟨s'.mesh, by rw [hrun]; rfl, ?_⟩
    apply Mesh.has_correct_of_consistent
    · rw [htri]
      intro t ht
      obtain ⟨u, hu, rfl⟩ := List.mem_map.1 ht
      exact orient_proper b u (m.proper_reverse F hproper u hu)
    · rw [htri]
      exact Consistent.map_orient _ b hcons

/-! ### Properties of the orientation repair -/

theorem mkMesh_distinct (ts : List Triangle) : (mkMesh ts).DistinctPositions := by
  intro a b _ _ h
  simp only [mkMesh, plainVertex, Vect3.mk.injEq, Nat.cast_inj, and_self, and_true] at h
  exact h

theorem reverseFrom_reverseFrom (F : Nat → Bool) (k : Nat) (ts : List Triangle) :
    reverseFrom F k (reverseFrom F k ts) = ts := by
  induction ts generalizing k with
  | nil => rfl
  | cons t rest ih =>
    simp only [reverseFrom, ih]
    cases F k <;> rfl

theorem Mesh.reverse_reverse (m : Mesh) (F : Nat → Bool) :
    ((m.reverse_subset F).reverse_subset F).triangles = m.triangles :=
  reverseFrom_reverseFrom F 0 m.triangles

theorem edgeManifold_of_length_le (m : Mesh) (h : m.triangles.length ≤ 2) : m.EdgeManifold := by
  intro x y _
  exact le_trans (List.length_filter_le _ _) h

theorem Mesh.has_correct_orientation_eq_false_iff (m : Mesh) :
    m.has_correct_orientation = false ↔ ∃ e ∈ m.compute_edge_map, e.2.natAbs = 2 := by
  unfold Mesh.has_correct_orientation
  rw [← Bool.not_eq_true, List.all_eq_true]
  simp

theorem moebiusMesh_connected : moebiusMesh.Connected := by
  intro p hp
  have hp' : p < 5 := hp
  have h1 : Relation.ReflTransGen moebiusMesh.adjacent 0 1 :=
    Relation.ReflTransGen.single (by decide)
  have h2 : Relation.ReflTransGen moebiusMesh.adjacent 0 2 := h1.tail (by decide)
  have h4 : Relation.ReflTransGen moebiusMesh.adjacent 0 4 :=
    Relation.ReflTransGen.single (by decide)
  have h3 : Relation.ReflTransGen moebiusMesh.adjacent 0 3 := h4.tail (by decide)
  interval_cases p
  · exact Relation.ReflTransGen.refl
  · exact h1
  · exact h2
  · exact h3
  · exact h4

/-- C1 (counterexample): on a surface made of a lone first triangle and, apart from it,
two triangles that traverse their common edge in the same direction,
`correct_local_orientation` returns and `has_correct_orientation` is still false; the
same happens on a connected Moebius band, all of whose triangles are reached. -/
theorem correct_local_orientation_can_fail :
    islandMesh.correct_local_orientation.map Mesh.has_correct_orientation = some false
      ∧ moebiusMesh.Connected
      ∧ moebiusMesh.reached = some [2, 3, 4, 1, 0]
      ∧ moebiusMesh.correct_local_orientation.map Mesh.has_correct_orientation
          = some false :=
  ⟨by decide, moebiusMesh_connected, by decide, by decide⟩

/-- C1 (amended): for every surface with up-to-date links, made of triangles with three
distinct vertices of pairwise distinct coordinates, in which every triangle can be
reached from the first one through triangles sharing exactly two vertices, each edge
belongs to at most two triangles, and reversing some subset of the triangles gives a
winding accepted by `has_correct_orientation`: `correct_local_orientation` returns, and
afterwards `has_correct_orientation` returns true. -/
theorem has_correct_orientation_after_correct_local_orientation (m : Mesh)
    (hlinks : m.links = Mesh.make_links m.triangles)
    (hproper : ∀ t ∈ m.triangles, t.proper)
    (hpos : m.DistinctPositions)
    (hconn : m.Connected)
    (hman : m.EdgeManifold)
    (hor : ∃ F, (m.reverse_subset F).has_correct_orientation = true) :
    ∃ m', m.correct_local_orientation = some m' ∧ m'.has_correct_orientation = true := by
  obtain ⟨F, hF⟩ := hor
  have hcons : Consistent (m.reverse_subset F).triangles :=
    Mesh.consistent_of_has_correct _ (m.proper_reverse F hproper)
      ((m.edgeManifold_reverse F).2 hman) hF
  exact correct_local_orientation_consistent m F hlinks hproper hpos hconn hcons

/-- C2 (amended): take a mesh with up-to-date links, made of triangles with three
distinct vertices of pairwise distinct coordinates, connected (every triangle is reached
from the first through triangles sharing exactly two vertices), in which each edge
belongs to at most two triangles and whose winding is consistent. Reverse the winding
of any subset `F` of its triangles: `correct_local_orientation` returns, and the edge
map of the result has no entry of absolute value 2. -/
theorem correct_local_orientation_repairs_reversed_subset (m : Mesh) (F : Nat → Bool)
    (hlinks : m.links = Mesh.make_links m.triangles)
    (hproper : ∀ t ∈ m.triangles, t.proper)
    (hpos : m.DistinctPositions)
    (hconn : m.Connected)
    (hman : m.EdgeManifold)
    (hcons : m.has_correct_orientation = true) :
    ∃ m', (m.reverse_subset F).correct_local_orientation = some m'
      ∧ ∀ e ∈ m'.compute_edge_map, e.2.natAbs ≠ 2 := by
  have hc : Consistent ((m.reverse_subset F).reverse_subset F).triangles := by
    rw [Mesh.reverse_reverse]
    exact Mesh.consistent_of_has_correct m hproper hman hcons
  have hl : (m.reverse_subset F).links = Mesh.make_links (m.reverse_subset F).triangles := by
    rw [Mesh.make_links_reverse]
    exact hlinks
  have hp : (m.reverse_subset F).DistinctPositions := by
    intro a b ha hb e
    exact hpos a b ((m.isVertex_reverse F a).1 ha) ((m.isVertex_reverse F b).1 hb) e
  obtain ⟨m', h1, h2⟩ := correct_local_orientation_consistent (m.reverse_subset F) F hl
    (m.proper_reverse F hproper) hp (m.connected_reverse F hconn) hc
  refine ⟨m', h1, ?_⟩
  intro e he
  unfold Mesh.has_correct_orientation at h2
  rw [List.all_eq_true] at h2
  simpa using h2 e he

theorem pinchedFan_connected : pinchedFan.Connected := by
  intro p hp
  have hp' : p < 5 := hp
  have h1 : Relation.ReflTransGen pinchedFan.adjacent 0 1 :=
    Relation.ReflTransGen.single (by decide)
  have h2 : Relation.ReflTransGen pinchedFan.adjacent 0 2 := h1.tail (by decide)
  have h3 : Relation.ReflTransGen pinchedFan.adjacent 0 3 := h1.tail (by decide)
  have h4 : Relation.ReflTransGen pinchedFan.adjacent 0 4 := h2.tail (by decide)
  interval_cases p
  · exact Relation.ReflTransGen.refl
  · exact h1
  · exact h2
  · exact h3
  · exact h4

theorem twinMesh_connected : twinMesh.Connected := by
  intro p hp
  have hp' : p < 3 := hp
  interval_cases p
  · exact Relation.ReflTransGen.refl
  · exact Relation.ReflTransGen.single (by decide)
  · exact Relation.ReflTransGen.single (by decide)

theorem filter_contains_eq_nil (ts : List Triangle) (x y : Nat)
    (h : ∀ t ∈ ts, ¬ (t.has x ∧ t.has y)) :
    ts.filter (fun t => t.contains x && t.contains y) = [] := by
  rw [List.filter_eq_nil_iff]
  intro t ht hc
  rw [Bool.and_eq_true, Triangle.contains_iff, Triangle.contains_iff] at hc
  exact h t ht hc

/-- The edge condition only has to be checked on the vertices of the mesh. -/
theorem edgeManifold_of_vertices (m : Mesh) (vs : List Nat)
    (hvs : ∀ t ∈ m.triangles, t.s1 ∈ vs ∧ t.s2 ∈ vs ∧ t.s3 ∈ vs)
    (h : ∀ x ∈ vs, ∀ y ∈ vs, x ≠ y →
      (m.triangles.filter (fun t => t.contains x && t.contains y)).length ≤ 2) :
    m.EdgeManifold := by
  intro x y hxy
  have hmem : ∀ t ∈ m.triangles, ∀ a, t.has a → a ∈ vs := by
    intro t ht a ha
    obtain ⟨h1, h2, h3⟩ := hvs t ht
    rcases ha with rfl | rfl | rfl
    · exact h1
    · exact h2
    · exact h3
  by_cases hx : x ∈ vs
  · by_cases hy : y ∈ vs
    · exact h x hx y hy hxy
    · rw [filter_contains_eq_nil]
      · simp
      · intro t ht hh
        exact hy (hmem t ht y hh.2)
  · rw [filter_contains_eq_nil]
    · simp
    · intro t ht hh
      exact hx (hmem t ht x hh.1)

/-- C2 (counterexample): two meshes that are connected, have each edge in at most two
triangles and are consistently wound. In the first, one triangle has the same vertex
twice; in the second, two distinct vertices have the same coordinates. After the
winding of one triangle is reversed, `correct_local_orientation` returns a mesh whose
edge map still has an entry of absolute value 2. -/
theorem correct_local_orientation_not_repaired :
    (pinchedFan.links = Mesh.make_links pinchedFan.triangles
      ∧ pinchedFan.Connected ∧ pinchedFan.EdgeManifold
      ∧ pinchedFan.has_correct_orientation = true
      ∧ (pinchedFan.reverse_subset (fun p => decide (p = 4))).correct_local_orientation.map
          Mesh.has_correct_orientation = some false)
    ∧ (twinMesh.links = Mesh.make_links twinMesh.triangles
      ∧ (∀ t ∈ twinMesh.triangles, t.proper)
      ∧ twinMesh.Connected ∧ twinMesh.EdgeManifold
      ∧ twinMesh.has_correct_orientation = true
      ∧ (twinMesh.reverse_subset (fun p => decide (p = 2))).correct_local_orientation.map
          Mesh.has_correct_orientation = some false) :=
  ⟨⟨rfl, pinchedFan_connected,
      edgeManifold_of_vertices pinchedFan [0, 1, 2, 3, 4, 5] (by decide) (by decide),
      by decide, by decide⟩,
    ⟨rfl, by decide, twinMesh_connected,
      edgeManifold_of_vertices twinMesh [0, 1, 2, 3, 4] (by decide) (by decide),
      by decide, by decide⟩⟩

theorem stripMesh_connected : stripMesh.Connected := by
  intro p hp
  have hp' : p < 2 := hp
  interval_cases p
  · exact Relation.ReflTransGen.refl
  · exact Relation.ReflTransGen.single (by decide)

/-- C2 (witness): the 4-vertex, 2-triangle strip with its second triangle reversed. -/
theorem correct_local_orientation_repairs_strip :
    (stripMesh.links = Mesh.make_links stripMesh.triangles
      ∧ (∀ t ∈ stripMesh.triangles, t.proper)
      ∧ stripMesh.DistinctPositions ∧ stripMesh.Connected ∧ stripMesh.EdgeManifold
      ∧ stripMesh.has_correct_orientation = true
      ∧ (stripMesh.reverse_subset (fun p => decide (p = 1))).triangles
          = [⟨0, 1, 2⟩, ⟨1, 2, 3⟩])
    ∧ ∃ m', (stripMesh.reverse_subset (fun p => decide (p = 1))).correct_local_orientation
        = some m'
      ∧ ∀ e ∈ m'.compute_edge_map, e.2.natAbs ≠ 2 :=
  ⟨⟨rfl, by decide, mkMesh_distinct _, stripMesh_connected,
      edgeManifold_of_length_le _ (by decide), by decide, by decide⟩,
    correct_local_orientation_repairs_reversed_subset stripMesh (fun p => decide (p = 1)) rfl
      (by decide) (mkMesh_distinct _) stripMesh_connected
      (edgeManifold_of_length_le _ (by decide)) (by decide)⟩

theorem tetraReversed_connected : tetraReversed.Connected := by
  intro p hp
  have hp' : p < 4 := hp
  interval_cases p
  · exact Relation.ReflTransGen.refl
  · exact Relation.ReflTransGen.single (by decide)
  · exact Relation.ReflTransGen.single (by decide)
  · exact Relation.ReflTransGen.single (by decide)

theorem tetraReversed_manifold : tetraReversed.EdgeManifold :=
  edgeManifold_of_vertices tetraReversed [0, 1, 2, 3] (by decide) (by decide)

/-- C1 (witness): the boundary of a tetrahedron with two of its four triangles
reversed. -/
theorem has_correct_orientation_after_correct_tetra :
    (tetraReversed.links = Mesh.make_links tetraReversed.triangles
      ∧ (∀ t ∈ tetraReversed.triangles, t.proper)
      ∧ tetraReversed.DistinctPositions ∧ tetraReversed.Connected
      ∧ tetraReversed.EdgeManifold
      ∧ tetraReversed.has_correct_orientation = false)
    ∧ ∃ m', tetraReversed.correct_local_orientation = some m'
        ∧ m'.has_correct_orientation = true :=
  ⟨⟨rfl, by decide, mkMesh_distinct _, tetraReversed_connected, tetraReversed_manifold,
      by decide⟩,
    has_correct_orientation_after_correct_local_orientation tetraReversed rfl (by decide)
      (mkMesh_distinct _) tetraReversed_connected tetraReversed_manifold
      ⟨fun p => decide (p = 1) || decide (p = 3), by decide⟩⟩

/-- C3: on a surface on which no entry of the edge map is +2 or -2,
`correct_local_orientation` returns the surface as it is (every triangle keeps its
vertex order), so running it twice is the same as running it once. -/
theorem correct_local_orientation_noop (m : Mesh)
    (h : ∀ e ∈ m.compute_edge_map, e.2 ≠ 2 ∧ e.2 ≠ -2) :
    m.correct_local_orientation = some m
      ∧ m.correct_local_orientation.bind Mesh.correct_local_orientation
          = m.correct_local_orientation := by
  have hc : m.has_correct_orientation = true := by
    unfold Mesh.has_correct_orientation
    rw [List.all_eq_true]
    intro e he
    have := h e he
    simp only [ne_eq, decide_eq_true_eq]
    omega
  have h1 : m.correct_local_orientation = some m := by
    unfold Mesh.correct_local_orientation
    rw [if_pos hc]
  exact ⟨h1, by rw [h1]; exact h1⟩

/-- C3 (witness): the consistently wound 2-triangle strip. -/
theorem correct_local_orientation_noop_strip :
    (∀ e ∈ stripMesh.compute_edge_map, e.2 ≠ 2 ∧ e.2 ≠ -2)
      ∧ stripMesh.correct_local_orientation = some stripMesh
      ∧ stripMesh.correct_local_orientation.bind Mesh.correct_local_orientation
          = stripMesh.correct_local_orientation :=
  ⟨by decide, correct_local_orientation_noop stripMesh (by decide)⟩

theorem Mesh.isVertex_of_traversals_pos (m : Mesh) (x y : Nat) (h : 0 < m.traversals x y) :
    m.isVertex x ∧ m.isVertex y := by
  obtain ⟨u, hu, hux⟩ := traverses_of_sum_pos m.triangles x y h
  exact ⟨⟨u, hu, (u.traverses_has x y hux).1⟩, ⟨u, hu, (u.traverses_has x y hux).2⟩⟩

theorem Triangle.trav_add_eq (t : Triangle) (ht : t.proper) (x y : Nat) (hxy : x ≠ y) :
    t.trav x y + t.trav y x = if (t.contains x && t.contains y) = true then 1 else 0 := by
  have hle := t.trav_add_le ht x y
  by_cases hc : (t.contains x && t.contains y) = true
  · rw [if_pos hc] at hle ⊢
    rw [Bool.and_eq_true, Triangle.contains_iff, Triangle.contains_iff] at hc
    rcases t.traverses_or x y hc.1 hc.2 hxy with h | h
    · have := (t.trav_pos_iff x y).2 h
      omega
    · have := (t.trav_pos_iff y x).2 h
      omega
  · rw [if_neg hc] at hle ⊢
    omega

theorem sum_trav_add_eq (ts : List Triangle) (hp : ∀ t ∈ ts, t.proper) (x y : Nat)
    (hxy : x ≠ y) :
    (ts.map (fun t => t.trav x y)).sum + (ts.map (fun t => t.trav y x)).sum
      = (ts.filter (fun t => t.contains x && t.contains y)).length := by
  induction ts with
  | nil => simp
  | cons a rest ih =>
    have h1 := a.trav_add_eq (hp a (List.mem_cons_self _ _)) x y hxy
    have h2 := ih (fun t ht => hp t (List.mem_cons_of_mem _ ht))
    simp only [List.map_cons, List.sum_cons, List.filter_cons]
    by_cases hc : (a.contains x && a.contains y) = true
    · rw [if_pos hc] at h1 ⊢
      simp only [List.length_cons]
      omega
    · rw [if_neg hc] at h1 ⊢
      omega

/-- In a mesh of triangles with three distinct vertices, an edge is a side of each of
the triangles it belongs to, once. -/
theorem Mesh.sideCount_eq_edgeCount (m : Mesh) (hp : ∀ t ∈ m.triangles, t.proper)
    (x y : Nat) (hxy : x ≠ y) : m.sideCount x y = m.edgeCount x y := by
  unfold Mesh.sideCount Mesh.traversals Mesh.edgeCount
  exact sum_trav_add_eq m.triangles hp x y hxy

/-- The vote of an edge that is a side of triangles of the mesh exactly twice. -/
theorem Mesh.edge_vote_of_two_sides (m : Mesh)
    (hidx : ∀ a b, m.isVertex a → m.isVertex b →
      (m.vertex a).index = (m.vertex b).index → a = b)
    (x y : Nat) (hxy : x ≠ y) (hshared : m.sideCount x y = 2) :
    m.compute_edge_map.count (m.edgeKey x y) = 1
      ∧ (m.compute_edge_map.value (m.edgeKey x y) = 0
        ↔ (m.traversals x y = 1 ∧ m.traversals y x = 1))
      ∧ ((m.compute_edge_map.value (m.edgeKey x y)).natAbs = 2
        ↔ (m.traversals x y = 2 ∨ m.traversals y x = 2))
      ∧ (m.has_correct_orientation = false ↔ ∃ e ∈ m.compute_edge_map, e.2.natAbs = 2) := by
  refine ⟨?_, ?_, ?_, m.has_correct_orientation_eq_false_iff⟩
  all_goals
    unfold Mesh.sideCount at hshared
    have hv : m.isVertex x ∧ m.isVertex y := by
      by_cases h0 : 0 < m.traversals x y
      · exact m.isVertex_of_traversals_pos x y h0
      · have := m.isVertex_of_traversals_pos y x (by omega)
        exact ⟨this.2, this.1⟩
    have hne : (m.vertex x).index ≠ (m.vertex y).index := fun e => hxy (hidx x y hv.1 hv.2 e)
    unfold Mesh.edgeKey
    by_cases hgt : (m.vertex x).index > (m.vertex y).index
    · have hle : (m.vertex y).index ≤ (m.vertex x).index := by omega
      first
      | rw [if_pos hgt, Mesh.count_compute_edge_map, if_pos]
        by_cases h0 : 0 < m.traversals x y
        · exact Or.inl ⟨hgt, h0⟩
        · exact Or.inr ⟨hle, by omega⟩
      | rw [if_pos hgt, Mesh.value_compute_edge_map]
        unfold Mesh.vote
        rw [if_pos hgt, if_pos hle]
        omega
    · have hgt' : (m.vertex y).index > (m.vertex x).index := by omega
      have hle : (m.vertex x).index ≤ (m.vertex y).index := by omega
      first
      | rw [if_neg hgt, Mesh.count_compute_edge_map, if_pos]
        by_cases h0 : 0 < m.traversals y x
        · exact Or.inl ⟨hgt', h0⟩
        · exact Or.inr ⟨hle, by omega⟩
      | rw [if_neg hgt, Mesh.value_compute_edge_map]
        unfold Mesh.vote
        rw [if_pos hgt', if_pos hle]
        omega

/-- C4 (counterexample): two triangles, (0, 1, 2) and (0, 1, 0), whose vertices have
the indices 0, 1, 2. The edge between the vertices 0 and 1 belongs to exactly these two
triangles and both go from 0 to 1, but the second, which has the vertex 0 twice, also
goes from 1 to 0: the edge is a side three times, its vote is -1, neither 0 nor +2 nor
-2, no entry of the edge map has absolute value 2 and `has_correct_orientation` returns
true. -/
theorem edge_vote_with_repeated_vertex :
    (∀ a b, repeatedVertexPair.isVertex a → repeatedVertexPair.isVertex b →
        (repeatedVertexPair.vertex a).index = (repeatedVertexPair.vertex b).index → a = b)
      ∧ repeatedVertexPair.triangles = [⟨0, 1, 2⟩, ⟨0, 1, 0⟩]
      ∧ repeatedVertexPair.edgeCount 0 1 = 2
      ∧ (∀ t ∈ repeatedVertexPair.triangles, t.traverses 0 1)
      ∧ repeatedVertexPair.sideCount 0 1 = 3
      ∧ repeatedVertexPair.compute_edge_map.value (repeatedVertexPair.edgeKey 0 1) = -1
      ∧ (∀ e ∈ repeatedVertexPair.compute_edge_map, e.2.natAbs ≠ 2)
      ∧ repeatedVertexPair.has_correct_orientation = true :=
  ⟨fun _ _ _ _ h => h, rfl, by decide, by decide, by decide, by decide, by decide, by decide⟩

/-- C4 (amended): in a mesh whose vertices have pairwise distinct indices and whose
triangles have three distinct vertices, take an edge between two vertices `x` and `y`
that belongs to exactly two triangles. The edge is a side of each of the two triangles,
once; the edge map of `compute_edge_map` has an entry for the edge; its vote is 0 exactly
when the two triangles traverse the edge in opposite directions (one from `x` to `y`,
one from `y` to `x`), and it is +2 or -2 exactly when both traverse it in the same
direction. `has_correct_orientation` returns false exactly when some entry of the edge
map has absolute value 2. -/
theorem edge_vote_of_shared_edge (m : Mesh)
    (hidx : ∀ a b, m.isVertex a → m.isVertex b →
      (m.vertex a).index = (m.vertex b).index → a = b)
    (hp : ∀ t ∈ m.triangles, t.proper)
    (x y : Nat) (hxy : x ≠ y) (hshared : m.edgeCount x y = 2) :
    m.sideCount x y = 2
      ∧ m.compute_edge_map.count (m.edgeKey x y) = 1
      ∧ (m.compute_edge_map.value (m.edgeKey x y) = 0
        ↔ (m.traversals x y = 1 ∧ m.traversals y x = 1))
      ∧ ((m.compute_edge_map.value (m.edgeKey x y)).natAbs = 2
        ↔ (m.traversals x y = 2 ∨ m.traversals y x = 2))
      ∧ (m.has_correct_orientation = false ↔ ∃ e ∈ m.compute_edge_map, e.2.natAbs = 2) :=
  ⟨(m.sideCount_eq_edgeCount hp x y hxy).trans hshared,
    m.edge_vote_of_two_sides hidx x y hxy ((m.sideCount_eq_edgeCount hp x y hxy).trans hshared)⟩

/-- C4 (witness): the edge between vertices 1 and 2 of the strip whose second triangle
is reversed; both triangles go from 1 to 2 and the vote is -2. -/
theorem edge_vote_of_shared_edge_strip :
    ((∀ t ∈ stripReversed.triangles, t.proper) ∧ stripReversed.edgeCount 1 2 = 2)
    ∧ stripReversed.compute_edge_map.value (stripReversed.edgeKey 1 2) = -2
    ∧ (stripReversed.sideCount 1 2 = 2
      ∧ stripReversed.compute_edge_map.count (stripReversed.edgeKey 1 2) = 1
      ∧ (stripReversed.compute_edge_map.value (stripReversed.edgeKey 1 2) = 0
        ↔ (stripReversed.traversals 1 2 = 1 ∧ stripReversed.traversals 2 1 = 1))
      ∧ ((stripReversed.compute_edge_map.value (stripReversed.edgeKey 1 2)).natAbs = 2
        ↔ (stripReversed.traversals 1 2 = 2 ∨ stripReversed.traversals 2 1 = 2))
      ∧ (stripReversed.has_correct_orientation = false
        ↔ ∃ e ∈ stripReversed.compute_edge_map, e.2.natAbs = 2)) :=
  ⟨⟨by decide, by decide⟩, by decide,
    edge_vote_of_shared_edge stripReversed (fun a b _ _ h => h) (by decide) 1 2 (by decide)
      (by decide)⟩

/-- A triangle with three distinct vertices has as many vertices in common with `t` as
it has vertex slots that hold a vertex of `t`. -/
theorem Triangle.shared_vertices_eq (t u : Triangle) (hu : u.proper) :
    t.shared_vertices u = t.shared u := by
  unfold Triangle.shared_vertices Triangle.shared
  have hn : u.vertices.Nodup := by
    obtain ⟨p1, p2, p3⟩ := hu
    simp [Triangle.vertices, p1, p2, p3]
  rw [List.Nodup.dedup (hn.filter _)]

/-- C5 (counterexample): in the mesh `pinchedFan`, whose links are up to date, the
triangle `t = (0, 2, 3)` has three distinct vertices and `adjacent_triangles(t)` returns
the triangles at the positions 0, 2 and 3. The triangle at position 3 is (0, 0, 1): two
of its vertex slots hold the vertex 0 of `t`, but it has one vertex in common with `t`,
not two. -/
theorem adjacent_triangles_counts_slots :
    pinchedFan.links = Mesh.make_links pinchedFan.triangles
      ∧ (⟨0, 2, 3⟩ : Triangle).proper
      ∧ pinchedFan.adjacent_triangles ⟨0, 2, 3⟩ = [0, 2, 3]
      ∧ pinchedFan.tri 3 = ⟨0, 0, 1⟩
      ∧ (⟨0, 2, 3⟩ : Triangle).shared (pinchedFan.tri 3) = 2
      ∧ (⟨0, 2, 3⟩ : Triangle).shared_vertices (pinchedFan.tri 3) = 1
      ∧ (List.range pinchedFan.triangles.length).filter
          (fun p => decide ((⟨0, 2, 3⟩ : Triangle).shared_vertices (pinchedFan.tri p) = 2))
        = [0, 2] :=
  ⟨rfl, by decide, by decide, rfl, by decide, by decide, by decide⟩

/-- C5 (amended): with up-to-date links and a triangle `t` with three distinct
vertices, `adjacent_triangles(t)` is the list, in increasing position and without
repetition, of exactly the triangles of the mesh of which exactly two of the three
vertex slots hold a vertex of `t`; in a mesh whose triangles all have three distinct
vertices these are exactly the triangles that have exactly two vertices in common with
`t`. No returned triangle is `t` itself or has the same three vertices as `t`. -/
theorem adjacent_triangles_spec (m : Mesh) (t : Triangle)
    (hlinks : m.links = Mesh.make_links m.triangles) (ht : t.proper) :
    m.adjacent_triangles t
        = (List.range m.triangles.length).filter (fun p => decide (t.shared (m.tri p) = 2))
      ∧ ((∀ u ∈ m.triangles, u.proper) →
          m.adjacent_triangles t
            = (List.range m.triangles.length).filter
                (fun p => decide (t.shared_vertices (m.tri p) = 2)))
      ∧ (m.adjacent_triangles t).Nodup
      ∧ ∀ p ∈ m.adjacent_triangles t, m.tri p ≠ t ∧ ¬ (∀ v, (m.tri p).has v ↔ t.has v) := by
  refine ⟨m.adjacent_triangles_eq_filter t hlinks ht, ?_, ?_, ?_⟩
  · intro hp
    rw [m.adjacent_triangles_eq_filter t hlinks ht]
    apply List.filter_congr
    intro p hpr
    have hmem : m.tri p ∈ m.triangles := by
      have hlt : p < m.triangles.length := List.mem_range.1 hpr
      unfold Mesh.tri
      rw [List.getD_eq_getElem?_getD, List.getElem?_eq_getElem hlt]
      exact List.getElem_mem hlt
    rw [Triangle.shared_vertices_eq t (m.tri p) (hp _ hmem)]
  · exact (m.adjacent_triangles_sorted t).imp (fun h => Nat.ne_of_lt h)
  · intro p hp
    have h2 := ((m.mem_adjacent_triangles_iff t p hlinks ht).1 hp).2
    have hall : (∀ v, (m.tri p).has v ↔ t.has v) → False := by
      intro hv
      rw [Triangle.shared_eq] at h2
      have h1 : t.has (m.tri p).s1 := (hv _).1 (Or.inl rfl)
      have h2' : t.has (m.tri p).s2 := (hv _).1 (Or.inr (Or.inl rfl))
      have h3 : t.has (m.tri p).s3 := (hv _).1 (Or.inr (Or.inr rfl))
      rw [if_pos h1, if_pos h2', if_pos h3] at h2
      omega
    refine ⟨?_, hall⟩
    intro e
    exact hall (fun v => by rw [e])

/-- C5 (witness): the triangles adjacent to the first triangle of the tetrahedron
boundary are the three others. -/
theorem adjacent_triangles_spec_tetra :
    (tetraMesh.links = Mesh.make_links tetraMesh.triangles ∧ (⟨0, 1, 2⟩ : Triangle).proper)
    ∧ tetraMesh.adjacent_triangles ⟨0, 1, 2⟩ = [1, 2, 3]
    ∧ (tetraMesh.adjacent_triangles ⟨0, 1, 2⟩
        = (List.range tetraMesh.triangles.length).filter
            (fun p => decide ((⟨0, 1, 2⟩ : Triangle).shared (tetraMesh.tri p) = 2))
      ∧ ((∀ u ∈ tetraMesh.triangles, u.proper) →
          tetraMesh.adjacent_triangles ⟨0, 1, 2⟩
            = (List.range tetraMesh.triangles.length).filter
                (fun p => decide ((⟨0, 1, 2⟩ : Triangle).shared_vertices (tetraMesh.tri p) = 2)))
      ∧ (tetraMesh.adjacent_triangles ⟨0, 1, 2⟩).Nodup
      ∧ ∀ p ∈ tetraMesh.adjacent_triangles ⟨0, 1, 2⟩,
          tetraMesh.tri p ≠ ⟨0, 1, 2⟩
            ∧ ¬ (∀ v, (tetraMesh.tri p).has v ↔ (⟨0, 1, 2⟩ : Triangle).has v)) :=
  ⟨⟨rfl, by decide⟩, by decide, adjacent_triangles_spec tetraMesh ⟨0, 1, 2⟩ rfl (by decide)⟩

/-- C7 (counterexample): on a surface whose third and fourth triangle are out of reach
of the traversal (and stay wrongly wound), `correct_local_orientation` returns normally
and writes to `std::cerr` exactly what it writes on the 2-triangle strip, where every
triangle is reached: nothing tells the caller that triangles were left out. -/
theorem correct_local_orientation_reports_nothing :
    twoPartMesh.reached = some [1, 0]
      ∧ twoPartMesh.triangles.length = 4
      ∧ twoPartMesh.correct_local_orientation.map Mesh.has_correct_orientation = some false
      ∧ stripReversed.reached = some [1, 0]
      ∧ stripReversed.triangles.length = 2
      ∧ twoPartMesh.correct_local_orientation_cerr
          = stripReversed.correct_local_orientation_cerr := by
  decide

/-- C7 (amended): whenever a repair is needed, on a surface with up-to-date links,
`correct_local_orientation` finishes normally whether or not the traversal reaches every
triangle: it returns the mesh, writes to `std::cerr` the same two fixed messages in
every case, and every triangle the traversal did not reach keeps its vertex order. -/
theorem correct_local_orientation_silent (m : Mesh)
    (hlinks : m.links = Mesh.make_links m.triangles)
    (hbad : m.has_correct_orientation = false) :
    ∃ m' r, m.correct_local_orientation = some m' ∧ m.reached = some r
      ∧ m.correct_local_orientation_cerr = ["Local orientation problem...", "Reorienting..."]
      ∧ ∀ p, p ∉ r → m'.tri p = m.tri p := by
  have hn : 0 < m.triangles.length := by
    by_contra h0
    have := m.has_correct_orientation_nil (by omega)
    rw [hbad] at this
    exact absurd this (by decide)
  have hv : ∀ v, ∀ p ∈ m.links v, p < m.triangles.length := by
    intro v p hp
    rw [hlinks] at hp
    exact Mesh.make_links_lt _ _ _ hp
  have hbasic : Basic m { mesh := m, t_stack := [0], tri_reoriented := [0] } :=
    { vertex_eq := rfl
      links_eq := rfl
      length_eq := rfl
      tri_cases := fun p => Or.inl rfl
      unmarked := fun p _ => rfl
      marked_lt := by
        intro p hp
        simp only [List.mem_singleton] at hp
        rw [hp]; exact hn
      marked_nodup := List.nodup_singleton 0
      stack_sub := fun p hp => hp }
  obtain ⟨s', hrun, hb', -, -⟩ := orient_loop m hv (fun _ => True)
    (fun _ _ _ _ _ _ => trivial) m.triangles.length _ hbasic trivial (by
      simp only [Mesh.OrientState.budget, List.length_singleton]
      omega)
  refine ⟨s'.mesh, s'.tri_reoriented, ?_, ?_, ?_, hb'.unmarked⟩
  · unfold Mesh.correct_local_orientation
    rw [hbad, hrun]
    rfl
  · unfold Mesh.reached
    rw [hrun]
    rfl
  · unfold Mesh.correct_local_orientation_cerr
    rw [hbad]
    rfl

/-- C7 (witness): the surface with two triangles out of reach. -/
theorem correct_local_orientation_silent_two_part :
    (twoPartMesh.links = Mesh.make_links twoPartMesh.triangles
      ∧ twoPartMesh.has_correct_orientation = false)
    ∧ ∃ m' r, twoPartMesh.correct_local_orientation = some m' ∧ twoPartMesh.reached = some r
      ∧ twoPartMesh.correct_local_orientation_cerr
          = ["Local orientation problem...", "Reorienting..."]
      ∧ ∀ p, p ∉ r → m'.tri p = twoPartMesh.tri p :=
  ⟨⟨rfl, by decide⟩, correct_local_orientation_silent twoPartMesh rfl (by decide)⟩

/-! ### Self-intersection -/

theorem Triangle.contains_s3 (t : Triangle) : t.contains t.s3 = true := by
  simp [Triangle.contains]

theorem Mesh.self_intersection_step_eq (m : Mesh)
    (overlap : Vect3 → Vect3 → Vect3 → Vect3 → Vect3 → Vect3 → Bool)
    (tit1 tit2 : Triangle) (acc : Bool) :
    m.self_intersection_step overlap tit1 tit2 acc = acc := by
  simp [Mesh.self_intersection_step, Triangle.contains_s3]

theorem foldl_const {α β : Type} (f : β → α → β) (l : List α) (b : β)
    (h : ∀ b a, f b a = b) : l.foldl f b = b := by
  induction l generalizing b with
  | nil => rfl
  | cons a rest ih => rw [List.foldl_cons, h, ih]

/-- C6: `has_self_intersection` returns false on every surface and for every overlap
predicate: its guard tests `tit1->contains(tit1->s3())`, which always holds, so the
predicate is never applied. On the two crossing triangles of `crossingMesh`, which share
no vertex and for which the predicate holds, it returns false. -/
theorem has_self_intersection_false (m : Mesh)
    (overlap : Vect3 → Vect3 → Vect3 → Vect3 → Vect3 → Vect3 → Bool) :
    m.has_self_intersection overlap = false
      ∧ crossingMesh.some_disjoint_pair_overlaps (fun _ _ _ _ _ _ => true)
      ∧ crossingMesh.has_self_intersection (fun _ _ _ _ _ _ => true) = false := by
  have hgen : ∀ (m : Mesh) (ov : Vect3 → Vect3 → Vect3 → Vect3 → Vect3 → Vect3 → Bool),
      m.has_self_intersection ov = false := by
    intro m ov
    unfold Mesh.has_self_intersection
    apply foldl_const
    intro b p1
    apply foldl_const
    intro b p2
    exact m.self_intersection_step_eq ov _ _ b
  refine ⟨hgen m overlap, ⟨0, 1, by decide, by decide, by decide, rfl⟩, hgen _ _⟩

/-! ### Head-matrix assembly -/

theorem sum_filter_add (l : List Surface) (p : Surface → Bool) (f : Surface → Nat) :
    (l.map f).sum = ((l.filter p).map f).sum + ((l.filter (fun s => !p s)).map f).sum := by
  induction l with
  | nil => rfl
  | cons a rest ih =>
    simp only [List.map_cons, List.sum_cons, List.filter_cons, ih]
    cases p a <;> simp <;> omega

theorem SymMatrix.apply_nlin (ops : OpCall → (Nat → Nat → ℚ) → (Nat → Nat → ℚ))
    (M : SymMatrix) (c : OpCall) : (M.apply ops c).nlin = M.nlin := rfl

theorem foldl_apply_nlin (ops : OpCall → (Nat → Nat → ℚ) → (Nat → Nat → ℚ))
    (l : List OpCall) (M : SymMatrix) : (l.foldl (SymMatrix.apply ops) M).nlin = M.nlin := by
  induction l generalizing M with
  | nil => rfl
  | cons c rest ih => rw [List.foldl_cons, ih, SymMatrix.apply_nlin]

theorem SymMatrix.add_nlin (M : SymMatrix) (i j : Nat) (c : ℚ) : (M.add i j c).nlin = M.nlin :=
  rfl

theorem deflat_nlin (M : SymMatrix) (i : List Surface) (coef : ℚ) :
    (deflat M i coef).nlin = M.nlin := by
  unfold deflat
  induction i generalizing M with
  | nil => rfl
  | cons s rest ih =>
    rw [List.foldl_cons, ih]
    generalize deflat_pairs s.vertex_indices = l
    induction l generalizing M with
    | nil => rfl
    | cons e r ih2 => rw [List.foldl_cons, ih2, SymMatrix.add_nlin]

/-- C8: for every Geometry, `assemble_HM` produces a matrix of dimension `geo.size()`
minus the number of triangles of the outermost interface, which is the total vertex
count plus the triangle count of the non-outermost Surfaces; and the matrix on which the
operator blocks are accumulated starts with every entry equal to 0, whatever the
content of the fresh storage. -/
theorem assemble_HM_dimension_and_zero
    (ops : OpCall → (Nat → Nat → ℚ) → (Nat → Nat → ℚ)) (geo : Geometry)
    (fresh : Nat → Nat → ℚ) (K : ℚ) (gauss_order : Nat) :
    (assemble_HM ops geo fresh K gauss_order).nlin
        = geo.size - Interface_nb_triangles geo.outermost_interface
      ∧ geo.size - Interface_nb_triangles geo.outermost_interface
        = geo.nb_vertices
          + ((geo.meshes.filter (fun s => !s.outermost)).map Surface.nb_triangles).sum
      ∧ (∀ i j, (assemble_HM_init geo fresh).get i j = 0)
      ∧ assemble_HM ops geo fresh K gauss_order
        = deflat
            ((assemble_HM_calls geo K gauss_order).foldl (SymMatrix.apply ops)
              (assemble_HM_init geo fresh))
            geo.outermost_interface
            (((assemble_HM_calls geo K gauss_order).foldl (SymMatrix.apply ops)
                (assemble_HM_init geo fresh)).get
                (((geo.outermost_interface.head?).bind
                  (fun s => s.vertex_indices.head?)).getD 0)
                (((geo.outermost_interface.head?).bind
                  (fun s => s.vertex_indices.head?)).getD 0)
              / (Interface_nb_vertices geo.outermost_interface : ℚ)) := by
  refine ⟨?_, ?_, ?_, rfl⟩
  · unfold assemble_HM
    simp only [deflat_nlin, foldl_apply_nlin]
    rfl
  · unfold Geometry.size Interface_nb_triangles Geometry.outermost_interface
    have := sum_filter_add geo.meshes (fun s => s.outermost) Surface.nb_triangles
    omega
  · intro i j
    unfold assemble_HM_init SymMatrix.get SymMatrix.set
    simp

theorem mem_pair_calls (geo : Geometry) (K : ℚ) (gauss_order : Nat) (A B : Surface)
    (ho : geo.oriented A B ≠ 0) (c : OpCall) :
    c ∈ pair_calls geo K gauss_order A B ↔
      (A.outermost = false ∧ B.outermost = false
          ∧ c = ⟨OpKind.S, A, B, geo.oriented A B * geo.sigma_inv A B * K, gauss_order⟩)
      ∨ (A.outermost = false
          ∧ c = ⟨OpKind.D, A, B, - geo.oriented A B * geo.indicator A B * K, gauss_order⟩)
      ∨ (A ≠ B ∧ B.outermost = false
          ∧ c = ⟨OpKind.Dstar, A, B, - geo.oriented A B * geo.indicator A B * K, gauss_order⟩)
      ∨ c = ⟨OpKind.N, A, B,
            if A.outermost = false ∧ B.outermost = false then geo.sigma A B / geo.sigma_inv A B
            else geo.oriented A B * geo.sigma A B * K, gauss_order⟩ := by
  unfold pair_calls
  simp only [ho, ne_eq, not_false_eq_true, if_true]
  cases hA : A.outermost <;> cases hB : B.outermost <;> by_cases hAB : A = B <;>
    simp [hAB]

/-- C9 (counterexample): for the self-pair of the inner Surface of the two-shell
Geometry, a communicating pair that is not of the form "A ≠ B and B outermost",
`assemble_HM` issues no `D*` call. -/
theorem no_Dstar_for_self_pair :
    (twoShell 1).oriented innerShell innerShell ≠ 0
      ∧ ¬ (innerShell ≠ innerShell ∧ innerShell.outermost = true)
      ∧ ∀ c ∈ pair_calls (twoShell 1) (2 / 25) 3 innerShell innerShell,
          c.kind ≠ OpKind.Dstar := by
  refine ⟨by decide, by decide, ?_⟩
  intro c hc
  rw [mem_pair_calls _ _ _ _ _ (by decide)] at hc
  rcases hc with ⟨-, -, rfl⟩ | ⟨-, rfl⟩ | ⟨h, -, -⟩ | rfl
  · decide
  · decide
  · exact absurd rfl h
  · decide

/-- C9 (amended): in `assemble_HM`, for every pair (A,B) with `oriented(A,B) ≠ 0`, the D
block is computed iff A is not outermost, and the `D*` block is computed iff A ≠ B and B
is not outermost; no `D*` block is computed for a self-pair. -/
theorem D_and_Dstar_blocks (geo : Geometry) (K : ℚ) (gauss_order : Nat) (A B : Surface)
    (ho : geo.oriented A B ≠ 0) :
    ((∃ c ∈ pair_calls geo K gauss_order A B, c.kind = OpKind.D) ↔ A.outermost = false)
      ∧ ((∃ c ∈ pair_calls geo K gauss_order A B, c.kind = OpKind.Dstar)
          ↔ (A ≠ B ∧ B.outermost = false)) := by
  constructor
  · constructor
    · rintro ⟨c, hc, hk⟩
      rw [mem_pair_calls _ _ _ _ _ ho] at hc
      rcases hc with ⟨-, -, rfl⟩ | ⟨h, -⟩ | ⟨-, -, rfl⟩ | rfl
      · exact absurd hk (by simp)
      · exact h
      · exact absurd hk (by simp)
      · exact absurd hk (by simp)
    · intro h
      exact ⟨_, (mem_pair_calls _ _ _ _ _ ho _).2 (Or.inr (Or.inl ⟨h, rfl⟩)), rfl⟩
  · constructor
    · rintro ⟨c, hc, hk⟩
      rw [mem_pair_calls _ _ _ _ _ ho] at hc
      rcases hc with ⟨-, -, rfl⟩ | ⟨-, rfl⟩ | ⟨h1, h2, -⟩ | rfl
      · exact absurd hk (by simp)
      · exact absurd hk (by simp)
      · exact ⟨h1, h2⟩
      · exact absurd hk (by simp)
    · intro h
      exact ⟨_, (mem_pair_calls _ _ _ _ _ ho _).2 (Or.inr (Or.inr (Or.inl ⟨h.1, h.2, rfl⟩))),
        rfl⟩

/-- C9 (witness): the pair (outermost Surface, inner Surface) of the two-shell
Geometry: no D block, one `D*` block. -/
theorem D_and_Dstar_blocks_two_shell :
    (twoShell 1).oriented outerShell innerShell ≠ 0
    ∧ ((∃ c ∈ pair_calls (twoShell 1) (2 / 25) 3 outerShell innerShell, c.kind = OpKind.D)
        ↔ outerShell.outermost = false)
    ∧ ((∃ c ∈ pair_calls (twoShell 1) (2 / 25) 3 outerShell innerShell, c.kind = OpKind.Dstar)
        ↔ (outerShell ≠ innerShell ∧ innerShell.outermost = false)) :=
  ⟨by decide, D_and_Dstar_blocks (twoShell 1) (2 / 25) 3 outerShell innerShell (by decide)⟩

/-- C10 (counterexample): for the self-pair of the inner Surface of the two-shell
Geometry the coefficients handed to S and D double when `K` doubles and change sign with
`oriented`, but the coefficient handed to N is 1/3 in all three cases: it contains
neither factor. -/
theorem N_coefficient_without_K :
    (pair_calls (twoShell 1) 1 3 innerShell innerShell).map (fun c => (c.kind, c.coeff))
        = [(OpKind.S, 4), (OpKind.D, -2), (OpKind.N, 1 / 3)]
      ∧ (pair_calls (twoShell 1) 2 3 innerShell innerShell).map (fun c => (c.kind, c.coeff))
        = [(OpKind.S, 8), (OpKind.D, -4), (OpKind.N, 1 / 3)]
      ∧ (pair_calls (twoShell (-1)) 1 3 innerShell innerShell).map
          (fun c => (c.kind, c.coeff))
        = [(OpKind.S, -4), (OpKind.D, 2), (OpKind.N, 1 / 3)] := by
  refine ⟨?_, ?_, ?_⟩ <;>
    · simp only [pair_calls, twoShell, innerShell]
      norm_num

/-- C10 (amended): in `assemble_HM`, for every communicating pair (A,B), the coefficient
handed to S is `oriented * sigma_inv * K`, the coefficient handed to D and to `D*` is
`- oriented * indicator * K`, and the coefficient handed to N is `oriented * sigma * K`
when A or B is outermost and the ratio `sigma / sigma_inv`, without the factors `K` and
`oriented`, when neither is. -/
theorem operator_coefficients (geo : Geometry) (K : ℚ) (gauss_order : Nat) (A B : Surface)
    (ho : geo.oriented A B ≠ 0) :
    ∀ c ∈ pair_calls geo K gauss_order A B,
      (c.kind = OpKind.S → c.coeff = geo.oriented A B * geo.sigma_inv A B * K)
      ∧ (c.kind = OpKind.D ∨ c.kind = OpKind.Dstar →
          c.coeff = - geo.oriented A B * geo.indicator A B * K)
      ∧ (c.kind = OpKind.N →
          c.coeff = if A.outermost = false ∧ B.outermost = false
            then geo.sigma A B / geo.sigma_inv A B
            else geo.oriented A B * geo.sigma A B * K) := by
  intro c hc
  rw [mem_pair_calls _ _ _ _ _ ho] at hc
  rcases hc with ⟨-, -, rfl⟩ | ⟨-, rfl⟩ | ⟨-, -, rfl⟩ | rfl
  · exact ⟨fun _ => rfl, fun h => by rcases h with h | h <;> exact absurd h (by simp),
      fun h => absurd h (by simp)⟩
  · exact ⟨fun h => absurd h (by simp), fun _ => rfl, fun h => absurd h (by simp)⟩
  · exact ⟨fun h => absurd h (by simp), fun _ => rfl, fun h => absurd h (by simp)⟩
  · exact ⟨fun h => absurd h (by simp),
      fun h => by rcases h with h | h <;> exact absurd h (by simp), fun _ => rfl⟩

/-- C10 (witness): the pair (outermost Surface, inner Surface) of the two-shell
Geometry. -/
theorem operator_coefficients_two_shell :
    (twoShell 1).oriented outerShell innerShell ≠ 0
    ∧ ∀ c ∈ pair_calls (twoShell 1) (2 / 25) 3 outerShell innerShell,
      (c.kind = OpKind.S →
        c.coeff = (twoShell 1).oriented outerShell innerShell
          * (twoShell 1).sigma_inv outerShell innerShell * (2 / 25))
      ∧ (c.kind = OpKind.D ∨ c.kind = OpKind.Dstar →
          c.coeff = - (twoShell 1).oriented outerShell innerShell
            * (twoShell 1).indicator outerShell innerShell * (2 / 25))
      ∧ (c.kind = OpKind.N →
          c.coeff = if outerShell.outermost = false ∧ innerShell.outermost = false
            then (twoShell 1).sigma outerShell innerShell
              / (twoShell 1).sigma_inv outerShell innerShell
            else (twoShell 1).oriented outerShell innerShell
              * (twoShell 1).sigma outerShell innerShell * (2 / 25)) :=
  ⟨by decide, operator_coefficients (twoShell 1) (2 / 25) 3 outerShell innerShell (by decide)⟩

/-! ### Deflation -/

theorem SymMatrix.get_add (M : SymMatrix) (a b : Nat) (c : ℚ) (i j : Nat) :
    (M.add a b c).get i j = M.get i j + if hitsCell i j (a, b) then c else 0 := by
  unfold SymMatrix.add SymMatrix.get
  dsimp only
  by_cases hij : i ≤ j
  · rw [if_pos hij, if_pos hij]
    by_cases h : i = min a b ∧ j = max a b
    · have h' : (a = i ∧ b = j) ∨ (a = j ∧ b = i) := by omega
      have hc : hitsCell i j (a, b) = true := decide_eq_true h'
      rw [if_pos h, hc, if_pos rfl]
    · have h' : ¬ ((a = i ∧ b = j) ∨ (a = j ∧ b = i)) := by omega
      have hc : hitsCell i j (a, b) = false := decide_eq_false h'
      rw [if_neg h, hc]
      simp
  · rw [if_neg hij, if_neg hij]
    by_cases h : j = min a b ∧ i = max a b
    · have h' : (a = i ∧ b = j) ∨ (a = j ∧ b = i) := by omega
      have hc : hitsCell i j (a, b) = true := decide_eq_true h'
      rw [if_pos h, hc, if_pos rfl]
    · have h' : ¬ ((a = i ∧ b = j) ∨ (a = j ∧ b = i)) := by omega
      have hc : hitsCell i j (a, b) = false := decide_eq_false h'
      rw [if_neg h, hc]
      simp

theorem get_foldl_add (l : List (Nat × Nat)) (M : SymMatrix) (c : ℚ) (i j : Nat) :
    (l.foldl (fun M e => M.add e.1 e.2 c) M).get i j
      = M.get i j + (l.countP (hitsCell i j) : ℚ) * c := by
  induction l generalizing M with
  | nil => simp
  | cons e rest ih =>
    rw [List.foldl_cons, ih, SymMatrix.get_add, List.countP_cons]
    by_cases h : hitsCell i j (e.1, e.2) = true
    · have h2 : hitsCell i j e = true := h
      simp only [h, h2, if_true]
      push_cast
      ring
    · have h2 : ¬ hitsCell i j e = true := h
      simp only [h, h2, if_false]
      push_cast
      ring

theorem get_deflat (I : List Surface) (M : SymMatrix) (c : ℚ) (i j : Nat) :
    (deflat M I c).get i j
      = M.get i j
        + ((I.map (fun s => (deflat_pairs s.vertex_indices).countP (hitsCell i j))).sum : ℚ) * c := by
  unfold deflat
  induction I generalizing M with
  | nil => simp
  | cons s rest ih =>
    rw [List.foldl_cons, ih, get_foldl_add]
    simp only [List.map_cons, List.sum_cons]
    push_cast
    ring

theorem countP_deflat_pairs (l : List Nat) (h : l.Nodup) (i j : Nat) :
    (deflat_pairs l).countP (hitsCell i j) = if i ∈ l ∧ j ∈ l then 1 else 0 := by
  induction l with
  | nil => simp [deflat_pairs]
  | cons v rest ih =>
    have hv : v ∉ rest := (List.nodup_cons.1 h).1
    have hr : rest.Nodup := (List.nodup_cons.1 h).2
    rw [deflat_pairs, List.countP_append, ih hr, List.countP_map, List.countP_cons]
    have hcnt : ∀ x, rest.countP (fun w => decide (w = x)) = if x ∈ rest then 1 else 0 := by
      intro x
      have := List.count_eq_countP x rest
      have h2 : rest.count x = if x ∈ rest then 1 else 0 := by
        by_cases hx : x ∈ rest
        · rw [if_pos hx, List.count_eq_one_of_mem hr hx]
        · rw [if_neg hx, List.count_eq_zero_of_not_mem hx]
      rw [← h2, List.count_eq_countP]
      congr 1
    by_cases hi : v = i
    · by_cases hj : v = j
      · subst hi; subst hj
        have : rest.countP (hitsCell v v ∘ fun w => (v, w)) = 0 := by
          rw [List.countP_eq_zero]
          intro w hw
          simp only [Function.comp, hitsCell, true_and, or_self, decide_eq_true_eq]
          intro hwv
          exact hv (hwv ▸ hw)
        simp [this, hv, hitsCell]
      · subst hi
        have : rest.countP (hitsCell v j ∘ fun w => (v, w)) = if j ∈ rest then 1 else 0 := by
          rw [← hcnt j]
          congr 1
          funext w
          simp only [Function.comp, hitsCell, true_and]
          by_cases hw : w = j
          · simp [hw]
          · simp [hw, hj]
        rw [this]
        have hjv : ¬ j = v := fun e => hj e.symm
        by_cases hjr : j ∈ rest <;> simp [hitsCell, hj, hv, hjr, hjv]
    · by_cases hj : v = j
      · subst hj
        have : rest.countP (hitsCell i v ∘ fun w => (v, w)) = if i ∈ rest then 1 else 0 := by
          rw [← hcnt i]
          congr 1
          funext w
          simp only [Function.comp, hitsCell, true_and]
          by_cases hw : w = i
          · simp [hw]
          · simp [hw, hi]
        rw [this]
        have hiv : ¬ i = v := fun e => hi e.symm
        by_cases hir : i ∈ rest <;> simp [hitsCell, hi, hv, hir, hiv]
      · have : rest.countP (hitsCell i j ∘ fun w => (v, w)) = 0 := by
          rw [List.countP_eq_zero]
          intro w _
          simp [Function.comp, hitsCell, hi, hj]
        have hiv : ¬ i = v := fun e => hi e.symm
        have hjv : ¬ j = v := fun e => hj e.symm
        simp [this, hitsCell, hi, hj, hiv, hjv]

theorem sum_pair_count (I : List Surface) (h : ∀ s ∈ I, s.vertex_indices.Nodup) (i j : Nat) :
    (I.map (fun s => (deflat_pairs s.vertex_indices).countP (hitsCell i j))).sum
      = Interface_pair_count I i j := by
  unfold Interface_pair_count
  induction I with
  | nil => rfl
  | cons s rest ih =>
    have hs := h s (List.mem_cons_self _ _)
    have ih' := ih (fun t ht => h t (List.mem_cons_of_mem _ ht))
    rw [List.map_cons, List.sum_cons, ih', countP_deflat_pairs _ hs, List.filter_cons]
    by_cases hc : i ∈ s.vertex_indices ∧ j ∈ s.vertex_indices
    · simp [hc]; omega
    · simp [hc]

theorem assemble_HM_eq_deflat (ops : OpCall → (Nat → Nat → ℚ) → (Nat → Nat → ℚ))
    (geo : Geometry) (fresh : Nat → Nat → ℚ) (K : ℚ) (gauss_order : Nat) :
    assemble_HM ops geo fresh K gauss_order
      = deflat (assemble_HM_before_deflat ops geo fresh K gauss_order) geo.outermost_interface
          (assemble_HM_deflat_coef ops geo fresh K gauss_order) := rfl

theorem twoPatch_before_deflat (i j : Nat) :
    (assemble_HM_before_deflat addCoeff twoPatch (fun _ _ => 0) 1 3).get i j = 3 := by
  simp only [assemble_HM_before_deflat, assemble_HM_calls, twoPatch, pair_calls, patchA, patchB,
    List.length_cons, List.length_nil, List.range_succ, List.range_zero, List.flatMap_cons,
    List.flatMap_nil, List.nil_append, List.append_nil, List.cons_append,
    List.getElem?_cons_zero, List.getElem?_cons_succ, SymMatrix.get, assemble_HM_init,
    SymMatrix.set, SymMatrix.apply, addCoeff]
  norm_num [SymMatrix.apply, addCoeff]

/-- C11 (counterexample): an outermost Interface made of two meshes. The vertex indices
0 and 2 lie on the two different meshes; the constant of the deflation is 3/4, and the
entry (0, 2) is 3 before the deflation and still 3 after it. -/
theorem deflat_skips_pairs_across_meshes :
    twoPatch.outermost_interface = [patchA, patchB]
      ∧ 0 ∈ patchA.vertex_indices ∧ 2 ∈ patchB.vertex_indices
      ∧ assemble_HM_deflat_coef addCoeff twoPatch (fun _ _ => 0) 1 3 = 3 / 4
      ∧ (assemble_HM_before_deflat addCoeff twoPatch (fun _ _ => 0) 1 3).get 0 2 = 3
      ∧ (assemble_HM addCoeff twoPatch (fun _ _ => 0) 1 3).get 0 2 = 3 := by
  have hc : assemble_HM_deflat_coef addCoeff twoPatch (fun _ _ => 0) 1 3 = 3 / 4 := by
    unfold assemble_HM_deflat_coef
    simp only [twoPatch_before_deflat]
    norm_num [Interface_nb_vertices, Geometry.outermost_interface, twoPatch, patchA, patchB,
      Surface.nb_vertices]
  refine ⟨by decide, by decide, by decide, hc, twoPatch_before_deflat 0 2, ?_⟩
  rw [assemble_HM_eq_deflat, get_deflat, twoPatch_before_deflat]
  have : ((twoPatch.outermost_interface.map
      (fun s => (deflat_pairs s.vertex_indices).countP (hitsCell 0 2))).sum : ℚ) = 0 := by
    have h0 : (twoPatch.outermost_interface.map
      (fun s => (deflat_pairs s.vertex_indices).countP (hitsCell 0 2))).sum = 0 := by decide
    rw [h0]; rfl
  rw [this]
  norm_num

/-- C11 (amended): the deflation step of `assemble_HM` adds the constant c (the entry
`(i0, i0)` before deflation divided by the number of vertices of the outermost Interface,
`i0` the index of its first vertex) to the entry `M(i,j)` once for every mesh of the
outermost Interface that has both `i` and `j` among its vertex indices; an entry whose
indices are not both on one of these meshes, for instance a pair of vertices lying on two
different meshes of the Interface, is unchanged. -/
theorem deflat_adds_once_per_mesh (ops : OpCall → (Nat → Nat → ℚ) → (Nat → Nat → ℚ))
    (geo : Geometry) (fresh : Nat → Nat → ℚ) (K : ℚ) (gauss_order : Nat)
    (hnodup : ∀ s ∈ geo.outermost_interface, s.vertex_indices.Nodup) (i j : Nat) :
    (assemble_HM ops geo fresh K gauss_order).get i j
        = (assemble_HM_before_deflat ops geo fresh K gauss_order).get i j
          + (Interface_pair_count geo.outermost_interface i j : ℚ)
            * assemble_HM_deflat_coef ops geo fresh K gauss_order
      ∧ (Interface_pair_count geo.outermost_interface i j = 0 →
          (assemble_HM ops geo fresh K gauss_order).get i j
            = (assemble_HM_before_deflat ops geo fresh K gauss_order).get i j) := by
  have h : (assemble_HM ops geo fresh K gauss_order).get i j
        = (assemble_HM_before_deflat ops geo fresh K gauss_order).get i j
          + (Interface_pair_count geo.outermost_interface i j : ℚ)
            * assemble_HM_deflat_coef ops geo fresh K gauss_order := by
    rw [assemble_HM_eq_deflat, get_deflat, sum_pair_count _ hnodup]
  refine ⟨h, fun h0 => ?_⟩
  rw [h, h0]
  simp

/-- C11 (witness): the two-patch Geometry, entry (0, 1) of the first patch. -/
theorem deflat_adds_once_per_mesh_two_patch :
    (∀ s ∈ twoPatch.outermost_interface, s.vertex_indices.Nodup)
      ∧ ((assemble_HM addCoeff twoPatch (fun _ _ => 0) 1 3).get 0 1
          = (assemble_HM_before_deflat addCoeff twoPatch (fun _ _ => 0) 1 3).get 0 1
            + (Interface_pair_count twoPatch.outermost_interface 0 1 : ℚ)
              * assemble_HM_deflat_coef addCoeff twoPatch (fun _ _ => 0) 1 3
        ∧ (Interface_pair_count twoPatch.outermost_interface 0 1 = 0 →
            (assemble_HM addCoeff twoPatch (fun _ _ => 0) 1 3).get 0 1
              = (assemble_HM_before_deflat addCoeff twoPatch (fun _ _ => 0) 1 3).get 0 1)) :=
  ⟨by decide, deflat_adds_once_per_mesh addCoeff twoPatch (fun _ _ => 0) 1 3 (by decide) 0 1⟩

/-! ### Cortical mapping -/

/-- C12: in `assemble_cortical` the two `assert`s come after the statements that read
the first Interface of the source Domain and the first Surface of that Interface. A
Domain that violates the precondition never yields a cortex; but the first Interface has
been read in every case, and for a Domain without Interface the function does not get as
far as the `assert`: it dereferences `begin()` of the empty sequence. -/
theorem assemble_cortical_checks_after_use :
    (∀ d : Domain, ∀ s, (assemble_cortical_entry d).2 = CorticalEntry.cortex s →
        d.halfspaces.length = 1 ∧ ∀ h ∈ d.halfspaces, h.1.length = 1)
      ∧ (∀ d : Domain, (assemble_cortical_entry d).1.head? = some CorticalRead.first_interface)
      ∧ assemble_cortical_entry unboundedDomain
          = ([CorticalRead.first_interface], CorticalEntry.undefined_dereference)
      ∧ assemble_cortical_entry twoInterfaceDomain
          = ([CorticalRead.first_interface, CorticalRead.first_mesh],
              CorticalEntry.assertion_failed "SourceDomain.size() == 1")
      ∧ assemble_cortical_entry twoSurfaceDomain
          = ([CorticalRead.first_interface, CorticalRead.first_mesh],
              CorticalEntry.assertion_failed "Cortex.size() == 1") := by
  refine ⟨?_, ?_, by decide, by decide, by decide⟩
  · intro d s h
    unfold assemble_cortical_entry at h
    rcases hd : d.halfspaces with _ | ⟨⟨Cortex, o⟩, rest⟩
    · rw [hd] at h; simp at h
    · rw [hd] at h
      rcases Cortex with _ | ⟨cortex, crest⟩
      · simp at h
      · dsimp only at h
        split_ifs at h with h1 h2
        simp only [List.length_cons, ne_eq, not_not] at h1 h2
        have hr : rest = [] := by
          cases rest with
          | nil => rfl
          | cons a r => simp at h1
        subst hr
        refine ⟨rfl, ?_⟩
        intro hh hmem
        simp only [List.mem_singleton] at hmem
        subst hmem
        simpa using h2
  · intro d
    unfold assemble_cortical_entry
    rcases d.halfspaces with _ | ⟨⟨Cortex, o⟩, rest⟩
    · rfl
    · rcases Cortex with _ | ⟨cortex, crest⟩
      · rfl
      · dsimp only
        split_ifs <;> rfl

theorem pair_calls_pair (geo : Geometry) (K : ℚ) (gauss_order : Nat) (A B : Surface) :
    ∀ c ∈ pair_calls geo K gauss_order A B, c.m1 = A ∧ c.m2 = B := by
  intro c hc
  by_cases ho : geo.oriented A B ≠ 0
  · rw [mem_pair_calls _ _ _ _ _ ho] at hc
    rcases hc with ⟨-, -, rfl⟩ | ⟨-, rfl⟩ | ⟨-, -, rfl⟩ | rfl <;> exact ⟨rfl, rfl⟩
  · unfold pair_calls at hc
    simp only [ho, if_false] at hc
    simp at hc

theorem cortical_pair_calls_eq (geo : Geometry) (K : ℚ) (gauss_order : Nat)
    (cortex A B : Surface) :
    cortical_pair_calls geo K gauss_order cortex A B
      = (pair_calls geo K gauss_order A B).filter
          (fun c => !(decide (c.m1 = cortex) && decide (c.m2 = cortex))) := by
  by_cases hsel : A = cortex ∧ B = cortex
  · have hnone : (pair_calls geo K gauss_order A B).filter
          (fun c => !(decide (c.m1 = cortex) && decide (c.m2 = cortex))) = [] := by
      rw [List.filter_eq_nil_iff]
      intro c hc
      have := pair_calls_pair geo K gauss_order A B c hc
      simp [this.1, this.2, hsel.1, hsel.2]
    rw [hnone]
    obtain ⟨rfl, rfl⟩ := hsel
    unfold cortical_pair_calls
    simp
  · have hall : (pair_calls geo K gauss_order A B).filter
          (fun c => !(decide (c.m1 = cortex) && decide (c.m2 = cortex)))
          = pair_calls geo K gauss_order A B := by
      rw [List.filter_eq_self]
      intro c hc
      have := pair_calls_pair geo K gauss_order A B c hc
      simp only [this.1, this.2, Bool.not_eq_true', Bool.and_eq_false_imp, decide_eq_true_eq,
        decide_eq_false_iff_not]
      intro hA hB
      exact hsel ⟨hA, hB⟩
    rw [hall]
    have hcond : (decide (A ≠ B) || decide (A ≠ cortex)) = true := by
      by_cases hAB : A = B
      · have hAc : A ≠ cortex := fun h => hsel ⟨h, hAB ▸ h⟩
        simp [hAc]
      · simp [hAB]
    unfold cortical_pair_calls pair_calls
    simp only [hcond, Bool.and_true, if_true]

theorem filter_flatMap {α β : Type} (l : List α) (f : α → List β) (p : β → Bool) :
    (l.flatMap f).filter p = l.flatMap (fun a => (f a).filter p) := by
  induction l with
  | nil => rfl
  | cons a rest ih => simp [List.flatMap_cons, List.filter_append, ih]

/-- C13: when no projector file is readable, the sequence of operator calls (S, D,
`D*`, N with their coefficients) that `assemble_cortical` issues is the sequence of
`assemble_HM` for the same Geometry and quadrature order with every call for the pair
(cortex, cortex) removed; both functions start from the zero matrix of the same
dimension and end with the same deflation. -/
theorem assemble_cortical_calls_eq_HM_without_cortex
    (ops : OpCall → (Nat → Nat → ℚ) → (Nat → Nat → ℚ)) (geo : Geometry)
    (fresh : Nat → Nat → ℚ) (K : ℚ) (gauss_order : Nat) (cortex : Surface) :
    assemble_cortical_calls geo K gauss_order cortex
        = assemble_HM_calls_without_cortex geo K gauss_order cortex
      ∧ assemble_cortical_mat_temp ops geo fresh K gauss_order cortex
        = deflate_outermost geo
            ((assemble_HM_calls_without_cortex geo K gauss_order cortex).foldl
              (SymMatrix.apply ops) (assemble_HM_init geo fresh))
      ∧ assemble_HM ops geo fresh K gauss_order
        = deflate_outermost geo
            ((assemble_HM_calls geo K gauss_order).foldl
              (SymMatrix.apply ops) (assemble_HM_init geo fresh)) := by
  have h1 : assemble_cortical_calls geo K gauss_order cortex
        = assemble_HM_calls_without_cortex geo K gauss_order cortex := by
    unfold assemble_cortical_calls assemble_HM_calls_without_cortex assemble_HM_calls
    rw [filter_flatMap]
    congr 1
    funext p1
    rw [filter_flatMap]
    congr 1
    funext p2
    rcases geo.meshes[p1]? with _ | mit1
    · rfl
    · rcases geo.meshes[p2]? with _ | mit2
      · rfl
      · exact cortical_pair_calls_eq geo K gauss_order cortex mit1 mit2
  refine ⟨h1, ?_, rfl⟩
  rw [← h1]
  rfl

/-! ### Row removal -/

theorem Matrix.setlin_some (M : Matrix) (i : Nat) (row : Nat → ℚ) (h : i < M.nlin) :
    M.setlin i row
      = some { M with data := fun a b => if a = i then row b else M.data a b } := by
  unfold Matrix.setlin
  rw [if_pos h]

/-- The loop over a list of row indices, started with destination counter `n0`: the rows
that pass the test are written to the rows `n0, n0 + 1, ...` in order. -/
theorem row_loop (mat_temp : SymMatrix) (cortex : Surface) (l : List Nat) (mat : Matrix)
    (n0 : Nat) (hfit : n0 + (l.filter (cortical_row_kept cortex)).length ≤ mat.nlin) :
    ∃ mat', l.foldl (cortical_row_step mat_temp cortex) (some (mat, n0))
        = some (mat', n0 + (l.filter (cortical_row_kept cortex)).length)
      ∧ mat'.nlin = mat.nlin ∧ mat'.ncol = mat.ncol
      ∧ (∀ k, k < (l.filter (cortical_row_kept cortex)).length → ∀ j,
          mat'.data (n0 + k) j
            = mat_temp.get ((l.filter (cortical_row_kept cortex)).getD k 0) j)
      ∧ (∀ a, a < n0 → ∀ j, mat'.data a j = mat.data a j) := by
  induction l generalizing mat n0 with
  | nil => exact ⟨mat, rfl, rfl, rfl, by simp, fun _ _ _ => rfl⟩
  | cons i rest ih =>
    by_cases hk : cortical_row_kept cortex i = true
    · rw [List.filter_cons_of_pos hk] at hfit ⊢
      rw [List.length_cons] at hfit ⊢
      have hlt : n0 < mat.nlin := by omega
      have hstep : cortical_row_step mat_temp cortex (some (mat, n0)) i
          = some ({ mat with data := fun a b =>
              if a = n0 then mat_temp.getlin i b else mat.data a b }, n0 + 1) := by
        unfold cortical_row_step
        simp only [Option.some_bind, hk, if_true, Matrix.setlin_some _ _ _ hlt, Option.map_some']
      obtain ⟨mat', hrun, hn, hc, hrows, hlow⟩ :=
        ih { mat with data := fun a b =>
              if a = n0 then mat_temp.getlin i b else mat.data a b } (n0 + 1)
          (by simp only; omega)
      refine ⟨mat', ?_, hn, hc, ?_, ?_⟩
      · rw [List.foldl_cons, hstep, hrun]
        congr 2
        omega
      · intro k hklt j
        cases k with
        | zero =>
          rw [Nat.add_zero, hlow n0 (by omega) j]
          simp [SymMatrix.getlin]
        | succ k =>
          have := hrows k (by omega) j
          rw [show n0 + (k + 1) = n0 + 1 + k by omega, this]
          simp
      · intro a ha j
        rw [hlow a (by omega) j]
        have : a ≠ n0 := by omega
        simp [this]
    · rw [List.filter_cons_of_neg hk] at hfit ⊢
      have hstep : cortical_row_step mat_temp cortex (some (mat, n0)) i = some (mat, n0) := by
        unfold cortical_row_step
        simp only [Option.some_bind, hk, if_false]
        simp
      obtain ⟨mat', hrun, hn, hc, hrows, hlow⟩ := ih mat n0 hfit
      exact ⟨mat', by rw [List.foldl_cons, hstep, hrun], hn, hc, hrows, hlow⟩

theorem cortical_row_kept_iff (cortex : Surface) (vb nv tb nt : Nat)
    (hv : cortex.vertex_indices = List.range' vb nv) (hnv : 0 < nv)
    (ht : cortex.triangle_indices = List.range' tb nt) (hnt : 0 < nt) (i : Nat) :
    cortical_row_kept cortex i = true
      ↔ ¬ (vb ≤ i ∧ i < vb + nv) ∧ ¬ (tb ≤ i ∧ i < tb + nt) := by
  unfold cortical_row_kept
  rw [hv, ht]
  obtain ⟨nv', rfl⟩ : ∃ k, nv = k + 1 := ⟨nv - 1, by omega⟩
  obtain ⟨nt', rfl⟩ : ∃ k, nt = k + 1 := ⟨nt - 1, by omega⟩
  simp only [List.head?_range', List.getLast?_range']
  simp
  omega

theorem length_filter_range (keep : Nat → Bool) (vb nv tb nt : Nat)
    (hkeep : ∀ i, keep i = true ↔ ¬ (vb ≤ i ∧ i < vb + nv) ∧ ¬ (tb ≤ i ∧ i < tb + nt))
    (hdisj : vb + nv ≤ tb ∨ tb + nt ≤ vb) (n : Nat) :
    ((List.range n).filter keep).length + (min n (vb + nv) - min n vb)
      + (min n (tb + nt) - min n tb) = n := by
  induction n with
  | zero => simp
  | succ n ih =>
    rw [List.range_succ, List.filter_append, List.length_append]
    by_cases hk : keep n = true
    · have := (hkeep n).1 hk
      rw [List.filter_cons_of_pos hk, List.filter_nil, List.length_singleton]
      omega
    · have hk2 : (vb ≤ n ∧ n < vb + nv) ∨ (tb ≤ n ∧ n < tb + nt) := by
        by_contra hcon
        exact hk ((hkeep n).2 ⟨fun h => hcon (Or.inl h), fun h => hcon (Or.inr h)⟩)
      rw [List.filter_cons_of_neg hk, List.filter_nil, List.length_nil]
      omega

theorem non_cortex_rows_eq (cortex : Surface) (Nc : Nat) (vb nv tb nt : Nat)
    (hv : cortex.vertex_indices = List.range' vb nv) (hnv : 0 < nv)
    (ht : cortex.triangle_indices = List.range' tb nt) (hnt : 0 < nt) :
    non_cortex_rows cortex Nc = (List.range Nc).filter (cortical_row_kept cortex) := by
  unfold non_cortex_rows
  apply List.filter_congr
  intro i _
  rw [Bool.eq_iff_iff, cortical_row_kept_iff cortex vb nv tb nt hv hnv ht hnt i, hv, ht]
  simp only [List.mem_range'_1, decide_eq_true_eq]

/-- C14: in `assemble_cortical`, when the cortex vertex indices and the cortex triangle
indices each form a contiguous range inside `[0, Nc)`, the row-removal loop copies
exactly `Nl = Nc - (cortex vertices) - (cortex triangles)` rows, namely the rows of the
deflated head matrix whose index is neither a cortex vertex index nor a cortex triangle
index, in increasing index order: the loop ends with its row counter equal to `Nl`, no
copy is made outside the `Nl` rows, and row `k` of the result is the `k`-th such row. The
range of the vertices goes from the index of the first vertex of the cortex to the index
of its last vertex, which the loop reads, and the range of the triangles likewise, so
both have a first element; a row of the head matrix is the row of a vertex or of a
triangle of the Geometry, never of both, so the two ranges have no row in common. -/
theorem row_removal_copies_non_cortex_rows (mat_temp : SymMatrix) (geo : Geometry)
    (cortex : Surface) (fresh : Nat → Nat → ℚ) (vb nv tb nt : Nat)
    (hv : cortex.vertex_indices = List.range' vb nv) (hnv : 0 < nv)
    (ht : cortex.triangle_indices = List.range' tb nt) (hnt : 0 < nt)
    (hvin : vb + nv ≤ assemble_cortical_Nc geo) (htin : tb + nt ≤ assemble_cortical_Nc geo)
    (hrows : ∀ i ∈ cortex.vertex_indices, i ∉ cortex.triangle_indices) :
    (non_cortex_rows cortex (assemble_cortical_Nc geo)).length
        = assemble_cortical_Nl geo [cortex]
      ∧ ∃ mat, cortical_row_removal mat_temp cortex (assemble_cortical_Nl geo [cortex])
            (assemble_cortical_Nc geo) fresh
          = some (mat, assemble_cortical_Nl geo [cortex])
        ∧ mat.nlin = assemble_cortical_Nl geo [cortex]
        ∧ mat.ncol = assemble_cortical_Nc geo
        ∧ ∀ k, k < assemble_cortical_Nl geo [cortex] → ∀ j,
            mat.data k j
              = mat_temp.get ((non_cortex_rows cortex (assemble_cortical_Nc geo)).getD k 0) j := by
  have hdisj : vb + nv ≤ tb ∨ tb + nt ≤ vb := by
    by_contra hcon
    have h1 : max vb tb ∈ cortex.vertex_indices := by
      rw [hv, List.mem_range'_1]
      omega
    have h2 : max vb tb ∈ cortex.triangle_indices := by
      rw [ht, List.mem_range'_1]
      omega
    exact hrows _ h1 h2
  have hrows := non_cortex_rows_eq cortex (assemble_cortical_Nc geo) vb nv tb nt hv hnv ht hnt
  have hcount := length_filter_range (cortical_row_kept cortex) vb nv tb nt
    (cortical_row_kept_iff cortex vb nv tb nt hv hnv ht hnt) hdisj (assemble_cortical_Nc geo)
  have hNl : assemble_cortical_Nl geo [cortex] = assemble_cortical_Nc geo - nv - nt := by
    unfold assemble_cortical_Nl assemble_cortical_Nc Interface_nb_vertices
      Interface_nb_triangles Surface.nb_vertices Surface.nb_triangles
    simp [hv, ht]
  have hlen : ((List.range (assemble_cortical_Nc geo)).filter (cortical_row_kept cortex)).length
      = assemble_cortical_Nl geo [cortex] := by
    rw [hNl]; omega
  refine ⟨by rw [hrows, hlen], ?_⟩
  obtain ⟨mat, hrun, hn, hc, hdata, -⟩ := row_loop mat_temp cortex
    (List.range (assemble_cortical_Nc geo))
    ((⟨assemble_cortical_Nl geo [cortex], assemble_cortical_Nc geo, fresh⟩ : Matrix).set 0) 0
    (by rw [hlen]; simp [Matrix.set])
  refine ⟨mat, ?_, hn, hc, ?_⟩
  · unfold cortical_row_removal
    rw [hrun, hlen, Nat.zero_add]
  · intro k hk j
    have := hdata k (by rw [hlen]; exact hk) j
    rw [Nat.zero_add] at this
    rw [this, hrows]

/-- C14 (witness): the two-shell Geometry with its inner Surface as cortex: vertex
indices 0..11, triangle indices 24..35, `Nc = 36`. -/
theorem row_removal_two_shell :
    (innerShell.vertex_indices = List.range' 0 12 ∧ innerShell.triangle_indices = List.range' 24 12
        ∧ 0 + 12 ≤ assemble_cortical_Nc (twoShell 1) ∧ 24 + 12 ≤ assemble_cortical_Nc (twoShell 1)
        ∧ ∀ i ∈ innerShell.vertex_indices, i ∉ innerShell.triangle_indices)
      ∧ ((non_cortex_rows innerShell (assemble_cortical_Nc (twoShell 1))).length
          = assemble_cortical_Nl (twoShell 1) [innerShell]
        ∧ ∃ mat, cortical_row_removal sampleSym innerShell
              (assemble_cortical_Nl (twoShell 1) [innerShell])
              (assemble_cortical_Nc (twoShell 1)) (fun _ _ => 0)
            = some (mat, assemble_cortical_Nl (twoShell 1) [innerShell])
          ∧ mat.nlin = assemble_cortical_Nl (twoShell 1) [innerShell]
          ∧ mat.ncol = assemble_cortical_Nc (twoShell 1)
          ∧ ∀ k, k < assemble_cortical_Nl (twoShell 1) [innerShell] → ∀ j,
              mat.data k j
                = sampleSym.get
                    ((non_cortex_rows innerShell (assemble_cortical_Nc (twoShell 1))).getD k 0)
                    j) :=
  ⟨⟨by decide, by decide, by decide, by decide, by decide⟩,
    row_removal_copies_non_cortex_rows sampleSym (twoShell 1) innerShell (fun _ _ => 0)
      0 12 24 12 (by decide) (by decide) (by decide) (by decide) (by decide) (by decide)
      (by decide)⟩

/-! ### The null-space projector -/

theorem cortical_selector_eq (R : Type) [CommRing R] (Nl Nc : Nat) :
    cortical_selector R Nl Nc
      = Matrix.diagonal (fun a : Fin Nc => if Nl ≤ a.val then (1 : R) else 0) := by
  have key : ∀ (l : List Nat) (S : Mat R Nc Nc) (a b : Fin Nc),
      (l.foldl (fun S i => fun a b => if a.val = i ∧ b.val = i then 1 else S a b) S) a b
        = if a.val ∈ l ∧ b.val = a.val then 1 else S a b := by
    intro l
    induction l with
    | nil => intro S a b; simp
    | cons i rest ih =>
      intro S a b
      rw [List.foldl_cons, ih]
      by_cases h1 : a.val ∈ rest ∧ b.val = a.val
      · have : a.val ∈ i :: rest ∧ b.val = a.val := ⟨List.mem_cons_of_mem _ h1.1, h1.2⟩
        rw [if_pos h1, if_pos this]
      · rw [if_neg h1]
        by_cases h2 : a.val = i ∧ b.val = i
        · have : a.val ∈ i :: rest ∧ b.val = a.val := by
            refine ⟨?_, by omega⟩
            rw [h2.1]; exact List.mem_cons_self _ _
          rw [if_pos h2, if_pos this]
        · have : ¬ (a.val ∈ i :: rest ∧ b.val = a.val) := by
            rintro ⟨hm, hb⟩
            rcases List.mem_cons.1 hm with h | h
            · exact h2 ⟨h, by omega⟩
            · exact h1 ⟨h, hb⟩
          rw [if_neg h2, if_neg this]
  funext a b
  unfold cortical_selector
  rw [Matrix.diagonal_apply]
  refine (key (List.range' Nl (Nc - Nl)) (fun _ _ => 0) a b).trans ?_
  have ha := a.isLt
  by_cases hab : a = b
  · subst hab
    by_cases hN : Nl ≤ a.val
    · have : a.val ∈ List.range' Nl (Nc - Nl) ∧ a.val = a.val :=
        ⟨by rw [List.mem_range'_1]; omega, rfl⟩
      rw [if_pos this, if_pos rfl, if_pos hN]
    · have : ¬ (a.val ∈ List.range' Nl (Nc - Nl) ∧ a.val = a.val) := by
        rintro ⟨hm, -⟩
        rw [List.mem_range'_1] at hm
        omega
      rw [if_neg this, if_pos rfl, if_neg hN]
  · have : ¬ (a.val ∈ List.range' Nl (Nc - Nl) ∧ b.val = a.val) := by
      rintro ⟨-, hb⟩
      exact hab (Fin.ext hb.symm)
    rw [if_neg this, if_neg hab]

/-- C15: for the projector `P = W*S*W^t` of `assemble_cortical`, where `W` is the
orthogonal matrix of right singular vectors of the `Nl x Nc` reduced matrix `A` (that is
`A = U * s * W^t` with `s` zero outside its diagonal and `W^t * W = 1`) and `S` is the
selector with ones exactly at the diagonal positions `Nl .. Nc-1`: `P*P = P` and
`A*P = 0`. Arithmetic is exact, over any commutative ring. -/
theorem projector_idempotent_and_annihilates {R : Type} [CommRing R] (Nl Nc : Nat)
    (A : Mat R Nl Nc) (U : Mat R Nl Nl) (s : Mat R Nl Nc) (W : Mat R Nc Nc)
    (hsvd : A = U * s * W.transpose)
    (hdiag : ∀ (i : Fin Nl) (j : Fin Nc), i.val ≠ j.val → s i j = 0)
    (horth : W.transpose * W = 1) :
    cortical_projector W (cortical_selector R Nl Nc)
          * cortical_projector W (cortical_selector R Nl Nc)
        = cortical_projector W (cortical_selector R Nl Nc)
      ∧ A * cortical_projector W (cortical_selector R Nl Nc) = 0 := by
  rw [cortical_selector_eq]
  unfold cortical_projector
  have hSS : Matrix.diagonal (fun a : Fin Nc => if Nl ≤ a.val then (1 : R) else 0)
      * Matrix.diagonal (fun a : Fin Nc => if Nl ≤ a.val then (1 : R) else 0)
      = Matrix.diagonal (fun a : Fin Nc => if Nl ≤ a.val then (1 : R) else 0) := by
    rw [Matrix.diagonal_mul_diagonal]
    have : (fun i : Fin Nc => (if Nl ≤ i.val then (1 : R) else 0)
        * (if Nl ≤ i.val then (1 : R) else 0))
        = fun a : Fin Nc => if Nl ≤ a.val then (1 : R) else 0 := by
      funext a
      split_ifs <;> simp
    rw [this]
  have hsS : s * Matrix.diagonal (fun a : Fin Nc => if Nl ≤ a.val then (1 : R) else 0) = 0 := by
    funext i j
    rw [Matrix.mul_diagonal]
    by_cases hN : Nl ≤ j.val
    · have : i.val ≠ j.val := by have := i.isLt; omega
      rw [hdiag i j this]
      simp
    · simp [hN]
  constructor
  · calc W * Matrix.diagonal (fun a : Fin Nc => if Nl ≤ a.val then (1 : R) else 0)
            * W.transpose
          * (W * Matrix.diagonal (fun a : Fin Nc => if Nl ≤ a.val then (1 : R) else 0)
            * W.transpose)
        = W * (Matrix.diagonal (fun a : Fin Nc => if Nl ≤ a.val then (1 : R) else 0)
            * ((W.transpose * W)
              * Matrix.diagonal (fun a : Fin Nc => if Nl ≤ a.val then (1 : R) else 0)))
            * W.transpose := by simp only [Matrix.mul_assoc]
      _ = W * Matrix.diagonal (fun a : Fin Nc => if Nl ≤ a.val then (1 : R) else 0)
            * W.transpose := by rw [horth, Matrix.one_mul, hSS]
  · calc A * (W * Matrix.diagonal (fun a : Fin Nc => if Nl ≤ a.val then (1 : R) else 0)
            * W.transpose)
        = U * ((s * ((W.transpose * W)
            * Matrix.diagonal (fun a : Fin Nc => if Nl ≤ a.val then (1 : R) else 0)))
            * W.transpose) := by rw [hsvd]; simp only [Matrix.mul_assoc]
      _ = 0 := by rw [horth, Matrix.one_mul, hsS, Matrix.zero_mul, Matrix.mul_zero]

/-- C15 (witness): the 1 x 2 matrix `(0 2)`, with the exchange of the two coordinates as
matrix of right singular vectors. -/
theorem projector_idempotent_and_annihilates_row :
    (rowA = (1 : Mat ℚ 1 1) * rowSigma * swapMat.transpose
        ∧ (∀ (i : Fin 1) (j : Fin 2), i.val ≠ j.val → rowSigma i j = 0)
        ∧ swapMat.transpose * swapMat = 1)
      ∧ (cortical_projector swapMat (cortical_selector ℚ 1 2)
            * cortical_projector swapMat (cortical_selector ℚ 1 2)
          = cortical_projector swapMat (cortical_selector ℚ 1 2)
        ∧ rowA * cortical_projector swapMat (cortical_selector ℚ 1 2) = 0) :=
  have h1 : rowA = (1 : Mat ℚ 1 1) * rowSigma * swapMat.transpose := by
    funext i j
    fin_cases i
    fin_cases j <;>
      simp [rowA, rowSigma, swapMat, Matrix.mul_apply, Matrix.transpose_apply, Fin.sum_univ_two]
  have h2 : ∀ (i : Fin 1) (j : Fin 2), i.val ≠ j.val → rowSigma i j = 0 := by
    intro i j h
    fin_cases i
    fin_cases j
    · exact absurd rfl h
    · simp [rowSigma]
  have h3 : swapMat.transpose * swapMat = 1 := by
    funext i j
    fin_cases i <;> fin_cases j <;>
      simp [swapMat, Matrix.mul_apply, Matrix.transpose_apply, Fin.sum_univ_two]
  ⟨⟨h1, h2, h3⟩, projector_idempotent_and_annihilates 1 2 rowA 1 rowSigma swapMat h1 h2 h3⟩

/-! ### Surface to volume -/

theorem points_of_push_point (m : List (Domain × List Vertex)) (d : Domain) (v : Vertex)
    (d' : Domain) :
    points_of (push_point m d v) d'
      = if d = d' then points_of m d' ++ [v] else points_of m d' := by
  induction m with
  | nil =>
    by_cases h : d = d' <;> simp [push_point, points_of, h]
  | cons e rest ih =>
    obtain ⟨k, vs⟩ := e
    unfold push_point
    by_cases hk : k = d
    · subst hk
      rw [if_pos rfl]
      by_cases h : k = d' <;> simp [points_of, h]
    · rw [if_neg hk]
      unfold points_of
      by_cases h : k = d'
      · have : ¬ d = d' := fun e => hk (h.trans e.symm)
        simp [h, this]
      · simp only [h, if_false]
        exact ih

theorem total_push_point (m : List (Domain × List Vertex)) (d : Domain) (v : Vertex) :
    ((push_point m d v).map (fun e => e.2.length)).sum = (m.map (fun e => e.2.length)).sum + 1 := by
  induction m with
  | nil => simp [push_point]
  | cons e rest ih =>
    obtain ⟨k, vs⟩ := e
    unfold push_point
    by_cases hk : k = d
    · simp [hk]; omega
    · simp [hk, ih]; omega

theorem foldl_size (m : List (Domain × List Vertex)) (n : Nat) :
    m.foldl (fun size dvit => size + dvit.2.length) n = n + (m.map (fun e => e.2.length)).sum := by
  induction m generalizing n with
  | nil => simp
  | cons e rest ih => rw [List.foldl_cons, ih]; simp; omega

/-- The loop of the constructor, started in any state with counter `n`. -/
theorem Surf2VolMat_loop (geo_domain : Vect3 → Domain) (points : List Vect3)
    (m : List (Domain × List Vertex)) (n : Nat) :
    (points.foldl (Surf2VolMat_step geo_domain) (m, n)).2
        = n + (retained_points geo_domain points).length
      ∧ (((points.foldl (Surf2VolMat_step geo_domain) (m, n)).1.map (fun e => e.2.length)).sum
        = (m.map (fun e => e.2.length)).sum + (retained_points geo_domain points).length)
      ∧ ∀ d, points_of (points.foldl (Surf2VolMat_step geo_domain) (m, n)).1 d
          = points_of m d
            ++ (((retained_points geo_domain points).enumFrom n).filter
                  (fun e => decide (geo_domain e.2 = d))).map (fun e => ⟨e.2, e.1⟩) := by
  induction points generalizing m n with
  | nil => simp [retained_points]
  | cons p rest ih =>
    rw [List.foldl_cons]
    by_cases hair : (geo_domain p).name = "Air"
    · have hstep : Surf2VolMat_step geo_domain (m, n) p = (m, n) := by
        unfold Surf2VolMat_step
        simp [hair]
      have hret : retained_points geo_domain (p :: rest) = retained_points geo_domain rest := by
        unfold retained_points
        rw [List.filter_cons_of_neg (by simp [hair])]
      rw [hstep, hret]
      exact ih m n
    · have hstep : Surf2VolMat_step geo_domain (m, n) p
          = (push_point m (geo_domain p) ⟨p, n⟩, n + 1) := by
        unfold Surf2VolMat_step
        simp [hair]
      have hret : retained_points geo_domain (p :: rest)
          = p :: retained_points geo_domain rest := by
        unfold retained_points
        rw [List.filter_cons_of_pos (by simp [hair])]
      rw [hstep, hret]
      obtain ⟨h1, h2, h3⟩ := ih (push_point m (geo_domain p) ⟨p, n⟩) (n + 1)
      refine ⟨?_, ?_, ?_⟩
      · rw [h1, List.length_cons]; omega
      · rw [h2, total_push_point, List.length_cons]; omega
      · intro d
        rw [h3 d, points_of_push_point, List.enumFrom_cons]
        by_cases hd : geo_domain p = d
        · rw [if_pos hd, List.filter_cons_of_pos (by simp [hd])]
          simp
        · rw [if_neg hd, List.filter_cons_of_neg (by simp [hd])]

theorem Matrix.apply_dims (ops : InternalCall → (Nat → Nat → ℚ) → (Nat → Nat → ℚ))
    (l : List InternalCall) (M : Matrix) :
    (l.foldl (Matrix.apply ops) M).nlin = M.nlin ∧ (l.foldl (Matrix.apply ops) M).ncol = M.ncol := by
  induction l generalizing M with
  | nil => exact ⟨rfl, rfl⟩
  | cons c rest ih =>
    rw [List.foldl_cons]
    exact ⟨(ih _).1, (ih _).2⟩

/-- C16: for every list of sample points, `Surf2VolMat` builds a matrix with exactly one
row per point whose enclosing Domain is not "Air" and with `geo.size()` minus the
outermost triangle count columns; the retained points are numbered 0..k-1 in input order
(a point in "Air" is not stored and consumes no index), each stored with the points of
its Domain. -/
theorem Surf2VolMat_rows_and_numbering
    (ops : InternalCall → (Nat → Nat → ℚ) → (Nat → Nat → ℚ)) (geo : Geometry)
    (geo_domain : Vect3 → Domain) (mesh_orientation : Domain → Surface → Int) (K : ℚ)
    (fresh : Nat → Nat → ℚ) (points : List Vect3) :
    (Surf2VolMat ops geo geo_domain mesh_orientation K fresh points).nlin
        = (points.filter (fun p => decide ((geo_domain p).name ≠ "Air"))).length
      ∧ (Surf2VolMat ops geo geo_domain mesh_orientation K fresh points).ncol
        = geo.size - Interface_nb_triangles geo.outermost_interface
      ∧ (numbered_points geo_domain points).map (fun v => v.index)
        = List.range (retained_points geo_domain points).length
      ∧ (numbered_points geo_domain points).map (fun v => v.pos)
        = retained_points geo_domain points
      ∧ ∀ d, points_of (Surf2VolMat_points geo_domain points) d
          = (numbered_points geo_domain points).filter (fun v => decide (geo_domain v.pos = d)) := by
  obtain ⟨-, h2, h3⟩ := Surf2VolMat_loop geo_domain points [] 0
  refine ⟨?_, ?_, ?_, ?_, ?_⟩
  · unfold Surf2VolMat assemble_Surf2Vol
    rw [(Matrix.apply_dims ops _ _).1]
    simp only [Matrix.set]
    rw [foldl_size, Nat.zero_add]
    unfold Surf2VolMat_points
    rw [h2]
    simp [retained_points]
  · unfold Surf2VolMat assemble_Surf2Vol
    rw [(Matrix.apply_dims ops _ _).2]
    rfl
  · unfold numbered_points
    rw [List.map_map]
    have : ((fun v : Vertex => v.index) ∘ fun e : Nat × Vect3 => (⟨e.2, e.1⟩ : Vertex))
        = Prod.fst := rfl
    rw [this, List.enum_map_fst]
  · unfold numbered_points
    rw [List.map_map]
    have : ((fun v : Vertex => v.pos) ∘ fun e : Nat × Vect3 => (⟨e.2, e.1⟩ : Vertex))
        = Prod.snd := rfl
    rw [this, List.enum_map_snd]
  · intro d
    unfold Surf2VolMat_points numbered_points
    rw [h3 d, List.filter_map]
    simp only [points_of, List.nil_append, List.enum]
    rfl

theorem mem_Surf2Vol_mesh_calls (mesh_orientation : Domain → Surface → Int) (K : ℚ)
    (dvit : Domain × List Vertex) (mit : Surface) (ho : mesh_orientation dvit.1 mit ≠ 0)
    (c : InternalCall) :
    c ∈ Surf2Vol_mesh_calls mesh_orientation K dvit mit ↔
      c = ⟨InternalKind.Dinternal, mit, dvit.2, mesh_orientation dvit.1 mit * -1 * K⟩
      ∨ (mit.outermost = false
          ∧ c = ⟨InternalKind.Sinternal, mit, dvit.2,
                  mesh_orientation dvit.1 mit * K / dvit.1.sigma⟩) := by
  unfold Surf2Vol_mesh_calls
  simp only [ho, ne_eq, not_false_eq_true, if_true]
  cases hA : mit.outermost <;> simp

/-- C17 (counterexample): one point in a Domain bounded by the inner Surface, with
orientation 1 and `K = 1`. With conductivity 1 the coefficients handed to the internal D
and S kernels are -1 and 1; with conductivity 2 they are -1 and 1/2: the D coefficient
does not depend on the conductivity and the S coefficient is divided by it. -/
theorem Surf2Vol_coefficients_not_scaled :
    (Surf2Vol_mesh_calls (fun _ _ => 1) 1 (brainDomain 1, [samplePoint]) innerShell).map
        (fun c => (c.kind, c.coeff))
        = [(InternalKind.Dinternal, -1), (InternalKind.Sinternal, 1)]
      ∧ (Surf2Vol_mesh_calls (fun _ _ => 1) 1 (brainDomain 2, [samplePoint]) innerShell).map
          (fun c => (c.kind, c.coeff))
        = [(InternalKind.Dinternal, -1), (InternalKind.Sinternal, 1 / 2)] := by
  refine ⟨?_, ?_⟩ <;>
    · simp only [Surf2Vol_mesh_calls, brainDomain, innerShell]
      norm_num

/-- C17 (amended): in `assemble_Surf2Vol`, for every Domain holding retained points and
every Surface bounding it (`mesh_orientation` not 0), the internal D kernel is called
with the coefficient `orientation * -1 * K`, in which the conductivity does not occur,
and the internal S kernel is called, for a Surface that is not outermost only, with the
coefficient `orientation * K` divided by the conductivity of that enclosing Domain. -/
theorem Surf2Vol_coefficients (geo : Geometry) (mesh_orientation : Domain → Surface → Int)
    (K : ℚ) (m_points : List (Domain × List Vertex)) (dvit : Domain × List Vertex)
    (hd : dvit ∈ m_points) (mit : Surface) (hm : mit ∈ geo.meshes)
    (ho : mesh_orientation dvit.1 mit ≠ 0) :
    (⟨InternalKind.Dinternal, mit, dvit.2, mesh_orientation dvit.1 mit * -1 * K⟩ : InternalCall)
        ∈ assemble_Surf2Vol_calls geo mesh_orientation K m_points
      ∧ (mit.outermost = false →
          (⟨InternalKind.Sinternal, mit, dvit.2,
              mesh_orientation dvit.1 mit * K / dvit.1.sigma⟩ : InternalCall)
            ∈ assemble_Surf2Vol_calls geo mesh_orientation K m_points)
      ∧ ∀ c ∈ Surf2Vol_mesh_calls mesh_orientation K dvit mit,
          (c.kind = InternalKind.Dinternal → c.coeff = mesh_orientation dvit.1 mit * -1 * K)
          ∧ (c.kind = InternalKind.Sinternal →
              mit.outermost = false
                ∧ c.coeff = mesh_orientation dvit.1 mit * K / dvit.1.sigma) := by
  have hsub : ∀ c ∈ Surf2Vol_mesh_calls mesh_orientation K dvit mit,
      c ∈ assemble_Surf2Vol_calls geo mesh_orientation K m_points := by
    intro c hc
    unfold assemble_Surf2Vol_calls
    rw [List.mem_flatMap]
    exact ⟨dvit, hd, List.mem_flatMap.2 ⟨mit, hm, hc⟩⟩
  refine ⟨hsub _ ((mem_Surf2Vol_mesh_calls _ _ _ _ ho _).2 (Or.inl rfl)),
    fun hout => hsub _ ((mem_Surf2Vol_mesh_calls _ _ _ _ ho _).2 (Or.inr ⟨hout, rfl⟩)), ?_⟩
  intro c hc
  rw [mem_Surf2Vol_mesh_calls _ _ _ _ ho] at hc
  rcases hc with rfl | ⟨hout, rfl⟩
  · exact ⟨fun _ => rfl, fun h => absurd h (by simp)⟩
  · exact ⟨fun h => absurd h (by simp), fun _ => ⟨hout, rfl⟩⟩

/-- C17 (witness): the two-shell Geometry, one point in the Domain of conductivity 2
inside the inner Surface. -/
theorem Surf2Vol_coefficients_two_shell :
    ((brainDomain 2, [samplePoint]) ∈ [(brainDomain 2, [samplePoint])]
        ∧ innerShell ∈ (twoShell 1).meshes ∧ (1 : Int) ≠ 0)
      ∧ ((⟨InternalKind.Dinternal, innerShell, [samplePoint], ((1 : Int) : ℚ) * -1 * (2 / 25)⟩ :
            InternalCall)
          ∈ assemble_Surf2Vol_calls (twoShell 1) (fun _ _ => 1) (2 / 25)
              [(brainDomain 2, [samplePoint])]
        ∧ (innerShell.outermost = false →
            (⟨InternalKind.Sinternal, innerShell, [samplePoint],
                ((1 : Int) : ℚ) * (2 / 25) / (brainDomain 2).sigma⟩ : InternalCall)
              ∈ assemble_Surf2Vol_calls (twoShell 1) (fun _ _ => 1) (2 / 25)
                  [(brainDomain 2, [samplePoint])])
        ∧ ∀ c ∈ Surf2Vol_mesh_calls (fun _ _ => 1) (2 / 25) (brainDomain 2, [samplePoint])
              innerShell,
            (c.kind = InternalKind.Dinternal → c.coeff = ((1 : Int) : ℚ) * -1 * (2 / 25))
            ∧ (c.kind = InternalKind.Sinternal →
                innerShell.outermost = false
                  ∧ c.coeff = ((1 : Int) : ℚ) * (2 / 25) / (brainDomain 2).sigma)) :=
  ⟨⟨List.mem_singleton.2 rfl, by decide, by decide⟩,
    Surf2Vol_coefficients (twoShell 1) (fun _ _ => 1) (2 / 25) [(brainDomain 2, [samplePoint])]
      (brainDomain 2, [samplePoint]) (List.mem_singleton.2 rfl) innerShell (by decide)
      (by decide)⟩

/-! ### `Mesh::update` always returns -/

theorem Mesh.update_total (m : Mesh) :
    ∃ m', m.update = some m' ∧ m'.vertex = m.vertex
      ∧ m'.triangles.length = m.triangles.length
      ∧ ∀ p, m'.tri p = m.tri p ∨ m'.tri p = (m.tri p).flip := by
  unfold Mesh.update Mesh.correct_local_orientation
  by_cases h : ({ m with links := Mesh.make_links m.triangles } : Mesh).has_correct_orientation
      = true
  · rw [if_pos h]
    exact ⟨_, rfl, rfl, rfl, fun p => Or.inl rfl⟩
  · rw [if_neg h]
    have hn : 0 < m.triangles.length := by
      by_contra h0
      exact h (Mesh.has_correct_orientation_nil _ (by simp only; omega))
    have hb : Basic ({ m with links := Mesh.make_links m.triangles } : Mesh)
        { mesh := { m with links := Mesh.make_links m.triangles }, t_stack := [0],
          tri_reoriented := [0] } :=
      { vertex_eq := rfl
        links_eq := rfl
        length_eq := rfl
        tri_cases := fun p => Or.inl rfl
        unmarked := fun p _ => rfl
        marked_lt := fun p hp => by
          simp only [List.mem_singleton] at hp
          subst hp
          exact hn
        marked_nodup := List.nodup_singleton 0
        stack_sub := fun p hp => hp }
    obtain ⟨s', hrun, hb', -, -⟩ :=
      orient_loop ({ m with links := Mesh.make_links m.triangles } : Mesh)
        (fun v p hp => Mesh.make_links_lt _ v p hp) (fun _ => True)
        (fun _ _ _ _ _ _ => trivial) m.triangles.length _ hb trivial
        (by simp only [Mesh.OrientState.budget, List.length_singleton]; omega)
    refine ⟨s'.mesh, ?_, hb'.vertex_eq, hb'.length_eq, hb'.tri_cases⟩
    have hrun' : Mesh.orient_adjacent_triangles m.triangles.length
        { mesh := { m with links := Mesh.make_links m.triangles }, t_stack := [0],
          tri_reoriented := [0] } = some s' := hrun
    rw [hrun']
    rfl

theorem MeshData.update_returns (m : MeshData) :
    ∃ m', m.update = some m' ∧ m'.all_vertices = m.all_vertices ∧ m'.vertices = m.vertices
      ∧ m'.set_vertices = []
      ∧ m'.triangles.length = m.triangles.length
      ∧ ∀ p, m'.triangles.getD p default = m.triangles.getD p default
          ∨ m'.triangles.getD p default = (m.triangles.getD p default).flip := by
  obtain ⟨m', hrun, -, hlen, htri⟩ := Mesh.update_total m.toMesh
  refine ⟨{ m with set_vertices := [], triangles := m'.triangles }, ?_, rfl, rfl, rfl, hlen, htri⟩
  unfold MeshData.update
  rw [hrun]
  rfl

/-! ### Vertex insertion -/

theorem Filled.empty (ts : List Triangle) : Filled ⟨[], [], [], ts⟩ :=
  ⟨rfl, rfl, List.nodup_nil⟩

theorem MeshData.add_vertex_new (m : MeshData) (v : Vertex) (hf : Filled m)
    (hv : v.pos ∉ m.all_vertices.map (fun w => w.pos)) :
    m.add_vertex v = { m with
      set_vertices := m.set_vertices ++ [v]
      all_vertices := m.all_vertices ++ [v]
      vertices := m.vertices ++ [m.all_vertices.length] } := by
  unfold MeshData.add_vertex
  rw [if_pos]
  rw [List.all_eq_true, hf.set_eq]
  intro w hw
  simp only [ne_eq, decide_eq_true_eq]
  intro e
  exact hv (List.mem_map.2 ⟨w, hw, e⟩)

theorem MeshData.add_vertex_old (m : MeshData) (v : Vertex) (hf : Filled m)
    (hv : v.pos ∈ m.all_vertices.map (fun w => w.pos)) :
    m.add_vertex v = m := by
  obtain ⟨w, hw, hwv⟩ := List.mem_map.1 hv
  unfold MeshData.add_vertex
  rw [if_neg]
  · have hlt : m.all_vertices.findIdx (fun w => decide (w.pos = v.pos)) < m.all_vertices.length :=
      List.findIdx_lt_length_of_exists ⟨w, hw, by simpa using hwv⟩
    have : m.vertices.contains (m.all_vertices.findIdx (fun w => decide (w.pos = v.pos)))
        = true := by
      rw [hf.vertices_eq]
      simp [hlt]
    simp only [this, if_true]
  · rw [List.all_eq_true, hf.set_eq]
    intro hall
    have := hall w hw
    simp only [ne_eq, decide_eq_true_eq] at this
    exact this hwv

theorem Filled.add_vertex (m : MeshData) (v : Vertex) (hf : Filled m) :
    Filled (m.add_vertex v)
      ∧ (m.add_vertex v).triangles = m.triangles
      ∧ (∃ l, (m.add_vertex v).all_vertices = m.all_vertices ++ l)
      ∧ ∀ p, p ∈ (m.add_vertex v).all_vertices.map (fun w => w.pos)
          ↔ p ∈ m.all_vertices.map (fun w => w.pos) ∨ p = v.pos := by
  by_cases hv : v.pos ∈ m.all_vertices.map (fun w => w.pos)
  · rw [MeshData.add_vertex_old m v hf hv]
    refine ⟨hf, rfl, ⟨[], by simp⟩, fun p => ⟨Or.inl, ?_⟩⟩
    rintro (h | rfl)
    · exact h
    · exact hv
  · rw [MeshData.add_vertex_new m v hf hv]
    refine ⟨⟨?_, ?_, ?_⟩, rfl, ⟨[v], rfl⟩, ?_⟩
    · simp only [hf.set_eq]
    · simp only [hf.vertices_eq, List.length_append, List.length_singleton, List.range_succ]
    · simp only [List.map_append, List.map_cons, List.map_nil]
      rw [List.nodup_append]
      refine ⟨hf.nodup, List.nodup_singleton _, ?_⟩
      intro a ha hb
      simp only [List.mem_singleton] at hb
      subst hb
      exact hv ha
    · intro p
      simp only [List.map_append, List.map_cons, List.map_nil, List.mem_append,
        List.mem_singleton]

/-- Adding vertices with pairwise distinct coordinates, none of them stored yet, stores
them in order. -/
theorem foldl_add_vertex_distinct (l : List Vertex) (m : MeshData) (hf : Filled m)
    (hl : (l.map (fun w => w.pos)).Nodup)
    (hd : ∀ v ∈ l, v.pos ∉ m.all_vertices.map (fun w => w.pos)) :
    l.foldl MeshData.add_vertex m
      = { m with
          set_vertices := m.set_vertices ++ l
          all_vertices := m.all_vertices ++ l
          vertices := m.vertices ++ List.range' m.all_vertices.length l.length } := by
  induction l generalizing m with
  | nil => simp
  | cons v rest ih =>
    have hv := hd v (List.mem_cons_self _ _)
    rw [List.foldl_cons, MeshData.add_vertex_new m v hf hv]
    have hf' := (Filled.add_vertex m v hf).1
    rw [MeshData.add_vertex_new m v hf hv] at hf'
    rw [List.map_cons, List.nodup_cons] at hl
    have hl' := hl.2
    have hvr : v.pos ∉ rest.map (fun w => w.pos) := hl.1
    rw [ih _ hf' hl']
    · simp only [List.append_assoc, List.singleton_append, List.length_append,
        List.length_singleton, List.length_cons, List.range'_succ, List.length_nil,
        Nat.zero_add]
    · intro w hw
      simp only [List.map_append, List.map_cons, List.map_nil, List.mem_append,
        List.mem_singleton, not_or]
      refine ⟨hd w (List.mem_cons_of_mem _ hw), ?_⟩
      intro e
      exact hvr (e ▸ List.mem_map.2 ⟨w, hw, rfl⟩)

/-! ### Merging -/

theorem map_range_getD (l : List Vertex) :
    (List.range l.length).map (fun a => (l.getD a default).pos) = l.map (fun v => v.pos) := by
  apply List.ext_getElem
  · simp
  · intro n h1 h2
    simp only [List.getElem_map, List.getElem_range]
    rw [List.getD_eq_getElem?_getD, List.getElem?_eq_getElem (by simpa using h1)]
    rfl

theorem Filled.vertex_positions (m : MeshData) (hf : Filled m) :
    m.vertex_positions = m.all_vertices.map (fun v => v.pos) := by
  unfold MeshData.vertex_positions MeshData.deref
  rw [hf.vertices_eq, map_range_getD]

theorem get_unsigned_num (k : Nat) (rest : List Token) (h : k < 2 ^ 32) :
    get_unsigned (some (Token.num (k : Int) :: rest)) = (some k, some rest) := by
  have h0 : (0 : Int) ≤ (k : Int) := Int.ofNat_nonneg k
  have h1 : ¬ 2 ^ 32 ≤ (k : Int).natAbs := by
    rw [Int.natAbs_ofNat]
    exact Nat.not_le.2 h
  simp only [get_unsigned, skip_ws, h1, h0, Int.toNat_ofNat, if_true, if_false]

theorem get_unsigned_large (n : Int) (rest : List Token) (h : 2 ^ 32 ≤ n.natAbs) :
    get_unsigned (some (Token.num n :: rest)) = (none, none) := by
  simp only [get_unsigned, skip_ws, h, if_true]

/-- A negative number is extracted as an `unsigned` modulo `2 ^ 32`. -/
theorem get_unsigned_negative (rest : List Token) :
    get_unsigned (some (Token.num (-1) :: rest)) = (some 4294967295, some rest) := by
  have h1 : ¬ 2 ^ 32 ≤ (-1 : Int).natAbs := by decide
  have h2 : ¬ (0 : Int) ≤ -1 := by decide
  have h3 : 2 ^ 32 - (-1 : Int).natAbs = 4294967295 := by decide
  simp only [get_unsigned, skip_ws, h1, h2, h3, if_false]

theorem get_unsigned_eol (l : List Token) :
    get_unsigned (some (Token.eol :: l)) = get_unsigned (some l) := by
  simp [get_unsigned, skip_ws]

theorem get_trash_num (n : Int) (rest : List Token) (h : n.natAbs < 2 ^ 31) :
    get_trash (some (Token.num n :: rest)) = some rest := by
  simp only [get_trash, skip_ws, h, true_or, if_true]

theorem get_trash_zero (rest : List Token) :
    get_trash (some (Token.num 0 :: rest)) = some rest :=
  get_trash_num 0 rest (by decide)

theorem get_trash_three (rest : List Token) :
    get_trash (some (Token.num 3 :: rest)) = some rest :=
  get_trash_num 3 rest (by decide)

theorem get_trash_eol (l : List Token) :
    get_trash (some (Token.eol :: l)) = get_trash (some l) := by
  simp [get_trash, skip_ws]

theorem get_vect3_nums (x y z : Int) (rest : List Token) (cur : Vect3) :
    get_vect3 (some (Token.num x :: Token.num y :: Token.num z :: rest)) cur
      = (⟨x, y, z⟩, some rest) := by
  simp [get_vect3, get_coord, skip_ws]

theorem get_vect3_eol (l : List Token) (cur : Vect3) :
    get_vect3 (some (Token.eol :: l)) cur = get_vect3 (some l) cur := by
  simp [get_vect3, get_coord, skip_ws]

theorem get_vect3_put (p : Vect3) (rest : List Token) (cur : Vect3) :
    get_vect3 (some (MeshData.put_vect3 p ++ rest)) cur = (p, some rest) := by
  simp [MeshData.put_vect3, get_vect3_nums]

theorem skip_comments_eol_num (n : Int) (rest : List Token) :
    skip_comments (some (Token.eol :: Token.num n :: rest)) = some (Token.num n :: rest) := by
  simp [skip_comments, skip_comment_lines, skip_ws]

theorem skip_comments_eol_word (s : String) (rest : List Token) (h : s.data.head? ≠ some '#') :
    skip_comments (some (Token.eol :: Token.word s :: rest)) = some (Token.word s :: rest) := by
  simp [skip_comments, skip_comment_lines, skip_ws, h]

theorem skip_comments_word (s : String) (rest : List Token) (h : s.data.head? ≠ some '#') :
    skip_comments (some (Token.word s :: rest)) = some (Token.word s :: rest) := by
  simp [skip_comments, skip_comment_lines, skip_ws, h]

theorem get_string_word (s : String) (rest : List Token) (cur : String) :
    get_string (some (Token.word s :: rest)) cur = (s, some rest) := by
  simp [get_string, skip_ws, Token.text]

theorem get_string_num (n : Int) (rest : List Token) (cur : String) :
    get_string (some (Token.num n :: rest)) cur = (toString n, some rest) := by
  simp [get_string, skip_ws, Token.text]

theorem flatMap_eol_shift {α : Type} (l : List α) (f : α → List Token) :
    Token.eol :: l.flatMap (fun a => f a ++ [Token.eol])
      = l.flatMap (fun a => Token.eol :: f a) ++ [Token.eol] := by
  induction l with
  | nil => rfl
  | cons a rest ih =>
    simp only [List.flatMap_cons, List.cons_append, List.append_assoc]
    rw [← ih]
    simp

theorem MeshData.get_vertices_succ (dflt : Vertex) (normals comments : Bool) (npts : Nat)
    (m : MeshData) (f : IStream) :
    MeshData.get_vertices dflt normals comments (npts + 1) m f
      = MeshData.get_vertices dflt normals comments npts
          (m.add_vertex
            { dflt with pos := (get_vect3 (if comments then skip_comments f else f) dflt.pos).1 })
          (if normals then
            (get_vect3 (get_vect3 (if comments then skip_comments f else f) dflt.pos).2
              ⟨0, 0, 0⟩).2
           else (get_vect3 (if comments then skip_comments f else f) dflt.pos).2) := rfl

theorem get_vect3_record (comments : Bool) (p : Vect3) (rest : List Token) (cur : Vect3) :
    get_vect3 (if comments then skip_comments (some (Token.eol :: (MeshData.put_vect3 p ++ rest)))
        else some (Token.eol :: (MeshData.put_vect3 p ++ rest))) cur
      = (p, some rest) := by
  cases comments
  · simp only [Bool.false_eq_true, if_false, get_vect3_eol, get_vect3_put]
  · simp only [if_true, MeshData.put_vect3, List.cons_append, skip_comments_eol_num,
      List.nil_append, get_vect3_nums]

/-- The vertex loop of a loader on the records written by the matching writer. -/
theorem get_vertices_records (dflt : Vertex) (normals comments : Bool) (P N : Nat → Vect3)
    (vs : List Nat) (m : MeshData) (rest : List Token) :
    MeshData.get_vertices dflt normals comments vs.length m
        (some (vs.flatMap (fun a => Token.eol ::
            (MeshData.put_vect3 (P a) ++ if normals then MeshData.put_vect3 (N a) else []))
          ++ rest))
      = ((vs.map (fun a => { dflt with pos := P a })).foldl MeshData.add_vertex m, some rest) := by
  induction vs generalizing m with
  | nil => rfl
  | cons a vs ih =>
    simp only [List.length_cons, List.flatMap_cons, List.map_cons, List.foldl_cons,
      List.cons_append, List.append_assoc]
    rw [MeshData.get_vertices_succ, get_vect3_record]
    simp only
    cases normals
    · simp only [Bool.false_eq_true, if_false, List.nil_append]
      exact ih _
    · simp only [if_true, get_vect3_put]
      exact ih _

theorem MeshData.get_triangle_nums (m : MeshData) (n a b c : Nat) (rest : List Token)
    (hv : m.vertices = List.range n) (hn : n < 2 ^ 32) (ha : a < n) (hb : b < n) (hc : c < n) :
    m.get_triangle (some (Token.num (a : Int) :: Token.num (b : Int) :: Token.num (c : Int)
        :: rest))
      = some ({ m with triangles := m.triangles ++ [⟨a, b, c⟩] }, some rest) := by
  unfold MeshData.get_triangle
  simp only [get_unsigned_num _ _ (Nat.lt_trans ha hn), get_unsigned_num _ _ (Nat.lt_trans hb hn),
    get_unsigned_num _ _ (Nat.lt_trans hc hn), hv]
  rw [List.getElem?_range ha, List.getElem?_range hb, List.getElem?_range hc]

theorem MeshData.get_triangle_eol (m : MeshData) (l : List Token) :
    m.get_triangle (some (Token.eol :: l)) = m.get_triangle (some l) := by
  unfold MeshData.get_triangle
  rw [get_unsigned_eol]

theorem MeshData.get_triangles_succ (count comments : Bool) (ntrgs : Nat) (m : MeshData)
    (f : IStream) :
    MeshData.get_triangles count comments (ntrgs + 1) m f
      = match m.get_triangle
            (if count then get_trash (if comments then skip_comments f else f)
              else (if comments then skip_comments f else f)) with
        | some (m, f) => MeshData.get_triangles count comments ntrgs m f
        | none => none := rfl

/-- The triangle loop of a loader on the records written by the matching writer. -/
theorem get_triangles_records (count comments : Bool) (g : Nat → Nat) (ts : List Triangle)
    (m : MeshData) (n : Nat) (hv : m.vertices = List.range n) (hn : n < 2 ^ 32)
    (hg : ∀ t ∈ ts, g t.s1 < n ∧ g t.s2 < n ∧ g t.s3 < n) (rest : List Token) :
    MeshData.get_triangles count comments ts.length m
        (some (ts.flatMap (fun t => Token.eol ::
            ((if count then [Token.num 3] else [])
              ++ [Token.num (g t.s1), Token.num (g t.s2), Token.num (g t.s3)]))
          ++ rest))
      = some { m with triangles := m.triangles ++ ts.map (fun t => ⟨g t.s1, g t.s2, g t.s3⟩) } := by
  induction ts generalizing m with
  | nil => simp [MeshData.get_triangles]
  | cons t ts ih =>
    have ht := hg t (List.mem_cons_self _ _)
    have hts := fun u hu => hg u (List.mem_cons_of_mem _ hu)
    simp only [List.length_cons, List.flatMap_cons, List.map_cons, List.cons_append,
      List.append_assoc]
    rw [MeshData.get_triangles_succ]
    have hih := ih { m with triangles := m.triangles ++ [⟨g t.s1, g t.s2, g t.s3⟩] } hv hts
    cases count <;> cases comments <;>
      simp only [Bool.false_eq_true, if_false, if_true, List.nil_append, List.cons_append,
        List.append_assoc, List.singleton_append,
        skip_comments_eol_num, get_trash_three, get_trash_eol, MeshData.get_triangle_eol,
        MeshData.get_triangle_nums m n _ _ _ _ hv hn ht.1 ht.2.1 ht.2.2] at hih ⊢ <;>
      exact hih

theorem get_vertices_plain (dflt : Vertex) (comments : Bool) (P : Nat → Vect3)
    (vs : List Nat) (m : MeshData) (rest : List Token) :
    MeshData.get_vertices dflt false comments vs.length m
        (some (vs.flatMap (fun a => Token.eol :: MeshData.put_vect3 (P a)) ++ rest))
      = ((vs.map (fun a => { dflt with pos := P a })).foldl MeshData.add_vertex m, some rest) := by
  have := get_vertices_records dflt false comments P P vs m rest
  simpa using this

theorem get_vertices_normals (dflt : Vertex) (comments : Bool) (P N : Nat → Vect3)
    (vs : List Nat) (m : MeshData) (rest : List Token) :
    MeshData.get_vertices dflt true comments vs.length m
        (some (vs.flatMap (fun a => Token.eol ::
            (MeshData.put_vect3 (P a) ++ MeshData.put_vect3 (N a))) ++ rest))
      = ((vs.map (fun a => { dflt with pos := P a })).foldl MeshData.add_vertex m, some rest) := by
  have := get_vertices_records dflt true comments P N vs m rest
  simpa using this

theorem get_triangles_counted (comments : Bool) (g : Nat → Nat) (ts : List Triangle)
    (m : MeshData) (n : Nat) (hv : m.vertices = List.range n) (hn : n < 2 ^ 32)
    (hg : ∀ t ∈ ts, g t.s1 < n ∧ g t.s2 < n ∧ g t.s3 < n) (rest : List Token) :
    MeshData.get_triangles true comments ts.length m
        (some (ts.flatMap (fun t => [Token.eol, Token.num 3, Token.num (g t.s1),
            Token.num (g t.s2), Token.num (g t.s3)]) ++ rest))
      = some { m with triangles := m.triangles ++ ts.map (fun t => ⟨g t.s1, g t.s2, g t.s3⟩) } := by
  have := get_triangles_records true comments g ts m n hv hn hg rest
  simpa using this

theorem get_triangles_plain (comments : Bool) (g : Nat → Nat) (ts : List Triangle)
    (m : MeshData) (n : Nat) (hv : m.vertices = List.range n) (hn : n < 2 ^ 32)
    (hg : ∀ t ∈ ts, g t.s1 < n ∧ g t.s2 < n ∧ g t.s3 < n) (rest : List Token) :
    MeshData.get_triangles false comments ts.length m
        (some (ts.flatMap (fun t => [Token.eol, Token.num (g t.s1),
            Token.num (g t.s2), Token.num (g t.s3)]) ++ rest))
      = some { m with triangles := m.triangles ++ ts.map (fun t => ⟨g t.s1, g t.s2, g t.s3⟩) } := by
  have := get_triangles_records false comments g ts m n hv hn hg rest
  simpa using this

/-! ### The vertex numbers of the writers -/

theorem foldl_update_not_mem (vs : List Nat) (k : Nat) (f : Nat → Nat) (a : Nat) (h : a ∉ vs) :
    (vs.enumFrom k).foldl (fun map e => Function.update map e.2 e.1) f a = f a := by
  induction vs generalizing k f with
  | nil => rfl
  | cons v rest ih =>
    rw [List.enumFrom_cons, List.foldl_cons, ih _ _ (fun h' => h (List.mem_cons_of_mem _ h'))]
    have : a ≠ v := fun e => h (e ▸ List.mem_cons_self _ _)
    simp [Function.update, this]

theorem foldl_update_mem (vs : List Nat) (hn : vs.Nodup) (k : Nat) (f : Nat → Nat) (a : Nat)
    (h : a ∈ vs) :
    (vs.enumFrom k).foldl (fun map e => Function.update map e.2 e.1) f a = k + vs.indexOf a := by
  induction vs generalizing k f with
  | nil => simp at h
  | cons v rest ih =>
    rw [List.enumFrom_cons, List.foldl_cons]
    have hv : v ∉ rest := (List.nodup_cons.1 hn).1
    have hr : rest.Nodup := (List.nodup_cons.1 hn).2
    by_cases hav : a = v
    · subst hav
      rw [foldl_update_not_mem _ _ _ _ hv]
      simp [Function.update]
    · have har : a ∈ rest := by
        rcases List.mem_cons.1 h with h | h
        · exact absurd h hav
        · exact h
      rw [ih hr _ _ har, List.indexOf_cons_ne _ (fun e => hav e.symm)]
      omega

theorem MeshData.vertex_map_eq (vs : List Nat) (hn : vs.Nodup) (a : Nat) (h : a ∈ vs) :
    MeshData.vertex_map vs a = vs.indexOf a := by
  unfold MeshData.vertex_map
  rw [List.enum, foldl_update_mem vs hn 0 _ a h, Nat.zero_add]

theorem MeshData.vertex_map_lt (vs : List Nat) (hn : vs.Nodup) (a : Nat) (h : a ∈ vs) :
    MeshData.vertex_map vs a < vs.length := by
  rw [MeshData.vertex_map_eq vs hn a h]
  exact List.indexOf_lt_length.2 h

theorem MeshData.getD_vertex_map (vs : List Nat) (hn : vs.Nodup) (a : Nat) (h : a ∈ vs) :
    vs.getD (MeshData.vertex_map vs a) 0 = a := by
  rw [MeshData.vertex_map_eq vs hn a h, List.getD_eq_getElem?_getD,
    List.getElem?_eq_getElem (List.indexOf_lt_length.2 h)]
  simp

theorem MeshData.vertex_map_getD (vs : List Nat) (hn : vs.Nodup) (i : Nat) (h : i < vs.length) :
    MeshData.vertex_map vs (vs.getD i 0) = i := by
  have hmem : vs.getD i 0 ∈ vs := by
    rw [List.getD_eq_getElem?_getD, List.getElem?_eq_getElem h]
    exact List.getElem_mem _
  rw [MeshData.vertex_map_eq vs hn _ hmem, List.getD_eq_getElem?_getD,
    List.getElem?_eq_getElem h]
  simp only [Option.getD_some]
  exact List.indexOf_getElem hn i h

theorem MeshData.nodup_of_positions (m : MeshData) (h : m.vertex_positions.Nodup) :
    m.vertices.Nodup :=
  List.Nodup.of_map _ h

/-! ### Loading a written file -/

theorem MeshData.fill_reloaded (m : MeshData) (dflt : Vertex) (hd : m.vertex_positions.Nodup) :
    (m.vertices.map (fun a => ({ dflt with pos := (m.deref a).pos } : Vertex))).foldl
        MeshData.add_vertex MeshData.empty
      = ⟨m.vertices.map (fun a => { dflt with pos := (m.deref a).pos }),
         List.range m.vertices.length,
         m.vertices.map (fun a => { dflt with pos := (m.deref a).pos }), []⟩ := by
  unfold MeshData.empty
  rw [foldl_add_vertex_distinct _ _ (Filled.empty [])]
  · simp [List.range_eq_range']
  · rw [List.map_map]
    exact hd
  · intro v _
    simp [MeshData.empty]

theorem MeshData.numbered_lt (m : MeshData) (hd : m.vertex_positions.Nodup) (hc : m.Closed) :
    ∀ t ∈ m.triangles, MeshData.vertex_map m.vertices t.s1 < m.vertices.length
      ∧ MeshData.vertex_map m.vertices t.s2 < m.vertices.length
      ∧ MeshData.vertex_map m.vertices t.s3 < m.vertices.length := by
  intro t ht
  have hn := m.nodup_of_positions hd
  have := hc t ht
  exact ⟨MeshData.vertex_map_lt _ hn _ this.1, MeshData.vertex_map_lt _ hn _ this.2.1,
    MeshData.vertex_map_lt _ hn _ this.2.2⟩

theorem MeshData.load_off_save_off (m : MeshData) (dflt : Vertex)
    (hd : m.vertex_positions.Nodup) (hc : m.Closed)
    (hv : m.vertices.length < 2 ^ 32) (ht : m.triangles.length < 2 ^ 32) :
    MeshData.empty.load_off dflt (some m.save_off) true
        = LoadResult.returned (0, m.reloaded dflt)
      ∧ MeshData.empty.load_off dflt (some m.save_off) false
        = LoadResult.returned (m.vertices.length, MeshData.empty) := by
  have hfile : m.save_off
      = Token.word "OFF" :: Token.eol :: Token.num (m.vertices.length : Int)
        :: Token.num (m.triangles.length : Int) :: Token.num 0
        :: (m.vertices.flatMap (fun a => Token.eol :: MeshData.put_vect3 (m.deref a).pos)
            ++ (m.triangles.flatMap (fun t =>
                  [Token.eol, Token.num 3, Token.num (MeshData.vertex_map m.vertices t.s1 : Int),
                    Token.num (MeshData.vertex_map m.vertices t.s2 : Int),
                    Token.num (MeshData.vertex_map m.vertices t.s3 : Int)])
              ++ [Token.eol])) := by
    unfold MeshData.save_off MeshData.nb_vertices MeshData.nb_triangles MeshData.put_triangle
    simp only [List.cons_append, List.nil_append, List.append_assoc, List.singleton_append]
    congr 5
    have e1 := flatMap_eol_shift m.vertices (fun a => MeshData.put_vect3 (m.deref a).pos)
    have e2 := flatMap_eol_shift m.triangles (fun t =>
      [Token.num 3, Token.num (MeshData.vertex_map m.vertices t.s1 : Int),
        Token.num (MeshData.vertex_map m.vertices t.s2 : Int),
        Token.num (MeshData.vertex_map m.vertices t.s3 : Int)])
    simp only [List.cons_append, List.nil_append] at e1 e2
    rw [← List.cons_append, e1, List.append_assoc, List.singleton_append, e2]
  have htag : ¬ 128 ≤ ("OFF" : String).length := by decide
  rw [hfile]
  constructor
  · unfold MeshData.load_off
    simp only [get_string_word, htag, get_unsigned_eol, get_unsigned_num _ _ hv,
      get_unsigned_num _ _ ht, get_trash_zero, Bool.not_true, Bool.false_eq_true, if_false]
    rw [get_vertices_plain dflt false (fun a => (m.deref a).pos)]
    simp only
    rw [MeshData.fill_reloaded m dflt hd]
    rw [get_triangles_counted false (MeshData.vertex_map m.vertices) m.triangles _
      m.vertices.length rfl hv (MeshData.numbered_lt m hd hc)]
    rfl
  · unfold MeshData.load_off
    simp only [get_string_word, htag, get_unsigned_eol, get_unsigned_num _ _ hv,
      get_unsigned_num _ _ ht, get_trash_zero, Bool.not_false, if_true, if_false]

/-- The off file written for a mesh of `2 ^ 32` or more vertices: the number of
vertices is not extracted, and the load has no defined result. -/
theorem MeshData.load_save_off_large (m : MeshData) (dflt : Vertex) (normal : Nat → Vect3)
    (h : 2 ^ 32 ≤ m.nb_vertices) :
    MeshData.load Format.off dflt (m.save Format.off normal) = LoadResult.undefined := by
  have htag : ¬ 128 ≤ ("OFF" : String).length := by decide
  have hn : 2 ^ 32 ≤ ((m.nb_vertices : Nat) : Int).natAbs := by
    rw [Int.natAbs_ofNat]
    exact h
  have hcount : MeshData.load_format Format.off MeshData.empty dflt (m.save Format.off normal)
      false = LoadResult.undefined := by
    unfold MeshData.load_format MeshData.save MeshData.save_off MeshData.load_off
    simp only [List.cons_append, get_string_word, htag, if_false, get_unsigned_eol,
      get_unsigned_large _ _ hn]
  unfold MeshData.load
  rw [hcount]

theorem get_char_dash (rest : List Token) :
    get_char (some (Token.word "-" :: rest)) = some rest := by
  have : ("-" : String).length ≤ 1 := by decide
  simp [get_char, skip_ws, this]

theorem get_char_eol (l : List Token) : get_char (some (Token.eol :: l)) = get_char (some l) := by
  simp [get_char, skip_ws]

theorem MeshData.load_tri_save_tri (m : MeshData) (dflt : Vertex) (normal : Nat → Vect3)
    (hd : m.vertex_positions.Nodup) (hc : m.Closed)
    (hv : m.vertices.length < 2 ^ 32) (ht : m.triangles.length < 2 ^ 32) :
    MeshData.empty.load_tri dflt (some (m.save_tri normal)) true
        = LoadResult.returned (0, m.reloaded dflt)
      ∧ MeshData.empty.load_tri dflt (some (m.save_tri normal)) false
        = LoadResult.returned (m.vertices.length, MeshData.empty) := by
  have hfile : m.save_tri normal
      = Token.word "-" :: Token.num (m.vertices.length : Int)
        :: (m.vertices.flatMap (fun a => Token.eol ::
              (MeshData.put_vect3 (m.deref a).pos ++ MeshData.put_vect3 (normal a)))
            ++ (Token.eol :: Token.word "-" :: Token.num (m.triangles.length : Int)
              :: Token.num (m.triangles.length : Int) :: Token.num (m.triangles.length : Int)
              :: (m.triangles.flatMap (fun t =>
                  [Token.eol, Token.num (MeshData.vertex_map m.vertices t.s1 : Int),
                    Token.num (MeshData.vertex_map m.vertices t.s2 : Int),
                    Token.num (MeshData.vertex_map m.vertices t.s3 : Int)])
                ++ [Token.eol]))) := by
    unfold MeshData.save_tri MeshData.nb_vertices MeshData.nb_triangles MeshData.put_triangle
    simp only [List.cons_append, List.nil_append, List.append_assoc, List.singleton_append]
    congr 2
    have e1 := flatMap_eol_shift m.vertices
      (fun a => MeshData.put_vect3 (m.deref a).pos ++ MeshData.put_vect3 (normal a))
    have e2 := flatMap_eol_shift m.triangles (fun t =>
      [Token.num (MeshData.vertex_map m.vertices t.s1 : Int),
        Token.num (MeshData.vertex_map m.vertices t.s2 : Int),
        Token.num (MeshData.vertex_map m.vertices t.s3 : Int)])
    simp only [List.cons_append, List.nil_append, List.append_assoc] at e1 e2
    rw [← List.cons_append, e1, List.append_assoc, List.singleton_append, e2]
  rw [hfile]
  constructor
  · unfold MeshData.load_tri
    simp only [get_char_dash, get_unsigned_num _ _ hv, Bool.not_true, Bool.false_eq_true,
      if_false]
    rw [get_vertices_normals dflt false (fun a => (m.deref a).pos) normal]
    simp only [get_char_eol, get_char_dash, get_unsigned_num _ _ ht]
    rw [MeshData.fill_reloaded m dflt hd]
    rw [get_triangles_plain false (MeshData.vertex_map m.vertices) m.triangles _
      m.vertices.length rfl hv (MeshData.numbered_lt m hd hc)]
    rfl
  · unfold MeshData.load_tri
    simp only [get_char_dash, get_unsigned_num _ _ hv, Bool.not_false, if_true]

theorem skip_comments_num (n : Int) (rest : List Token) :
    skip_comments (some (Token.num n :: rest)) = some (Token.num n :: rest) := by
  simp [skip_comments, skip_comment_lines, skip_ws]

theorem skip_comments_bnd_title (s : String) (rest : List Token) (h : s.data.head? ≠ some '#') :
    skip_comments (some (Token.word "#" :: Token.word "Bnd" :: Token.word "mesh"
      :: Token.word "file" :: Token.word "generated" :: Token.word "by" :: Token.word "OpenMeeg"
      :: Token.eol :: Token.word s :: rest)) = some (Token.word s :: rest) := by
  simp [skip_comments, skip_comment_lines, skip_ws, drop_line, h]

theorem MeshData.load_bnd_save_bnd (m : MeshData) (dflt : Vertex)
    (hd : m.vertex_positions.Nodup) (hc : m.Closed)
    (hv : m.vertices.length < 2 ^ 32) (ht : m.triangles.length < 2 ^ 32) :
    MeshData.empty.load_bnd dflt (some m.save_bnd) true
        = LoadResult.returned (0, m.reloaded dflt)
      ∧ MeshData.empty.load_bnd dflt (some m.save_bnd) false
        = LoadResult.returned (m.vertices.length, MeshData.empty) := by
  have hfile : m.save_bnd
      = Token.word "#" :: Token.word "Bnd" :: Token.word "mesh"
        :: Token.word "file" :: Token.word "generated" :: Token.word "by" :: Token.word "OpenMeeg"
        :: Token.eol :: Token.word "Type=" :: Token.word "Unknown" :: Token.eol
        :: Token.word "NumberPositions=" :: Token.num (m.vertices.length : Int) :: Token.eol
        :: Token.word "UnitPosition" :: Token.word "mm" :: Token.eol :: Token.word "Positions"
        :: (m.vertices.flatMap (fun a => Token.eol :: MeshData.put_vect3 (m.deref a).pos)
            ++ (Token.eol :: Token.word "NumberPolygons=" :: Token.num (m.triangles.length : Int)
              :: Token.eol :: Token.word "TypePolygons=" :: Token.num 3 :: Token.eol
              :: Token.word "Polygons"
              :: (m.triangles.flatMap (fun t =>
                  [Token.eol, Token.num (MeshData.vertex_map m.vertices t.s1 : Int),
                    Token.num (MeshData.vertex_map m.vertices t.s2 : Int),
                    Token.num (MeshData.vertex_map m.vertices t.s3 : Int)])
                ++ [Token.eol]))) := by
    unfold MeshData.save_bnd MeshData.nb_vertices MeshData.nb_triangles MeshData.put_triangle
    simp only [List.cons_append, List.nil_append, List.append_assoc, List.singleton_append]
    congr 18
    have e1 := flatMap_eol_shift m.vertices (fun a => MeshData.put_vect3 (m.deref a).pos)
    have e2 := flatMap_eol_shift m.triangles (fun t =>
      [Token.num (MeshData.vertex_map m.vertices t.s1 : Int),
        Token.num (MeshData.vertex_map m.vertices t.s2 : Int),
        Token.num (MeshData.vertex_map m.vertices t.s3 : Int)])
    simp only [List.cons_append, List.nil_append, List.append_assoc] at e1 e2
    rw [← List.cons_append, e1, List.append_assoc, List.singleton_append, e2]
  have h1 : ("Type=" : String).data.head? ≠ some '#' := by decide
  have h2 : ("NumberPositions=" : String).data.head? ≠ some '#' := by decide
  have h3 : ("UnitPosition" : String).data.head? ≠ some '#' := by decide
  have h4 : ("Positions" : String).data.head? ≠ some '#' := by decide
  have h5 : ("NumberPolygons=" : String).data.head? ≠ some '#' := by decide
  have h6 : ("TypePolygons=" : String).data.head? ≠ some '#' := by decide
  have h7 : ("Polygons" : String).data.head? ≠ some '#' := by decide
  have h8 : toString (3 : Int) = "3" := by decide
  rw [hfile]
  constructor
  · unfold MeshData.load_bnd
    simp only [skip_comments_bnd_title _ _ h1, get_string_word, if_true, skip_line,
      Option.map_some', drop_line, skip_comments_word _ _ h2, ne_eq, not_true_eq_false,
      if_false, get_unsigned_num _ _ hv, Bool.not_true, Bool.false_eq_true,
      skip_comments_eol_word _ _ h3, skip_comments_word _ _ h4]
    rw [get_vertices_plain dflt true (fun a => (m.deref a).pos)]
    simp only [skip_comments_eol_word _ _ h5, get_string_word, ne_eq, not_true_eq_false,
      if_false, skip_comments_num, get_unsigned_num _ _ ht, skip_comments_eol_word _ _ h6,
      get_string_num, h8, skip_comments_eol_word _ _ h7]
    rw [MeshData.fill_reloaded m dflt hd]
    rw [get_triangles_plain true (MeshData.vertex_map m.vertices) m.triangles _
      m.vertices.length rfl hv (MeshData.numbered_lt m hd hc)]
    rfl
  · unfold MeshData.load_bnd
    simp only [skip_comments_bnd_title _ _ h1, get_string_word, if_true, skip_line,
      Option.map_some', drop_line, skip_comments_word _ _ h2, ne_eq, not_true_eq_false,
      if_false, get_unsigned_num _ _ hv, Bool.not_false]

/-! ### Saving and reloading -/

theorem Triangle.trav_numbered (m : MeshData) (hn : m.vertices.Nodup) (t : Triangle)
    (ht : t.s1 ∈ m.vertices ∧ t.s2 ∈ m.vertices ∧ t.s3 ∈ m.vertices) (x y : Nat) :
    (m.numbered t).trav x y
      = if x < m.vertices.length ∧ y < m.vertices.length
          then t.trav (m.vertices.getD x 0) (m.vertices.getD y 0) else 0 := by
  have key : ∀ a, a ∈ m.vertices → ∀ i, (MeshData.vertex_map m.vertices a = i
      ↔ i < m.vertices.length ∧ a = m.vertices.getD i 0) := by
    intro a ha i
    constructor
    · intro h
      subst h
      exact ⟨MeshData.vertex_map_lt _ hn _ ha, (MeshData.getD_vertex_map _ hn _ ha).symm⟩
    · rintro ⟨hi, rfl⟩
      exact MeshData.vertex_map_getD _ hn _ hi
  unfold Triangle.trav MeshData.numbered
  simp only [key _ ht.1, key _ ht.2.1, key _ ht.2.2]
  by_cases hx : x < m.vertices.length <;> by_cases hy : y < m.vertices.length <;>
    simp [hx, hy]

theorem MeshData.reloaded_consistent (m : MeshData) (dflt : Vertex)
    (hd : m.vertex_positions.Nodup) (hc : m.Closed) (ho : m.Consistent) (x y : Nat) :
    ((m.reloaded dflt).triangles.map (fun t => t.trav x y)).sum ≤ 1 := by
  have hn := m.nodup_of_positions hd
  unfold MeshData.reloaded
  simp only [List.map_map]
  have : (m.triangles.map ((fun t : Triangle => t.trav x y) ∘ m.numbered))
      = m.triangles.map (fun t => if x < m.vertices.length ∧ y < m.vertices.length
          then t.trav (m.vertices.getD x 0) (m.vertices.getD y 0) else 0) := by
    apply List.map_congr_left
    intro t ht
    exact Triangle.trav_numbered m hn t (hc t ht) x y
  rw [this]
  by_cases hxy : x < m.vertices.length ∧ y < m.vertices.length
  · simp only [hxy, and_self, if_true]
    exact ho _ _
  · simp only [hxy, if_false]
    simp

theorem MeshData.reloaded_update (m : MeshData) (dflt : Vertex)
    (hd : m.vertex_positions.Nodup) (hc : m.Closed) (ho : m.Consistent) :
    (m.reloaded dflt).update
      = some ⟨(m.reloaded dflt).all_vertices, (m.reloaded dflt).vertices, [],
          (m.reloaded dflt).triangles⟩ := by
  unfold MeshData.update Mesh.update Mesh.correct_local_orientation
  have h : ({ (m.reloaded dflt).toMesh with
      links := Mesh.make_links (m.reloaded dflt).toMesh.triangles } : Mesh).has_correct_orientation
      = true := by
    apply Mesh.has_correct_of_trav_le_one
    intro x y
    exact MeshData.reloaded_consistent m dflt hd hc ho x y
  rw [if_pos h]
  rfl

theorem pos_getD_set (l : List Vertex) (i k a : Nat) :
    ((l.set i ⟨(l.getD i default).pos, k⟩).getD a default).pos = (l.getD a default).pos := by
  simp only [List.getD_eq_getElem?_getD, List.getElem?_set]
  by_cases h : i = a
  · subst h
    by_cases hl : i < l.length
    · simp [hl]
    · have : l[i]? = none := List.getElem?_eq_none (by omega)
      simp [hl, this]
  · simp [h]

theorem MeshData.generate_indices_pos (m : MeshData) (a : Nat) :
    (m.generate_indices.deref a).pos = (m.deref a).pos := by
  unfold MeshData.generate_indices MeshData.deref
  simp only
  generalize m.vertices.enum = es
  generalize m.all_vertices = l
  induction es generalizing l with
  | nil => rfl
  | cons e rest ih =>
    rw [List.foldl_cons, ih, pos_getD_set]

theorem MeshData.positions_of_generate_indices (m : MeshData) (t : Triangle) :
    m.generate_indices.positions_of t = m.positions_of t := by
  unfold MeshData.positions_of
  rw [MeshData.generate_indices_pos, MeshData.generate_indices_pos,
    MeshData.generate_indices_pos]

theorem MeshData.deref_reloaded (m : MeshData) (dflt : Vertex) (i : Nat)
    (hi : i < m.vertices.length) :
    ((m.reloaded dflt).deref i).pos = (m.deref (m.vertices.getD i 0)).pos := by
  unfold MeshData.reloaded MeshData.deref
  simp only [List.getD_eq_getElem?_getD, List.getElem?_map, List.getElem?_eq_getElem hi,
    Option.map_some', Option.getD_some]

theorem MeshData.positions_of_reloaded (m : MeshData) (dflt : Vertex)
    (hd : m.vertex_positions.Nodup) (hc : m.Closed) (t : Triangle) (ht : t ∈ m.triangles) :
    (m.reloaded dflt).positions_of (m.numbered t) = m.positions_of t := by
  have hn := m.nodup_of_positions hd
  have hm := hc t ht
  unfold MeshData.positions_of MeshData.numbered
  simp only
  rw [MeshData.deref_reloaded m dflt _ (MeshData.vertex_map_lt _ hn _ hm.1),
    MeshData.deref_reloaded m dflt _ (MeshData.vertex_map_lt _ hn _ hm.2.1),
    MeshData.deref_reloaded m dflt _ (MeshData.vertex_map_lt _ hn _ hm.2.2),
    MeshData.getD_vertex_map _ hn _ hm.1, MeshData.getD_vertex_map _ hn _ hm.2.1,
    MeshData.getD_vertex_map _ hn _ hm.2.2]

theorem MeshData.load_format_save (fmt : Format) (m : MeshData) (dflt : Vertex)
    (normal : Nat → Vect3) (hd : m.vertex_positions.Nodup) (hc : m.Closed)
    (hv : m.vertices.length < 2 ^ 32) (ht : m.triangles.length < 2 ^ 32) :
    MeshData.load_format fmt MeshData.empty dflt (m.save fmt normal) true
        = LoadResult.returned (0, m.reloaded dflt)
      ∧ MeshData.load_format fmt MeshData.empty dflt (m.save fmt normal) false
        = LoadResult.returned (m.vertices.length, MeshData.empty) := by
  cases fmt
  · exact MeshData.load_tri_save_tri m dflt normal hd hc hv ht
  · exact MeshData.load_off_save_off m dflt hd hc hv ht
  · exact MeshData.load_bnd_save_bnd m dflt hd hc hv ht

/-- The mesh `Mesh::load` returns for the file written for a mesh whose listed vertices
have distinct coordinates, whose triangles refer to listed vertices and whose winding is
consistent. -/
theorem MeshData.load_save (fmt : Format) (m : MeshData) (dflt : Vertex)
    (normal : Nat → Vect3) (hd : m.vertex_positions.Nodup) (hc : m.Closed)
    (ho : m.Consistent) (hv : m.vertices.length < 2 ^ 32) (ht : m.triangles.length < 2 ^ 32) :
    MeshData.load fmt dflt (m.save fmt normal)
      = LoadResult.returned
          (MeshData.generate_indices ⟨(m.reloaded dflt).all_vertices, (m.reloaded dflt).vertices,
            [], (m.reloaded dflt).triangles⟩) := by
  unfold MeshData.load
  rw [(MeshData.load_format_save fmt m dflt normal hd hc hv ht).1,
    (MeshData.load_format_save fmt m dflt normal hd hc hv ht).2]
  simp only
  rw [MeshData.reloaded_update m dflt hd hc ho]

/-- C18 (counterexample): two meshes that a save followed by a load does not give back.
The strip `stripData` has four vertices with distinct coordinates, and its second
triangle is wound against the first: reloaded from its off file, the second triangle has
its first two vertices exchanged. The mesh `twinData` lists five vertices, two of them
with the same coordinates: reloaded from its bnd file it has four vertices, and its
triangle joins three other positions than before. -/
theorem save_load_changes_mesh :
    (stripData.vertex_positions.Nodup ∧ stripData.Closed
        ∧ stripData.triangles = [⟨0, 1, 2⟩, ⟨1, 2, 3⟩]
        ∧ MeshData.load Format.off blankVertex (stripData.save Format.off (fun _ => ⟨0, 0, 1⟩))
          = LoadResult.returned ⟨squareVertices, [0, 1, 2, 3], [], [⟨0, 1, 2⟩, ⟨2, 1, 3⟩]⟩)
      ∧ (twinData.Closed ∧ twinData.Consistent
        ∧ twinData.nb_vertices = 5
        ∧ twinData.triangles.map twinData.positions_of = [[⟨0, 0, 0⟩, ⟨1, 0, 0⟩, ⟨0, 1, 0⟩]]
        ∧ MeshData.load Format.bnd blankVertex (twinData.save Format.bnd (fun _ => ⟨0, 0, 1⟩))
          = LoadResult.returned ⟨squareVertices, [0, 1, 2, 3], [], [⟨1, 2, 3⟩]⟩
        ∧ (⟨squareVertices, [0, 1, 2, 3], [], [⟨1, 2, 3⟩]⟩ : MeshData).positions_of ⟨1, 2, 3⟩
          = [⟨1, 0, 0⟩, ⟨0, 1, 0⟩, ⟨1, 1, 0⟩]) := by
  refine ⟨⟨by decide, by decide, rfl, by decide⟩,
    ⟨by decide, ?_, rfl, by decide, by decide, by decide⟩⟩
  exact (consistent_iff_trav twinData.triangles (by decide)).1 (by unfold Consistent; decide)

/-- C18 (amended): for every mesh whose listed vertices have pairwise distinct
positions, whose triangles refer to listed vertices and in which no edge is traversed in
the same direction by two triangle sides, and for every supported text format (tri, off,
bnd), `Mesh::save` followed by `Mesh::load` of the written file returns a mesh with the
same vertex count, the same triangle count, the same vertex positions and the same
triangle connectivity: the same three vertex positions, in the same order, for every
triangle. Coordinates are written and read back exactly; the two counts are below
`2 ^ 32`, the numbers that the loaders, which read them as `unsigned`, can extract. -/
theorem save_load_round_trip (fmt : Format) (m : MeshData) (dflt : Vertex)
    (normal : Nat → Vect3) (hd : m.vertex_positions.Nodup) (hc : m.Closed)
    (ho : m.Consistent) (hv : m.nb_vertices < 2 ^ 32) (ht : m.nb_triangles < 2 ^ 32) :
    ∃ m', MeshData.load fmt dflt (m.save fmt normal) = LoadResult.returned m'
      ∧ m'.nb_vertices = m.nb_vertices
      ∧ m'.nb_triangles = m.nb_triangles
      ∧ m'.vertex_positions = m.vertex_positions
      ∧ m'.triangles.map m'.positions_of = m.triangles.map m.positions_of := by
  refine ⟨_, MeshData.load_save fmt m dflt normal hd hc ho hv ht, ?_, ?_, ?_, ?_⟩
  · simp [MeshData.nb_vertices, MeshData.generate_indices, MeshData.reloaded]
  · simp [MeshData.nb_triangles, MeshData.generate_indices, MeshData.reloaded]
  · unfold MeshData.vertex_positions
    simp only [MeshData.generate_indices_pos]
    show (List.range m.vertices.length).map
        (fun a => ((m.reloaded dflt).deref a).pos) = _
    apply List.ext_getElem
    · simp
    · intro i h1 h2
      simp only [List.getElem_map, List.getElem_range]
      have hi : i < m.vertices.length := by simpa using h1
      rw [MeshData.deref_reloaded m dflt i hi, List.getD_eq_getElem?_getD,
        List.getElem?_eq_getElem hi]
      rfl
  · show ((m.reloaded dflt).triangles).map _ = _
    unfold MeshData.reloaded
    simp only [List.map_map]
    apply List.map_congr_left
    intro t ht
    simp only [Function.comp, MeshData.positions_of_generate_indices]
    exact MeshData.positions_of_reloaded m dflt hd hc t ht

/-- C18 (witness): the consistently wound strip, saved and reloaded in the tri
format. -/
theorem save_load_round_trip_strip :
    (goodStrip.vertex_positions.Nodup ∧ goodStrip.Closed ∧ goodStrip.Consistent
        ∧ goodStrip.nb_vertices < 2 ^ 32 ∧ goodStrip.nb_triangles < 2 ^ 32)
      ∧ ∃ m', MeshData.load Format.tri blankVertex
              (goodStrip.save Format.tri (fun _ => ⟨0, 0, 1⟩))
            = LoadResult.returned m'
        ∧ m'.nb_vertices = goodStrip.nb_vertices
        ∧ m'.nb_triangles = goodStrip.nb_triangles
        ∧ m'.vertex_positions = goodStrip.vertex_positions
        ∧ m'.triangles.map m'.positions_of = goodStrip.triangles.map goodStrip.positions_of :=
  have ho : goodStrip.Consistent :=
    (consistent_iff_trav goodStrip.triangles (by decide)).1 (by unfold Consistent; decide)
  ⟨⟨by decide, by decide, ho, by decide, by decide⟩,
    save_load_round_trip Format.tri goodStrip blankVertex (fun _ => ⟨0, 0, 1⟩) (by decide)
      (by decide) ho (by decide) (by decide)⟩

/-! ### Malformed files -/

theorem filter_le_range (n a : Nat) (h : a < n) :
    (List.range n).filter (fun b => decide (b ≤ a)) = List.range (a + 1) := by
  induction n with
  | zero => omega
  | succ n ih =>
    rw [List.range_succ, List.filter_append]
    by_cases han : a < n
    · rw [ih han]
      have : ¬ n ≤ a := by omega
      simp [this]
    · have hna : a = n := by omega
      subst hna
      have hall : (List.range a).filter (fun b => decide (b ≤ a)) = List.range a := by
        rw [List.filter_eq_self]
        intro b hb
        have := List.mem_range.mp hb
        exact decide_eq_true (by omega)
      rw [hall, List.range_succ]
      simp

theorem lower_pairs_eq (n : Nat) :
    lower_pairs n
      = (List.range n).flatMap (fun a => (List.range (a + 1)).map (fun b => (a, b))) := by
  unfold lower_pairs List.product
  rw [List.filter_flatMap]
  apply List.flatMap_congr
  intro a ha
  rw [List.filter_map]
  have := filter_le_range n a (List.mem_range.mp ha)
  have hf : ((fun p : Nat × Nat => decide (p.2 ≤ p.1)) ∘ Prod.mk a)
      = (fun b => decide (b ≤ a)) := by
    funext b
    rfl
  rw [hf, this]

theorem mem_lower_pairs (n : Nat) (p : Nat × Nat) :
    p ∈ lower_pairs n ↔ p.2 ≤ p.1 ∧ p.1 < n := by
  unfold lower_pairs
  rw [List.mem_filter, List.pair_mem_product, List.mem_range, List.mem_range,
    decide_eq_true_eq]
  constructor
  · rintro ⟨⟨h1, _⟩, h3⟩
    exact ⟨h3, h1⟩
  · rintro ⟨h1, h2⟩
    exact ⟨⟨h2, by omega⟩, h1⟩

theorem nodup_lower_pairs (n : Nat) : (lower_pairs n).Nodup := by
  unfold lower_pairs
  exact ((List.nodup_range n).product (List.nodup_range n)).filter _

theorem two_mul_length_lower_pairs (n : Nat) : 2 * (lower_pairs n).length = n * (n + 1) := by
  rw [lower_pairs_eq]
  induction n with
  | zero => rfl
  | succ n ih =>
    rw [List.range_succ, List.flatMap_append, List.length_append, Nat.mul_add, ih]
    simp only [List.flatMap_cons, List.flatMap_nil, List.append_nil, List.length_map,
      List.length_range]
    ring

theorem length_lower_pairs (n : Nat) : (lower_pairs n).length = n * (n + 1) / 2 := by
  have := two_mul_length_lower_pairs n
  omega

theorem assemble_HM_calls_eq (geo : Geometry) (K : ℚ) (gauss_order : Nat) :
    assemble_HM_calls geo K gauss_order
      = (lower_pairs geo.meshes.length).flatMap (calls_at geo K gauss_order) := by
  rw [lower_pairs_eq, List.flatMap_assoc]
  unfold assemble_HM_calls
  apply List.flatMap_congr
  intro a _
  rw [List.flatMap_map]
  rfl

theorem pair_calls_eq_nil_iff (geo : Geometry) (K : ℚ) (gauss_order : Nat) (A B : Surface) :
    pair_calls geo K gauss_order A B = [] ↔ geo.oriented A B = 0 := by
  unfold pair_calls
  by_cases ho : geo.oriented A B = 0
  · simp [ho]
  · simp [ho]

theorem N_mem_pair_calls (geo : Geometry) (K : ℚ) (gauss_order : Nat) (A B : Surface)
    (ho : geo.oriented A B ≠ 0) :
    ∃ c ∈ pair_calls geo K gauss_order A B, c.kind = OpKind.N ∧ c.m1 = A ∧ c.m2 = B :=
  ⟨_, (mem_pair_calls geo K gauss_order A B ho _).mpr (Or.inr (Or.inr (Or.inr rfl))),
    rfl, rfl, rfl⟩

theorem m1_m2_of_mem_pair_calls (geo : Geometry) (K : ℚ) (gauss_order : Nat) (A B : Surface)
    (c : OpCall) (hc : c ∈ pair_calls geo K gauss_order A B) :
    geo.oriented A B ≠ 0 ∧ c.m1 = A ∧ c.m2 = B := by
  have ho : geo.oriented A B ≠ 0 := by
    intro h
    rw [(pair_calls_eq_nil_iff geo K gauss_order A B).mpr h] at hc
    exact absurd hc (List.not_mem_nil c)
  refine ⟨ho, ?_⟩
  rw [mem_pair_calls _ _ _ _ _ ho] at hc
  rcases hc with ⟨-, -, rfl⟩ | ⟨-, rfl⟩ | ⟨-, -, rfl⟩ | rfl <;> exact ⟨rfl, rfl⟩

/-- C24: the operator calls of `assemble_HM` are, in order, the calls of the pairs of
Surfaces at the positions `(a, b)` with `b ≤ a` in Geometry order. These pairs of
positions are pairwise different; a pair of positions of the Geometry is among them
exactly when `b ≤ a`, so of the two orders of a pair of different positions exactly one
is taken, and every self-pair is; there are `n (n + 1) / 2` of them for `n` Surfaces. A pair
issues no call at all exactly when `oriented(A,B) = 0`: every call is an S, D, `D*` or N
call on a pair of Surfaces with `oriented ≠ 0`, and a pair with `oriented ≠ 0` issues
its N call. -/
theorem assemble_HM_pairs (geo : Geometry) (K : ℚ) (gauss_order : Nat) :
    assemble_HM_calls geo K gauss_order
        = (lower_pairs geo.meshes.length).flatMap (calls_at geo K gauss_order)
      ∧ (lower_pairs geo.meshes.length).Nodup
      ∧ (∀ a b, (a, b) ∈ lower_pairs geo.meshes.length ↔ b ≤ a ∧ a < geo.meshes.length)
      ∧ (∀ a b, a < geo.meshes.length → b < geo.meshes.length → a ≠ b →
          ((a, b) ∈ lower_pairs geo.meshes.length ↔ (b, a) ∉ lower_pairs geo.meshes.length))
      ∧ (∀ a, a < geo.meshes.length → (a, a) ∈ lower_pairs geo.meshes.length)
      ∧ (lower_pairs geo.meshes.length).length
          = geo.meshes.length * (geo.meshes.length + 1) / 2
      ∧ (∀ A B, pair_calls geo K gauss_order A B = [] ↔ geo.oriented A B = 0)
      ∧ (∀ A B, ∀ c ∈ pair_calls geo K gauss_order A B,
          geo.oriented A B ≠ 0 ∧ c.m1 = A ∧ c.m2 = B)
      ∧ (∀ A B, geo.oriented A B ≠ 0 →
          ∃ c ∈ pair_calls geo K gauss_order A B, c.kind = OpKind.N ∧ c.m1 = A ∧ c.m2 = B) := by
  refine ⟨assemble_HM_calls_eq geo K gauss_order, nodup_lower_pairs _,
    fun a b => mem_lower_pairs _ (a, b), ?_, ?_, length_lower_pairs _,
    pair_calls_eq_nil_iff geo K gauss_order, m1_m2_of_mem_pair_calls geo K gauss_order,
    N_mem_pair_calls geo K gauss_order⟩
  · intro a b ha hb hab
    rw [mem_lower_pairs, mem_lower_pairs]
    dsimp only
    omega
  · intro a ha
    exact (mem_lower_pairs _ (a, a)).mpr ⟨Nat.le_refl a, ha⟩

/-- C25: in `assemble_HM`, for every pair (A,B) with `oriented(A,B) ≠ 0`, an S call is
issued iff neither A nor B is outermost; the N call is issued, and its coefficient is
the ratio `sigma(A,B) / sigma_inv(A,B)` when the S call of the pair is issued and the
direct term `orientation * sigma(A,B) * K` when it is not. -/
theorem S_block_and_N_coefficient (geo : Geometry) (K : ℚ) (gauss_order : Nat)
    (A B : Surface) (ho : geo.oriented A B ≠ 0) :
    ((∃ c ∈ pair_calls geo K gauss_order A B, c.kind = OpKind.S)
        ↔ (A.outermost = false ∧ B.outermost = false))
      ∧ (∃ c ∈ pair_calls geo K gauss_order A B, c.kind = OpKind.N)
      ∧ ∀ c ∈ pair_calls geo K gauss_order A B, c.kind = OpKind.N →
          ((∃ s ∈ pair_calls geo K gauss_order A B, s.kind = OpKind.S) →
              c.coeff = sigma_ratio geo A B)
            ∧ ((¬ ∃ s ∈ pair_calls geo K gauss_order A B, s.kind = OpKind.S) →
              c.coeff = direct_term geo K A B) := by
  have hS : (∃ c ∈ pair_calls geo K gauss_order A B, c.kind = OpKind.S)
      ↔ (A.outermost = false ∧ B.outermost = false) := by
    constructor
    · rintro ⟨c, hc, hk⟩
      rw [mem_pair_calls _ _ _ _ _ ho] at hc
      rcases hc with ⟨hA, hB, -⟩ | ⟨-, rfl⟩ | ⟨-, -, rfl⟩ | rfl
      · exact ⟨hA, hB⟩
      · exact absurd hk (by simp)
      · exact absurd hk (by simp)
      · exact absurd hk (by simp)
    · rintro ⟨hA, hB⟩
      exact ⟨_, (mem_pair_calls _ _ _ _ _ ho _).mpr (Or.inl ⟨hA, hB, rfl⟩), rfl⟩
  refine ⟨hS, ?_, ?_⟩
  · obtain ⟨c, hc, hk, -⟩ := N_mem_pair_calls geo K gauss_order A B ho
    exact ⟨c, hc, hk⟩
  · intro c hc hk
    rw [hS]
    rw [mem_pair_calls _ _ _ _ _ ho] at hc
    rcases hc with ⟨-, -, rfl⟩ | ⟨-, rfl⟩ | ⟨-, -, rfl⟩ | rfl
    · exact absurd hk (by simp)
    · exact absurd hk (by simp)
    · exact absurd hk (by simp)
    · constructor
      · intro h
        dsimp only
        rw [if_pos h]
        rfl
      · intro h
        dsimp only
        rw [if_neg h]
        rfl

/-- C25 (witness): the self-pair of the inner Surface of the two-shell Geometry, for
which S is computed and N gets the ratio `(4/3) / 4`. -/
theorem S_block_and_N_coefficient_inner :
    (twoShell 1).oriented innerShell innerShell ≠ 0
    ∧ sigma_ratio (twoShell 1) innerShell innerShell = 1 / 3
    ∧ (((∃ c ∈ pair_calls (twoShell 1) (2 / 25) 3 innerShell innerShell, c.kind = OpKind.S)
        ↔ (innerShell.outermost = false ∧ innerShell.outermost = false))
      ∧ (∃ c ∈ pair_calls (twoShell 1) (2 / 25) 3 innerShell innerShell, c.kind = OpKind.N)
      ∧ ∀ c ∈ pair_calls (twoShell 1) (2 / 25) 3 innerShell innerShell, c.kind = OpKind.N →
          ((∃ s ∈ pair_calls (twoShell 1) (2 / 25) 3 innerShell innerShell,
              s.kind = OpKind.S) →
              c.coeff = sigma_ratio (twoShell 1) innerShell innerShell)
            ∧ ((¬ ∃ s ∈ pair_calls (twoShell 1) (2 / 25) 3 innerShell innerShell,
              s.kind = OpKind.S) →
              c.coeff = direct_term (twoShell 1) (2 / 25) innerShell innerShell)) :=
  ⟨by decide, by simp only [sigma_ratio, twoShell]; norm_num,
    S_block_and_N_coefficient (twoShell 1) (2 / 25) 3 innerShell innerShell (by decide)⟩

theorem orderedCalls_aux (geo : Geometry) (K : ℚ) (g : Nat) (A B : Surface)
    (s d e : Bool) (n : Bool) (hn : s = true → n = true) (Scoeff Dcoeff : ℚ) :
    OrderedCalls geo K A B
      ((if s then [⟨OpKind.S, A, B, Scoeff, g⟩] else [])
        ++ (if d then [⟨OpKind.D, A, B, Dcoeff, g⟩] else [])
        ++ (if e then [⟨OpKind.Dstar, A, B, Dcoeff, g⟩] else [])
        ++ (if n then [⟨OpKind.N, A, B,
              if s then geo.sigma A B / geo.sigma_inv A B
              else geo.oriented A B * geo.sigma A B * K, g⟩] else [])) := by
  unfold OrderedCalls
  cases n
  · have hs : s = false := by
      cases s
      · rfl
      · exact absurd (hn rfl) (by simp)
    subst hs
    refine ⟨?_, ?_, ?_⟩
    · cases d <;> cases e <;> simp only [if_true, if_false, Bool.false_eq_true,
        List.nil_append, List.append_nil, List.map_nil, List.map_cons, List.cons_append]
        <;> decide
    · intro c hc
      cases d <;> cases e <;> simp at hc
      all_goals (rcases hc with rfl | rfl <;> exact ⟨rfl, rfl⟩)
    · intro c hc hk
      cases d <;> cases e <;> simp at hc
      all_goals (rcases hc with rfl | rfl <;> exact absurd hk (by simp))
  · refine ⟨?_, ?_, ?_⟩
    · cases s <;> cases d <;> cases e <;> simp only [if_true, if_false, Bool.false_eq_true,
        List.nil_append, List.append_nil, List.map_nil, List.map_cons, List.cons_append,
        List.map_append]
        <;> decide
    · intro c hc
      simp only [List.mem_append, if_true] at hc
      rcases hc with ((hc | hc) | hc) | hc
      · cases s <;> simp at hc
        subst hc; exact ⟨rfl, rfl⟩
      · cases d <;> simp at hc
        subst hc; exact ⟨rfl, rfl⟩
      · cases e <;> simp at hc
        subst hc; exact ⟨rfl, rfl⟩
      · simp at hc
        subst hc; exact ⟨rfl, rfl⟩
    · intro c hc hk
      have hcN : c = ⟨OpKind.N, A, B,
            if s = true then geo.sigma A B / geo.sigma_inv A B
            else geo.oriented A B * geo.sigma A B * K, g⟩ := by
        simp only [List.mem_append, if_true] at hc
        rcases hc with ((hc | hc) | hc) | hc
        · cases s <;> simp at hc
          subst hc; exact absurd hk (by simp)
        · cases d <;> simp at hc
          subst hc; exact absurd hk (by simp)
        · cases e <;> simp at hc
          subst hc; exact absurd hk (by simp)
        · simpa using hc
      subst hcN
      refine ⟨?_, ?_⟩
      · rw [if_pos rfl, List.getLast?_append]
        rfl
      · cases s
        · right
          refine ⟨rfl, ?_⟩
          intro x hx
          simp only [List.mem_append, if_true, Bool.false_eq_true, if_false,
            List.not_mem_nil, false_or] at hx
          rcases hx with (hx | hx) | hx
          · cases d <;> simp at hx
            subst hx; simp
          · cases e <;> simp at hx
            subst hx; simp
          · simp at hx
            subst hx; simp
        · left
          refine ⟨rfl, ?_⟩
          refine ⟨[⟨OpKind.S, A, B, Scoeff, g⟩] ++ (if d then [⟨OpKind.D, A, B, Dcoeff, g⟩] else [])
            ++ (if e then [⟨OpKind.Dstar, A, B, Dcoeff, g⟩] else []), [], ?_, ?_⟩
          · simp
          · exact ⟨⟨OpKind.S, A, B, Scoeff, g⟩, by simp, rfl⟩

/-- C26: in `assemble_HM` and in `assemble_cortical`, for every pair (A,B) with
`oriented(A,B) ≠ 0`, the kinds of the operator calls of the pair follow the order S, D,
`D*`, N (each at most once); an N call is the last call of the pair; the coefficient of
an N call is the ratio `sigma / sigma_inv` only after an S call of the same pair, and it
is the direct term when the pair has no S call. In `assemble_HM` the N call is always
issued. -/
theorem calls_in_order (geo : Geometry) (K : ℚ) (gauss_order : Nat) (cortex A B : Surface)
    (ho : geo.oriented A B ≠ 0) :
    OrderedCalls geo K A B (pair_calls geo K gauss_order A B)
      ∧ OrderedCalls geo K A B (cortical_pair_calls geo K gauss_order cortex A B)
      ∧ ∃ c, (pair_calls geo K gauss_order A B).getLast? = some c ∧ c.kind = OpKind.N := by
  refine ⟨?_, ?_, ?_⟩
  · have := orderedCalls_aux geo K gauss_order A B (!(A.outermost || B.outermost))
      (!A.outermost) (decide (A ≠ B) && !B.outermost) true (fun _ => rfl)
      (geo.oriented A B * geo.sigma_inv A B * K) (- geo.oriented A B * geo.indicator A B * K)
    unfold pair_calls
    rw [if_pos ho]
    simpa using this
  · have := orderedCalls_aux geo K gauss_order A B
      (!(A.outermost || B.outermost) && (decide (A ≠ B) || decide (A ≠ cortex)))
      (!A.outermost && (decide (A ≠ B) || decide (A ≠ cortex)))
      (decide (A ≠ B) && !B.outermost) (decide (A ≠ B) || decide (A ≠ cortex))
      (fun h => by
        rw [Bool.and_eq_true] at h
        exact h.2)
      (geo.oriented A B * geo.sigma_inv A B * K) (- geo.oriented A B * geo.indicator A B * K)
    unfold cortical_pair_calls
    rw [if_pos ho]
    exact this
  · unfold pair_calls
    rw [if_pos ho]
    dsimp only
    rw [List.getLast?_append]
    exact ⟨_, rfl, rfl⟩

/-- C26 (witness): the pair (middle Surface, inner Surface) of the three-shell Geometry,
with the inner Surface as cortex. -/
theorem calls_in_order_three_shell :
    threeShell.oriented ⟨"skull", false, [], []⟩ innerShell ≠ 0
    ∧ (pair_calls threeShell 1 3 ⟨"skull", false, [], []⟩ innerShell).map OpCall.kind
        = [OpKind.S, OpKind.D, OpKind.Dstar, OpKind.N]
    ∧ (OrderedCalls threeShell 1 ⟨"skull", false, [], []⟩ innerShell
        (pair_calls threeShell 1 3 ⟨"skull", false, [], []⟩ innerShell)
      ∧ OrderedCalls threeShell 1 ⟨"skull", false, [], []⟩ innerShell
        (cortical_pair_calls threeShell 1 3 innerShell ⟨"skull", false, [], []⟩ innerShell)
      ∧ ∃ c, (pair_calls threeShell 1 3 ⟨"skull", false, [], []⟩ innerShell).getLast? = some c
          ∧ c.kind = OpKind.N) :=
  ⟨by decide, by decide,
    calls_in_order threeShell 1 3 innerShell ⟨"skull", false, [], []⟩ innerShell (by decide)⟩

/-! ### The sign of the edge votes and the vertex indices -/

theorem not_consistent_iff (ts : List Triangle) :
    ¬ Consistent ts ↔
      ∃ p q, p < q ∧ q < ts.length ∧ (ts.getD p default).common (ts.getD q default) := by
  unfold Consistent
  rw [List.pairwise_iff_getElem]
  constructor
  · intro h
    by_contra hn
    apply h
    intro i j hi hj hij hc
    apply hn
    refine ⟨i, j, hij, hj, ?_⟩
    rw [List.getD_eq_getElem?_getD, List.getD_eq_getElem?_getD, List.getElem?_eq_getElem hi,
      List.getElem?_eq_getElem hj]
    exact hc
  · rintro ⟨p, q, hpq, hq, hc⟩ h
    have hp : p < ts.length := by omega
    rw [List.getD_eq_getElem?_getD, List.getD_eq_getElem?_getD, List.getElem?_eq_getElem hp,
      List.getElem?_eq_getElem hq] at hc
    exact h p q hp hq hpq hc

theorem Mesh.has_correct_iff_consistent (m : Mesh) (hp : ∀ t ∈ m.triangles, t.proper)
    (hman : m.EdgeManifold) : m.has_correct_orientation = true ↔ Consistent m.triangles :=
  ⟨m.consistent_of_has_correct hp hman, m.has_correct_of_consistent hp⟩

/-- C27: what `compute_edge_map` stores for an edge between a vertex `lo` and a vertex
`hi` of higher index: the number of triangle sides that go from `hi` to `lo` minus the
number of sides that go from `lo` to `hi`. A traversal from the lower to the higher
index counts -1 and a traversal from the higher to the lower index counts +1, the
reverse of the comment in `compute_edge_map`; an edge that is a side of exactly one
triangle has a vote of absolute value 1. -/
theorem edge_vote_sign (m : Mesh) (lo hi : Nat)
    (h : (m.vertex lo).index < (m.vertex hi).index) :
    m.edgeKey lo hi = (hi, lo)
      ∧ m.compute_edge_map.value (m.edgeKey lo hi)
          = (m.traversals hi lo : Int) - (m.traversals lo hi : Int)
      ∧ (m.traversals lo hi = 1 → m.traversals hi lo = 0 →
          m.compute_edge_map.value (m.edgeKey lo hi) = -1)
      ∧ (m.traversals hi lo = 1 → m.traversals lo hi = 0 →
          m.compute_edge_map.value (m.edgeKey lo hi) = 1)
      ∧ (m.sideCount lo hi = 1 →
          (m.compute_edge_map.value (m.edgeKey lo hi)).natAbs = 1) := by
  have hk : m.edgeKey lo hi = (hi, lo) := by
    unfold Mesh.edgeKey
    rw [if_neg (by omega)]
  have hv : m.compute_edge_map.value (m.edgeKey lo hi)
      = (m.traversals hi lo : Int) - (m.traversals lo hi : Int) := by
    rw [hk, Mesh.value_compute_edge_map]
    unfold Mesh.vote
    rw [if_pos h, if_pos (Nat.le_of_lt h)]
  refine ⟨hk, hv, ?_, ?_, ?_⟩
  · intro h1 h2
    rw [hv, h1, h2]
    rfl
  · intro h1 h2
    rw [hv, h1, h2]
    rfl
  · intro h1
    unfold Mesh.sideCount at h1
    rw [hv]
    omega

/-- C27 (witness): the single triangle (0, 1, 2) with the indices 0, 1, 2. Its side from
vertex 0 to vertex 1 goes from the lower to the higher index, and the vote of the edge
is -1. -/
theorem edge_vote_sign_one_triangle :
    (oneTriangle.vertex 0).index < (oneTriangle.vertex 1).index
    ∧ (oneTriangle.tri 0).traverses 0 1
    ∧ oneTriangle.compute_edge_map = [((1, 0), -1), ((2, 1), -1), ((2, 0), 1)]
    ∧ (oneTriangle.edgeKey 0 1 = (1, 0)
      ∧ oneTriangle.compute_edge_map.value (oneTriangle.edgeKey 0 1)
          = (oneTriangle.traversals 1 0 : Int) - (oneTriangle.traversals 0 1 : Int)
      ∧ (oneTriangle.traversals 0 1 = 1 → oneTriangle.traversals 1 0 = 0 →
          oneTriangle.compute_edge_map.value (oneTriangle.edgeKey 0 1) = -1)
      ∧ (oneTriangle.traversals 1 0 = 1 → oneTriangle.traversals 0 1 = 0 →
          oneTriangle.compute_edge_map.value (oneTriangle.edgeKey 0 1) = 1)
      ∧ (oneTriangle.sideCount 0 1 = 1 →
          (oneTriangle.compute_edge_map.value (oneTriangle.edgeKey 0 1)).natAbs = 1)) :=
  ⟨by decide, by decide, by decide, edge_vote_sign oneTriangle 0 1 (by decide)⟩

/-- C29 (counterexample): two triangles, (0, 1, 2) and (1, 0, 1), in which each edge
belongs to at most two triangles. Both triangles go from the vertex 0 to the vertex 1.
With the indices 0, 1, 2 in the vertices `has_correct_orientation` returns true; with the
index 0 in all vertices it returns false. -/
theorem orientation_verdict_depends_on_indices :
    foldedPair.triangles = [⟨0, 1, 2⟩, ⟨1, 0, 1⟩]
      ∧ foldedPair.EdgeManifold
      ∧ (∀ a, (foldedPair.vertex a).index = a)
      ∧ (∀ t ∈ foldedPair.triangles, t.traverses 0 1)
      ∧ foldedPair.same_direction_pair
      ∧ foldedPair.has_correct_orientation = true
      ∧ (∀ a, ((foldedPair.with_vertices (fun a => ⟨⟨a, 0, 0⟩, 0⟩)).vertex a).index = 0)
      ∧ (foldedPair.with_vertices (fun a => ⟨⟨a, 0, 0⟩, 0⟩)).has_correct_orientation = false :=
  ⟨rfl, edgeManifold_of_length_le _ (by decide), fun _ => rfl, by decide,
    ⟨0, 1, by decide, by decide, by decide⟩, by decide, fun _ => rfl, by decide⟩

/-- C29 (amended): on a mesh of triangles with three distinct vertices in which each
edge belongs to at most two triangles, whatever indices its vertices carry,
`has_correct_orientation` returns false exactly when two different triangles traverse a
common side in the same direction; so the verdict is the same for every other assignment
of vertices, and of indices, to the addresses. -/
theorem orientation_verdict_independent_of_indices (m : Mesh)
    (hp : ∀ t ∈ m.triangles, t.proper) (hman : m.EdgeManifold) :
    (m.has_correct_orientation = false ↔ m.same_direction_pair)
      ∧ ∀ vertex : Nat → Vertex,
          (m.with_vertices vertex).has_correct_orientation = m.has_correct_orientation := by
  have key : ∀ m' : Mesh, m'.triangles = m.triangles →
      (m'.has_correct_orientation = true ↔ Consistent m.triangles) := by
    intro m' e
    have hp' : ∀ t ∈ m'.triangles, t.proper := by rw [e]; exact hp
    have hman' : m'.EdgeManifold := by
      unfold Mesh.EdgeManifold
      rw [e]
      exact hman
    rw [← e]
    exact m'.has_correct_iff_consistent hp' hman'
  constructor
  · unfold Mesh.same_direction_pair Mesh.tri
    rw [← not_consistent_iff, ← key m rfl]
    cases m.has_correct_orientation <;> simp
  · intro vertex
    have h1 := key (m.with_vertices vertex) rfl
    have h2 := key m rfl
    cases ha : (m.with_vertices vertex).has_correct_orientation <;>
      cases hb : m.has_correct_orientation <;> simp_all

/-- C29 (witness): the strip whose second triangle is reversed, with all vertex indices
equal to 0: the two triangles go from vertex 1 to vertex 2, and the verdict is false. -/
theorem orientation_verdict_unindexed_strip :
    (∀ a, (stripUnindexed.vertex a).index = 0)
    ∧ stripUnindexed.has_correct_orientation = false
    ∧ ((stripUnindexed.has_correct_orientation = false ↔ stripUnindexed.same_direction_pair)
      ∧ ∀ vertex : Nat → Vertex,
          (stripUnindexed.with_vertices vertex).has_correct_orientation
            = stripUnindexed.has_correct_orientation) :=
  ⟨fun _ => rfl, by decide,
    orientation_verdict_independent_of_indices stripUnindexed (by decide)
      (edgeManifold_of_length_le _ (by decide))⟩

/-! ### The vertices of the triangles and the vertex list -/

theorem fold_slots_mem (l : List Nat) (vs : List Nat) :
    (∀ a ∈ vs, a ∈ l.foldl (fun vs sit => if vs.contains sit then vs else vs ++ [sit]) vs)
      ∧ ∀ a ∈ l, a ∈ l.foldl (fun vs sit => if vs.contains sit then vs else vs ++ [sit]) vs := by
  induction l generalizing vs with
  | nil => exact ⟨fun a h => h, fun a h => absurd h (List.not_mem_nil a)⟩
  | cons s rest ih =>
    rw [List.foldl_cons]
    have hs : s ∈ (if vs.contains s then vs else vs ++ [s]) := by
      by_cases h : vs.contains s = true
      · rw [if_pos h]
        simpa using h
      · rw [if_neg h]
        simp
    have hsub : ∀ a ∈ vs, a ∈ (if vs.contains s then vs else vs ++ [s]) := by
      intro a ha
      by_cases h : vs.contains s = true
      · rw [if_pos h]
        exact ha
      · rw [if_neg h]
        exact List.mem_append_left _ ha
    obtain ⟨h1, h2⟩ := ih (if vs.contains s then vs else vs ++ [s])
    refine ⟨fun a ha => h1 a (hsub a ha), ?_⟩
    intro a ha
    rcases List.mem_cons.mp ha with rfl | ha
    · exact h1 _ hs
    · exact h2 a ha

theorem fold_triangles_mem (ts : List Triangle) (vs : List Nat) :
    (∀ a ∈ vs, a ∈ ts.foldl (fun vs tit => tit.vertices.foldl
        (fun vs sit => if vs.contains sit then vs else vs ++ [sit]) vs) vs)
      ∧ ∀ t ∈ ts, ∀ a ∈ t.vertices, a ∈ ts.foldl (fun vs tit => tit.vertices.foldl
        (fun vs sit => if vs.contains sit then vs else vs ++ [sit]) vs) vs := by
  induction ts generalizing vs with
  | nil => exact ⟨fun a h => h, fun t h => absurd h (List.not_mem_nil t)⟩
  | cons u rest ih =>
    rw [List.foldl_cons]
    obtain ⟨h1, h2⟩ := ih (u.vertices.foldl
      (fun vs sit => if vs.contains sit then vs else vs ++ [sit]) vs)
    obtain ⟨g1, g2⟩ := fold_slots_mem u.vertices vs
    refine ⟨fun a ha => h1 a (g1 a ha), ?_⟩
    intro t ht a ha
    rcases List.mem_cons.mp ht with rfl | ht
    · exact h1 a (g2 a ha)
    · exact h2 t ht a ha

theorem MeshData.build_mesh_vertices_closed (m : MeshData) : m.build_mesh_vertices.Closed := by
  intro t ht
  have h := (fold_triangles_mem m.triangles []).2 t ht
  exact ⟨h t.s1 (by simp [Triangle.vertices]), h t.s2 (by simp [Triangle.vertices]),
    h t.s3 (by simp [Triangle.vertices])⟩

theorem MeshData.flip_triangles_closed (m : MeshData) (h : m.Closed) :
    m.flip_triangles.Closed := by
  intro t ht
  obtain ⟨u, hu, rfl⟩ := List.mem_map.mp ht
  obtain ⟨h1, h2, h3⟩ := h u hu
  exact ⟨h2, h1, h3⟩

/-- C21: `Mesh::copy` from a mesh that does not own its vertex storage takes over the
storage, the set and the triangles of the source but not its vertex list. The copy made
into a new mesh therefore has `nb_vertices() = 0`, and a vertex of one of its triangles
is an element of its vertex list only when the source has no triangle at all; the copy
of the two-triangle strip has two triangles and no vertex, although the strip itself has
the vertices of its triangles in its list. The copy of the strip taken as a mesh that
owns its storage has the four vertices. `build_mesh_vertices` does leave every vertex of
every triangle in the vertex list, and `flip_triangles` keeps it so. -/
theorem copy_of_sharing_mesh_has_no_vertices :
    (∀ m : MeshData,
      ∃ r, MeshData.empty.copy m false = LoadResult.returned r
        ∧ r.nb_vertices = 0 ∧ r.triangles = m.triangles ∧ r.all_vertices = m.all_vertices
        ∧ (r.Closed ↔ m.triangles = []))
      ∧ (goodStrip.Closed ∧ goodStrip.nb_vertices = 4
        ∧ MeshData.empty.copy goodStrip false
            = LoadResult.returned ⟨squareVertices, [], [], [⟨0, 1, 2⟩, ⟨2, 1, 3⟩]⟩
        ∧ MeshData.empty.copy goodStrip true
            = LoadResult.returned ⟨squareVertices, [0, 1, 2, 3], [], [⟨0, 1, 2⟩, ⟨2, 1, 3⟩]⟩)
      ∧ (∀ m : MeshData, m.build_mesh_vertices.Closed)
      ∧ (∀ m : MeshData, m.Closed → m.flip_triangles.Closed) := by
  refine ⟨?_, ⟨by decide, rfl, rfl, by decide⟩, MeshData.build_mesh_vertices_closed,
    MeshData.flip_triangles_closed⟩
  intro m
  refine ⟨⟨m.all_vertices, [], m.set_vertices, m.triangles⟩, ?_, rfl, rfl, rfl, ?_⟩
  · unfold MeshData.copy MeshData.empty
    simp
  · unfold MeshData.Closed
    constructor
    · intro h
      cases hts : m.triangles with
      | nil => rfl
      | cons t rest =>
        have := (h t (by simp [hts])).1
        exact absurd this (List.not_mem_nil _)
    · intro h t ht
      simp only [h] at ht
      exact absurd ht (List.not_mem_nil t)

/-! ### The return value of a load and the numbering -/

theorem MeshData.load_format_count_only (fmt : Format) (m : MeshData) (dflt : Vertex)
    (file : List Token) :
    MeshData.load_format fmt m dflt file false
      = match MeshData.load_format fmt MeshData.empty dflt file false with
        | LoadResult.returned r => LoadResult.returned (r.1, m)
        | LoadResult.assertion_failed tag => LoadResult.assertion_failed tag
        | LoadResult.unfinished => LoadResult.unfinished
        | LoadResult.undefined => LoadResult.undefined := by
  cases fmt
  · simp only [MeshData.load_format, MeshData.load_tri]
    cases (get_unsigned (get_char (some file))).1 <;> simp
  · simp only [MeshData.load_format, MeshData.load_off]
    by_cases htag : 128 ≤ (get_string (some file) "").1.length
    · simp only [htag, if_true]
    · simp only [htag, if_false]
      cases (get_unsigned (get_string (some file) "").2).1 <;> simp
  · simp only [MeshData.load_format, MeshData.load_bnd, Bool.not_false, if_true]
    generalize (if (get_string (skip_comments (some file)) "").1 = "Type=" then
      get_string (skip_comments (skip_line (get_string (skip_comments (some file)) "").2))
        (get_string (skip_comments (some file)) "").1
      else get_string (skip_comments (some file)) "") = st
    by_cases h : st.1 = "NumberPositions="
    · simp only [h, ne_eq, not_true_eq_false, if_false]
      cases (get_unsigned st.2).1 <;> rfl
    · simp only [h, ne_eq, not_false_eq_true, if_true]

theorem MeshData.get_vertices_filled (dflt : Vertex) (normals comments : Bool) (npts : Nat)
    (m : MeshData) (f : IStream) (hf : Filled m) :
    Filled (MeshData.get_vertices dflt normals comments npts m f).1
      ∧ (MeshData.get_vertices dflt normals comments npts m f).1.triangles = m.triangles := by
  induction npts generalizing m f with
  | zero => exact ⟨hf, rfl⟩
  | succ n ih =>
    rw [MeshData.get_vertices_succ]
    obtain ⟨h1, h2, -, -⟩ := Filled.add_vertex m
      { dflt with pos := (get_vect3 (if comments then skip_comments f else f) dflt.pos).1 } hf
    obtain ⟨g1, g2⟩ := ih (m.add_vertex
      { dflt with pos := (get_vect3 (if comments then skip_comments f else f) dflt.pos).1 })
      (if normals then
        (get_vect3 (get_vect3 (if comments then skip_comments f else f) dflt.pos).2 ⟨0, 0, 0⟩).2
       else (get_vect3 (if comments then skip_comments f else f) dflt.pos).2) h1
    exact ⟨g1, g2.trans h2⟩

theorem MeshData.get_triangle_fields (m m' : MeshData) (f f' : IStream)
    (h : m.get_triangle f = some (m', f')) :
    m'.all_vertices = m.all_vertices ∧ m'.vertices = m.vertices
      ∧ m'.set_vertices = m.set_vertices := by
  unfold MeshData.get_triangle at h
  simp only at h
  split at h
  · split at h
    · simp only [Option.some.injEq, Prod.mk.injEq] at h
      obtain ⟨rfl, -⟩ := h
      exact ⟨rfl, rfl, rfl⟩
    · exact absurd h (by simp)
  · exact absurd h (by simp)

theorem MeshData.get_triangles_fields (count comments : Bool) (ntrgs : Nat) (m m' : MeshData)
    (f : IStream) (h : MeshData.get_triangles count comments ntrgs m f = some m') :
    m'.all_vertices = m.all_vertices ∧ m'.vertices = m.vertices
      ∧ m'.set_vertices = m.set_vertices := by
  induction ntrgs generalizing m f with
  | zero =>
    unfold MeshData.get_triangles at h
    simp only [Option.some.injEq] at h
    subst h
    exact ⟨rfl, rfl, rfl⟩
  | succ n ih =>
    rw [MeshData.get_triangles_succ] at h
    split at h
    · rename_i m1 f1 h1
      obtain ⟨a1, a2, a3⟩ := MeshData.get_triangle_fields _ _ _ _ h1
      obtain ⟨b1, b2, b3⟩ := ih m1 f1 h
      exact ⟨b1.trans a1, b2.trans a2, b3.trans a3⟩
    · exact absurd h (by simp)

/-- A loader that reads the whole file returns 0; on a mesh whose vertex list is in
storage order it leaves the vertex list in storage order. -/
theorem MeshData.load_format_read_all_aux (fmt : Format) (m : MeshData) (dflt : Vertex)
    (file : List Token) (r : Nat × MeshData)
    (h : MeshData.load_format fmt m dflt file true = LoadResult.returned r) :
    r.1 = 0 ∧ (Filled m → r.2.vertices = List.range r.2.all_vertices.length
      ∧ (r.2.all_vertices.map (fun v => v.pos)).Nodup) := by
  have key : ∀ (normals c1 count c2 : Bool) (npts ntrgs : Nat) (f f' : IStream) (m' : MeshData),
      MeshData.get_triangles count c2 ntrgs (MeshData.get_vertices dflt normals c1 npts m f).1 f'
        = some m' → Filled m → m'.vertices = List.range m'.all_vertices.length
          ∧ (m'.all_vertices.map (fun v => v.pos)).Nodup := by
    intro normals c1 count c2 npts ntrgs f f' m' hm hf
    obtain ⟨a1, a2, -⟩ := MeshData.get_triangles_fields _ _ _ _ _ _ hm
    rw [a1, a2]
    exact ⟨(MeshData.get_vertices_filled dflt normals c1 npts m f hf).1.vertices_eq,
      (MeshData.get_vertices_filled dflt normals c1 npts m f hf).1.nodup⟩
  cases fmt
  · simp only [MeshData.load_format, MeshData.load_tri, Bool.not_true, Bool.false_eq_true,
      if_false] at h
    split at h
    · exact absurd h (by simp)
    · split at h
      · exact absurd h (by simp)
      · split at h
        · rename_i m' hm
          simp only [LoadResult.returned.injEq] at h
          subst h
          exact ⟨rfl, key _ _ _ _ _ _ _ _ _ hm⟩
        · exact absurd h (by simp)
  · simp only [MeshData.load_format, MeshData.load_off, Bool.not_true, Bool.false_eq_true,
      if_false] at h
    split at h
    · exact absurd h (by simp)
    · split at h
      · exact absurd h (by simp)
      · split at h
        · exact absurd h (by simp)
        · split at h
          · rename_i m' hm
            simp only [LoadResult.returned.injEq] at h
            subst h
            exact ⟨rfl, key _ _ _ _ _ _ _ _ _ hm⟩
          · exact absurd h (by simp)
  · have key' : ∀ (npts : Nat) (f : IStream) (m1 : MeshData) (f1 : IStream),
        MeshData.get_vertices dflt false true npts m f = (m1, f1) →
        ∀ (ntrgs : Nat) (f' : IStream) (m' : MeshData),
          MeshData.get_triangles false true ntrgs m1 f' = some m' →
          Filled m → m'.vertices = List.range m'.all_vertices.length
            ∧ (m'.all_vertices.map (fun v => v.pos)).Nodup := by
      intro npts f m1 f1 e ntrgs f' m' hm
      have e1 : m1 = (MeshData.get_vertices dflt false true npts m f).1 := by rw [e]
      rw [e1] at hm
      exact key _ _ _ _ _ _ _ _ _ hm
    simp only [MeshData.load_format] at h
    unfold MeshData.load_bnd at h
    split at h
    split at h
    split at h
    · exact LoadResult.noConfusion h
    split at h
    split at h
    · exact LoadResult.noConfusion h
    split at h
    · rename_i hx
      exact absurd hx (by decide)
    split at h
    split at h
    all_goals
      conv at h => lhs; zeta
      repeat' split at h
      all_goals try exact LoadResult.noConfusion h
      rename_i hm
      simp only [LoadResult.returned.injEq] at h
      subst h
      exact ⟨rfl, key' _ _ _ _ (by assumption) _ _ _ hm⟩

/-- A loader that reads the whole file into a mesh whose vertex list is in storage order
returns 0 and leaves the vertex list in storage order. -/
theorem MeshData.load_format_read_all (fmt : Format) (m : MeshData) (dflt : Vertex)
    (file : List Token) (r : Nat × MeshData) (hf : Filled m)
    (h : MeshData.load_format fmt m dflt file true = LoadResult.returned r) :
    r.1 = 0 ∧ (r.2.vertices = List.range r.2.all_vertices.length
      ∧ (r.2.all_vertices.map (fun v => v.pos)).Nodup) :=
  ⟨(MeshData.load_format_read_all_aux fmt m dflt file r h).1,
    (MeshData.load_format_read_all_aux fmt m dflt file r h).2 hf⟩

theorem length_fold_set_index (es : List (Nat × Nat)) (store : List Vertex) :
    (es.foldl (fun (stored : List Vertex) e =>
      stored.set e.2 ⟨(stored.getD e.2 default).pos, e.1⟩) store).length = store.length := by
  induction es generalizing store with
  | nil => rfl
  | cons e rest ih => rw [List.foldl_cons, ih, List.length_set]

/-- The numbering loop over a vertex list without repetition leaves the index `i` in the
vertex at position `i` of the list. -/
theorem index_fold_set_index (vs : List Nat) (store : List Vertex) (hn : vs.Nodup)
    (hr : ∀ a ∈ vs, a < store.length) (i : Nat) (hi : i < vs.length) :
    ((vs.enum.foldl (fun (stored : List Vertex) e =>
      stored.set e.2 ⟨(stored.getD e.2 default).pos, e.1⟩) store).getD (vs.getD i 0)
        default).index = i := by
  induction vs using List.reverseRecOn generalizing i with
  | nil => exact absurd hi (by simp)
  | append_singleton l a ih =>
    have hn' := List.nodup_append.mp hn
    have hlen := length_fold_set_index l.enum store
    rw [List.enum_append, List.foldl_append]
    simp only [List.enumFrom_cons, List.enumFrom_nil, List.foldl_cons, List.foldl_nil]
    by_cases hil : i < l.length
    · have hb : (l ++ [a]).getD i 0 = l.getD i 0 := by
        simp only [List.getD_eq_getElem?_getD, List.getElem?_append_left hil]
      have hmem : l.getD i 0 ∈ l := by
        rw [List.getD_eq_getElem?_getD, List.getElem?_eq_getElem hil]
        exact List.getElem_mem hil
      have hne : a ≠ l.getD i 0 := by
        intro e
        exact hn'.2.2 (e ▸ hmem) (List.mem_singleton_self a)
      rw [hb, List.getD_eq_getElem?_getD, List.getElem?_set_ne hne,
        ← List.getD_eq_getElem?_getD]
      exact ih hn'.1 (fun b hb' => hr b (List.mem_append_left _ hb')) i hil
    · have hie : i = l.length := by
        simp only [List.length_append, List.length_singleton] at hi
        omega
      subst hie
      have hb : (l ++ [a]).getD l.length 0 = a := by
        simp [List.getD_eq_getElem?_getD]
      have ha : a < store.length := hr a (by simp)
      rw [hb, List.getD_eq_getElem?_getD, List.getElem?_set_self (by rw [hlen]; exact ha)]
      rfl

theorem MeshData.generate_indices_index (m : MeshData) (hn : m.vertices.Nodup)
    (hr : ∀ a ∈ m.vertices, a < m.all_vertices.length) (i : Nat) (hi : i < m.vertices.length) :
    (m.generate_indices.deref (m.generate_indices.vertices.getD i 0)).index = i := by
  unfold MeshData.generate_indices MeshData.deref
  exact index_fold_set_index m.vertices m.all_vertices hn hr i hi

theorem MeshState.fold_set_range (n : Nat) (l : List Nat) (h : n ≤ l.length) :
    (List.range n).foldl (fun idx index => idx.set index index) l
      = List.range n ++ l.drop n := by
  induction n with
  | zero => simp
  | succ n ih =>
    have hlt : n < l.length := by omega
    rw [List.range_succ, List.foldl_append, ih (by omega)]
    simp only [List.foldl_cons, List.foldl_nil]
    rw [List.set_append_right _ _ (by simp), List.length_range, Nat.sub_self,
      List.drop_eq_getElem_cons hlt, List.set_cons_zero, List.append_assoc]
    rfl

theorem MeshState.generate_triangle_indices_eq (n : Nat) (l : List Nat) (h : l.length = n) :
    MeshState.generate_triangle_indices n l = List.range n := by
  unfold MeshState.generate_triangle_indices
  rw [MeshState.fold_set_range n l (by omega), List.drop_eq_nil_of_le (by omega),
    List.append_nil]

theorem MeshState.load_fresh (fmt : Format) (dflt : Vertex) (tdflt : Nat)
    (file : List Token) :
    MeshState.load fmt dflt tdflt file MeshState.fresh true
      = match MeshData.load_format fmt MeshData.empty dflt file false with
        | LoadResult.returned _ =>
          (match MeshData.load_format fmt MeshData.empty dflt file true with
          | LoadResult.returned r =>
            (match r.2.update with
            | none => LoadResult.unfinished
            | some d =>
              LoadResult.returned (r.1, ⟨d.generate_indices, true, true,
                MeshState.generate_triangle_indices d.triangles.length
                  (List.replicate d.triangles.length tdflt)⟩))
          | LoadResult.assertion_failed tag => LoadResult.assertion_failed tag
          | LoadResult.unfinished => LoadResult.unfinished
          | LoadResult.undefined => LoadResult.undefined)
        | LoadResult.assertion_failed tag => LoadResult.assertion_failed tag
        | LoadResult.unfinished => LoadResult.unfinished
        | LoadResult.undefined => LoadResult.undefined := by
  unfold MeshState.load
  have hd : MeshState.fresh.destroy_if_filled = MeshState.fresh := rfl
  rw [hd]
  have hc := MeshData.load_format_count_only fmt MeshData.empty dflt file
  simp only [MeshState.fresh, Bool.not_false, Bool.and_self, if_true]
  cases h1 : MeshData.load_format fmt MeshData.empty dflt file false with
  | returned r1 =>
    rw [h1] at hc
    simp only [LoadResult.returned.injEq] at hc
    have hr1 : r1.2 = MeshData.empty := by
      have := congrArg Prod.snd hc
      exact this
    simp only [hr1, MeshData.empty]
    cases h2 : MeshData.load_format fmt ⟨[], [], [], []⟩ dflt file true with
    | returned r =>
      simp only
      cases r.2.update with
      | none => rfl
      | some d => simp
    | assertion_failed tag => rfl
    | unfinished => rfl
    | undefined => rfl
  | assertion_failed tag => rfl
  | unfinished => rfl
  | undefined => rfl

theorem MeshData.positions_nodup_of_update (r d : MeshData)
    (hv : r.vertices = List.range r.all_vertices.length)
    (hn : (r.all_vertices.map (fun v => v.pos)).Nodup) (hu : r.update = some d) :
    d.generate_indices.vertex_positions.Nodup := by
  obtain ⟨d', hd', h1, h2, -, -, -⟩ := MeshData.update_returns r
  rw [hu] at hd'
  simp only [Option.some.injEq] at hd'
  subst hd'
  unfold MeshData.vertex_positions
  have e : d.generate_indices.vertices = List.range d.all_vertices.length := by
    show d.vertices = _
    rw [h2, h1, hv]
  rw [e]
  have e2 : (fun a => (d.generate_indices.deref a).pos)
      = (fun a => (d.all_vertices.getD a default).pos) := by
    funext a
    rw [MeshData.generate_indices_pos]
    rfl
  rw [e2, map_range_getD, h1]
  exact hn

theorem MeshState.numbered_of_update (r d : MeshData)
    (hv : r.vertices = List.range r.all_vertices.length) (hu : r.update = some d)
    (tdflt : Nat) :
    (∀ i, i < d.generate_indices.nb_vertices →
        (d.generate_indices.deref (d.generate_indices.vertices.getD i 0)).index = i)
      ∧ MeshState.generate_triangle_indices d.triangles.length
          (List.replicate d.triangles.length tdflt) = List.range d.generate_indices.nb_triangles
      ∧ d.generate_indices.nb_vertices = r.nb_vertices
      ∧ d.generate_indices.nb_triangles = r.nb_triangles := by
  obtain ⟨d', hd', h1, h2, -, h4, -⟩ := MeshData.update_returns r
  rw [hu] at hd'
  simp only [Option.some.injEq] at hd'
  subst hd'
  have hv' : d.vertices = List.range d.all_vertices.length := by rw [h2, h1, hv]
  refine ⟨?_, ?_, ?_, ?_⟩
  · intro i hi
    apply MeshData.generate_indices_index d
    · rw [hv']
      exact List.nodup_range _
    · intro a ha
      rw [hv'] at ha
      exact List.mem_range.mp ha
    · exact hi
  · exact MeshState.generate_triangle_indices_eq _ _ (List.length_replicate _ _)
  · show d.vertices.length = r.vertices.length
    rw [h2]
  · exact h4

theorem MeshState.load_fresh_returned (fmt : Format) (dflt : Vertex) (tdflt : Nat)
    (file : List Token) (n : Nat) (s' : MeshState)
    (h : MeshState.load fmt dflt tdflt file MeshState.fresh true = LoadResult.returned (n, s')) :
    n = 0 ∧ s'.allocate = true
      ∧ (∀ i, i < s'.data.nb_vertices →
          (s'.data.deref (s'.data.vertices.getD i 0)).index = i)
      ∧ s'.tri_index = List.range s'.data.nb_triangles
      ∧ s'.data.vertex_positions.Nodup := by
  rw [MeshState.load_fresh] at h
  cases h1 : MeshData.load_format fmt MeshData.empty dflt file false with
  | returned r1 =>
    rw [h1] at h
    simp only at h
    cases h2 : MeshData.load_format fmt MeshData.empty dflt file true with
    | returned r =>
      rw [h2] at h
      simp only at h
      obtain ⟨e0, ev, en⟩ := MeshData.load_format_read_all fmt MeshData.empty dflt file r
        (Filled.empty []) h2
      cases hu : r.2.update with
      | none =>
        rw [hu] at h
        exact LoadResult.noConfusion h
      | some d =>
        rw [hu] at h
        simp only [LoadResult.returned.injEq, Prod.mk.injEq] at h
        obtain ⟨hn, hs⟩ := h
        obtain ⟨a1, a2, -, -⟩ := MeshState.numbered_of_update r.2 d ev hu tdflt
        have a5 := MeshData.positions_nodup_of_update r.2 d ev en hu
        subst hs
        exact ⟨hn.symm.trans e0, rfl, a1, a2, a5⟩
    | assertion_failed tag => rw [h2] at h; exact LoadResult.noConfusion h
    | unfinished => rw [h2] at h; exact LoadResult.noConfusion h
    | undefined => rw [h2] at h; exact LoadResult.noConfusion h
  | assertion_failed tag => rw [h1] at h; exact LoadResult.noConfusion h
  | unfinished => rw [h1] at h; exact LoadResult.noConfusion h
  | undefined => rw [h1] at h; exact LoadResult.noConfusion h

/-- C28: two files that declare `n` vertices, list two vertex records with the same
coordinates, and have all triangle numbers below `n`. `add_vertex` stores the repeated
record once, so the vertex list is shorter than `n`. For the off file (three records,
triangle 0 1 2) the triangle reads `vertices_[2]` in a list of two vertices, outside the
list. For the tri file (four records, triangle 0 1 2) the load returns with three
vertices, and the triangle joins the records 0, 2 and 3 of the file instead of the
records 0, 1 and 2. After every load of a new mesh that returns, the listed vertices
have pairwise distinct coordinates. -/
theorem load_merges_equal_vertex_records :
    MeshState.load Format.off blankVertex 7 twinOff MeshState.fresh false
        = LoadResult.returned (3, MeshState.fresh)
      ∧ MeshState.load Format.off blankVertex 7 twinOff MeshState.fresh true
        = LoadResult.undefined
      ∧ MeshState.load Format.tri blankVertex 7 twinTri MeshState.fresh false
        = LoadResult.returned (4, MeshState.fresh)
      ∧ MeshState.load Format.tri blankVertex 7 twinTri MeshState.fresh true
        = LoadResult.returned (0,
            ⟨⟨[⟨⟨0, 0, 0⟩, 0⟩, ⟨⟨1, 0, 0⟩, 1⟩, ⟨⟨0, 1, 0⟩, 2⟩], [0, 1, 2], [], [⟨0, 1, 2⟩]⟩,
              true, true, [0]⟩)
      ∧ (∀ (fmt : Format) (dflt : Vertex) (tdflt : Nat) (file : List Token) (n : Nat)
          (s' : MeshState),
          MeshState.load fmt dflt tdflt file MeshState.fresh true = LoadResult.returned (n, s') →
          s'.data.vertex_positions.Nodup) := by
  refine ⟨by decide, by decide, by decide, by decide, ?_⟩
  intro fmt dflt tdflt file n s' h
  exact (MeshState.load_fresh_returned fmt dflt tdflt file n s' h).2.2.2.2

/-! ### Smoothing -/

theorem MeshData.smooth_add_some (blend : Vertex → Vertex → Vertex → Nat → Vertex)
    (vit : Vertex) (size i : Nat) (nb new_pts : List Vertex) (h : i < new_pts.length) :
    ∃ p, MeshData.smooth_add blend vit size i nb new_pts = some p
      ∧ p.length = new_pts.length := by
  induction nb generalizing new_pts with
  | nil => exact ⟨new_pts, rfl, rfl⟩
  | cons it rest ih =>
    unfold MeshData.smooth_add
    rw [List.getElem?_eq_getElem h]
    obtain ⟨p, hp, hl⟩ := ih (new_pts.set i (blend new_pts[i] it vit size))
      (by rw [List.length_set]; exact h)
    exact ⟨p, hp, by rw [hl, List.length_set]⟩

theorem MeshData.smooth_add_keeps (blend : Vertex → Vertex → Vertex → Nat → Vertex)
    (vit : Vertex) (size i : Nat) (nb new_pts p : List Vertex)
    (h : MeshData.smooth_add blend vit size i nb new_pts = some p) (j : Nat) (hj : j ≠ i) :
    p[j]? = new_pts[j]? := by
  induction nb generalizing new_pts with
  | nil =>
    unfold MeshData.smooth_add at h
    simp only [Option.some.injEq] at h
    rw [h]
  | cons it rest ih =>
    unfold MeshData.smooth_add at h
    cases hc : new_pts[i]? with
    | none =>
      rw [hc] at h
      exact absurd h (by simp)
    | some cur =>
      rw [hc] at h
      rw [ih _ h, List.getElem?_set_ne (Ne.symm hj)]

theorem MeshData.smooth_accumulate_some (blend : Vertex → Vertex → Vertex → Nat → Vertex)
    (neighbors : List (List Vertex)) (store : List Vertex) (vs : List Nat) (i : Nat)
    (new_pts : List Vertex) (h : i ≤ new_pts.length) :
    ∃ p, MeshData.smooth_accumulate blend neighbors store vs i new_pts
        = some (i + vs.length, p)
      ∧ p.length = new_pts.length + vs.length := by
  induction vs generalizing i new_pts with
  | nil => exact ⟨new_pts, rfl, rfl⟩
  | cons vit rest ih =>
    unfold MeshData.smooth_accumulate
    obtain ⟨q, hq, hl⟩ := MeshData.smooth_add_some blend (store.getD vit default)
      (neighbors.getD i []).length i (neighbors.getD i []) (new_pts ++ [store.getD vit default])
      (by rw [List.length_append, List.length_singleton]; omega)
    rw [hq]
    obtain ⟨p, hp, hl'⟩ := ih (i + 1) q
      (by rw [hl, List.length_append, List.length_singleton]; omega)
    refine ⟨p, ?_, ?_⟩
    · simp only [hp, List.length_cons]
      congr 2
      omega
    · rw [hl', hl, List.length_append, List.length_singleton, List.length_cons]
      omega

theorem MeshData.smooth_write_back_two (i a b : Nat) (rest : List Nat)
    (new_pts store : List Vertex) :
    MeshData.smooth_write_back i (a :: b :: rest) new_pts store = none := by
  unfold MeshData.smooth_write_back
  cases new_pts[i]? with
  | none => rfl
  | some v =>
    simp only
    unfold MeshData.smooth_write_back
    rfl

theorem MeshData.smooth_pass_two (blend : Vertex → Vertex → Vertex → Nat → Vertex)
    (neighbors : List (List Vertex)) (a b : Nat) (rest : List Nat)
    (st : List Vertex × List Vertex) :
    MeshData.smooth_pass blend neighbors (a :: b :: rest) st = none := by
  unfold MeshData.smooth_pass
  cases MeshData.smooth_accumulate blend neighbors st.2 (a :: b :: rest) 0 st.1 with
  | none => rfl
  | some r => exact MeshData.smooth_write_back_two _ _ _ _ _ _

/-- The single pass over a vertex list of one vertex writes the vertex itself back. -/
theorem MeshData.smooth_pass_one (blend : Vertex → Vertex → Vertex → Nat → Vertex)
    (neighbors : List (List Vertex)) (a : Nat) (dflt : Vertex) (store : List Vertex) :
    MeshData.smooth_pass blend neighbors [a] ([dflt], store)
      = some ([], store.set a (store.getD a default)) := by
  unfold MeshData.smooth_pass
  obtain ⟨p, hp, hl⟩ := MeshData.smooth_accumulate_some blend neighbors store [a] 0 [dflt]
    (Nat.zero_le _)
  have hp1 : MeshData.smooth_accumulate blend neighbors store [a] 0 [dflt] = some (1, p) := hp
  have hget : p[1]? = some (store.getD a default) := by
    unfold MeshData.smooth_accumulate at hp1
    obtain ⟨q, hq, hlq⟩ := MeshData.smooth_add_some blend (store.getD a default)
      (neighbors.getD 0 []).length 0 (neighbors.getD 0 []) ([dflt] ++ [store.getD a default])
      (by simp)
    rw [hq] at hp1
    simp only [MeshData.smooth_accumulate, Option.some.injEq, Prod.mk.injEq, true_and] at hp1
    subst hp1
    rw [MeshData.smooth_add_keeps blend (store.getD a default) (neighbors.getD 0 []).length 0
      (neighbors.getD 0 []) _ _ hq 1 (by decide)]
    rfl
  simp only [hp1]
  unfold MeshData.smooth_write_back
  rw [hget]
  rfl

theorem MeshData.smooth_pass_one_empty (blend : Vertex → Vertex → Vertex → Nat → Vertex)
    (neighbors : List (List Vertex)) (a : Nat) (store : List Vertex) :
    MeshData.smooth_pass blend neighbors [a] ([], store) = none := by
  unfold MeshData.smooth_pass
  obtain ⟨p, hp, hl⟩ := MeshData.smooth_accumulate_some blend neighbors store [a] 0 []
    (Nat.zero_le _)
  have hp1 : MeshData.smooth_accumulate blend neighbors store [a] 0 [] = some (1, p) := hp
  simp only [hp1]
  unfold MeshData.smooth_write_back
  have : p[1]? = none := List.getElem?_eq_none (by rw [hl]; exact Nat.le_refl _)
  rw [this]

/-- C30: `Mesh::smooth` on a mesh with at least one vertex, with `niter ≥ 1`. The
write-back loop reads `new_pts[i]` with the counter `i` as the accumulation loop left
it, the number of vertices, and empties `new_pts` after its first assignment. With two
vertices or more, the second assignment of the first pass reads an empty `new_pts`; with
one vertex and two passes or more, the second pass reads `new_pts[1]` in a `new_pts` of
length 1: both are reads outside `new_pts`. In the one remaining case, one vertex and
one pass, the value written back is `new_pts[1]`, the vertex itself as it was appended,
and not the value kept in `new_pts[0]` for it. The accumulation loop never reads outside
`new_pts`. -/
theorem smooth_reads_outside_new_pts (m : MeshData)
    (blend : Vertex → Vertex → Vertex → Nat → Vertex) (dflt : Vertex)
    (links : Nat → List Nat) (niter : Nat) (hv : 1 ≤ m.nb_vertices) (hn : 1 ≤ niter) :
    (2 ≤ m.nb_vertices ∨ 2 ≤ niter →
        m.smooth blend dflt links niter = SmoothResult.out_of_range)
      ∧ (∀ a, m.vertices = [a] →
          MeshData.smooth_pass blend (m.smooth_neighbors links) m.vertices
              (List.replicate m.nb_vertices dflt, m.all_vertices)
            = some ([], m.all_vertices.set a (m.deref a)))
      ∧ (∀ (store new_pts : List Vertex),
          ∃ p, MeshData.smooth_accumulate blend (m.smooth_neighbors links) store m.vertices 0
              new_pts = some (m.nb_vertices, p)) := by
  refine ⟨?_, ?_, ?_⟩
  · intro h
    unfold MeshData.smooth
    have hnone : MeshData.smooth_passes blend (m.smooth_neighbors links) m.vertices niter
        (List.replicate m.nb_vertices dflt, m.all_vertices) = none := by
      unfold MeshData.nb_vertices at hv h ⊢
      generalize m.smooth_neighbors links = neighbors
      cases hvs : m.vertices with
      | nil => rw [hvs] at hv; exact absurd hv (by simp)
      | cons a rest =>
        cases rest with
        | nil =>
          rw [hvs] at h
          have h2 : 2 ≤ niter := by
            rcases h with h | h
            · exact absurd h (by simp)
            · exact h
          obtain ⟨k, rfl⟩ : ∃ k, niter = k + 2 := ⟨niter - 2, by omega⟩
          unfold MeshData.smooth_passes
          have e1 := MeshData.smooth_pass_one blend neighbors a dflt m.all_vertices
          simp only [List.length_singleton, List.replicate_one, e1]
          unfold MeshData.smooth_passes
          rw [MeshData.smooth_pass_one_empty]
        | cons b rest =>
          obtain ⟨k, rfl⟩ : ∃ k, niter = k + 1 := ⟨niter - 1, by omega⟩
          unfold MeshData.smooth_passes
          rw [MeshData.smooth_pass_two]
    rw [hnone]
  · intro a ha
    unfold MeshData.nb_vertices MeshData.deref
    rw [ha]
    exact MeshData.smooth_pass_one blend _ a dflt m.all_vertices
  · intro store new_pts
    obtain ⟨p, hp, -⟩ := MeshData.smooth_accumulate_some blend (m.smooth_neighbors links)
      store m.vertices 0 new_pts (Nat.zero_le _)
    exact ⟨p, by rw [hp, Nat.zero_add]; rfl⟩

/-- C30 (witness): one pass over a mesh with two vertices ends with a read outside
`new_pts`; one pass over a mesh with the single vertex (5, 5, 5) returns the mesh with
this vertex where it was, whatever the smoothing computes. -/
theorem smooth_reads_outside_new_pts_two_vertices :
    (1 ≤ twoVertexData.nb_vertices ∧ 1 ≤ 1)
    ∧ twoVertexData.smooth (fun cur _ _ _ => cur) blankVertex
        (Mesh.make_links twoVertexData.triangles) 1 = SmoothResult.out_of_range
    ∧ oneVertexData.smooth (fun _ _ _ _ => ⟨⟨0, 0, 0⟩, 0⟩) blankVertex
        (Mesh.make_links oneVertexData.triangles) 1 = SmoothResult.returned oneVertexData
    ∧ ((2 ≤ twoVertexData.nb_vertices ∨ 2 ≤ 1 →
        twoVertexData.smooth (fun cur _ _ _ => cur) blankVertex
          (Mesh.make_links twoVertexData.triangles) 1 = SmoothResult.out_of_range)
      ∧ (∀ a, twoVertexData.vertices = [a] →
          MeshData.smooth_pass (fun cur _ _ _ => cur)
              (twoVertexData.smooth_neighbors (Mesh.make_links twoVertexData.triangles))
              twoVertexData.vertices
              (List.replicate twoVertexData.nb_vertices blankVertex, twoVertexData.all_vertices)
            = some ([], twoVertexData.all_vertices.set a (twoVertexData.deref a)))
      ∧ (∀ (store new_pts : List Vertex),
          ∃ p, MeshData.smooth_accumulate (fun cur _ _ _ => cur)
              (twoVertexData.smooth_neighbors (Mesh.make_links twoVertexData.triangles)) store
              twoVertexData.vertices 0 new_pts = some (twoVertexData.nb_vertices, p))) :=
  ⟨⟨by decide, by decide⟩, by decide, by decide,
    smooth_reads_outside_new_pts twoVertexData (fun cur _ _ _ => cur) blankVertex
      (Mesh.make_links twoVertexData.triangles) 1 (by decide) (by decide)⟩

/-! ### The text format of symmetric matrices -/

theorem triangular_succ (j : Nat) : (j + 1) * (j + 1 + 1) / 2 = j * (j + 1) / 2 + (j + 1) := by
  have : (j + 1) * (j + 1 + 1) = j * (j + 1) + 2 * (j + 1) := by ring
  rw [this, Nat.add_mul_div_left _ _ (by decide : 0 < 2)]

theorem triangular_mono (a b : Nat) (h : a ≤ b) : a * (a + 1) / 2 ≤ b * (b + 1) / 2 := by
  induction b with
  | zero =>
    have : a = 0 := by omega
    subst this
    exact Nat.le_refl _
  | succ b ih =>
    by_cases hb : a ≤ b
    · have := ih hb
      rw [triangular_succ]
      omega
    · have : a = b + 1 := by omega
      subst this
      exact Nat.le_refl _

theorem packed_index_lt (n i j : Nat) (hij : i ≤ j) (hj : j < n) :
    packed_index i j < n * (n + 1) / 2 := by
  have h1 := triangular_mono (j + 1) n hj
  rw [triangular_succ] at h1
  unfold packed_index
  omega

theorem packed_index_surj (n k : Nat) (h : k < n * (n + 1) / 2) :
    ∃ i j, i ≤ j ∧ j < n ∧ packed_index i j = k := by
  induction n with
  | zero => exact absurd h (by simp)
  | succ n ih =>
    by_cases hk : k < n * (n + 1) / 2
    · obtain ⟨i, j, h1, h2, h3⟩ := ih hk
      exact ⟨i, j, h1, by omega, h3⟩
    · rw [triangular_succ] at h
      refine ⟨k - n * (n + 1) / 2, n, by omega, by omega, ?_⟩
      unfold packed_index
      omega

theorem packed_index_inj (i j i' j' : Nat) (h : i ≤ j) (h' : i' ≤ j')
    (e : packed_index i j = packed_index i' j') : i = i' ∧ j = j' := by
  unfold packed_index at e
  have hj : j = j' := by
    by_contra hne
    rcases Nat.lt_or_gt_of_ne hne with hlt | hlt
    · have := triangular_mono (j + 1) j' hlt
      rw [triangular_succ] at this
      omega
    · have := triangular_mono (j' + 1) j hlt
      rw [triangular_succ] at this
      omega
  subst hj
  exact ⟨by omega, rfl⟩

theorem count_extractions_eq (line : List Field) : count_extractions line = line.length + 1 := by
  induction line with
  | nil => rfl
  | cons f rest ih =>
    unfold count_extractions
    rw [ih, List.length_cons]

/-- Reading one line of numbers: the cells of the line receive the numbers, and a cell
that held its number keeps it. -/
theorem read_symmetric_row_written (size i : Nat) (g : Nat → ℚ) (count j : Nat)
    (d : Nat → Double) (hlt : ∀ j', j ≤ j' → j' < j + count → packed_index i j' < size) :
    ∃ d', read_symmetric_row size i count j
        ((List.range' j count).map (fun j => Field.num (g (packed_index i j)))) d
          = AsciiRead.done d'
      ∧ (∀ k, d k = Double.finite (g k) → d' k = Double.finite (g k))
      ∧ (∀ j', j ≤ j' → j' < j + count →
          d' (packed_index i j') = Double.finite (g (packed_index i j')))
      ∧ (∀ k, (∀ j', j ≤ j' → j' < j + count → packed_index i j' ≠ k) → d' k = d k) := by
  induction count generalizing j d with
  | zero =>
    refine ⟨d, rfl, fun k hk => hk, ?_, fun k _ => rfl⟩
    intro j' h1 h2
    omega
  | succ c ih =>
    have hidx : packed_index i j < size := hlt j (Nat.le_refl _) (by omega)
    obtain ⟨d', h1, h2, h3, h4⟩ := ih (j + 1)
      (Function.update d (packed_index i j) (Double.finite (g (packed_index i j))))
      (fun j' a b => hlt j' (by omega) (by omega))
    refine ⟨d', ?_, ?_, ?_, ?_⟩
    · rw [List.range'_succ, List.map_cons]
      unfold read_symmetric_row
      rw [if_pos hidx]
      exact h1
    · intro k hk
      apply h2
      by_cases e : k = packed_index i j
      · rw [e, Function.update_same]
      · rw [Function.update_noteq e]
        exact hk
    · intro j' a b
      by_cases e : j' = j
      · subst e
        apply h2
        rw [Function.update_same]
      · exact h3 j' (by omega) (by omega)
    · intro k hk
      rw [h4 k (fun j' a b => hk j' (by omega) (by omega)),
        Function.update_noteq (fun e => hk j (Nat.le_refl _) (by omega) e.symm)]

theorem write_symmetric_square (shown : ℚ → ℚ) (n : Nat) (data : Nat → Double) :
    write_symmetric shown ⟨n, n, data⟩
      = (List.range n).map (fun i =>
          (List.range' i (n - i)).map
            (fun j => put_double shown (data (packed_index i j)))) := by
  unfold write_symmetric
  rw [List.filter_eq_self]
  intro line hl
  obtain ⟨i, hi, rfl⟩ := List.mem_map.mp hl
  have hin : i < n := List.mem_range.mp hi
  obtain ⟨c, hc⟩ : ∃ c, n - i = c + 1 := ⟨n - i - 1, by omega⟩
  rw [hc, List.range'_succ, List.map_cons]
  exact decide_eq_true (List.cons_ne_nil _ _)

/-- The line written for the row `i` of a matrix whose stored entries are finite. -/
theorem write_symmetric_line (shown : ℚ → ℚ) (n : Nat) (val : Nat → ℚ) (data : Nat → Double)
    (hfin : ∀ k, k < n * (n + 1) / 2 → data k = Double.finite (val k)) (i : Nat) (hi : i < n) :
    (write_symmetric shown ⟨n, n, data⟩).getD i []
      = (List.range' i (n - i)).map (fun j => Field.num (shown (val (packed_index i j)))) := by
  rw [write_symmetric_square, List.getD_eq_getElem?_getD, List.getElem?_map,
    List.getElem?_range hi]
  simp only [Option.map_some', Option.getD_some]
  apply List.map_congr_left
  intro j hj
  rw [List.mem_range'_1] at hj
  rw [hfin _ (packed_index_lt n i j hj.1 (by omega))]
  rfl

/-- The text written for the sample matrix by a formatting that writes its entries
exactly: one line for each row, from the diagonal entry on. -/
theorem AsciiIO_write_sample :
    AsciiIO_write (fun x => x) sampleSymLinOp
      = [[Field.num 1, Field.num 2, Field.num 4], [Field.num 3, Field.num 5], [Field.num 6]] := by
  rw [show sampleSymLinOp = ⟨3, 3, fun k => Double.finite ((k : ℚ) + 1)⟩ from rfl]
  unfold AsciiIO_write
  rw [write_symmetric_square]
  simp only [packed_index, put_double]
  norm_num [List.range_succ, List.range'_succ]

theorem read_symmetric_rows_written (text : List (List Field)) (n : Nat) (g : Nat → ℚ)
    (htext : ∀ i, i < n → text.getD i []
      = (List.range' i (n - i)).map (fun j => Field.num (g (packed_index i j))))
    (c r : Nat) (hrc : r + c ≤ n) (d : Nat → Double) :
    ∃ d', read_symmetric_rows text (n * (n + 1) / 2) n (List.range' r c) d = AsciiRead.done d'
      ∧ (∀ k, d k = Double.finite (g k) → d' k = Double.finite (g k))
      ∧ (∀ i j, r ≤ i → i < r + c → i ≤ j → j < n →
          d' (packed_index i j) = Double.finite (g (packed_index i j)))
      ∧ (∀ k, n * (n + 1) / 2 ≤ k → d' k = d k) := by
  induction c generalizing r d with
  | zero =>
    refine ⟨d, rfl, fun k hk => hk, ?_, fun k _ => rfl⟩
    intro i j h1 h2
    omega
  | succ c ih =>
    have hrn : r < n := by omega
    have hline := htext r hrn
    have hlt : ∀ j', r ≤ j' → j' < r + (n - r) → packed_index r j' < n * (n + 1) / 2 :=
      fun j' a b => packed_index_lt n r j' a (by omega)
    obtain ⟨d1, a1, a2, a3, a4⟩ :=
      read_symmetric_row_written (n * (n + 1) / 2) r g (n - r) r d hlt
    obtain ⟨d2, b1, b2, b3, b4⟩ := ih (r + 1) (by omega) d1
    refine ⟨d2, ?_, ?_, ?_, ?_⟩
    · rw [List.range'_succ]
      unfold read_symmetric_rows
      rw [hline, a1]
      exact b1
    · intro k hk
      exact b2 k (a2 k hk)
    · intro i j h1 h2 h3 h4
      by_cases e : i = r
      · subst e
        exact b2 _ (a3 j h3 (by omega))
      · exact b3 i j (by omega) (by omega) h3 h4
    · intro k hk
      rw [b4 k hk]
      apply a4
      intro j' a b e
      have := packed_index_lt n r j' a (by omega)
      omega

/-- C22 (counterexample): three matrices of dimension 1 that a write followed by a read
does not give back. The entry of the first is a NaN and the entry of the second an
infinity: the text written is the word `nan`, or `inf`, whatever the formatting of the
numbers, and the read ends with the exception `"Error parsing"`. The entry of the third
is 1234567, written with six significant digits: the read ends with a matrix whose entry
is 1234570. -/
theorem symmetric_text_not_restored :
    (∀ (shown : ℚ → ℚ) (fresh : Nat → Double),
        AsciiIO_write shown nanSymLinOp = [[Field.word "nan"]]
          ∧ (∀ M, AsciiIO_read (AsciiIO_write shown nanSymLinOp) fresh ≠ AsciiRead.done M)
          ∧ AsciiIO_write shown infSymLinOp = [[Field.word "inf"]]
          ∧ (∀ M, AsciiIO_read (AsciiIO_write shown infSymLinOp) fresh ≠ AsciiRead.done M))
      ∧ AsciiIO_write shown_tens longSymLinOp = [[Field.num 1234570]]
      ∧ (∀ (fresh : Nat → Double), ∃ M,
          AsciiIO_read (AsciiIO_write shown_tens longSymLinOp) fresh = AsciiRead.done M
            ∧ longSymLinOp.data 0 = Double.finite 1234567
            ∧ M.data 0 = Double.finite 1234570) := by
  have hlong : AsciiIO_write shown_tens longSymLinOp = [[Field.num 1234570]] := by
    have e : shown_tens 1234567 = 1234570 := by
      unfold shown_tens
      have : Int.floor ((1234567 : ℚ) / 10 + 1 / 2) = 123457 := by
        rw [Int.floor_eq_iff]
        constructor <;> norm_num
      rw [this]
      norm_num
    show [[Field.num (shown_tens 1234567)]] = _
    rw [e]
  refine ⟨fun shown fresh => ⟨rfl, ?_, rfl, ?_⟩, hlong, ?_⟩
  · intro M h
    have e : AsciiIO_read (AsciiIO_write shown nanSymLinOp) fresh = AsciiRead.error_parsing :=
      rfl
    rw [e] at h
    exact AsciiRead.noConfusion h
  · intro M h
    have e : AsciiIO_read (AsciiIO_write shown infSymLinOp) fresh = AsciiRead.error_parsing :=
      rfl
    rw [e] at h
    exact AsciiRead.noConfusion h
  · intro fresh
    rw [hlong]
    refine ⟨⟨1, 1, Function.update fresh 0 (Double.finite 1234570)⟩, rfl, rfl, ?_⟩
    show Function.update fresh 0 (Double.finite 1234570) 0 = Double.finite 1234570
    exact Function.update_same _ _ _

/-- C22 (amended): for every `n`, every `n x n` symmetric matrix whose stored entries
are finite, with the values `val`, and every formatting `shown` of the numbers,
`AsciiIO::read` of the text written by `AsciiIO::write` ends with a matrix with
`nlin = ncol = n` in which every cell of the storage, and so the entry of every pair
`i ≤ j < n`, holds the value of the number written for the entry of this cell; it holds
the entry itself when the numbers written for the entries have the values of the entries
(the cells outside the storage are left as allocated). Whatever the entries, the text has
`n` lines, the line of row `i` has `n - i` fields; the number of columns is read from the
`n` fields of the first line and the number of lines from the `n` non-empty lines. The
packed index `i + j (j + 1) / 2` of a pair `i ≤ j < n` is below `n (n + 1) / 2`, and
every cell below `n (n + 1) / 2` is the index of exactly one such pair. -/
theorem symmetric_text_round_trip (n : Nat) (shown : ℚ → ℚ) (val : Nat → ℚ)
    (data fresh : Nat → Double)
    (hfin : ∀ k, k < n * (n + 1) / 2 → data k = Double.finite (val k)) :
    (∃ M, AsciiIO_read (AsciiIO_write shown ⟨n, n, data⟩) fresh = AsciiRead.done M
        ∧ M.nlin = n ∧ M.ncol = n
        ∧ (∀ k, k < n * (n + 1) / 2 → M.data k = Double.finite (shown (val k)))
        ∧ (∀ i j, i ≤ j → j < n →
            M.data (packed_index i j) = Double.finite (shown (val (packed_index i j))))
        ∧ ((∀ k, k < n * (n + 1) / 2 → shown (val k) = val k) →
            (∀ k, k < n * (n + 1) / 2 → M.data k = data k)
              ∧ ∀ i j, i ≤ j → j < n → M.data (packed_index i j) = data (packed_index i j))
        ∧ (∀ k, n * (n + 1) / 2 ≤ k → M.data k = fresh k))
      ∧ (AsciiIO_write shown ⟨n, n, data⟩).length = n
      ∧ (∀ i, i < n → ((AsciiIO_write shown ⟨n, n, data⟩).getD i []).length = n - i)
      ∧ count_extractions ((AsciiIO_write shown ⟨n, n, data⟩).headD []) - 1 = n
      ∧ ((AsciiIO_write shown ⟨n, n, data⟩).filter (fun line => decide (line ≠ []))).length = n
      ∧ (∀ i j, i ≤ j → j < n → packed_index i j < n * (n + 1) / 2)
      ∧ (∀ k, k < n * (n + 1) / 2 →
          ∃ i j, (i ≤ j ∧ j < n ∧ packed_index i j = k)
            ∧ ∀ i' j', i' ≤ j' → j' < n → packed_index i' j' = k → i' = i ∧ j' = j) := by
  have hlen : (AsciiIO_write shown ⟨n, n, data⟩).length = n := by
    unfold AsciiIO_write
    rw [write_symmetric_square, List.length_map, List.length_range]
  have hline : ∀ i, i < n → (AsciiIO_write shown ⟨n, n, data⟩).getD i []
      = (List.range' i (n - i)).map (fun j => Field.num (shown (val (packed_index i j)))) :=
    fun i hi => write_symmetric_line shown n val data hfin i hi
  have hncol : count_extractions ((AsciiIO_write shown ⟨n, n, data⟩).headD []) - 1 = n := by
    rw [count_extractions_eq, Nat.add_sub_cancel]
    cases n with
    | zero => rfl
    | succ m =>
      have h0 := hline 0 (Nat.succ_pos m)
      have e : (AsciiIO_write shown ⟨m + 1, m + 1, data⟩).headD []
          = (AsciiIO_write shown ⟨m + 1, m + 1, data⟩).getD 0 [] := by
        cases AsciiIO_write shown ⟨m + 1, m + 1, data⟩ <;> rfl
      rw [e, h0, List.length_map, List.length_range']
      rfl
  have hnlin : ((AsciiIO_write shown ⟨n, n, data⟩).filter
      (fun line => decide (line ≠ []))).length = n := by
    have e : (AsciiIO_write shown ⟨n, n, data⟩).filter (fun line => decide (line ≠ []))
        = AsciiIO_write shown ⟨n, n, data⟩ := by
      unfold AsciiIO_write write_symmetric
      rw [List.filter_filter]
      simp only [Bool.and_self]
    rw [e, hlen]
  have hsurj : ∀ k, k < n * (n + 1) / 2 → ∃ i j, i ≤ j ∧ j < n ∧ packed_index i j = k :=
    packed_index_surj n
  refine ⟨?_, hlen, ?_, hncol, hnlin, fun i j => packed_index_lt n i j, ?_⟩
  · obtain ⟨d', h1, -, h3, h4⟩ := read_symmetric_rows_written
      (AsciiIO_write shown ⟨n, n, data⟩) n (fun k => shown (val k)) hline n 0 (by omega) fresh
    have hcell : ∀ k, k < n * (n + 1) / 2 → d' k = Double.finite (shown (val k)) := by
      intro k hk
      obtain ⟨i, j, a, b, rfl⟩ := hsurj k hk
      exact h3 i j (Nat.zero_le _) (by omega) a b
    refine ⟨⟨n, n, d'⟩, ?_, rfl, rfl, hcell, ?_, ?_, h4⟩
    · unfold AsciiIO_read
      simp only [hncol, hnlin]
      unfold read_symmetric
      rw [List.range_eq_range', h1]
    · intro i j a b
      exact h3 i j (Nat.zero_le _) (by omega) a b
    · intro hexact
      have hsame : ∀ k, k < n * (n + 1) / 2 → d' k = data k := by
        intro k hk
        rw [hcell k hk, hfin k hk, hexact k hk]
      exact ⟨hsame, fun i j a b => hsame _ (packed_index_lt n i j a b)⟩
  · intro i hi
    rw [hline i hi, List.length_map, List.length_range']
  · intro k hk
    obtain ⟨i, j, a, b, e⟩ := hsurj k hk
    refine ⟨i, j, ⟨a, b, e⟩, ?_⟩
    intro i' j' a' _ e'
    exact packed_index_inj i' j' i j a' a (e'.trans e.symm)

/-- C22 (witness): the matrix of dimension 3 with the packed entries 1 to 6, written by
a formatting that writes its entries exactly. -/
theorem symmetric_text_round_trip_sample :
    (∀ k : Nat, k < 3 * (3 + 1) / 2 → sampleSymLinOp.data k = Double.finite ((k : ℚ) + 1))
      ∧ ((∃ M, AsciiIO_read (AsciiIO_write (fun x => x) sampleSymLinOp) (fun _ => Double.nan)
            = AsciiRead.done M
          ∧ M.nlin = 3 ∧ M.ncol = 3
          ∧ (∀ k : Nat, k < 3 * (3 + 1) / 2 → M.data k = Double.finite ((k : ℚ) + 1))
          ∧ (∀ i j, i ≤ j → j < 3 →
              M.data (packed_index i j) = Double.finite (((packed_index i j : Nat) : ℚ) + 1))
          ∧ ((∀ k : Nat, k < 3 * (3 + 1) / 2 → (k : ℚ) + 1 = (k : ℚ) + 1) →
              (∀ k, k < 3 * (3 + 1) / 2 → M.data k = sampleSymLinOp.data k)
                ∧ ∀ i j, i ≤ j → j < 3 →
                    M.data (packed_index i j) = sampleSymLinOp.data (packed_index i j))
          ∧ (∀ k, 3 * (3 + 1) / 2 ≤ k → M.data k = Double.nan))
        ∧ (AsciiIO_write (fun x => x) sampleSymLinOp).length = 3
        ∧ (∀ i, i < 3 → ((AsciiIO_write (fun x => x) sampleSymLinOp).getD i []).length = 3 - i)
        ∧ count_extractions ((AsciiIO_write (fun x => x) sampleSymLinOp).headD []) - 1 = 3
        ∧ ((AsciiIO_write (fun x => x) sampleSymLinOp).filter
            (fun line => decide (line ≠ []))).length = 3
        ∧ (∀ i j, i ≤ j → j < 3 → packed_index i j < 3 * (3 + 1) / 2)
        ∧ (∀ k, k < 3 * (3 + 1) / 2 →
            ∃ i j, (i ≤ j ∧ j < 3 ∧ packed_index i j = k)
              ∧ ∀ i' j', i' ≤ j' → j' < 3 → packed_index i' j' = k → i' = i ∧ j' = j)) :=
  ⟨fun _ _ => rfl,
    symmetric_text_round_trip 3 (fun x => x) (fun k => (k : ℚ) + 1) sampleSymLinOp.data
      (fun _ => Double.nan) (fun _ _ => rfl)⟩

end OpenMEEG
